import Mathlib

/-!
libecc big-number core: logical/shift layer, Montgomery (REDC1) layer, key
encoding layer and the copying "hash"

A shallow embedding of `src/nn/nn_logical.c`, `src/nn/nn_mul_redc1.c`,
`src/sig/ec_key.c` and `src/hash/copy.c`, with the word configuration of
`src/words/words_32.h` for the routines that count leading zeros.

* machine words (`word_t`) are natural numbers below `2 ^ WORD_BITS`;
* a big number (`nn`) is a record holding the word array `val`, the active
  word length `wlen` and the validity tag `magic`;
* a C routine that can abort or return `-1` is a function into `Option`
  (`none` is the failure);
* the pointer test `out == in` of the aliasing-aware routines is an explicit
  boolean argument; when it is `true` the output object *is* the input object
  and every read of `in->val` sees the words already written to `out->val`.
-/

namespace Libecc

/-! ## Words -/

/-- Number of bits of a machine word: the 64-bit configuration, the one the
constants of `wclz` are written for. -/
def WORD_BITS : Nat := 64

/-- Modelled from the spec: the capacity `NN_MAX_WORD_LEN` of a big number is a
build constant, here the parameter `N`; `NN_MAX_BIT_LEN` is the global maximum
bit length it is derived from (`nn_config.h` is not part of the sources). -/
def NN_MAX_BIT_LEN (N : Nat) : Nat := WORD_BITS * N

/-- Modelled from the spec: `BIT_LEN_WORDS(nbits)`, the number of words needed
to hold `nbits` bits (macro of the missing `words.h`). -/
def BIT_LEN_WORDS (nbits : Nat) : Nat := (nbits + WORD_BITS - 1) / WORD_BITS

/-- Modelled from the spec: `BYTE_LEN_WORDS(nbytes)`, the number of words
needed to hold `nbytes` bytes (macro of the missing `words.h`). -/
def BYTE_LEN_WORDS (nbytes : Nat) : Nat := (nbytes + WORD_BITS / 8 - 1) / (WORD_BITS / 8)

/-- Modelled from the spec: `WLSHIFT(w, c)`, left shift of a word inside the
word, a shift by a full word (or more) contributing 0 (macro of the missing
`words.h`). -/
def WLSHIFT (w c : Nat) : Nat := if WORD_BITS ≤ c then 0 else (w <<< c) % 2 ^ WORD_BITS

/-- Modelled from the spec: `WRSHIFT(w, c)`, right shift of a word, a shift by
a full word (or more) contributing 0 (macro of the missing `words.h`). -/
def WRSHIFT (w c : Nat) : Nat := if WORD_BITS ≤ c then 0 else w >>> c

/-- Modelled from the spec: `WORD_MUL(high, low, a, b)`, the double-word product
of two words, returned as `(high, low)` (macro of the missing `words.h`). -/
def WORD_MUL (a b : Nat) : Nat × Nat := ((a * b) / 2 ^ WORD_BITS, (a * b) % 2 ^ WORD_BITS)

/-- Casting an integer expression to `u8`. -/
def u8 (x : Nat) : Nat := x % 256

/-- `for (i = i0; i < i0 + n; i++) s = body i s`. -/
def forUp {σ : Type} (body : Nat → σ → σ) : Nat → Nat → σ → σ
  | 0, _, s => s
  | n + 1, i, s => forUp body n (i + 1) (body i s)

/-- `for (i = n - 1; i >= 0; i--) s = body i s`. -/
def forDown {σ : Type} (body : Nat → σ → σ) : Nat → σ → σ
  | 0, s => s
  | k + 1, s => forDown body k (body k s)

/-! ## Big numbers -/

/-- The big number object `nn`: word array, active length and validity tag. -/
structure nn where
  val : List Nat
  wlen : Nat
  magic : Nat
deriving DecidableEq, Repr

/-- Modelled from the spec: the validity tag of an initialized big number
(`nn.h` is not part of the sources; any non-zero constant does, a small one
keeps the evaluation of the tag test cheap). -/
def NN_MAGIC : Nat := 0xb4

/-- Modelled from the spec: `nn_check_initialized`, the validity tag is set and
`wlen` does not exceed the capacity (`nn.c` is not part of the sources). -/
def nn_check_initialized (N : Nat) (A : nn) : Bool :=
  decide (A.magic = NN_MAGIC) && decide (A.wlen ≤ N)

/-- Modelled from the spec: `nn_init(A, len)`, zero-valued big number sized for
`len` bytes; fails when `len` exceeds the byte capacity (`nn.c` is not part of
the sources). -/
def nn_init (N : Nat) (len : Nat) : Option nn :=
  if len ≤ N * (WORD_BITS / 8) then
    some { val := List.replicate N 0, wlen := u8 (BYTE_LEN_WORDS len), magic := NN_MAGIC }
  else none

/-- Modelled from the spec: `nn_uninit(A)`, the wipe: words and length cleared,
tag cleared (`nn.c` is not part of the sources). -/
def nn_uninit (N : Nat) (_A : nn) : nn :=
  { val := List.replicate N 0, wlen := 0, magic := 0 }

/-- Modelled from the spec: `nn_set_wlen(A, new_wlen)`, sets the active length
and clears the words above it; fails on an uninitialized `A` or a length above
the capacity (`nn.c` is not part of the sources). -/
def nn_set_wlen (N : Nat) (A : nn) (new_wlen : Nat) : Option nn :=
  if nn_check_initialized N A && decide (new_wlen ≤ N) then
    some { A with val := A.val.take new_wlen ++ List.replicate (A.val.length - new_wlen) 0,
                  wlen := new_wlen }
  else none

/-- Modelled from the spec: `nn_copy(dst, src)`, `dst` becomes a copy of the
initialized `src` (`nn.c` is not part of the sources). -/
def nn_copy (N : Nat) (src : nn) : Option nn :=
  if nn_check_initialized N src then some src else none

/-- The value held by the first `n` words of a word array. -/
def nn_words_val (v : List Nat) : Nat → Nat
  | 0 => 0
  | n + 1 => nn_words_val v n + v.getD n 0 * 2 ^ (WORD_BITS * n)

/-- The value `val(A)` of a big number: that of its `wlen` active words. -/
def nn_val (A : nn) : Nat := nn_words_val A.val A.wlen

/-- An initialized big number as the routines expect it: tag set, `wlen`
within the capacity, an array of `NN_MAX_WORD_LEN` words each of which fits a
machine word, and every word at an index `>= wlen` zero. -/
def nn_initialized (N : Nat) (A : nn) : Prop :=
  nn_check_initialized N A = true ∧ A.val.length = N ∧ (∀ w ∈ A.val, w < 2 ^ WORD_BITS) ∧
    (∀ w ∈ A.val.drop A.wlen, w = 0)

instance (N : Nat) (A : nn) : Decidable (nn_initialized N A) := by
  unfold nn_initialized; infer_instance

/-! ## `nn_logical.c` -/

/-- Count leading zeros of a word (`wclz`), after Hacker's Delight 5-3. -/
def wclz (A : Nat) : Nat :=
  if A = 0 then 64 else
  let c := 0
  let (c, A) := if A ≤ 0x00000000FFFFFFFF then (c + 32, (A <<< 32) % 2 ^ WORD_BITS) else (c, A)
  let (c, A) := if A ≤ 0x0000FFFFFFFFFFFF then (c + 16, (A <<< 16) % 2 ^ WORD_BITS) else (c, A)
  let (c, A) := if A ≤ 0x00FFFFFFFFFFFFFF then (c + 8, (A <<< 8) % 2 ^ WORD_BITS) else (c, A)
  let (c, A) := if A ≤ 0x0FFFFFFFFFFFFFFF then (c + 4, (A <<< 4) % 2 ^ WORD_BITS) else (c, A)
  let (c, A) := if A ≤ 0x3FFFFFFFFFFFFFFF then (c + 2, (A <<< 2) % 2 ^ WORD_BITS) else (c, A)
  let c := if A ≤ 0x7FFFFFFFFFFFFFFF then c + 1 else c
  c

/-- The scan of `nn_bitlen`: from word `i - 1` downwards, the first non-zero
word decides. -/
def nn_bitlen_loop (v : List Nat) : Nat → Nat
  | 0 => 0
  | i + 1 =>
    if v.getD i 0 ≠ 0 then (i + 1) * WORD_BITS - wclz (v.getD i 0)
    else nn_bitlen_loop v i

/-- Compute the bit length of a big number (`nn_bitlen`). -/
def nn_bitlen (N : Nat) (inp : nn) : Option Nat :=
  if nn_check_initialized N inp then some (nn_bitlen_loop inp.val inp.wlen) else none

/-- One output word of the left shifts: `hipart | lopart` at position `opos`,
`src` being the array `in->val` as this iteration sees it. -/
def lshift_word (src : List Nat) (iwlen : Nat) (dec : Int) (hshift lshift : Nat)
    (opos : Int) : Nat :=
  let lopart :=
    let ipos : Int := opos - dec - 1
    if 0 ≤ ipos ∧ ipos < iwlen then WRSHIFT (src.getD ipos.toNat 0) lshift else 0
  let hipart :=
    let ipos : Int := opos - dec
    if 0 ≤ ipos ∧ ipos < iwlen then WLSHIFT (src.getD ipos.toNat 0) hshift else 0
  hipart ||| lopart

/-- The loop of the left shifts, `opos` running from `owlen - 1` down to 0. -/
def lshift_loop (aliased : Bool) (inv : List Nat) (iwlen : Nat) (dec : Int)
    (hshift lshift owlen : Nat) (outv : List Nat) : List Nat :=
  forDown (fun opos o =>
    o.set opos (lshift_word (if aliased then o else inv) iwlen dec hshift lshift opos)) owlen outv

/-- One output word of the right shifts: `hipart | lopart` at position `opos`. -/
def rshift_word (src : List Nat) (iwlen : Nat) (dec : Int) (lshift hshift : Nat)
    (opos : Int) : Nat :=
  let lopart :=
    let ipos : Int := opos + dec
    if 0 ≤ ipos ∧ ipos < iwlen then WRSHIFT (src.getD ipos.toNat 0) lshift else 0
  let hipart :=
    let ipos : Int := opos + dec + 1
    if 0 ≤ ipos ∧ ipos < iwlen then WLSHIFT (src.getD ipos.toNat 0) hshift else 0
  hipart ||| lopart

/-- The loop of the right shifts, `opos` running from 0 up to `owlen - 1`. -/
def rshift_loop (aliased : Bool) (inv : List Nat) (iwlen : Nat) (dec : Int)
    (lshift hshift owlen : Nat) (outv : List Nat) : List Nat :=
  forUp (fun opos o =>
    o.set opos (rshift_word (if aliased then o else inv) iwlen dec lshift hshift opos)) owlen 0 outv

/-- Left shift inside the window `out->wlen` (`nn_lshift_fixedlen`); `aliased`
says that `out` and `in` are the same object. -/
def nn_lshift_fixedlen (N : Nat) (aliased : Bool) (out inp : nn) (cnt : Nat) : Option nn :=
  let out := if aliased then inp else out
  let owlen := out.wlen
  let iwlen := inp.wlen
  if nn_check_initialized N inp = false then none
  else if nn_check_initialized N out = false then none
  else
    let dec : Int := cnt / WORD_BITS
    let hshift := cnt % WORD_BITS
    let lshift := WORD_BITS - hshift
    some { out with val := lshift_loop aliased inp.val iwlen dec hshift lshift owlen out.val }

/-- Length-adapting left shift (`nn_lshift`); `aliased` says that `out` and
`in` are the same object, otherwise `out` is initialized by the routine. -/
def nn_lshift (N : Nat) (aliased : Bool) (_out inp : nn) (cnt : Nat) : Option nn :=
  let iwlen := inp.wlen
  if nn_check_initialized N inp = false then none
  else
    (if aliased then some inp else nn_init N 0).bind fun out =>
    (nn_bitlen N inp).bind fun bl =>
    let owlen := u8 (min (BIT_LEN_WORDS (cnt + bl)) (BIT_LEN_WORDS (NN_MAX_BIT_LEN N)))
    let out := { out with wlen := owlen }
    let dec : Int := cnt / WORD_BITS
    let hshift := cnt % WORD_BITS
    let lshift := WORD_BITS - hshift
    some { out with val := lshift_loop aliased inp.val iwlen dec hshift lshift owlen out.val }

/-- Right shift inside the window `out->wlen` (`nn_rshift_fixedlen`). -/
def nn_rshift_fixedlen (N : Nat) (aliased : Bool) (out inp : nn) (cnt : Nat) : Option nn :=
  let out := if aliased then inp else out
  let owlen := out.wlen
  let iwlen := inp.wlen
  if nn_check_initialized N inp = false then none
  else if nn_check_initialized N out = false then none
  else
    let dec : Int := cnt / WORD_BITS
    let lshift := cnt % WORD_BITS
    let hshift := WORD_BITS - lshift
    some { out with val := rshift_loop aliased inp.val iwlen dec lshift hshift owlen out.val }

/-- Length-adapting right shift (`nn_rshift`). -/
def nn_rshift (N : Nat) (aliased : Bool) (_out inp : nn) (cnt : Nat) : Option nn :=
  let iwlen := inp.wlen
  if nn_check_initialized N inp = false then none
  else
    (if aliased then some inp else nn_init N 0).bind fun out =>
    let dec : Int := cnt / WORD_BITS
    let lshift := cnt % WORD_BITS
    let hshift := WORD_BITS - lshift
    (nn_bitlen N inp).bind fun bl =>
    let owlen := if cnt > bl then 0 else u8 (BIT_LEN_WORDS (bl - cnt))
    let out := { out with wlen := owlen }
    let v := rshift_loop aliased inp.val iwlen dec lshift hshift owlen out.val
    some { out with val := forUp (fun opos o => o.set opos 0) (N - owlen) owlen v }

/-- The loop shared by `nn_xor`, `nn_or` and `nn_and`: `A->val[i] = B->val[i] op
C->val[i]` for `i < wlen`; `aB` (resp. `aC`) says that `A` is the object `B`
(resp. `C`), whose words are then read from the array being written. -/
def bitop_loop (op : Nat → Nat → Nat) (aB aC : Bool) (B C : List Nat) (wlen : Nat)
    (A : List Nat) : List Nat :=
  forUp (fun i a =>
    a.set i (op ((if aB then a else B).getD i 0) ((if aC then a else C).getD i 0))) wlen 0 A

/-- The common shape of `nn_xor`, `nn_or` and `nn_and`, which differ by the word
operator only. -/
def nn_bitop (op : Nat → Nat → Nat) (N : Nat) (aB aC : Bool) (_A B C : nn) : Option nn :=
  if nn_check_initialized N B = false then none
  else if nn_check_initialized N C = false then none
  else
    (if aB then some B else if aC then some C else nn_init N 0).bind fun A =>
    let wlen := if C.wlen < B.wlen then B.wlen else C.wlen
    some { A with wlen := wlen, val := bitop_loop op aB aC B.val C.val wlen A.val }

/-- Bitwise XOR (`nn_xor`): `A = B ^ C`. -/
def nn_xor (N : Nat) (aB aC : Bool) (A B C : nn) : Option nn :=
  nn_bitop (fun x y => x ^^^ y) N aB aC A B C

/-- Bitwise OR (`nn_or`): `A = B | C`. -/
def nn_or (N : Nat) (aB aC : Bool) (A B C : nn) : Option nn :=
  nn_bitop (fun x y => x ||| y) N aB aC A B C

/-- Bitwise AND (`nn_and`): `A = B & C`. -/
def nn_and (N : Nat) (aB aC : Bool) (A B C : nn) : Option nn :=
  nn_bitop (fun x y => x &&& y) N aB aC A B C

/-- Bitwise NOT (`nn_not`): `A = ~B`, on the `B->wlen` active words. -/
def nn_not (N : Nat) (aliased : Bool) (_A B : nn) : Option nn :=
  if nn_check_initialized N B = false then none
  else
    (if aliased then some B else nn_init N 0).bind fun A =>
    let wlen := B.wlen
    some { A with wlen := wlen,
                  val := forUp (fun i a =>
                    a.set i (2 ^ WORD_BITS - 1 - (if aliased then a else B.val).getD i 0)) wlen 0 A.val }

/-- The masking of the top word that ends both rotations. -/
def rot_mask (out : nn) (bitlen : Nat) : nn :=
  if bitlen % WORD_BITS ≠ 0 ∧ out.wlen > 0 then
    let mask := (1 <<< (bitlen % WORD_BITS)) % 2 ^ WORD_BITS - 1
    { out with val := out.val.set (out.wlen - 1) (out.val.getD (out.wlen - 1) 0 &&& mask) }
  else out

/-- Right rotation on `bitlen` bits (`nn_rrot`): `(x >> cnt) ^ (x << (bitlen - cnt))`. -/
def nn_rrot (N : Nat) (aliased : Bool) (out inp : nn) (cnt bitlen : Nat) : Option nn :=
  let owlen := u8 (BIT_LEN_WORDS bitlen)
  if ¬ bitlen ≤ NN_MAX_BIT_LEN N then none
  else if ¬ cnt < bitlen then none
  else if nn_check_initialized N inp = false then none
  else
    (nn_init N 0).bind fun tmp =>
    (nn_lshift N false tmp inp (bitlen - cnt)).bind fun tmp =>
    (nn_set_wlen N tmp owlen).bind fun tmp =>
    (nn_rshift N aliased out inp cnt).bind fun out =>
    (nn_set_wlen N out owlen).bind fun out =>
    (nn_xor N true false out out tmp).bind fun out =>
    some (rot_mask out bitlen)

/-- Left rotation on `bitlen` bits (`nn_lrot`): `(x << cnt) ^ (x >> (bitlen - cnt))`. -/
def nn_lrot (N : Nat) (aliased : Bool) (out inp : nn) (cnt bitlen : Nat) : Option nn :=
  let owlen := u8 (BIT_LEN_WORDS bitlen)
  if ¬ bitlen ≤ NN_MAX_BIT_LEN N then none
  else if ¬ cnt < bitlen then none
  else if nn_check_initialized N inp = false then none
  else
    (nn_init N 0).bind fun tmp =>
    (nn_lshift N false tmp inp cnt).bind fun tmp =>
    (nn_set_wlen N tmp owlen).bind fun tmp =>
    (nn_rshift N aliased out inp (bitlen - cnt)).bind fun out =>
    (nn_set_wlen N out owlen).bind fun out =>
    (nn_xor N true false out out tmp).bind fun out =>
    some (rot_mask out bitlen)

/-! ## Helpers of the big-number core used by `nn_mul_redc1.c`

`nn.c`, `nn_add.c`, `nn_mul.c`, `nn_div.c` and `nn_modinv.c` are not part of the
sources; the routines below are modelled on the values they are specified to
compute. -/

/-- The `n` low words of the natural number `v`, least significant first. -/
def nn_words_of_nat (v n : Nat) : List Nat :=
  (List.range n).map fun i => (v / 2 ^ (WORD_BITS * i)) % 2 ^ WORD_BITS

/-- The initialized big number of capacity `N` and active length `wlen` holding `v`. -/
def nn_of_nat (N wlen v : Nat) : nn :=
  { val := nn_words_of_nat v N, wlen := wlen, magic := NN_MAGIC }

/-- Modelled from the spec: `nn_one(A)`, `A` is (re)initialized to the value 1 on
one word (`nn.c` is not part of the sources). -/
def nn_one (N : Nat) : Option nn :=
  (nn_init N 0).map fun A => { A with val := A.val.set 0 1, wlen := 1 }

/-- Modelled from the spec: `nn_cmp(A, B, &cmp)`, comparison of two initialized
big numbers on the longer of the two active lengths; `cmp` is -1, 0 or 1
(`nn.c` is not part of the sources). -/
def nn_cmp (N : Nat) (A B : nn) : Option Int :=
  if nn_check_initialized N A && nn_check_initialized N B then
    let cmp_len := if A.wlen ≥ B.wlen then A.wlen else B.wlen
    let a := nn_words_val A.val cmp_len
    let b := nn_words_val B.val cmp_len
    some (if a < b then -1 else if a = b then 0 else 1)
  else none

/-- Modelled from the spec: `nn_cnd_sub(cnd, out, out, in2)`, in place on its
first operand: `out -= in2` when `cnd` holds, on the longer of the two active
lengths, which becomes the length of `out`; a final borrow is a failure
(`nn_add.c` is not part of the sources). -/
def nn_cnd_sub (N : Nat) (cnd : Bool) (out in2 : nn) : Option nn :=
  if nn_check_initialized N out && nn_check_initialized N in2 then
    let loop_wlen := if out.wlen ≥ in2.wlen then out.wlen else in2.wlen
    let a := nn_words_val out.val loop_wlen
    let b := if cnd then nn_words_val in2.val loop_wlen else 0
    if a < b then none
    else some { out with val := nn_words_of_nat (a - b) loop_wlen ++ out.val.drop loop_wlen,
                         wlen := loop_wlen }
  else none

/-- Modelled from the spec: `nn_sub(A, B, C)`, exact subtraction `A = B - C` of
initialized big numbers with `B >= C`, on the longer of the two active lengths
(`nn_add.c` is not part of the sources). -/
def nn_sub (N : Nat) (B C : nn) : Option nn :=
  if nn_check_initialized N B && nn_check_initialized N C then
    if nn_val B < nn_val C then none
    else some (nn_of_nat N (if B.wlen ≥ C.wlen then B.wlen else C.wlen) (nn_val B - nn_val C))
  else none

/-- Modelled from the spec: `nn_sqr(out, in)`, the square of an initialized big
number on twice its active length; fails when that exceeds the capacity
(`nn_mul.c` is not part of the sources). -/
def nn_sqr (N : Nat) (inp : nn) : Option nn :=
  if nn_check_initialized N inp && decide (inp.wlen + inp.wlen ≤ N) then
    some (nn_of_nat N (inp.wlen + inp.wlen) (nn_val inp * nn_val inp))
  else none

/-- Modelled from the spec: `nn_mod(r, a, b)`, the remainder of `a` modulo a
non-zero `b`, on the active length of `b` (`nn_div.c` is not part of the
sources). -/
def nn_mod (N : Nat) (a b : nn) : Option nn :=
  if nn_check_initialized N a && nn_check_initialized N b && decide (nn_val b ≠ 0) then
    some (nn_of_nat N b.wlen (nn_val a % nn_val b))
  else none

/-- The inverse of an odd `x` modulo `2 ^ k`, one bit at a time. -/
def modinv_2exp (x : Nat) : Nat → Nat
  | 0 => 0
  | k + 1 =>
    let y := modinv_2exp x k
    if (x * y) % 2 ^ (k + 1) = 1 % 2 ^ (k + 1) then y else y + 2 ^ k

/-- Modelled from the spec: `nn_modinv_2exp(out, in, exp, &isodd)`, the
modular-inverse-by-powers-of-two helper: for an odd `in`, `out` is its inverse
modulo `2 ^ exp` and `isodd` is set; for an even `in`, `out` is 0 and `isodd` is
cleared (`nn_modinv.c` is not part of the sources). -/
def nn_modinv_2exp (N : Nat) (inp : nn) (exp : Nat) : Option (nn × Bool) :=
  if nn_check_initialized N inp && decide (BIT_LEN_WORDS exp ≤ N) then
    if nn_val inp % 2 = 1 then some (nn_of_nat N (BIT_LEN_WORDS exp) (modinv_2exp (nn_val inp) exp), true)
    else some (nn_of_nat N 0 0, false)
  else none

/-! ## `nn_mul_redc1.c` -/

/-- Runs the statements of a routine in sequence, each one of the shape
`ret = f(...); EG(ret, err);`: a failing statement leaves the state as it is
and jumps to the `err:` label. The result is the state reached and whether
the end of the list was reached (`ret == 0`). -/
def runSteps {σ : Type} : List (σ → Option σ) → σ → σ × Bool
  | [], s => (s, true)
  | f :: fs, s =>
    match f s with
    | some s1 => runSteps fs s1
    | none => (s, false)

/-- An object that was never initialized (or has been wiped). -/
def nn_none : nn := { val := [], wlen := 0, magic := 0 }

/-- Casting an integer expression to `bitcnt_t` (`u16`). -/
def u16 (x : Nat) : Nat := x % 65536

/-- The caller's outputs and the locals of `nn_compute_redc1_coefs`. -/
structure redc1_coefs_state where
  r : nn
  r_square : nn
  mpinv : Nat
  p : nn
  tmp_nn1 : nn
  tmp_nn2 : nn
  _mpinv : Nat
  isodd : Bool
  p_rounded_bitlen : Nat
deriving DecidableEq, Repr

/-- Compute the Montgomery coefficients `r`, `r_square` and `mpinv` of an odd
`p_in` (`nn_compute_redc1_coefs`). The arguments `r`, `r_square`, `mpinv` are
the caller's objects on entry; the result is the state on exit and whether the
routine returned 0. -/
def nn_compute_redc1_coefs (N : Nat) (r r_square p_in : nn) (mpinv : Nat) :
    redc1_coefs_state × Bool :=
  let s0 : redc1_coefs_state :=
    { r := r, r_square := r_square, mpinv := mpinv, p := nn_none, tmp_nn1 := nn_none,
      tmp_nn2 := nn_none, _mpinv := 0, isodd := false, p_rounded_bitlen := 0 }
  let res := runSteps [
    fun s => if nn_check_initialized N p_in then some s else none,
    fun s => (nn_init N 0).map fun x => { s with p := x },
    fun s => (nn_copy N p_in).map fun x => { s with p := x },
    fun s => if s.p.wlen < 2 then (nn_set_wlen N s.p 2).map fun x => { s with p := x } else some s,
    fun s => (nn_init N 0).map fun x => { s with r := x },
    fun s => (nn_init N 0).map fun x => { s with r_square := x },
    fun s => (nn_init N 0).map fun x => { s with tmp_nn1 := x },
    fun s => (nn_init N 0).map fun x => { s with tmp_nn2 := x },
    fun s => some { s with p_rounded_bitlen := u16 (WORD_BITS * s.p.wlen) },
    fun s => (nn_set_wlen N s.tmp_nn1 2).map fun x => { s with tmp_nn1 := x },
    fun s => some { s with tmp_nn1 := { s.tmp_nn1 with val := s.tmp_nn1.val.set 1 1 } },
    fun s => (nn_copy N s.tmp_nn1).map fun x => { s with tmp_nn2 := x },
    fun s => (nn_modinv_2exp N s.p WORD_BITS).map fun x => { s with tmp_nn1 := x.1, isodd := x.2 },
    fun s => (nn_sub N s.tmp_nn2 s.tmp_nn1).map fun x => { s with tmp_nn1 := x },
    fun s => some { s with _mpinv := s.tmp_nn1.val.getD 0 0 },
    fun s => (nn_one N).map fun x => { s with r := x },
    fun s => (nn_lshift N true s.r s.r s.p_rounded_bitlen).map fun x => { s with r := x },
    fun s => (nn_mod N s.r s.p).map fun x => { s with r := x },
    fun s => if ¬ (NN_MAX_BIT_LEN N < 2 * s.p_rounded_bitlen) then some s else none,
    fun s => (nn_sqr N s.r).map fun x => { s with r_square := x },
    fun s => (nn_mod N s.r_square s.p).map fun x => { s with r_square := x },
    fun s => some { s with mpinv := s._mpinv } ] s0
  ({ res.1 with p := nn_uninit N res.1.p, tmp_nn1 := nn_uninit N res.1.tmp_nn1,
                tmp_nn2 := nn_uninit N res.1.tmp_nn2 }, res.2)

/-- Body of `for (j = 0; j < len_mul; j++)` in a round of `_nn_mul_redc1`, on
the state `(out->val, carry)`: `out[j] += a[i] * b[j] + carry`; `ai` is
`a->val[i]`. -/
def redc1_mul_step (ai : Nat) (b : List Nat) (j : Nat) (s : List Nat × Nat) : List Nat × Nat :=
  let hl := WORD_MUL ai (b.getD j 0)
  let prod_low := (hl.2 + s.2) % 2 ^ WORD_BITS
  let prod_high := (hl.1 + (if prod_low < s.2 then 1 else 0)) % 2 ^ WORD_BITS
  let out := s.1.set j ((s.1.getD j 0 + prod_low) % 2 ^ WORD_BITS)
  (out, (prod_high + (if out.getD j 0 < prod_low then 1 else 0)) % 2 ^ WORD_BITS)

/-- Body of `for (; j < len; j++)`: the carry is propagated through `out`. -/
def redc1_carry_step (j : Nat) (s : List Nat × Nat) : List Nat × Nat :=
  let out := s.1.set j ((s.1.getD j 0 + s.2) % 2 ^ WORD_BITS)
  (out, if out.getD j 0 < s.2 then 1 else 0)

/-- Body of `for (j = 1; j < len; j++)`: `out[j - 1] = out[j] + m * p[j] + carry`. -/
def redc1_red_step (m : Nat) (p : List Nat) (j : Nat) (s : List Nat × Nat) : List Nat × Nat :=
  let hl := WORD_MUL m (p.getD j 0)
  let prod_low := (hl.2 + s.2) % 2 ^ WORD_BITS
  let prod_high := (hl.1 + (if prod_low < s.2 then 1 else 0)) % 2 ^ WORD_BITS
  let out := s.1.set (j - 1) ((prod_low + s.1.getD j 0) % 2 ^ WORD_BITS)
  (out, (prod_high + (if out.getD (j - 1) 0 < prod_low then 1 else 0)) % 2 ^ WORD_BITS)

/-- One round of the outer loop of the CIOS multiplication: `out += a[i] * b`,
then `out = (out + m * p) / 2 ^ WORD_BITS` with `m = out[0] * mpinv`. The list
`out` is the array `out->val`: the round follows the C code as long as every
index it uses is below the length of the list, that is when `len_mul` is below
`NN_MAX_WORD_LEN` or at most `len`. For `len < len_mul = NN_MAX_WORD_LEN` the
statement `out->val[j] += carry` of the C code is outside the array, and the
list drops that write. -/
def redc1_round (a b p : List Nat) (len len_mul mpinv : Nat) (i : Nat) (out : List Nat) :
    List Nat :=
  let s := forUp (redc1_mul_step (a.getD i 0) b) len_mul 0 (out, 0)
  let s := forUp redc1_carry_step (len - len_mul) len_mul s
  let j := len_mul + (len - len_mul)
  let out := s.1.set j ((s.1.getD j 0 + s.2) % 2 ^ WORD_BITS)
  let acc := if out.getD j 0 < s.2 then 1 else 0
  let m := (out.getD 0 0 * mpinv) % 2 ^ WORD_BITS
  let hl := WORD_MUL m (p.getD 0 0)
  let prod_low := (hl.2 + out.getD 0 0) % 2 ^ WORD_BITS
  let carry := (hl.1 + (if prod_low < out.getD 0 0 then 1 else 0)) % 2 ^ WORD_BITS
  let s := forUp (redc1_red_step m p) (len - 1) 1 (out, carry)
  let j := 1 + (len - 1)
  let out := s.1.set (j - 1) ((s.2 + s.1.getD j 0) % 2 ^ WORD_BITS)
  let carry := if out.getD (j - 1) 0 < out.getD j 0 then 1 else 0
  out.set j ((acc + carry) % 2 ^ WORD_BITS)

/-- The end of `_nn_mul_redc1`: one conditional subtraction of `p` when
`out >= p`, the check that the result is below `p`, and the restoration of the
length of `out`. -/
def redc1_final_sub (N : Nat) (out p : nn) (old_wlen : Nat) : nn × Bool :=
  match nn_cmp N out p with
  | none => (out, false)
  | some cmp =>
    match nn_cnd_sub N (decide (cmp ≥ 0)) out p with
    | none => (out, false)
    | some out =>
      match nn_cmp N out p with
      | none => (out, false)
      | some cmp =>
        if cmp < 0 then ({ out with wlen := old_wlen }, true) else (out, false)

/-- Montgomery multiplication, CIOS algorithm (`_nn_mul_redc1`); `out` is not
one of the inputs. The `SHOULD_HAVE` input checks are not compiled in. The
result is `out` on exit and whether the routine returned 0. -/
def _nn_mul_redc1 (N : Nat) (out in1 in2 p : nn) (mpinv : Nat) : nn × Bool :=
  match nn_init N 0 with
  | none => (out, false)
  | some out =>
    let a := if in1.wlen ≤ in2.wlen then in2 else in1
    let b := if in1.wlen ≤ in2.wlen then in1 else in2
    match nn_set_wlen N out p.wlen with
    | none => (out, false)
    | some out =>
      let len := out.wlen
      let len_mul := b.wlen
      if ¬ (WORD_BITS * (out.wlen + 1) ≤ NN_MAX_BIT_LEN N) then (out, false)
      else
        let old_wlen := out.wlen
        let out := { out with wlen := u8 (out.wlen + 1) }
        let out := { out with val := forUp (fun i o => o.set i 0) out.wlen 0 out.val }
        let out := { out with
          val := forUp (redc1_round a.val b.val p.val len len_mul mpinv) len 0 out.val }
        redc1_final_sub N out p old_wlen

/-- The wrapper handling an output that is one of the inputs
(`_nn_mul_redc1_aliased`): the product is computed in a local and copied. -/
def _nn_mul_redc1_aliased (N : Nat) (out in1 in2 p : nn) (mpinv : Nat) : nn × Bool :=
  let out_cpy := nn_none
  match _nn_mul_redc1 N out_cpy in1 in2 p mpinv with
  | (_, false) => (out, false)
  | (out_cpy, true) =>
    match nn_init N out_cpy.wlen with
    | none => (out, false)
    | some out =>
      match nn_copy N out_cpy with
      | none => (out, false)
      | some out => (out, true)

/-- Montgomery multiplication, public version (`nn_mul_redc1`); `aliased` says
that `out` is one of `in1`, `in2`, `p`. -/
def nn_mul_redc1 (N : Nat) (aliased : Bool) (out in1 in2 p : nn) (mpinv : Nat) : nn × Bool :=
  if nn_check_initialized N in1 = false then (out, false)
  else if nn_check_initialized N in2 = false then (out, false)
  else if nn_check_initialized N p = false then (out, false)
  else if aliased then _nn_mul_redc1_aliased N out in1 in2 p mpinv
  else _nn_mul_redc1 N out in1 in2 p mpinv

/-- The caller's output and the locals of `nn_mul_mod`. -/
structure mul_mod_state where
  out : nn
  r : nn
  r_square : nn
  in1_tmp : nn
  in2_tmp : nn
  tmp : nn
  mpinv : Nat
  one : nn
  p : nn
deriving DecidableEq, Repr

/-- Lifts a call returning the state of its output and its return code to a
statement `ret = f(...); EG(ret, err);` storing that output with `put`. -/
def callStep {σ : Type} (res : nn × Bool) (put : nn → σ) : Option σ :=
  if res.2 then some (put res.1) else none

/-- Modular multiplication `out = in1 * in2 mod p_in` through the Montgomery
domain (`nn_mul_mod`). The result is the state on exit and whether the routine
returned 0. -/
def nn_mul_mod (N : Nat) (out in1 in2 p_in : nn) : mul_mod_state × Bool :=
  let s0 : mul_mod_state :=
    { out := out, r := nn_none, r_square := nn_none, in1_tmp := nn_none, in2_tmp := nn_none,
      tmp := nn_none, mpinv := 0, one := nn_none, p := nn_none }
  let res := runSteps [
    fun s => (nn_init N 0).map fun x => { s with p := x },
    fun s => (nn_copy N p_in).map fun x => { s with p := x },
    fun s => if s.p.wlen < 2 then (nn_set_wlen N s.p 2).map fun x => { s with p := x } else some s,
    fun s =>
      let c := nn_compute_redc1_coefs N s.r s.r_square s.p s.mpinv
      let s := { s with r := c.1.r, r_square := c.1.r_square, mpinv := c.1.mpinv }
      if c.2 then some s else none,
    fun s => some { s with r := nn_uninit N s.r },
    fun s => callStep (nn_mul_redc1 N false s.in1_tmp in1 s.r_square s.p s.mpinv)
      fun x => { s with in1_tmp := x },
    fun s => callStep (nn_mul_redc1 N false s.in2_tmp in2 s.r_square s.p s.mpinv)
      fun x => { s with in2_tmp := x },
    fun s => callStep (nn_mul_redc1 N false s.tmp s.in1_tmp s.in2_tmp s.p s.mpinv)
      fun x => { s with tmp := x },
    fun s => some { s with in1_tmp := nn_uninit N s.in1_tmp },
    fun s => some { s with in2_tmp := nn_uninit N s.in2_tmp },
    fun s => (nn_init N 0).map fun x => { s with one := x },
    fun s => (nn_one N).map fun x => { s with one := x },
    fun s => callStep (nn_mul_redc1 N false s.out s.tmp s.one s.p s.mpinv)
      fun x => { s with out := x } ] s0
  ({ res.1 with tmp := nn_uninit N res.1.tmp, one := nn_uninit N res.1.one,
                p := nn_uninit N res.1.p }, res.2)

/-! ## `nn_logical.c`: single-bit read -/

/-- The bit of index `bit` of a big number (`nn_getbit`); `none` when one of the
two assertions stops the routine, which happens before `in->val` is read. -/
def nn_getbit (N : Nat) (inp : nn) (bit : Nat) : Option Nat :=
  let widx := bit / WORD_BITS
  let bidx := u8 (bit % WORD_BITS)
  if ¬ nn_check_initialized N inp then none
  else if ¬ (bit < NN_MAX_BIT_LEN N) then none
  else
    some (u8 ((((inp.val.getD widx 0) &&& ((1 <<< bidx) % 2 ^ WORD_BITS)) >>> bidx) &&& 0x1))

/-! ## Helpers of the key layer

`nn.c`, `utils.c`, the curve layer, the curve table, the random source and the
signature layer are not part of the sources.

* a return value is the C `int`: 0 on success, anything else an error;
* a pointer argument that the code tests against `NULL` is an `Option`
  (`none` is `NULL`); a byte buffer is the list of its bytes;
* a destination object (`priv_key`, `pub_key`, `kp`) is passed in as the object
  the caller holds and handed back as the routine leaves it. -/

/-- Modelled from the spec: `nn_isone(A, &isone)`, fails on an uninitialized
`A`, otherwise tells whether the value of `A` is one (`nn.c` is not part of the
sources). -/
def nn_isone (N : Nat) (A : nn) : Option Bool :=
  if nn_check_initialized N A then some (decide (nn_val A = 1)) else none

/-- The first `n` bytes of a buffer read as a big-endian number. -/
def be_val (buf : List Nat) : Nat → Nat
  | 0 => 0
  | n + 1 => be_val buf n * 256 + buf.getD n 0 % 256

/-- The `n` low bytes of `v`, most significant first: the big-endian
fixed-width encoding, left-padded with zero bytes. -/
def be_bytes (v : Nat) : Nat → List Nat
  | 0 => []
  | n + 1 => be_bytes (v / 256) n ++ [v % 256]

/-- Modelled from the spec: `nn_init_from_buf(out, buf, buflen)`, the big number
whose value is the big-endian number held by the `buflen` bytes of `buf`, sized
for `buflen` bytes; fails, leaving `out` as it is, on a `NULL` buffer or when
`buflen` exceeds the byte capacity (`nn.c` is not part of the sources). -/
def nn_init_from_buf (N : Nat) (out : nn) (buf : Option (List Nat)) (buflen : Nat) : Int × nn :=
  match buf with
  | none => (-1, out)
  | some b =>
    if ¬ (buflen ≤ N * (WORD_BITS / 8)) then (-1, out)
    else (0, nn_of_nat N (u8 (BYTE_LEN_WORDS buflen)) (be_val b buflen))

/-- Modelled from the spec: `nn_export_to_buf(buf, buflen, in)`, writes the value
of the initialized `in` to the `buflen` bytes of `buf` as a big-endian number
left-padded with zero bytes (the low `buflen` bytes of the value); fails on a
`NULL` buffer or an uninitialized `in` (`nn.c` is not part of the sources). -/
def nn_export_to_buf (N : Nat) (buf : Option (List Nat)) (buflen : Nat) (inp : nn) :
    Int × Option (List Nat) :=
  match buf with
  | none => (-1, none)
  | some b =>
    if ¬ nn_check_initialized N inp then (-1, some b)
    else (0, some (be_bytes (nn_val inp) buflen ++ b.drop buflen))

/-- Modelled from the spec: `local_strlen`, the length of a C string, here the
list of its characters before the terminating NUL (`utils.c` is not part of the
sources). -/
def local_strlen (s : List Nat) : Nat := s.length

/-! ## `ec_key.c`: the data model -/

/-- Modelled from the spec: the key-class tag `EC_PUBKEY` of the structured
header (`ec_key.h` is not part of the sources). -/
def EC_PUBKEY : Nat := 0

/-- Modelled from the spec: the key-class tag `EC_PRIVKEY` of the structured
header (`ec_key.h` is not part of the sources). -/
def EC_PRIVKEY : Nat := 1

/-- Modelled from the spec: the validity tag of an initialized private key, a
non-zero constant (`ec_key.h` is not part of the sources). -/
def PRIV_KEY_MAGIC : Nat := 0x2f

/-- Modelled from the spec: the validity tag of an initialized public key, a
non-zero constant (`ec_key.h` is not part of the sources). -/
def PUB_KEY_MAGIC : Nat := 0x31

/-- Modelled from the spec: the signature-algorithm tag `ec_sig_alg_type`, an
enumeration whose values fit the one byte that the structured header gives it
(`sig_algs.h` is not part of the sources). -/
abbrev ec_sig_alg_type : Type := Fin 256

/-- Modelled from the spec: the curve identifier `ec_curve_type`, an enumeration
whose values fit the one byte that the structured header gives it (`curves.h`
is not part of the sources). -/
abbrev ec_curve_type : Type := Fin 256

/-- Casting a byte of a buffer to `ec_curve_type`. -/
def ec_curve_type_of_byte (b : Nat) : ec_curve_type := ⟨b % 256, Nat.mod_lt _ (by decide)⟩

/-- Modelled from the spec: a curve point, opaque to this layer; the model keeps
what the curve layer stores in it as a list of numbers (`prj_pt.h` is not part
of the sources). -/
structure prj_pt where
  coords : List Nat
deriving DecidableEq, Repr

/-- Modelled from the spec: the curve parameters a key borrows: the curve
(opaque), the generator order, the generator cofactor and the curve name, a C
string or `NULL` (`ec_params.h` is not part of the sources). -/
structure ec_params where
  ec_curve : List Nat
  ec_gen_order : nn
  ec_gen_cofactor : nn
  curve_name : Option (List Nat)
deriving DecidableEq, Repr

/-- The private key object: scalar, signature-algorithm tag, reference to the
curve parameters (`none` is `NULL`) and validity tag. -/
structure ec_priv_key where
  x : nn
  key_type : ec_sig_alg_type
  params : Option ec_params
  magic : Nat
deriving DecidableEq, Repr

/-- The public key object: point, signature-algorithm tag, reference to the
curve parameters (`none` is `NULL`) and validity tag. -/
structure ec_pub_key where
  y : prj_pt
  key_type : ec_sig_alg_type
  params : Option ec_params
  magic : Nat
deriving DecidableEq, Repr

/-- The key pair object. -/
structure ec_key_pair where
  priv_key : ec_priv_key
  pub_key : ec_pub_key
deriving DecidableEq, Repr

/-- Modelled from the spec: the external collaborators of the key layer, each a
function giving the C return value and the object the routine writes: the
curve layer (point import, export and order check), the curve table (the
identifier a curve name resolves to), the random source and the signature
layer (private-key hook, public-key derivation). None is part of the
sources. -/
structure ec_env where
  prj_pt_import_from_buf : prj_pt → Option (List Nat) → Nat → List Nat → Int × prj_pt
  prj_pt_import_from_aff_buf : prj_pt → Option (List Nat) → Nat → List Nat → Int × prj_pt
  prj_pt_export_to_buf : prj_pt → List Nat → Nat → Int × List Nat
  check_prj_pt_order : prj_pt → nn → Int
  ec_get_curve_type_by_name : List Nat → Nat → Option ec_curve_type
  nn_get_random_mod : nn → nn → Int × nn
  gen_priv_key : ec_priv_key → Int × ec_priv_key
  init_pubkey_from_privkey : ec_pub_key → ec_priv_key → Int × ec_pub_key

/-- Modelled from the spec: `ec_check_curve_type_and_name(type, name, len)`,
succeeds exactly when `type` is the identifier that the curve name resolves to
(`curves.c` is not part of the sources). -/
def ec_check_curve_type_and_name (E : ec_env) (ec_type : ec_curve_type) (ec_name : List Nat)
    (ec_name_len : Nat) : Int :=
  match E.ec_get_curve_type_by_name ec_name ec_name_len with
  | none => -1
  | some t => if t = ec_type then 0 else -1

/-! ## `ec_key.c`: the routines -/

/-- Check that a private key has been initialized (`priv_key_check_initialized`). -/
def priv_key_check_initialized (A : ec_priv_key) : Int :=
  if ¬ (A.magic ≠ PRIV_KEY_MAGIC) then 0 else -1

/-- Import a private key from a raw buffer (`ec_priv_key_import_from_buf`). -/
def ec_priv_key_import_from_buf (N : Nat) (priv_key : ec_priv_key) (params : Option ec_params)
    (priv_key_buf : Option (List Nat)) (priv_key_buf_len : Nat) (ec_key_alg : ec_sig_alg_type) :
    Int × ec_priv_key :=
  let r := nn_init_from_buf N priv_key.x priv_key_buf priv_key_buf_len
  let priv_key := { priv_key with x := r.2 }
  if r.1 ≠ 0 then (r.1, priv_key)
  else
    (r.1, { priv_key with key_type := ec_key_alg, params := params, magic := PRIV_KEY_MAGIC })

/-- Export a private key to a raw buffer (`ec_priv_key_export_to_buf`); the
result is the return value and the buffer as the routine leaves it. -/
def ec_priv_key_export_to_buf (N : Nat) (priv_key : ec_priv_key)
    (priv_key_buf : Option (List Nat)) (priv_key_buf_len : Nat) : Int × Option (List Nat) :=
  let ret := priv_key_check_initialized priv_key
  if ret ≠ 0 then (ret, priv_key_buf)
  else
    match nn_bitlen N priv_key.x with
    | none => (-1, priv_key_buf)
    | some blen =>
      if ¬ (8 * priv_key_buf_len ≥ blen) then (-1, priv_key_buf)
      else nn_export_to_buf N priv_key_buf priv_key_buf_len priv_key.x

/-- Check that a public key has been initialized (`pub_key_check_initialized`). -/
def pub_key_check_initialized (A : ec_pub_key) : Int :=
  if ¬ (A.magic ≠ PUB_KEY_MAGIC) then 0 else -1

/-- The common body of the two raw public-key imports, which differ only in the
point import of the curve layer they call, here `decode`. -/
def pub_key_import (N : Nat) (E : ec_env)
    (decode : prj_pt → Option (List Nat) → Nat → List Nat → Int × prj_pt)
    (pub_key : ec_pub_key) (params : Option ec_params) (pub_key_buf : Option (List Nat))
    (pub_key_buf_len : Nat) (ec_key_alg : ec_sig_alg_type) : Int × ec_pub_key :=
  match params with
  | none => (-1, pub_key)
  | some par =>
    let r := decode pub_key.y pub_key_buf pub_key_buf_len par.ec_curve
    let pub_key := { pub_key with y := r.2 }
    if r.1 ≠ 0 then (r.1, pub_key)
    else
      match nn_isone N par.ec_gen_cofactor with
      | none => (-1, pub_key)
      | some isone =>
        if ¬ isone ∧ E.check_prj_pt_order pub_key.y par.ec_gen_order ≠ 0 then (-1, pub_key)
        else
          (0, { pub_key with key_type := ec_key_alg, params := params, magic := PUB_KEY_MAGIC })

/-- Import a public key from a buffer of projective coordinates
(`ec_pub_key_import_from_buf`). -/
def ec_pub_key_import_from_buf (N : Nat) (E : ec_env) (pub_key : ec_pub_key)
    (params : Option ec_params) (pub_key_buf : Option (List Nat)) (pub_key_buf_len : Nat)
    (ec_key_alg : ec_sig_alg_type) : Int × ec_pub_key :=
  pub_key_import N E E.prj_pt_import_from_buf pub_key params pub_key_buf pub_key_buf_len
    ec_key_alg

/-- Import a public key from a buffer of affine coordinates
(`ec_pub_key_import_from_aff_buf`). -/
def ec_pub_key_import_from_aff_buf (N : Nat) (E : ec_env) (pub_key : ec_pub_key)
    (params : Option ec_params) (pub_key_buf : Option (List Nat)) (pub_key_buf_len : Nat)
    (ec_key_alg : ec_sig_alg_type) : Int × ec_pub_key :=
  pub_key_import N E E.prj_pt_import_from_aff_buf pub_key params pub_key_buf pub_key_buf_len
    ec_key_alg

/-- Export a public key to a buffer of projective coordinates
(`ec_pub_key_export_to_buf`); the point export of the curve layer refuses a
`NULL` buffer. -/
def ec_pub_key_export_to_buf (E : ec_env) (pub_key : ec_pub_key)
    (pub_key_buf : Option (List Nat)) (pub_key_buf_len : Nat) : Int × Option (List Nat) :=
  let ret := pub_key_check_initialized pub_key
  if ret ≠ 0 then (ret, pub_key_buf)
  else
    match pub_key_buf with
    | none => (-1, none)
    | some b =>
      let r := E.prj_pt_export_to_buf pub_key.y b pub_key_buf_len
      (r.1, some r.2)

/-- Check that a key pair has been initialized (`key_pair_check_initialized`). -/
def key_pair_check_initialized (A : ec_key_pair) : Int :=
  let ret := priv_key_check_initialized A.priv_key
  if ret ≠ 0 then ret else pub_key_check_initialized A.pub_key

/-- Import a key pair from a raw private-key buffer, the public key being
derived from the private one (`ec_key_pair_import_from_priv_key_buf`). -/
def ec_key_pair_import_from_priv_key_buf (N : Nat) (E : ec_env) (kp : ec_key_pair)
    (params : Option ec_params) (priv_key : Option (List Nat)) (priv_key_len : Nat)
    (ec_key_alg : ec_sig_alg_type) : Int × ec_key_pair :=
  let r := ec_priv_key_import_from_buf N kp.priv_key params priv_key priv_key_len ec_key_alg
  let kp := { kp with priv_key := r.2 }
  if r.1 ≠ 0 then (r.1, kp)
  else
    let r := E.init_pubkey_from_privkey kp.pub_key kp.priv_key
    (r.1, { kp with pub_key := r.2 })

/-- The header checks shared by the structured imports: the buffer, its length,
the parameters and their curve name are there, byte 0 is the key-class tag
`tag`, byte 1 the algorithm and byte 2 the identifier of the curve name. When
they all pass, `raw` (the raw import the routine ends with) runs on the bytes
after the header; `dst` is the destination object. -/
def structured_import {κ : Type} (E : ec_env) (tag : Nat)
    (raw : κ → Option ec_params → Option (List Nat) → Nat → ec_sig_alg_type → Int × κ)
    (dst : κ) (params : Option ec_params) (key_buf : Option (List Nat)) (key_buf_len : Nat)
    (ec_key_alg : ec_sig_alg_type) : Int × κ :=
  let metadata_len := 3
  match key_buf with
  | none => (-1, dst)
  | some buf =>
    if ¬ (key_buf_len > metadata_len) then (-1, dst)
    else
      match params with
      | none => (-1, dst)
      | some par =>
        match par.curve_name with
        | none => (-1, dst)
        | some curve_name =>
          if ¬ (tag = buf.getD 0 0) then (-1, dst)
          else if ¬ (ec_key_alg.val = buf.getD 1 0) then (-1, dst)
          else
            let len := local_strlen curve_name + 1
            if ¬ (len < 256) then (-1, dst)
            else
              let crv_name_len := u8 len
              let ret := ec_check_curve_type_and_name E (ec_curve_type_of_byte (buf.getD 2 0))
                curve_name crv_name_len
              if ret ≠ 0 then (ret, dst)
              else
                raw dst params (some (buf.drop metadata_len)) (u8 (key_buf_len - metadata_len))
                  ec_key_alg

/-- Import a structured private key (`ec_structured_priv_key_import_from_buf`). -/
def ec_structured_priv_key_import_from_buf (N : Nat) (E : ec_env) (priv_key : ec_priv_key)
    (params : Option ec_params) (priv_key_buf : Option (List Nat)) (priv_key_buf_len : Nat)
    (ec_key_alg : ec_sig_alg_type) : Int × ec_priv_key :=
  structured_import E EC_PRIVKEY (ec_priv_key_import_from_buf N) priv_key params priv_key_buf
    priv_key_buf_len ec_key_alg

/-- Import a structured public key (`ec_structured_pub_key_import_from_buf`). -/
def ec_structured_pub_key_import_from_buf (N : Nat) (E : ec_env) (pub_key : ec_pub_key)
    (params : Option ec_params) (pub_key_buf : Option (List Nat)) (pub_key_buf_len : Nat)
    (ec_key_alg : ec_sig_alg_type) : Int × ec_pub_key :=
  structured_import E EC_PUBKEY (ec_pub_key_import_from_buf N E) pub_key params pub_key_buf
    pub_key_buf_len ec_key_alg

/-- Import a key pair from a structured private-key buffer
(`ec_structured_key_pair_import_from_priv_key_buf`). -/
def ec_structured_key_pair_import_from_priv_key_buf (N : Nat) (E : ec_env) (kp : ec_key_pair)
    (params : Option ec_params) (priv_key_buf : Option (List Nat)) (priv_key_buf_len : Nat)
    (ec_key_alg : ec_sig_alg_type) : Int × ec_key_pair :=
  structured_import E EC_PRIVKEY (ec_key_pair_import_from_priv_key_buf N E) kp params
    priv_key_buf priv_key_buf_len ec_key_alg

/-- Import a key pair from two structured buffers, public then private
(`ec_structured_key_pair_import_from_buf`). -/
def ec_structured_key_pair_import_from_buf (N : Nat) (E : ec_env) (kp : ec_key_pair)
    (params : Option ec_params) (priv_key_buf : Option (List Nat)) (priv_key_buf_len : Nat)
    (pub_key_buf : Option (List Nat)) (pub_key_buf_len : Nat) (ec_key_alg : ec_sig_alg_type) :
    Int × ec_key_pair :=
  let r := ec_structured_pub_key_import_from_buf N E kp.pub_key params pub_key_buf
    pub_key_buf_len ec_key_alg
  let kp := { kp with pub_key := r.2 }
  if r.1 ≠ 0 then (r.1, kp)
  else
    let r := ec_structured_priv_key_import_from_buf N E kp.priv_key params priv_key_buf
      priv_key_buf_len ec_key_alg
    (r.1, { kp with priv_key := r.2 })

/-- The common body of the two structured exports: the header, key class `tag`,
algorithm `key_type` and the identifier of the curve name of `params` (the
`params` of an initialized key; a `NULL` one, which the C code would
dereference, is reported as the error), is written to the first three bytes;
`raw`, the raw export the routine ends with, then writes the bytes after the
header. `chk` is the return value of the initialization check on the key. -/
def structured_export (E : ec_env) (tag : Nat) (chk : Int) (key_type : ec_sig_alg_type)
    (params : Option ec_params) (raw : Option (List Nat) → Nat → Int × Option (List Nat))
    (key_buf : Option (List Nat)) (key_buf_len : Nat) : Int × Option (List Nat) :=
  let metadata_len := 3
  if chk ≠ 0 then (chk, key_buf)
  else
    match key_buf with
    | none => (-1, none)
    | some buf =>
      if ¬ (key_buf_len > metadata_len) then (-1, some buf)
      else
        match params.bind fun par => par.curve_name with
        | none => (-1, some buf)
        | some curve_name =>
          let buf := buf.set 0 (u8 tag)
          let buf := buf.set 1 (u8 key_type.val)
          let len := local_strlen curve_name + 1
          if ¬ (len < 256) then (-1, some buf)
          else
            let curve_name_len := u8 len
            match E.ec_get_curve_type_by_name curve_name curve_name_len with
            | none => (-1, some buf)
            | some curve_type =>
              let buf := buf.set 2 (u8 curve_type.val)
              let r := raw (some (buf.drop metadata_len)) (u8 (key_buf_len - metadata_len))
              (r.1, some (buf.take metadata_len ++ (r.2.getD (buf.drop metadata_len))))

/-- Export a structured private key (`ec_structured_priv_key_export_to_buf`). -/
def ec_structured_priv_key_export_to_buf (N : Nat) (E : ec_env) (priv_key : ec_priv_key)
    (priv_key_buf : Option (List Nat)) (priv_key_buf_len : Nat) : Int × Option (List Nat) :=
  structured_export E EC_PRIVKEY (priv_key_check_initialized priv_key) priv_key.key_type
    priv_key.params (ec_priv_key_export_to_buf N priv_key) priv_key_buf priv_key_buf_len

/-- Export a structured public key (`ec_structured_pub_key_export_to_buf`). -/
def ec_structured_pub_key_export_to_buf (E : ec_env) (pub_key : ec_pub_key)
    (pub_key_buf : Option (List Nat)) (pub_key_buf_len : Nat) : Int × Option (List Nat) :=
  structured_export E EC_PUBKEY (pub_key_check_initialized pub_key) pub_key.key_type
    pub_key.params (ec_pub_key_export_to_buf E pub_key) pub_key_buf pub_key_buf_len

/-- The statements of `ec_key_pair_gen` before the `err:` label. -/
def ec_key_pair_gen_body (E : ec_env) (kp : ec_key_pair) (params : Option ec_params)
    (ec_key_alg : ec_sig_alg_type) : Int × ec_key_pair :=
  match params with
  | none => (-1, kp)
  | some par =>
    let r := E.nn_get_random_mod kp.priv_key.x par.ec_gen_order
    let kp := { kp with priv_key := { kp.priv_key with x := r.2 } }
    if r.1 ≠ 0 then (r.1, kp)
    else
      let kp := { kp with priv_key := { kp.priv_key with
        key_type := ec_key_alg, params := params, magic := PRIV_KEY_MAGIC } }
      let r := E.gen_priv_key kp.priv_key
      let kp := { kp with priv_key := r.2 }
      if r.1 ≠ 0 then (r.1, kp)
      else
        let r := E.init_pubkey_from_privkey kp.pub_key kp.priv_key
        (r.1, { kp with pub_key := r.2 })

/-- Generate a key pair (`ec_key_pair_gen`): the body, then the `err:` label,
which clears both validity tags when the body ended on an error. -/
def ec_key_pair_gen (E : ec_env) (kp : ec_key_pair) (params : Option ec_params)
    (ec_key_alg : ec_sig_alg_type) : Int × ec_key_pair :=
  let r := ec_key_pair_gen_body E kp params ec_key_alg
  if r.1 ≠ 0 then
    (r.1, { priv_key := { r.2.priv_key with magic := 0 },
            pub_key := { r.2.pub_key with magic := 0 } })
  else (r.1, r.2)

/-- A small instance of the external collaborators, on which the routines can
be evaluated: a point is decoded as the list of the bytes of a non-empty
buffer and exported as these bytes, the order check rejects the points whose
first byte is zero, the curve table knows the one-letter name `A` under the
identifier 1, the random source fails, the private-key hook changes nothing
and the public key is derived for every algorithm but the one of tag 0. -/
def ec_env_sample : ec_env where
  prj_pt_import_from_buf := fun y buf len _ =>
    match buf with
    | none => (-1, y)
    | some b => if len = 0 then (-1, y) else (0, { coords := b.take len })
  prj_pt_import_from_aff_buf := fun y buf len _ =>
    match buf with
    | none => (-1, y)
    | some b => if len = 0 then (-1, y) else (0, { coords := b.take len ++ [1] })
  prj_pt_export_to_buf := fun y b len =>
    if y.coords.length = len then (0, y.coords ++ b.drop len) else (-1, b)
  check_prj_pt_order := fun y _ => if y.coords.getD 0 0 = 0 then -1 else 0
  ec_get_curve_type_by_name := fun name _ => if name = [0x41] then some 1 else none
  nn_get_random_mod := fun x _ => (-1, x)
  gen_priv_key := fun k => (0, k)
  init_pubkey_from_privkey := fun pub priv =>
    if priv.key_type = 0 then (-1, pub)
    else (0, { y := { coords := [1] }, key_type := priv.key_type, params := priv.params,
               magic := PUB_KEY_MAGIC })

/-- The curve parameters of the examples: the curve of name `A`, generator order
7 and cofactor `h`, each on one word of a capacity of 2 words. -/
def ec_params_sample (h : Nat) : ec_params :=
  { ec_curve := [], ec_gen_order := nn_of_nat 2 1 7, ec_gen_cofactor := nn_of_nat 2 1 h,
    curve_name := some [0x41] }

/-- The private key of the examples: the scalar `0x0102` under the algorithm tag 3
and the parameters `ec_params_sample 1`. -/
def ec_priv_key_sample : ec_priv_key :=
  { x := nn_of_nat 2 1 0x0102, key_type := 3, params := some (ec_params_sample 1),
    magic := PRIV_KEY_MAGIC }

/-- The public key of the examples: the point of bytes `05 06` under the
algorithm tag 3 and the parameters `ec_params_sample 1`. -/
def ec_pub_key_sample : ec_pub_key :=
  { y := { coords := [5, 6] }, key_type := 3, params := some (ec_params_sample 1),
    magic := PUB_KEY_MAGIC }

/-- A key object that was never initialized. -/
def ec_priv_key_none : ec_priv_key := { x := nn_none, key_type := 0, params := none, magic := 0 }

/-- A key object that was never initialized. -/
def ec_pub_key_none : ec_pub_key :=
  { y := { coords := [] }, key_type := 0, params := none, magic := 0 }

/-! ## The 32-bit word configuration (`words_32.h`) -/

/-- The `WORD_BITS` that `words_32.h` defines. -/
def WORD_BITS_32 : Nat := 32

/-- Count leading zeros of a word (`wclz`) with the `word_t` of `words_32.h`:
the statements of the routine on a 32-bit `A`, a shift of `A` being taken
modulo `2 ^ 32`. -/
def wclz_32 (A : Nat) : Nat :=
  if A = 0 then 64 else
  let c := 0
  let (c, A) := if A ≤ 0x00000000FFFFFFFF then (c + 32, (A <<< 32) % 2 ^ WORD_BITS_32) else (c, A)
  let (c, A) := if A ≤ 0x0000FFFFFFFFFFFF then (c + 16, (A <<< 16) % 2 ^ WORD_BITS_32) else (c, A)
  let (c, A) := if A ≤ 0x00FFFFFFFFFFFFFF then (c + 8, (A <<< 8) % 2 ^ WORD_BITS_32) else (c, A)
  let (c, A) := if A ≤ 0x0FFFFFFFFFFFFFFF then (c + 4, (A <<< 4) % 2 ^ WORD_BITS_32) else (c, A)
  let (c, A) := if A ≤ 0x3FFFFFFFFFFFFFFF then (c + 2, (A <<< 2) % 2 ^ WORD_BITS_32) else (c, A)
  let c := if A ≤ 0x7FFFFFFFFFFFFFFF then c + 1 else c
  c

/-- The scan of `nn_bitlen` with the words of `words_32.h`: the difference
`i * WORD_BITS - wclz(...)` is computed on `int` and returned as a `bitcnt_t`. -/
def nn_bitlen_loop_32 (v : List Nat) : Nat → Nat
  | 0 => 0
  | i + 1 =>
    if v.getD i 0 ≠ 0 then
      (((((i + 1) * WORD_BITS_32 : Nat) : Int) - ((wclz_32 (v.getD i 0) : Nat) : Int)) %
        65536).toNat
    else nn_bitlen_loop_32 v i

/-- Compute the bit length of a big number (`nn_bitlen`) with the words of
`words_32.h`. -/
def nn_bitlen_32 (N : Nat) (inp : nn) : Option Nat :=
  if nn_check_initialized N inp then some (nn_bitlen_loop_32 inp.val inp.wlen) else none

/-- The scan of `nn_clz` with the words of `words_32.h`, from word `i - 1`
downwards, `cnt` being the `bitcnt_t` accumulated so far. -/
def nn_clz_loop_32 (v : List Nat) : Nat → Nat → Nat
  | 0, cnt => cnt
  | i + 1, cnt =>
    if v.getD i 0 = 0 then nn_clz_loop_32 v i (u16 (cnt + WORD_BITS_32))
    else u16 (cnt + wclz_32 (v.getD i 0))

/-- Count the leading zeros of a big number (`nn_clz`) with the words of
`words_32.h`. -/
def nn_clz_32 (N : Nat) (inp : nn) : Option Nat :=
  if nn_check_initialized N inp then some (nn_clz_loop_32 inp.val inp.wlen 0) else none

/-! ## `_nn_mul_redc1`: the indices of `out->val` -/

/-- The indices at which one round of the outer loop of `_nn_mul_redc1` reads
and writes `out->val`, in program order: `j` in the multiplication loop
(`j < len_mul`), `j` in the carry loop (`j < len`), the `j` these two loops end
on (`out->val[j] += carry`), `j - 1` in the reduction loop (`1 <= j < len`),
then `j - 1` and `j` for the `j` that loop ends on. -/
def redc1_round_out_indices (len len_mul : Nat) : List Nat :=
  List.range' 0 len_mul ++ List.range' len_mul (len - len_mul) ++ [len_mul + (len - len_mul)] ++
    (List.range' 1 (len - 1)).map (fun j => j - 1) ++ [1 + (len - 1) - 1, 1 + (len - 1)]

/-! ## `copy.c`: the copying "hash"

A pointer argument that the code tests against `NULL` is an `Option`; a byte
buffer is the list of its bytes. -/

/-- The `COPY256_SIZE` of `copy.h`. -/
def COPY256_SIZE : Nat := 32

/-- The context `copy256_context`: the count of bytes copied and the internal
buffer. -/
structure copy256_context where
  copied_bytes : Nat
  buffer : List Nat
deriving DecidableEq, Repr

/-- Modelled from the spec: `local_memcpy(dst + off, src, n)`, the byte of index
`k` of `src` is written at index `off + k` of `dst`, for `k < n` (`utils.c` is
not part of the sources). -/
def local_memcpy (dst : List Nat) (off : Nat) (src : List Nat) : Nat → List Nat
  | 0 => dst
  | n + 1 => (local_memcpy dst off src n).set (off + n) (src.getD n 0)

/-- Initialize the context (`copy256_init`); `ctx` is the object the caller
holds, whose buffer is left as it is. -/
def copy256_init (ctx : copy256_context) : copy256_context :=
  { ctx with copied_bytes := 0 }

/-- The value of `bytes_to_copy` when `copy256_update` reaches its
`local_memcpy`: `ilen`, capped by `left_bytes`, the `u16` holding
`COPY256_SIZE - (ctx->copied_bytes & 0x3F)` computed on `u64`. -/
def copy256_bytes_to_copy (ctx : copy256_context) (ilen : Nat) : Nat :=
  let bytes_to_copy := ilen
  let left_bytes := u16 ((COPY256_SIZE + 2 ^ 64 - (ctx.copied_bytes &&& 0x3F)) % 2 ^ 64)
  if bytes_to_copy ≥ left_bytes then left_bytes else bytes_to_copy

/-- Feed `ilen` bytes of `input` to the context (`copy256_update`); `none` when
the assertion on the pointers stops the routine. -/
def copy256_update (ctx : copy256_context) (input : Option (List Nat)) (ilen : Nat) :
    Option copy256_context :=
  match input with
  | none => none
  | some inp =>
    if ilen = 0 then some ctx
    else
      let bytes_to_copy := copy256_bytes_to_copy ctx ilen
      some { copied_bytes := (ctx.copied_bytes + bytes_to_copy) % 2 ^ 64,
             buffer := local_memcpy ctx.buffer ctx.copied_bytes inp bytes_to_copy }

/-- Write the result (`copy256_final`): the `COPY256_SIZE` bytes of the buffer
are copied to `output`; the result is `output` as the routine leaves it. -/
def copy256_final (ctx : copy256_context) (output : Option (List Nat)) : Option (List Nat) :=
  match output with
  | none => none
  | some out => some (local_memcpy out 0 ctx.buffer COPY256_SIZE)

end Libecc

namespace Libecc

/-! ## Generic facts: loops, word arrays, values -/

theorem WORD_BITS_eq : WORD_BITS = 64 := rfl

theorem getD_set (l : List Nat) (i j a : Nat) :
    (l.set i a).getD j 0 = if i = j ∧ i < l.length then a else l.getD j 0 := by
  simp only [List.getD_eq_getElem?_getD, List.getElem?_set]
  by_cases h : i = j
  · subst h
    by_cases h2 : i < l.length
    · simp [h2]
    · simp [h2, List.getElem?_eq_none (Nat.le_of_not_lt h2)]
  · simp [h]

theorem getD_eq_zero_of_length_le (l : List Nat) (i : Nat) (h : l.length ≤ i) :
    l.getD i 0 = 0 := by
  simp [List.getD_eq_getElem?_getD, List.getElem?_eq_none h]

theorem getD_replicate_zero (n i : Nat) : (List.replicate n 0).getD i 0 = 0 := by
  simp only [List.getD_eq_getElem?_getD, List.getElem?_replicate]
  split <;> rfl

theorem forUp_add {σ : Type} (body : Nat → σ → σ) (n m i : Nat) (s : σ) :
    forUp body (n + m) i s = forUp body m (i + n) (forUp body n i s) := by
  induction n generalizing i s with
  | zero => simp [forUp]
  | succ n ih =>
    rw [Nat.succ_add]
    simp only [forUp]
    rw [ih]
    congr 1
    omega

theorem forUp_succ_last {σ : Type} (body : Nat → σ → σ) (n i : Nat) (s : σ) :
    forUp body (n + 1) i s = body (i + n) (forUp body n i s) := by
  rw [forUp_add]; rfl

/-- Invariant rule of the ascending loop. -/
theorem forUp_inv {σ : Type} (body : Nat → σ → σ) (P : Nat → σ → Prop) (n i : Nat) (s : σ)
    (h0 : P i s) (hstep : ∀ j t, i ≤ j → j < i + n → P j t → P (j + 1) (body j t)) :
    P (i + n) (forUp body n i s) := by
  induction n with
  | zero => simpa [forUp] using h0
  | succ n ih =>
    rw [forUp_succ_last]
    exact hstep (i + n) _ (by omega) (by omega) (ih (fun j t h1 h2 => hstep j t h1 (by omega)))

/-- Invariant rule of the descending loop: `P k` holds when the positions
`>= k` have been processed. -/
theorem forDown_inv {σ : Type} (body : Nat → σ → σ) (P : Nat → σ → Prop) (n : Nat) (s : σ)
    (h0 : P n s) (hstep : ∀ k t, k < n → P (k + 1) t → P k (body k t)) :
    P 0 (forDown body n s) := by
  induction n generalizing s with
  | zero => simpa [forDown] using h0
  | succ n ih =>
    simp only [forDown]
    exact ih _ (hstep n s (by omega) h0) (fun k t hk => hstep k t (by omega))

theorem nn_words_val_congr (v w : List Nat) (n : Nat)
    (h : ∀ i, i < n → v.getD i 0 = w.getD i 0) : nn_words_val v n = nn_words_val w n := by
  induction n with
  | zero => rfl
  | succ n ih =>
    simp only [nn_words_val]
    rw [ih (fun i hi => h i (by omega)), h n (by omega)]

theorem nn_words_val_lt (v : List Nat) (n : Nat)
    (hv : ∀ i, i < n → v.getD i 0 < 2 ^ WORD_BITS) :
    nn_words_val v n < 2 ^ (WORD_BITS * n) := by
  induction n with
  | zero => simp [nn_words_val]
  | succ n ih =>
    simp only [nn_words_val]
    have h1 := hv n (by omega)
    have h0 := ih (fun i hi => hv i (by omega))
    have h2 : 2 ^ (WORD_BITS * (n + 1)) = 2 ^ WORD_BITS * 2 ^ (WORD_BITS * n) := by
      rw [← pow_add]; congr 1; ring
    rw [h2]
    have h3 : (v.getD n 0 + 1) * 2 ^ (WORD_BITS * n) ≤ 2 ^ WORD_BITS * 2 ^ (WORD_BITS * n) :=
      Nat.mul_le_mul_right _ h1
    nlinarith

/-- Bit `k` of the value of a word array is bit `k % WORD_BITS` of word
`k / WORD_BITS`. -/
theorem nn_words_val_testBit (v : List Nat) (n : Nat)
    (hv : ∀ i, i < n → v.getD i 0 < 2 ^ WORD_BITS) (k : Nat) :
    (nn_words_val v n).testBit k =
      (decide (k / WORD_BITS < n) && (v.getD (k / WORD_BITS) 0).testBit (k % WORD_BITS)) := by
  induction n with
  | zero => simp [nn_words_val]
  | succ n ih =>
    simp only [nn_words_val]
    have hv0 : ∀ i, i < n → v.getD i 0 < 2 ^ WORD_BITS := fun i hi => hv i (by omega)
    rw [Nat.add_comm, Nat.mul_comm (v.getD n 0),
      Nat.testBit_mul_pow_two_add _ (nn_words_val_lt v n hv0)]
    have hW := WORD_BITS_eq
    by_cases h : k < WORD_BITS * n
    · rw [if_pos h, ih hv0]
      have h1 : k / WORD_BITS < n := by rw [hW] at h ⊢; omega
      have h2 : k / WORD_BITS < n + 1 := by omega
      simp [h1, h2]
    · rw [if_neg h]
      by_cases h1 : k / WORD_BITS = n
      · have h2 : k - WORD_BITS * n = k % WORD_BITS := by rw [hW] at h h1 ⊢; omega
        rw [h2, h1]; simp
      · have h2 : ¬ k / WORD_BITS < n + 1 := by rw [hW] at h h1 ⊢; omega
        have h3 : WORD_BITS ≤ k - WORD_BITS * n := by rw [hW] at h h1 ⊢; omega
        have h4 : v.getD n 0 < 2 ^ (k - WORD_BITS * n) :=
          lt_of_lt_of_le (hv n (by omega)) (Nat.pow_le_pow_right (by norm_num) h3)
        rw [Nat.testBit_lt_two_pow h4]
        simp [h2]

theorem nn_words_val_zero_ext (v : List Nat) (n m : Nat) (hnm : n ≤ m)
    (h : ∀ i, n ≤ i → i < m → v.getD i 0 = 0) : nn_words_val v m = nn_words_val v n := by
  induction m with
  | zero =>
    have : n = 0 := by omega
    subst this; rfl
  | succ m ih =>
    by_cases h1 : n = m + 1
    · subst h1; rfl
    · simp only [nn_words_val]
      rw [h m (by omega) (by omega), ih (by omega) (fun i h2 h3 => h i h2 (by omega))]
      simp

theorem getD_nn_words_of_nat (x n i : Nat) :
    (nn_words_of_nat x n).getD i 0 =
      if i < n then (x / 2 ^ (WORD_BITS * i)) % 2 ^ WORD_BITS else 0 := by
  unfold nn_words_of_nat
  simp only [List.getD_eq_getElem?_getD, List.getElem?_map]
  by_cases h : i < n
  · simp [h, List.getElem?_range h]
  · simp [h, List.getElem?_eq_none (l := List.range n) (by simpa using Nat.le_of_not_lt h)]

theorem length_nn_words_of_nat (x n : Nat) : (nn_words_of_nat x n).length = n := by
  simp [nn_words_of_nat]

/-- The words of `x` hold `x` modulo the size of the window read. -/
theorem nn_words_val_of_nat (v : List Nat) (x n : Nat)
    (h : ∀ i, i < n → v.getD i 0 = (x / 2 ^ (WORD_BITS * i)) % 2 ^ WORD_BITS) :
    nn_words_val v n = x % 2 ^ (WORD_BITS * n) := by
  induction n with
  | zero => simp [nn_words_val, Nat.mod_one]
  | succ n ih =>
    simp only [nn_words_val]
    rw [ih (fun i hi => h i (by omega)), h n (by omega)]
    have h2 : 2 ^ (WORD_BITS * (n + 1)) = 2 ^ (WORD_BITS * n) * 2 ^ WORD_BITS := by
      rw [← pow_add]; congr 1
    rw [h2, Nat.mod_mul]; ring

end Libecc

namespace Libecc

/-! ## Initialized big numbers -/

theorem forall_mem_iff_getD (l : List Nat) (P : Nat → Prop) (h0 : P 0) :
    (∀ w ∈ l, P w) ↔ ∀ i, P (l.getD i 0) := by
  constructor
  · intro h i
    by_cases hi : i < l.length
    · rw [List.getD_eq_getElem l 0 hi]
      exact h _ (List.getElem_mem hi)
    · rw [getD_eq_zero_of_length_le l i (Nat.le_of_not_lt hi)]
      exact h0
  · intro h w hw
    obtain ⟨i, hi, rfl⟩ := List.getElem_of_mem hw
    have := h i
    rwa [List.getD_eq_getElem l 0 hi] at this

theorem getD_drop (l : List Nat) (n i : Nat) : (l.drop n).getD i 0 = l.getD (n + i) 0 := by
  simp [List.getD_eq_getElem?_getD, List.getElem?_drop]

/-- What an initialized big number provides, word by word. -/
theorem nn_initialized_iff (N : Nat) (A : nn) :
    nn_initialized N A ↔
      A.magic = NN_MAGIC ∧ A.wlen ≤ N ∧ A.val.length = N ∧
        (∀ i, A.val.getD i 0 < 2 ^ WORD_BITS) ∧ (∀ i, A.wlen ≤ i → A.val.getD i 0 = 0) := by
  unfold nn_initialized nn_check_initialized
  rw [forall_mem_iff_getD A.val (fun w => w < 2 ^ WORD_BITS) (by positivity),
    forall_mem_iff_getD (A.val.drop A.wlen) (fun w => w = 0) rfl]
  simp only [getD_drop, Bool.and_eq_true, decide_eq_true_eq]
  constructor
  · rintro ⟨⟨h1, h2⟩, h3, h4, h5⟩
    refine ⟨h1, h2, h3, h4, fun i hi => ?_⟩
    have := h5 (i - A.wlen)
    rwa [Nat.add_sub_cancel' hi] at this
  · rintro ⟨h1, h2, h3, h4, h5⟩
    exact ⟨⟨h1, h2⟩, h3, h4, fun i => h5 _ (by omega)⟩

theorem nn_initialized_check {N : Nat} {A : nn} (h : nn_initialized N A) :
    nn_check_initialized N A = true := h.1

theorem nn_check_initialized_iff (N : Nat) (A : nn) :
    nn_check_initialized N A = true ↔ A.magic = NN_MAGIC ∧ A.wlen ≤ N := by
  simp [nn_check_initialized]

/-- The value of an initialized big number is that of its whole array. -/
theorem nn_val_eq_full {N : Nat} {A : nn} (h : nn_initialized N A) (m : Nat) (hm : A.wlen ≤ m) :
    nn_words_val A.val m = nn_val A := by
  obtain ⟨-, -, -, -, h5⟩ := (nn_initialized_iff N A).1 h
  exact nn_words_val_zero_ext A.val A.wlen m hm (fun i hi _ => h5 i hi)

/-! ## `wclz` and `nn_bitlen` -/

theorem wclz_step (A0 c A k M : Nat) (hk : k ≤ 64) (hM : M + 1 = 2 ^ (64 - k))
    (hA : A = A0 * 2 ^ c) (hlt : A < 2 ^ 64) (hlo : 2 ^ (64 - k) ≤ A * 2 ^ k) :
    ∀ r : Nat × Nat, r = (if A ≤ M then (c + k, (A <<< k) % 2 ^ WORD_BITS) else (c, A)) →
      r.2 = A0 * 2 ^ r.1 ∧ r.2 < 2 ^ 64 ∧ 2 ^ (64 - k) ≤ r.2 := by
  intro r hr
  by_cases h : A ≤ M
  · rw [if_pos h] at hr
    have h1 : A * 2 ^ k < 2 ^ 64 := by
      have : A < 2 ^ (64 - k) := by omega
      calc A * 2 ^ k < 2 ^ (64 - k) * 2 ^ k := Nat.mul_lt_mul_of_pos_right this (by positivity)
        _ = 2 ^ 64 := by rw [← pow_add]; congr 1; omega
    subst hr
    simp only [Nat.shiftLeft_eq, WORD_BITS, Nat.mod_eq_of_lt h1]
    refine ⟨?_, h1, hlo⟩
    rw [hA, pow_add, mul_assoc]
  · rw [if_neg h] at hr
    subst hr
    exact ⟨hA, hlt, by omega⟩

/-- Shifting a non-zero word left by `wclz` brings its top bit to bit 63. -/
theorem wclz_normalizes (A : Nat) (hA0 : 0 < A) (hA : A < 2 ^ 64) :
    2 ^ 63 ≤ A * 2 ^ wclz A ∧ A * 2 ^ wclz A < 2 ^ 64 := by
  unfold wclz
  rw [if_neg (by omega)]
  simp only []
  have s1 := wclz_step A 0 A 32 0x00000000FFFFFFFF (by norm_num) (by norm_num) (by simp) hA
    (by norm_num; omega) _ rfl
  generalize (if A ≤ 0x00000000FFFFFFFF then (0 + 32, (A <<< 32) % 2 ^ WORD_BITS)
    else (0, A)) = r1 at s1 ⊢
  obtain ⟨c1, A1⟩ := r1
  simp only [] at s1 ⊢
  have s2 := wclz_step A c1 A1 16 0x0000FFFFFFFFFFFF (by norm_num) (by norm_num) s1.1 s1.2.1
    (by have := s1.2.2; norm_num at this ⊢; omega) _ rfl
  generalize (if A1 ≤ 0x0000FFFFFFFFFFFF then (c1 + 16, (A1 <<< 16) % 2 ^ WORD_BITS)
    else (c1, A1)) = r2 at s2 ⊢
  obtain ⟨c2, A2⟩ := r2
  simp only [] at s2 ⊢
  have s3 := wclz_step A c2 A2 8 0x00FFFFFFFFFFFFFF (by norm_num) (by norm_num) s2.1 s2.2.1
    (by have := s2.2.2; norm_num at this ⊢; omega) _ rfl
  generalize (if A2 ≤ 0x00FFFFFFFFFFFFFF then (c2 + 8, (A2 <<< 8) % 2 ^ WORD_BITS)
    else (c2, A2)) = r3 at s3 ⊢
  obtain ⟨c3, A3⟩ := r3
  simp only [] at s3 ⊢
  have s4 := wclz_step A c3 A3 4 0x0FFFFFFFFFFFFFFF (by norm_num) (by norm_num) s3.1 s3.2.1
    (by have := s3.2.2; norm_num at this ⊢; omega) _ rfl
  generalize (if A3 ≤ 0x0FFFFFFFFFFFFFFF then (c3 + 4, (A3 <<< 4) % 2 ^ WORD_BITS)
    else (c3, A3)) = r4 at s4 ⊢
  obtain ⟨c4, A4⟩ := r4
  simp only [] at s4 ⊢
  have s5 := wclz_step A c4 A4 2 0x3FFFFFFFFFFFFFFF (by norm_num) (by norm_num) s4.1 s4.2.1
    (by have := s4.2.2; norm_num at this ⊢; omega) _ rfl
  generalize (if A4 ≤ 0x3FFFFFFFFFFFFFFF then (c4 + 2, (A4 <<< 2) % 2 ^ WORD_BITS)
    else (c4, A4)) = r5 at s5 ⊢
  obtain ⟨c5, A5⟩ := r5
  simp only [] at s5 ⊢
  obtain ⟨e5, lt5, lo5⟩ := s5
  norm_num at lo5 lt5
  split_ifs with h
  · have e : A * 2 ^ (c5 + 1) = A5 * 2 := by rw [e5, pow_succ, mul_assoc]
    rw [e]; omega
  · rw [← e5]; omega

/-- For a non-zero word, `wclz` is the count of leading zero bits. -/
theorem wclz_bounds (A : Nat) (hA0 : 0 < A) (hA : A < 2 ^ 64) :
    wclz A ≤ 63 ∧ 2 ^ (63 - wclz A) ≤ A ∧ A < 2 ^ (64 - wclz A) := by
  obtain ⟨h1, h2⟩ := wclz_normalizes A hA0 hA
  have hc : wclz A ≤ 63 := by
    by_contra hc
    have h3 : 2 ^ 64 ≤ 2 ^ wclz A := Nat.pow_le_pow_right (by norm_num) (by omega)
    have h4 : 2 ^ wclz A ≤ A * 2 ^ wclz A := Nat.le_mul_of_pos_left _ hA0
    omega
  refine ⟨hc, ?_, ?_⟩
  · have h3 : 2 ^ (63 - wclz A) * 2 ^ wclz A = 2 ^ 63 := by
      rw [← pow_add]; congr 1; omega
    rw [← h3] at h1
    exact Nat.le_of_mul_le_mul_right h1 (by positivity)
  · have h3 : 2 ^ (64 - wclz A) * 2 ^ wclz A = 2 ^ 64 := by
      rw [← pow_add]; congr 1; omega
    rw [← h3] at h2
    exact Nat.lt_of_mul_lt_mul_right h2

/-- The scan of `nn_bitlen` returns the bit length of the value of the words
scanned. -/
theorem nn_bitlen_loop_spec (v : List Nat) (hv : ∀ i, v.getD i 0 < 2 ^ WORD_BITS) (n : Nat) :
    nn_bitlen_loop v n ≤ WORD_BITS * n ∧ nn_words_val v n < 2 ^ nn_bitlen_loop v n ∧
      (nn_bitlen_loop v n ≠ 0 → 2 ^ (nn_bitlen_loop v n - 1) ≤ nn_words_val v n) := by
  induction n with
  | zero => simp [nn_bitlen_loop, nn_words_val]
  | succ n ih =>
    simp only [nn_bitlen_loop, nn_words_val]
    by_cases h : v.getD n 0 = 0
    · simp only [h, ne_eq, not_true_eq_false, if_false, zero_mul, add_zero]
      refine ⟨?_, ih.2.1, ih.2.2⟩
      have := ih.1
      rw [WORD_BITS_eq] at this ⊢; omega
    · rw [if_pos h]
      have hw := hv n
      rw [WORD_BITS_eq] at hw
      obtain ⟨hc, hlo, hhi⟩ := wclz_bounds (v.getD n 0) (Nat.pos_of_ne_zero h) hw
      have hlt := nn_words_val_lt v n (fun i _ => hv i)
      rw [WORD_BITS_eq] at hlt ⊢
      refine ⟨by omega, ?_, fun _ => ?_⟩
      · have e : (n + 1) * 64 - wclz (v.getD n 0) = (64 - wclz (v.getD n 0)) + 64 * n := by omega
        rw [e, pow_add]
        have : (v.getD n 0 + 1) * 2 ^ (64 * n) ≤ 2 ^ (64 - wclz (v.getD n 0)) * 2 ^ (64 * n) :=
          Nat.mul_le_mul_right _ hhi
        nlinarith
      · have e : (n + 1) * 64 - wclz (v.getD n 0) - 1 = (63 - wclz (v.getD n 0)) + 64 * n := by
          omega
        rw [e, pow_add]
        have : 2 ^ (63 - wclz (v.getD n 0)) * 2 ^ (64 * n) ≤ v.getD n 0 * 2 ^ (64 * n) :=
          Nat.mul_le_mul_right _ hlo
        omega

end Libecc

namespace Libecc

/-! ## Loops that write one word per position -/

theorem length_forDown_set (g : Nat → List Nat → Nat) (n : Nat) (o : List Nat) :
    (forDown (fun k o => o.set k (g k o)) n o).length = o.length := by
  induction n generalizing o with
  | zero => rfl
  | succ n ih => simp only [forDown]; rw [ih]; simp

theorem length_forUp_set (g : Nat → List Nat → Nat) (n i : Nat) (o : List Nat) :
    (forUp (fun k o => o.set k (g k o)) n i o).length = o.length := by
  induction n generalizing i o with
  | zero => rfl
  | succ n ih => simp only [forUp]; rw [ih]; simp

theorem forDown_set_getD (g : Nat → Nat) (n : Nat) (o : List Nat) (j : Nat) :
    (forDown (fun k o => o.set k (g k)) n o).getD j 0 =
      if j < n ∧ j < o.length then g j else o.getD j 0 := by
  induction n generalizing o with
  | zero => simp [forDown]
  | succ n ih =>
    simp only [forDown]
    rw [ih, getD_set, List.length_set]
    by_cases h1 : j < n
    · by_cases h2 : j < o.length
      · have : ¬ (n = j ∧ n < o.length) := by omega
        simp [h1, h2, this, Nat.lt_succ_of_lt h1]
      · have : ¬ (n = j ∧ n < o.length) := by omega
        simp [h2, this]
    · by_cases h2 : n = j
      · subst h2; simp
      · have h3 : ¬ j < n + 1 := by omega
        simp [h1, h2, h3]

theorem forUp_set_getD (g : Nat → Nat) (n i : Nat) (o : List Nat) (j : Nat) :
    (forUp (fun k o => o.set k (g k)) n i o).getD j 0 =
      if i ≤ j ∧ j < i + n ∧ j < o.length then g j else o.getD j 0 := by
  induction n generalizing i o with
  | zero =>
    have : ¬ (i ≤ j ∧ j < i + 0 ∧ j < o.length) := by omega
    simp only [forUp]; rw [if_neg this]
  | succ n ih =>
    simp only [forUp]
    rw [ih, getD_set, List.length_set]
    by_cases h1 : i = j
    · subst h1
      have : ¬ (i + 1 ≤ i ∧ i < i + 1 + n ∧ i < o.length) := by omega
      rw [if_neg this]
      by_cases h2 : i < o.length
      · have : i ≤ i ∧ i < i + (n + 1) ∧ i < o.length := ⟨le_refl _, by omega, h2⟩
        simp [h2, this]
      · simp [h2]
    · have e : (i + 1 ≤ j ∧ j < i + 1 + n ∧ j < o.length) ↔
          (i ≤ j ∧ j < i + (n + 1) ∧ j < o.length) := by omega
      simp only [e]
      have : ¬ (i = j ∧ i < o.length) := by omega
      simp [this]

/-- A descending loop whose word `k` reads positions `<= k` only may run in
place. -/
theorem forDown_set_alias (f : Nat → List Nat → Nat)
    (hf : ∀ k o o1, (∀ i, i ≤ k → o.getD i 0 = o1.getD i 0) → f k o = f k o1)
    (n : Nat) (o0 o : List Nat) (h : ∀ i, i < n → o.getD i 0 = o0.getD i 0) :
    forDown (fun k o => o.set k (f k o)) n o = forDown (fun k o => o.set k (f k o0)) n o := by
  induction n generalizing o with
  | zero => rfl
  | succ n ih =>
    simp only [forDown]
    rw [hf n o o0 (fun i hi => h i (by omega))]
    apply ih
    intro i hi
    rw [getD_set]
    have : ¬ (n = i ∧ n < o.length) := by omega
    rw [if_neg this]
    exact h i (by omega)

/-- An ascending loop whose word `k` reads positions `>= k` only may run in
place. -/
theorem forUp_set_alias (f : Nat → List Nat → Nat)
    (hf : ∀ k o o1, (∀ i, k ≤ i → o.getD i 0 = o1.getD i 0) → f k o = f k o1)
    (n i0 : Nat) (o0 o : List Nat) (h : ∀ i, i0 ≤ i → o.getD i 0 = o0.getD i 0) :
    forUp (fun k o => o.set k (f k o)) n i0 o = forUp (fun k o => o.set k (f k o0)) n i0 o := by
  induction n generalizing i0 o with
  | zero => rfl
  | succ n ih =>
    simp only [forUp]
    rw [hf i0 o o0 (fun i hi => h i hi)]
    apply ih
    intro i hi
    rw [getD_set]
    have : ¬ (i0 = i ∧ i0 < o.length) := by omega
    rw [if_neg this]
    exact h i (by omega)

/-! ## The words written by the shifts -/

theorem WLSHIFT_lt (w c : Nat) : WLSHIFT w c < 2 ^ WORD_BITS := by
  unfold WLSHIFT
  split
  · positivity
  · exact Nat.mod_lt _ (by positivity)

theorem WRSHIFT_lt (w c : Nat) (hw : w < 2 ^ WORD_BITS) : WRSHIFT w c < 2 ^ WORD_BITS := by
  unfold WRSHIFT
  split
  · positivity
  · rw [Nat.shiftRight_eq_div_pow]
    exact lt_of_le_of_lt (Nat.div_le_self _ _) hw

theorem lshift_word_lt (src : List Nat) (hsrc : ∀ i, src.getD i 0 < 2 ^ WORD_BITS)
    (iwlen : Nat) (dec : Int) (hshift lshift : Nat) (opos : Int) :
    lshift_word src iwlen dec hshift lshift opos < 2 ^ WORD_BITS := by
  unfold lshift_word
  dsimp only
  apply Nat.or_lt_two_pow
  · split
    · exact WLSHIFT_lt _ _
    · positivity
  · split
    · exact WRSHIFT_lt _ _ (hsrc _)
    · positivity

theorem rshift_word_lt (src : List Nat) (hsrc : ∀ i, src.getD i 0 < 2 ^ WORD_BITS)
    (iwlen : Nat) (dec : Int) (lshift hshift : Nat) (opos : Int) :
    rshift_word src iwlen dec lshift hshift opos < 2 ^ WORD_BITS := by
  unfold rshift_word
  dsimp only
  apply Nat.or_lt_two_pow
  · split
    · exact WLSHIFT_lt _ _
    · positivity
  · split
    · exact WRSHIFT_lt _ _ (hsrc _)
    · positivity

theorem testBit_word_ge (w j : Nat) (hw : w < 2 ^ WORD_BITS) (hj : WORD_BITS ≤ j) :
    w.testBit j = false :=
  Nat.testBit_lt_two_pow (lt_of_lt_of_le hw (Nat.pow_le_pow_right (by norm_num) hj))

/-- Bit `j` of the word the left shifts write at `opos` is bit
`WORD_BITS * opos + j - cnt` of the value of the input. -/
theorem lshift_word_testBit (src : List Nat) (hsrc : ∀ i, src.getD i 0 < 2 ^ WORD_BITS)
    (iwlen cnt opos j : Nat) (hj : j < WORD_BITS) (dec : Int) (hdec : dec = (cnt : Int) / 64) :
    (lshift_word src iwlen dec (cnt % WORD_BITS) (WORD_BITS - cnt % WORD_BITS) opos).testBit j =
      (decide (cnt ≤ WORD_BITS * opos + j) &&
        (nn_words_val src iwlen).testBit (WORD_BITS * opos + j - cnt)) := by
  rw [nn_words_val_testBit src iwlen (fun i _ => hsrc i)]
  have hW := WORD_BITS_eq
  unfold lshift_word WLSHIFT WRSHIFT
  simp only [Nat.testBit_lor]
  have hh : ¬ WORD_BITS ≤ cnt % WORD_BITS := by rw [hW]; omega
  rw [if_neg hh]
  by_cases hjh : cnt % WORD_BITS ≤ j
  · -- the bit comes from `hipart`
    have hlo : (if 0 ≤ (opos : Int) - dec - 1 ∧ (opos : Int) - dec - 1 < iwlen then
        (if WORD_BITS ≤ WORD_BITS - cnt % WORD_BITS then 0
          else src.getD ((opos : Int) - dec - 1).toNat 0 >>> (WORD_BITS - cnt % WORD_BITS))
        else 0).testBit j = false := by
      split_ifs
      · simp
      · rw [Nat.testBit_shiftRight]
        exact testBit_word_ge _ _ (hsrc _) (by rw [hW] at hjh ⊢; omega)
      · simp
    rw [hlo, Bool.or_false]
    by_cases hc : 0 ≤ (opos : Int) - dec ∧ (opos : Int) - dec < iwlen
    · rw [if_pos hc, Nat.testBit_mod_two_pow, Nat.testBit_shiftLeft]
      have e1 : ((opos : Int) - dec).toNat = (WORD_BITS * opos + j - cnt) / WORD_BITS := by
        rw [hW] at hjh hj ⊢; omega
      have e2 : j - cnt % WORD_BITS = (WORD_BITS * opos + j - cnt) % WORD_BITS := by
        rw [hW] at hjh hj ⊢; omega
      have e3 : cnt ≤ WORD_BITS * opos + j := by rw [hW] at hjh hj ⊢; omega
      have e4 : (WORD_BITS * opos + j - cnt) / WORD_BITS < iwlen := by
        rw [hW] at hjh hj ⊢; omega
      rw [e1, e2]
      simp [hj, hjh, e3, e4]
    · rw [if_neg hc]
      by_cases e3 : cnt ≤ WORD_BITS * opos + j
      · have e4 : ¬ (WORD_BITS * opos + j - cnt) / WORD_BITS < iwlen := by
          rw [hW] at hjh hj e3 ⊢; omega
        simp [e4]
      · simp [e3]
  · -- the bit comes from `lopart`
    have hhi : (if 0 ≤ (opos : Int) - dec ∧ (opos : Int) - dec < iwlen then
        (src.getD ((opos : Int) - dec).toNat 0 <<< (cnt % WORD_BITS)) % 2 ^ WORD_BITS
        else 0).testBit j = false := by
      split_ifs
      · rw [Nat.testBit_mod_two_pow, Nat.testBit_shiftLeft]
        simp [hjh]
      · simp
    rw [hhi, Bool.false_or]
    have hl : ¬ WORD_BITS ≤ WORD_BITS - cnt % WORD_BITS := by rw [hW] at hjh ⊢; omega
    rw [if_neg hl]
    by_cases hc : 0 ≤ (opos : Int) - dec - 1 ∧ (opos : Int) - dec - 1 < iwlen
    · rw [if_pos hc, Nat.testBit_shiftRight]
      have e1 : ((opos : Int) - dec - 1).toNat = (WORD_BITS * opos + j - cnt) / WORD_BITS := by
        rw [hW] at hjh hj ⊢; omega
      have e2 : WORD_BITS - cnt % WORD_BITS + j = (WORD_BITS * opos + j - cnt) % WORD_BITS := by
        rw [hW] at hjh hj ⊢; omega
      have e3 : cnt ≤ WORD_BITS * opos + j := by rw [hW] at hjh hj ⊢; omega
      have e4 : (WORD_BITS * opos + j - cnt) / WORD_BITS < iwlen := by
        rw [hW] at hjh hj ⊢; omega
      rw [e1, e2]
      simp [e3, e4]
    · rw [if_neg hc]
      by_cases e3 : cnt ≤ WORD_BITS * opos + j
      · have e4 : ¬ (WORD_BITS * opos + j - cnt) / WORD_BITS < iwlen := by
          rw [hW] at hjh hj e3 ⊢; omega
        simp [e4]
      · simp [e3]

end Libecc

namespace Libecc

/-- Bit `j` of the word the right shifts write at `opos` is bit
`WORD_BITS * opos + j + cnt` of the value of the input. -/
theorem rshift_word_testBit (src : List Nat) (hsrc : ∀ i, src.getD i 0 < 2 ^ WORD_BITS)
    (iwlen cnt opos j : Nat) (hj : j < WORD_BITS) (dec : Int) (hdec : dec = (cnt : Int) / 64) :
    (rshift_word src iwlen dec (cnt % WORD_BITS) (WORD_BITS - cnt % WORD_BITS) opos).testBit j =
      (nn_words_val src iwlen).testBit (WORD_BITS * opos + j + cnt) := by
  rw [nn_words_val_testBit src iwlen (fun i _ => hsrc i)]
  have hW := WORD_BITS_eq
  unfold rshift_word WLSHIFT WRSHIFT
  simp only [Nat.testBit_lor]
  have hh : ¬ WORD_BITS ≤ cnt % WORD_BITS := by rw [hW]; omega
  rw [if_neg hh]
  by_cases hjl : cnt % WORD_BITS + j < WORD_BITS
  · -- the bit comes from `lopart`
    have hhi : (if 0 ≤ (opos : Int) + dec + 1 ∧ (opos : Int) + dec + 1 < iwlen then
        (if WORD_BITS ≤ WORD_BITS - cnt % WORD_BITS then 0
          else (src.getD ((opos : Int) + dec + 1).toNat 0 <<< (WORD_BITS - cnt % WORD_BITS)) %
            2 ^ WORD_BITS)
        else 0).testBit j = false := by
      split_ifs
      · simp
      · rw [Nat.testBit_mod_two_pow, Nat.testBit_shiftLeft]
        have : ¬ j ≥ WORD_BITS - cnt % WORD_BITS := by rw [hW] at hjl ⊢; omega
        simp [this]
      · simp
    rw [hhi, Bool.false_or]
    have e1 : (WORD_BITS * opos + j + cnt) / WORD_BITS = ((opos : Int) + dec).toNat := by
      rw [hW] at hjl hj ⊢; omega
    have e2 : (WORD_BITS * opos + j + cnt) % WORD_BITS = cnt % WORD_BITS + j := by
      rw [hW] at hjl hj ⊢; omega
    rw [e1, e2]
    by_cases hc : 0 ≤ (opos : Int) + dec ∧ (opos : Int) + dec < iwlen
    · rw [if_pos hc, Nat.testBit_shiftRight]
      have e4 : ((opos : Int) + dec).toNat < iwlen := by omega
      simp [e4]
    · rw [if_neg hc]
      have e4 : ¬ ((opos : Int) + dec).toNat < iwlen := by omega
      simp [e4]
  · -- the bit comes from `hipart`
    have hlo : (if 0 ≤ (opos : Int) + dec ∧ (opos : Int) + dec < iwlen then
        src.getD ((opos : Int) + dec).toNat 0 >>> (cnt % WORD_BITS) else 0).testBit j = false := by
      split_ifs
      · rw [Nat.testBit_shiftRight]
        exact testBit_word_ge _ _ (hsrc _) (by omega)
      · simp
    rw [hlo, Bool.or_false]
    have hl : ¬ WORD_BITS ≤ WORD_BITS - cnt % WORD_BITS := by rw [hW] at hjl hj ⊢; omega
    rw [if_neg hl]
    have e1 : (WORD_BITS * opos + j + cnt) / WORD_BITS = ((opos : Int) + dec + 1).toNat := by
      rw [hW] at hjl hj ⊢; omega
    have e2 : (WORD_BITS * opos + j + cnt) % WORD_BITS = j - (WORD_BITS - cnt % WORD_BITS) := by
      rw [hW] at hjl hj ⊢; omega
    rw [e1, e2]
    by_cases hc : 0 ≤ (opos : Int) + dec + 1 ∧ (opos : Int) + dec + 1 < iwlen
    · rw [if_pos hc, Nat.testBit_mod_two_pow, Nat.testBit_shiftLeft]
      have e4 : ((opos : Int) + dec + 1).toNat < iwlen := by omega
      have e5 : j ≥ WORD_BITS - cnt % WORD_BITS := by rw [hW] at hjl hj ⊢; omega
      simp [e4, e5, hj]
    · rw [if_neg hc]
      have e4 : ¬ ((opos : Int) + dec + 1).toNat < iwlen := by omega
      simp [e4]

theorem lshift_word_congr (o o1 : List Nat) (iwlen : Nat) (dec : Int) (hdec : 0 ≤ dec)
    (hshift lshift k : Nat) (h : ∀ i, i ≤ k → o.getD i 0 = o1.getD i 0) :
    lshift_word o iwlen dec hshift lshift k = lshift_word o1 iwlen dec hshift lshift k := by
  unfold lshift_word
  dsimp only
  rw [h ((k : Int) - dec - 1).toNat (by omega), h ((k : Int) - dec).toNat (by omega)]

theorem rshift_word_congr (o o1 : List Nat) (iwlen : Nat) (dec : Int) (hdec : 0 ≤ dec)
    (lshift hshift k : Nat) (h : ∀ i, k ≤ i → o.getD i 0 = o1.getD i 0) :
    rshift_word o iwlen dec lshift hshift k = rshift_word o1 iwlen dec lshift hshift k := by
  unfold rshift_word
  dsimp only
  rw [h ((k : Int) + dec + 1).toNat (by omega), h ((k : Int) + dec).toNat (by omega)]

/-- Run in place, the loop of the left shifts writes the words it writes from
an untouched copy of the input. -/
theorem lshift_loop_alias (inv : List Nat) (iwlen : Nat) (dec : Int) (hdec : 0 ≤ dec)
    (hshift lshift owlen : Nat) (outv : List Nat) :
    lshift_loop true inv iwlen dec hshift lshift owlen outv =
      lshift_loop false outv iwlen dec hshift lshift owlen outv := by
  unfold lshift_loop
  simp only [if_true, Bool.false_eq_true, if_false]
  exact forDown_set_alias (fun k o => lshift_word o iwlen dec hshift lshift k)
    (fun k o o1 h => lshift_word_congr o o1 iwlen dec hdec hshift lshift k h) owlen outv outv
    (fun _ _ => rfl)

theorem rshift_loop_alias (inv : List Nat) (iwlen : Nat) (dec : Int) (hdec : 0 ≤ dec)
    (lshift hshift owlen : Nat) (outv : List Nat) :
    rshift_loop true inv iwlen dec lshift hshift owlen outv =
      rshift_loop false outv iwlen dec lshift hshift owlen outv := by
  unfold rshift_loop
  simp only [if_true, Bool.false_eq_true, if_false]
  exact forUp_set_alias (fun k o => rshift_word o iwlen dec lshift hshift k)
    (fun k o o1 h => rshift_word_congr o o1 iwlen dec hdec lshift hshift k h) owlen 0 outv outv
    (fun _ _ => rfl)

theorem lshift_loop_getD (inv : List Nat) (iwlen : Nat) (dec : Int)
    (hshift lshift owlen : Nat) (outv : List Nat) (j : Nat) :
    (lshift_loop false inv iwlen dec hshift lshift owlen outv).getD j 0 =
      if j < owlen ∧ j < outv.length then lshift_word inv iwlen dec hshift lshift j
      else outv.getD j 0 := by
  unfold lshift_loop
  simp only [Bool.false_eq_true, if_false]
  exact forDown_set_getD (fun k => lshift_word inv iwlen dec hshift lshift k) owlen outv j

theorem rshift_loop_getD (inv : List Nat) (iwlen : Nat) (dec : Int)
    (lshift hshift owlen : Nat) (outv : List Nat) (j : Nat) :
    (rshift_loop false inv iwlen dec lshift hshift owlen outv).getD j 0 =
      if j < owlen ∧ j < outv.length then rshift_word inv iwlen dec lshift hshift j
      else outv.getD j 0 := by
  unfold rshift_loop
  simp only [Bool.false_eq_true, if_false]
  rw [forUp_set_getD (fun k => rshift_word inv iwlen dec lshift hshift k) owlen 0 outv j]
  simp

theorem length_lshift_loop (al : Bool) (inv : List Nat) (iwlen : Nat) (dec : Int)
    (hshift lshift owlen : Nat) (outv : List Nat) :
    (lshift_loop al inv iwlen dec hshift lshift owlen outv).length = outv.length :=
  length_forDown_set _ owlen outv

theorem length_rshift_loop (al : Bool) (inv : List Nat) (iwlen : Nat) (dec : Int)
    (lshift hshift owlen : Nat) (outv : List Nat) :
    (rshift_loop al inv iwlen dec lshift hshift owlen outv).length = outv.length :=
  length_forUp_set _ owlen 0 outv

/-- A window of `owlen` words written by the left shift holds the shifted
value, truncated to the window. -/
theorem lshift_window_val (inv : List Nat) (hv : ∀ i, inv.getD i 0 < 2 ^ WORD_BITS)
    (iwlen cnt owlen : Nat) (r : List Nat)
    (hr : ∀ j, j < owlen → r.getD j 0 =
      lshift_word inv iwlen ((cnt : Int) / 64) (cnt % WORD_BITS) (WORD_BITS - cnt % WORD_BITS) j) :
    nn_words_val r owlen = (nn_words_val inv iwlen * 2 ^ cnt) % 2 ^ (WORD_BITS * owlen) := by
  have hW := WORD_BITS_eq
  have hrlt : ∀ i, i < owlen → r.getD i 0 < 2 ^ WORD_BITS := by
    intro i hi
    rw [hr i hi]
    exact lshift_word_lt inv hv _ _ _ _ _
  apply Nat.eq_of_testBit_eq
  intro k
  rw [nn_words_val_testBit r owlen hrlt, Nat.testBit_mod_two_pow, ← Nat.shiftLeft_eq,
    Nat.testBit_shiftLeft]
  by_cases hk : k / WORD_BITS < owlen
  · rw [hr _ hk,
      lshift_word_testBit inv hv iwlen cnt (k / WORD_BITS) (k % WORD_BITS)
        (Nat.mod_lt _ (by rw [hW]; norm_num)) _ rfl]
    have e1 : WORD_BITS * (k / WORD_BITS) + k % WORD_BITS = k := Nat.div_add_mod k WORD_BITS
    have e2 : k < WORD_BITS * owlen := by rw [hW] at hk ⊢; omega
    rw [e1]
    simp [hk, e2]
  · have e2 : ¬ k < WORD_BITS * owlen := by rw [hW] at hk ⊢; omega
    simp [hk, e2]

/-- A window of `owlen` words written by the right shift holds the shifted
value, truncated to the window. -/
theorem rshift_window_val (inv : List Nat) (hv : ∀ i, inv.getD i 0 < 2 ^ WORD_BITS)
    (iwlen cnt owlen : Nat) (r : List Nat)
    (hr : ∀ j, j < owlen → r.getD j 0 =
      rshift_word inv iwlen ((cnt : Int) / 64) (cnt % WORD_BITS) (WORD_BITS - cnt % WORD_BITS) j) :
    nn_words_val r owlen = (nn_words_val inv iwlen / 2 ^ cnt) % 2 ^ (WORD_BITS * owlen) := by
  have hW := WORD_BITS_eq
  have hrlt : ∀ i, i < owlen → r.getD i 0 < 2 ^ WORD_BITS := by
    intro i hi
    rw [hr i hi]
    exact rshift_word_lt inv hv _ _ _ _ _
  apply Nat.eq_of_testBit_eq
  intro k
  rw [nn_words_val_testBit r owlen hrlt, Nat.testBit_mod_two_pow, ← Nat.shiftRight_eq_div_pow,
    Nat.testBit_shiftRight]
  by_cases hk : k / WORD_BITS < owlen
  · rw [hr _ hk,
      rshift_word_testBit inv hv iwlen cnt (k / WORD_BITS) (k % WORD_BITS)
        (Nat.mod_lt _ (by rw [hW]; norm_num)) _ rfl]
    have e1 : WORD_BITS * (k / WORD_BITS) + k % WORD_BITS = k := Nat.div_add_mod k WORD_BITS
    have e2 : k < WORD_BITS * owlen := by rw [hW] at hk ⊢; omega
    rw [e1, Nat.add_comm k cnt]
    simp [hk, e2]
  · have e2 : ¬ k < WORD_BITS * owlen := by rw [hW] at hk ⊢; omega
    simp [hk, e2]

end Libecc

namespace Libecc

/-! ## The shifts -/

theorem nn_init_zero (N : Nat) :
    nn_init N 0 = some { val := List.replicate N 0, wlen := 0, magic := NN_MAGIC } := by
  simp [nn_init, u8, BYTE_LEN_WORDS, WORD_BITS]

theorem BIT_LEN_WORDS_max (N : Nat) : BIT_LEN_WORDS (NN_MAX_BIT_LEN N) = N := by
  unfold BIT_LEN_WORDS NN_MAX_BIT_LEN
  rw [WORD_BITS_eq]; omega

theorem BIT_LEN_WORDS_le (b n : Nat) (h : b ≤ WORD_BITS * n) : BIT_LEN_WORDS b ≤ n := by
  unfold BIT_LEN_WORDS
  rw [WORD_BITS_eq] at h ⊢; omega

theorem le_mul_BIT_LEN_WORDS (b : Nat) : b ≤ WORD_BITS * BIT_LEN_WORDS b := by
  unfold BIT_LEN_WORDS
  rw [WORD_BITS_eq]; omega

/-- Words above the bit length of a value are zero. -/
theorem word_eq_zero_of_val_lt (v : List Nat) (n m i : Nat)
    (hv : ∀ i, i < n → v.getD i 0 < 2 ^ WORD_BITS)
    (h : nn_words_val v n < 2 ^ (WORD_BITS * m)) (hmi : m ≤ i) (hin : i < n) :
    v.getD i 0 = 0 := by
  have hW := WORD_BITS_eq
  apply Nat.eq_of_testBit_eq
  intro j
  rw [Nat.zero_testBit]
  by_cases hj : j < WORD_BITS
  · have h1 := nn_words_val_testBit v n hv (WORD_BITS * i + j)
    have e1 : (WORD_BITS * i + j) / WORD_BITS = i := by rw [hW] at hj ⊢; omega
    have e2 : (WORD_BITS * i + j) % WORD_BITS = j := by rw [hW] at hj ⊢; omega
    rw [e1, e2] at h1
    have h2 : nn_words_val v n < 2 ^ (WORD_BITS * i + j) :=
      lt_of_lt_of_le h (Nat.pow_le_pow_right (by norm_num) (by rw [hW]; omega))
    rw [Nat.testBit_lt_two_pow h2] at h1
    simpa [hin] using h1.symm
  · exact testBit_word_ge _ _ (hv i hin) (by omega)

/-- The state `nn_lshift` leaves in `out`, in closed form. -/
theorem nn_lshift_eq (N : Nat) (hN : N ≤ 255) (aliased : Bool) (out inp : nn) (cnt : Nat)
    (h : nn_initialized N inp) :
    nn_lshift N aliased out inp cnt = some
      { val := lshift_loop false inp.val inp.wlen ((cnt : Int) / 64) (cnt % WORD_BITS)
          (WORD_BITS - cnt % WORD_BITS)
          (min (BIT_LEN_WORDS (cnt + nn_bitlen_loop inp.val inp.wlen)) N)
          (if aliased then inp.val else List.replicate N 0),
        wlen := min (BIT_LEN_WORDS (cnt + nn_bitlen_loop inp.val inp.wlen)) N,
        magic := NN_MAGIC } := by
  obtain ⟨hm, -, -, -, -⟩ := (nn_initialized_iff N inp).1 h
  have hu : u8 (min (BIT_LEN_WORDS (cnt + nn_bitlen_loop inp.val inp.wlen)) N) =
      min (BIT_LEN_WORDS (cnt + nn_bitlen_loop inp.val inp.wlen)) N := by
    unfold u8; omega
  have hd : ((cnt : Int) / (WORD_BITS : Nat)) = (cnt : Int) / 64 := rfl
  unfold nn_lshift
  simp only [h.1, nn_bitlen, nn_init_zero, BIT_LEN_WORDS_max, Bool.true_eq_false, if_false,
    if_true, Option.some_bind, hu]
  cases aliased
  · simp only [Bool.false_eq_true, if_false, Option.some_bind]
    rfl
  · simp only [if_true, Option.some_bind]
    rw [lshift_loop_alias _ _ _ (by rw [WORD_BITS_eq]; omega)]
    simp only [hm]
    rfl

end Libecc

namespace Libecc

theorem nn_bitlen_eq {N : Nat} {inp : nn} (h : nn_initialized N inp) :
    nn_bitlen N inp = some (nn_bitlen_loop inp.val inp.wlen) := by
  simp [nn_bitlen, h.1]

/-- The value of an initialized big number is below `2 ^ bitlen`. -/
theorem nn_val_lt_bitlen {N : Nat} {inp : nn} (h : nn_initialized N inp) :
    nn_val inp < 2 ^ nn_bitlen_loop inp.val inp.wlen := by
  obtain ⟨-, -, -, hw, -⟩ := (nn_initialized_iff N inp).1 h
  exact (nn_bitlen_loop_spec inp.val hw inp.wlen).2.1

/-- What `nn_lshift` computes: success, an initialized result of the adapted
length, holding the shifted value truncated to that length. -/
theorem nn_lshift_correct (N : Nat) (hN : N ≤ 255) (aliased : Bool) (out inp : nn) (cnt : Nat)
    (h : nn_initialized N inp) :
    ∃ r, nn_lshift N aliased out inp cnt = some r ∧ nn_initialized N r ∧
      r.wlen = min (BIT_LEN_WORDS (cnt + nn_bitlen_loop inp.val inp.wlen)) N ∧
      nn_val r = (nn_val inp * 2 ^ cnt) % 2 ^ (WORD_BITS * r.wlen) := by
  obtain ⟨hm, hwl, hlen, hw, hz⟩ := (nn_initialized_iff N inp).1 h
  have hW := WORD_BITS_eq
  refine ⟨_, nn_lshift_eq N hN aliased out inp cnt h, ?_, rfl, ?_⟩
  · rw [nn_initialized_iff]
    have hl0 : (if aliased then inp.val else List.replicate N 0).length = N := by
      cases aliased <;> simp [hlen]
    refine ⟨rfl, Nat.min_le_right _ _, ?_, ?_, ?_⟩
    · simp only [length_lshift_loop]; exact hl0
    · intro i
      rw [lshift_loop_getD]
      by_cases hc : i < min (BIT_LEN_WORDS (cnt + nn_bitlen_loop inp.val inp.wlen)) N ∧
          i < (if aliased then inp.val else List.replicate N 0).length
      · rw [if_pos hc]
        exact lshift_word_lt _ hw _ _ _ _ _
      · rw [if_neg hc]
        cases aliased
        · simp only [Bool.false_eq_true, if_false, getD_replicate_zero]; positivity
        · exact hw i
    · intro i hi
      simp only at hi
      simp only [lshift_loop_getD]
      have : ¬ (i < min (BIT_LEN_WORDS (cnt + nn_bitlen_loop inp.val inp.wlen)) N ∧
          i < (if aliased then inp.val else List.replicate N 0).length) := by omega
      rw [if_neg this]
      cases aliased
      · simp only [Bool.false_eq_true, if_false, getD_replicate_zero]
      · simp only [if_true]
        by_cases hiN : N ≤ i
        · exact getD_eq_zero_of_length_le _ _ (by omega)
        · by_cases hiw : inp.wlen ≤ i
          · exact hz i hiw
          · have hb : BIT_LEN_WORDS (cnt + nn_bitlen_loop inp.val inp.wlen) ≤ i := by
              rw [Nat.min_def] at hi; split at hi <;> omega
            have h1 := (nn_bitlen_loop_spec inp.val hw inp.wlen).2.1
            have h2 := le_mul_BIT_LEN_WORDS (cnt + nn_bitlen_loop inp.val inp.wlen)
            refine word_eq_zero_of_val_lt inp.val inp.wlen
              (BIT_LEN_WORDS (cnt + nn_bitlen_loop inp.val inp.wlen)) i (fun i _ => hw i)
              (lt_of_lt_of_le h1 (Nat.pow_le_pow_right (by norm_num) (by omega))) hb (by omega)
  · unfold nn_val
    simp only
    apply lshift_window_val inp.val hw
    intro j hj
    rw [lshift_loop_getD]
    have hl0 : (if aliased then inp.val else List.replicate N 0).length = N := by
      cases aliased <;> simp [hlen]
    have : j < min (BIT_LEN_WORDS (cnt + nn_bitlen_loop inp.val inp.wlen)) N ∧
        j < (if aliased then inp.val else List.replicate N 0).length := by
      rw [hl0]; exact ⟨hj, by omega⟩
    rw [if_pos this]

/-- When the shifted value fits the capacity no bit is lost. -/
theorem nn_lshift_exact (N : Nat) (inp : nn) (cnt : Nat) (h : nn_initialized N inp)
    (hfit : cnt + nn_bitlen_loop inp.val inp.wlen ≤ NN_MAX_BIT_LEN N) :
    (nn_val inp * 2 ^ cnt) %
      2 ^ (WORD_BITS * min (BIT_LEN_WORDS (cnt + nn_bitlen_loop inp.val inp.wlen)) N) =
      nn_val inp * 2 ^ cnt := by
  apply Nat.mod_eq_of_lt
  have h1 := nn_val_lt_bitlen h
  have h2 : BIT_LEN_WORDS (cnt + nn_bitlen_loop inp.val inp.wlen) ≤ N :=
    BIT_LEN_WORDS_le _ _ hfit
  rw [Nat.min_eq_left h2]
  have h3 := le_mul_BIT_LEN_WORDS (cnt + nn_bitlen_loop inp.val inp.wlen)
  calc nn_val inp * 2 ^ cnt < 2 ^ nn_bitlen_loop inp.val inp.wlen * 2 ^ cnt :=
        Nat.mul_lt_mul_of_pos_right h1 (by positivity)
    _ = 2 ^ (cnt + nn_bitlen_loop inp.val inp.wlen) := by rw [← pow_add, Nat.add_comm]
    _ ≤ _ := Nat.pow_le_pow_right (by norm_num) h3

end Libecc

namespace Libecc

/-- The state `nn_rshift` leaves in `out`, in closed form. -/
theorem nn_rshift_eq (N : Nat) (hN : N ≤ 255) (aliased : Bool) (out inp : nn) (cnt : Nat)
    (h : nn_initialized N inp) :
    nn_rshift N aliased out inp cnt = some
      { val := forUp (fun opos o => o.set opos 0)
          (N - (if cnt > nn_bitlen_loop inp.val inp.wlen then 0
            else BIT_LEN_WORDS (nn_bitlen_loop inp.val inp.wlen - cnt)))
          (if cnt > nn_bitlen_loop inp.val inp.wlen then 0
            else BIT_LEN_WORDS (nn_bitlen_loop inp.val inp.wlen - cnt))
          (rshift_loop false inp.val inp.wlen ((cnt : Int) / 64) (cnt % WORD_BITS)
            (WORD_BITS - cnt % WORD_BITS)
            (if cnt > nn_bitlen_loop inp.val inp.wlen then 0
              else BIT_LEN_WORDS (nn_bitlen_loop inp.val inp.wlen - cnt))
            (if aliased then inp.val else List.replicate N 0)),
        wlen := if cnt > nn_bitlen_loop inp.val inp.wlen then 0
            else BIT_LEN_WORDS (nn_bitlen_loop inp.val inp.wlen - cnt),
        magic := NN_MAGIC } := by
  obtain ⟨hm, hwl, -, hw, -⟩ := (nn_initialized_iff N inp).1 h
  have hb := (nn_bitlen_loop_spec inp.val hw inp.wlen).1
  have hu : u8 (BIT_LEN_WORDS (nn_bitlen_loop inp.val inp.wlen - cnt)) =
      BIT_LEN_WORDS (nn_bitlen_loop inp.val inp.wlen - cnt) := by
    have := BIT_LEN_WORDS_le (nn_bitlen_loop inp.val inp.wlen - cnt) inp.wlen (by omega)
    unfold u8; omega
  unfold nn_rshift
  simp only [h.1, nn_bitlen, nn_init_zero, Bool.true_eq_false, if_false,
    if_true, Option.some_bind, hu]
  cases aliased
  · simp only [Bool.false_eq_true, if_false, Option.some_bind]
    rfl
  · simp only [if_true, Option.some_bind]
    rw [rshift_loop_alias _ _ _ (by rw [WORD_BITS_eq]; omega)]
    simp only [hm]
    rfl

/-- The words `nn_rshift` leaves in `out`: the shifted words below the new
length, zero above. -/
theorem rshift_result_getD (N : Nat) (inv o0 : List Nat) (ho0 : o0.length = N)
    (iwlen : Nat) (dec : Int) (lshift hshift owlen : Nat) (ho : owlen ≤ N) (j : Nat) :
    (forUp (fun opos o => o.set opos 0) (N - owlen) owlen
      (rshift_loop false inv iwlen dec lshift hshift owlen o0)).getD j 0 =
      if j < owlen then rshift_word inv iwlen dec lshift hshift j else 0 := by
  rw [forUp_set_getD (fun _ => 0), length_rshift_loop, rshift_loop_getD, ho0]
  by_cases h1 : j < owlen
  · have : ¬ (owlen ≤ j ∧ j < owlen + (N - owlen) ∧ j < N) := by omega
    rw [if_neg this, if_pos ⟨h1, by omega⟩, if_pos h1]
  · rw [if_neg h1]
    by_cases h2 : j < N
    · rw [if_pos ⟨by omega, by omega, h2⟩]
    · have : ¬ (owlen ≤ j ∧ j < owlen + (N - owlen) ∧ j < N) := by omega
      rw [if_neg this, if_neg (by omega)]
      exact getD_eq_zero_of_length_le _ _ (by omega)

/-- What `nn_rshift` computes: success, an initialized result of the adapted
length, holding exactly the shifted value. -/
theorem nn_rshift_correct (N : Nat) (hN : N ≤ 255) (aliased : Bool) (out inp : nn) (cnt : Nat)
    (h : nn_initialized N inp) :
    ∃ r, nn_rshift N aliased out inp cnt = some r ∧ nn_initialized N r ∧
      r.wlen = (if cnt > nn_bitlen_loop inp.val inp.wlen then 0
        else BIT_LEN_WORDS (nn_bitlen_loop inp.val inp.wlen - cnt)) ∧
      nn_val r = nn_val inp / 2 ^ cnt := by
  obtain ⟨hm, hwl, hlen, hw, hz⟩ := (nn_initialized_iff N inp).1 h
  have hW := WORD_BITS_eq
  obtain ⟨hb, hlt, -⟩ := nn_bitlen_loop_spec inp.val hw inp.wlen
  have hl0 : (if aliased then inp.val else List.replicate N 0).length = N := by
    cases aliased <;> simp [hlen]
  have ho : (if cnt > nn_bitlen_loop inp.val inp.wlen then 0
      else BIT_LEN_WORDS (nn_bitlen_loop inp.val inp.wlen - cnt)) ≤ N := by
    split
    · omega
    · have := BIT_LEN_WORDS_le (nn_bitlen_loop inp.val inp.wlen - cnt) inp.wlen (by omega)
      omega
  refine ⟨_, nn_rshift_eq N hN aliased out inp cnt h, ?_, rfl, ?_⟩
  · rw [nn_initialized_iff]
    refine ⟨rfl, ho, ?_, ?_, ?_⟩
    · simp only [length_forUp_set, length_rshift_loop]; exact hl0
    · intro i
      simp only
      rw [rshift_result_getD N _ _ hl0 _ _ _ _ _ ho]
      by_cases hc2 : i < (if cnt > nn_bitlen_loop inp.val inp.wlen then 0
          else BIT_LEN_WORDS (nn_bitlen_loop inp.val inp.wlen - cnt))
      · rw [if_pos hc2]
        exact rshift_word_lt _ hw _ _ _ _ _
      · rw [if_neg hc2]
        positivity
    · intro i hi
      simp only at hi ⊢
      rw [rshift_result_getD N _ _ hl0 _ _ _ _ _ ho, if_neg (by omega)]
  · unfold nn_val
    simp only
    rw [rshift_window_val inp.val hw inp.wlen cnt _ _
      (fun j hj => by rw [rshift_result_getD N _ _ hl0 _ _ _ _ _ ho, if_pos hj])]
    apply Nat.mod_eq_of_lt
    by_cases hc : cnt > nn_bitlen_loop inp.val inp.wlen
    · rw [if_pos hc]
      have : nn_words_val inp.val inp.wlen < 2 ^ cnt :=
        lt_of_lt_of_le hlt (Nat.pow_le_pow_right (by norm_num) (by omega))
      rw [Nat.div_eq_of_lt this]
      positivity
    · rw [if_neg hc]
      have h3 := le_mul_BIT_LEN_WORDS (nn_bitlen_loop inp.val inp.wlen - cnt)
      have h4 : nn_words_val inp.val inp.wlen / 2 ^ cnt <
          2 ^ (nn_bitlen_loop inp.val inp.wlen - cnt) := by
        rw [Nat.div_lt_iff_lt_mul (by positivity), ← pow_add]
        have : nn_bitlen_loop inp.val inp.wlen - cnt + cnt = nn_bitlen_loop inp.val inp.wlen := by
          omega
        rw [this]; exact hlt
      exact lt_of_lt_of_le h4 (Nat.pow_le_pow_right (by norm_num) h3)

end Libecc

namespace Libecc

/-- C4: for an initialized `in` and any count, `nn_lshift` succeeds and leaves
in `out` the value `val(in) * 2^cnt` modulo `2^(WORD_BITS * out.wlen)`; when
`cnt + bitlen(in) <= NN_MAX_BIT_LEN` the value is exactly `val(in) * 2^cnt`.
Counts that are multiples of `WORD_BITS` are included. -/
theorem nn_lshift_value (N : Nat) (hN : N ≤ 255) (aliased : Bool) (out inp : nn) (cnt : Nat)
    (h : nn_initialized N inp) :
    ∃ r bl, nn_lshift N aliased out inp cnt = some r ∧ nn_bitlen N inp = some bl ∧
      nn_val r = (nn_val inp * 2 ^ cnt) % 2 ^ (WORD_BITS * r.wlen) ∧
      (cnt + bl ≤ NN_MAX_BIT_LEN N → nn_val r = nn_val inp * 2 ^ cnt) := by
  obtain ⟨r, hr, -, hwl, hval⟩ := nn_lshift_correct N hN aliased out inp cnt h
  refine ⟨r, _, hr, nn_bitlen_eq h, hval, fun hfit => ?_⟩
  rw [hval, hwl]
  exact nn_lshift_exact N inp cnt h hfit

/-- C4, the scenario of the specification: `0b1011` shifted left by 2 is 44. -/
theorem nn_lshift_value_witness :
    nn_initialized 4 (nn_of_nat 4 1 0b1011) ∧
    (nn_lshift 4 false nn_none (nn_of_nat 4 1 0b1011) 2).map nn_val = some 44 ∧
    ∃ r bl, nn_lshift 4 false nn_none (nn_of_nat 4 1 0b1011) 2 = some r ∧
      nn_bitlen 4 (nn_of_nat 4 1 0b1011) = some bl ∧
      nn_val r = (nn_val (nn_of_nat 4 1 0b1011) * 2 ^ 2) % 2 ^ (WORD_BITS * r.wlen) ∧
      (2 + bl ≤ NN_MAX_BIT_LEN 4 → nn_val r = nn_val (nn_of_nat 4 1 0b1011) * 2 ^ 2) :=
  ⟨by decide, by decide,
    nn_lshift_value 4 (by decide) false nn_none (nn_of_nat 4 1 0b1011) 2 (by decide)⟩

/-- C5: for an initialized `in` and any count, `nn_rshift` succeeds and leaves
in `out` exactly `floor(val(in) / 2^cnt)`, with
`out.wlen = ceil((bitlen(in) - cnt) / WORD_BITS)` when `cnt <= bitlen(in)` and 0
otherwise, every word of `out` at an index `>= out.wlen` being zero. -/
theorem nn_rshift_value (N : Nat) (hN : N ≤ 255) (aliased : Bool) (out inp : nn) (cnt : Nat)
    (h : nn_initialized N inp) :
    ∃ r bl, nn_rshift N aliased out inp cnt = some r ∧ nn_bitlen N inp = some bl ∧
      nn_val r = nn_val inp / 2 ^ cnt ∧
      r.wlen = (if cnt ≤ bl then (bl - cnt + WORD_BITS - 1) / WORD_BITS else 0) ∧
      (∀ i, r.wlen ≤ i → i < N → r.val.getD i 0 = 0) ∧ r.val.length = N := by
  obtain ⟨r, hr, hinit, hwl, hval⟩ := nn_rshift_correct N hN aliased out inp cnt h
  obtain ⟨-, -, hlen, -, hz⟩ := (nn_initialized_iff N r).1 hinit
  refine ⟨r, _, hr, nn_bitlen_eq h, hval, ?_, fun i hi _ => hz i hi, hlen⟩
  rw [hwl]
  by_cases hc : cnt > nn_bitlen_loop inp.val inp.wlen
  · rw [if_pos hc, if_neg (by omega)]
  · rw [if_neg hc, if_pos (by omega)]
    rfl

/-- C5 at a concrete input: a two-word value shifted right by 65. -/
theorem nn_rshift_value_witness :
    nn_initialized 4 (nn_of_nat 4 2 (2 ^ 70 + 5)) ∧
    ∃ r bl, nn_rshift 4 true nn_none (nn_of_nat 4 2 (2 ^ 70 + 5)) 65 = some r ∧
      nn_bitlen 4 (nn_of_nat 4 2 (2 ^ 70 + 5)) = some bl ∧
      nn_val r = nn_val (nn_of_nat 4 2 (2 ^ 70 + 5)) / 2 ^ 65 ∧
      r.wlen = (if 65 ≤ bl then (bl - 65 + WORD_BITS - 1) / WORD_BITS else 0) ∧
      (∀ i, r.wlen ≤ i → i < 4 → r.val.getD i 0 = 0) ∧ r.val.length = 4 :=
  ⟨by decide, nn_rshift_value 4 (by decide) true nn_none (nn_of_nat 4 2 (2 ^ 70 + 5)) 65
    (by decide)⟩

/-- C6: the fixed-length shifts use `out.wlen` as a hard window. With `o` the
output object on entry (`in` itself when the call is in place), after
`nn_lshift_fixedlen` the words `out.val[0..o.wlen)` hold
`(val(in) * 2^cnt) mod 2^(WORD_BITS * o.wlen)`, after `nn_rshift_fixedlen` they
hold `floor(val(in) / 2^cnt) mod 2^(WORD_BITS * o.wlen)`, and in both cases
`out.wlen` and every word at an index `>= o.wlen` are unchanged. -/
theorem nn_shift_fixedlen_window (N : Nat) (aliased : Bool) (out inp : nn) (cnt : Nat)
    (hin : nn_initialized N inp) (hout : nn_initialized N out) :
    (∃ r, nn_lshift_fixedlen N aliased out inp cnt = some r ∧
      r.wlen = (if aliased then inp else out).wlen ∧
      nn_val r = (nn_val inp * 2 ^ cnt) % 2 ^ (WORD_BITS * (if aliased then inp else out).wlen) ∧
      r.val.length = (if aliased then inp else out).val.length ∧
      ∀ i, (if aliased then inp else out).wlen ≤ i →
        r.val.getD i 0 = (if aliased then inp else out).val.getD i 0) ∧
    (∃ r, nn_rshift_fixedlen N aliased out inp cnt = some r ∧
      r.wlen = (if aliased then inp else out).wlen ∧
      nn_val r = (nn_val inp / 2 ^ cnt) % 2 ^ (WORD_BITS * (if aliased then inp else out).wlen) ∧
      r.val.length = (if aliased then inp else out).val.length ∧
      ∀ i, (if aliased then inp else out).wlen ≤ i →
        r.val.getD i 0 = (if aliased then inp else out).val.getD i 0) := by
  obtain ⟨-, -, -, hw, -⟩ := (nn_initialized_iff N inp).1 hin
  have ho : nn_initialized N (if aliased then inp else out) := by
    cases aliased
    · exact hout
    · exact hin
  obtain ⟨-, hol, holen, -, -⟩ := (nn_initialized_iff N (if aliased then inp else out)).1 ho
  have hdec : (0 : Int) ≤ (cnt : Int) / (WORD_BITS : Nat) := by rw [WORD_BITS_eq]; omega
  have hsrc : lshift_loop aliased inp.val inp.wlen ((cnt : Int) / (WORD_BITS : Nat))
      (cnt % WORD_BITS) (WORD_BITS - cnt % WORD_BITS) (if aliased then inp else out).wlen
      (if aliased then inp else out).val =
      lshift_loop false inp.val inp.wlen ((cnt : Int) / 64) (cnt % WORD_BITS)
      (WORD_BITS - cnt % WORD_BITS) (if aliased then inp else out).wlen
      (if aliased then inp else out).val := by
    cases aliased
    · rfl
    · simp only [if_true]
      rw [lshift_loop_alias _ _ _ hdec]
      rfl
  have hsrc2 : rshift_loop aliased inp.val inp.wlen ((cnt : Int) / (WORD_BITS : Nat))
      (cnt % WORD_BITS) (WORD_BITS - cnt % WORD_BITS) (if aliased then inp else out).wlen
      (if aliased then inp else out).val =
      rshift_loop false inp.val inp.wlen ((cnt : Int) / 64) (cnt % WORD_BITS)
      (WORD_BITS - cnt % WORD_BITS) (if aliased then inp else out).wlen
      (if aliased then inp else out).val := by
    cases aliased
    · rfl
    · simp only [if_true]
      rw [rshift_loop_alias _ _ _ hdec]
      rfl
  constructor
  · refine ⟨{ (if aliased then inp else out) with
      val := lshift_loop false inp.val inp.wlen ((cnt : Int) / 64) (cnt % WORD_BITS)
        (WORD_BITS - cnt % WORD_BITS) (if aliased then inp else out).wlen
        (if aliased then inp else out).val }, ?_, rfl, ?_, ?_, ?_⟩
    · unfold nn_lshift_fixedlen
      simp only [hin.1, ho.1, Bool.true_eq_false, if_false]
      rw [hsrc]
    · unfold nn_val
      simp only
      apply lshift_window_val inp.val hw
      intro j hj
      rw [lshift_loop_getD, if_pos ⟨hj, by omega⟩]
    · simp only [length_lshift_loop]
    · intro i hi
      simp only
      rw [lshift_loop_getD, if_neg (by omega)]
  · refine ⟨{ (if aliased then inp else out) with
      val := rshift_loop false inp.val inp.wlen ((cnt : Int) / 64) (cnt % WORD_BITS)
        (WORD_BITS - cnt % WORD_BITS) (if aliased then inp else out).wlen
        (if aliased then inp else out).val }, ?_, rfl, ?_, ?_, ?_⟩
    · unfold nn_rshift_fixedlen
      simp only [hin.1, ho.1, Bool.true_eq_false, if_false]
      rw [hsrc2]
    · unfold nn_val
      simp only
      apply rshift_window_val inp.val hw
      intro j hj
      rw [rshift_loop_getD, if_pos ⟨hj, by omega⟩]
    · simp only [length_rshift_loop]
    · intro i hi
      simp only
      rw [rshift_loop_getD, if_neg (by omega)]

end Libecc

namespace Libecc

/-- C6 at a concrete input: a two-word window, shifts by 3, not in place. -/
theorem nn_shift_fixedlen_window_witness :
    nn_initialized 4 (nn_of_nat 4 3 (2 ^ 130 + 9)) ∧ nn_initialized 4 (nn_of_nat 4 2 77) ∧
    (∃ r, nn_lshift_fixedlen 4 false (nn_of_nat 4 2 77) (nn_of_nat 4 3 (2 ^ 130 + 9)) 3 = some r ∧
      r.wlen = (if false then nn_of_nat 4 3 (2 ^ 130 + 9) else nn_of_nat 4 2 77).wlen ∧
      nn_val r = (nn_val (nn_of_nat 4 3 (2 ^ 130 + 9)) * 2 ^ 3) %
        2 ^ (WORD_BITS * (if false then nn_of_nat 4 3 (2 ^ 130 + 9) else nn_of_nat 4 2 77).wlen) ∧
      r.val.length = (if false then nn_of_nat 4 3 (2 ^ 130 + 9) else nn_of_nat 4 2 77).val.length ∧
      ∀ i, (if false then nn_of_nat 4 3 (2 ^ 130 + 9) else nn_of_nat 4 2 77).wlen ≤ i →
        r.val.getD i 0 =
          (if false then nn_of_nat 4 3 (2 ^ 130 + 9) else nn_of_nat 4 2 77).val.getD i 0) ∧
    (∃ r, nn_rshift_fixedlen 4 false (nn_of_nat 4 2 77) (nn_of_nat 4 3 (2 ^ 130 + 9)) 3 = some r ∧
      r.wlen = (if false then nn_of_nat 4 3 (2 ^ 130 + 9) else nn_of_nat 4 2 77).wlen ∧
      nn_val r = (nn_val (nn_of_nat 4 3 (2 ^ 130 + 9)) / 2 ^ 3) %
        2 ^ (WORD_BITS * (if false then nn_of_nat 4 3 (2 ^ 130 + 9) else nn_of_nat 4 2 77).wlen) ∧
      r.val.length = (if false then nn_of_nat 4 3 (2 ^ 130 + 9) else nn_of_nat 4 2 77).val.length ∧
      ∀ i, (if false then nn_of_nat 4 3 (2 ^ 130 + 9) else nn_of_nat 4 2 77).wlen ≤ i →
        r.val.getD i 0 =
          (if false then nn_of_nat 4 3 (2 ^ 130 + 9) else nn_of_nat 4 2 77).val.getD i 0) :=
  ⟨by decide, by decide,
    nn_shift_fixedlen_window 4 false (nn_of_nat 4 2 77) (nn_of_nat 4 3 (2 ^ 130 + 9)) 3
      (by decide) (by decide)⟩

/-- C7: for an initialized `x` and a count `c < NN_MAX_BIT_LEN` with
`c + bitlen(x) <= NN_MAX_BIT_LEN`, `nn_rshift` by `c` of the result of
`nn_lshift(x, c)` succeeds and has the value of `x`. -/
theorem nn_shift_roundtrip (N : Nat) (hN : N ≤ 255) (a1 a2 : Bool) (o1 o2 x : nn) (c bl : Nat)
    (hx : nn_initialized N x) (hbl : nn_bitlen N x = some bl) (_hc : c < NN_MAX_BIT_LEN N)
    (hfit : c + bl ≤ NN_MAX_BIT_LEN N) :
    ∃ y z, nn_lshift N a1 o1 x c = some y ∧ nn_rshift N a2 o2 y c = some z ∧
      nn_val z = nn_val x := by
  rw [nn_bitlen_eq hx] at hbl
  cases hbl
  obtain ⟨y, hy, hyinit, hywl, hyval⟩ := nn_lshift_correct N hN a1 o1 x c hx
  obtain ⟨z, hz, -, -, hzval⟩ := nn_rshift_correct N hN a2 o2 y c hyinit
  refine ⟨y, z, hy, hz, ?_⟩
  rw [hzval, hyval, hywl, nn_lshift_exact N x c hx hfit]
  exact Nat.mul_div_cancel _ (by positivity)

/-- C7 at a concrete input: a two-word value moved up by 70 bits and back. -/
theorem nn_shift_roundtrip_witness :
    nn_initialized 4 (nn_of_nat 4 2 (2 ^ 100 + 3)) ∧
    nn_bitlen 4 (nn_of_nat 4 2 (2 ^ 100 + 3)) = some 101 ∧ 70 < NN_MAX_BIT_LEN 4 ∧
    70 + 101 ≤ NN_MAX_BIT_LEN 4 ∧
    ∃ y z, nn_lshift 4 true nn_none (nn_of_nat 4 2 (2 ^ 100 + 3)) 70 = some y ∧
      nn_rshift 4 true nn_none y 70 = some z ∧ nn_val z = nn_val (nn_of_nat 4 2 (2 ^ 100 + 3)) :=
  ⟨by decide, by decide, by decide, by decide,
    nn_shift_roundtrip 4 (by decide) true true nn_none nn_none (nn_of_nat 4 2 (2 ^ 100 + 3)) 70 101
      (by decide) (by decide) (by decide) (by decide)⟩

end Libecc

namespace Libecc

/-! ## Bitwise operations -/

/-- The state `nn_xor`, `nn_or` and `nn_and` leave in `A`: the length is the
longer of the two input lengths and the words below it are combined one by one.
`A0` is the object `A` after the aliasing test (`B`, `C`, or a fresh zero). -/
theorem nn_bitop_correct (op : Nat → Nat → Nat) (N : Nat) (aB aC : Bool) (A B C : nn)
    (hB : nn_initialized N B) (hC : nn_initialized N C)
    (hBC : aB = true → aC = true → B = C) :
    ∃ r, nn_bitop op N aB aC A B C = some r ∧ r.magic = NN_MAGIC ∧ r.val.length = N ∧
      r.wlen = (if C.wlen < B.wlen then B.wlen else C.wlen) ∧
      ∀ i, r.val.getD i 0 =
        if i < (if C.wlen < B.wlen then B.wlen else C.wlen) then
          op (B.val.getD i 0) (C.val.getD i 0)
        else (if aB then B else if aC then C else
          { val := List.replicate N 0, wlen := 0, magic := NN_MAGIC }).val.getD i 0 := by
  obtain ⟨hBm, hBw, hBl, -, -⟩ := (nn_initialized_iff N B).1 hB
  obtain ⟨hCm, hCw, hCl, -, -⟩ := (nn_initialized_iff N C).1 hC
  have hA0 : (if aB then some B else if aC then some C else nn_init N 0) =
      some (if aB then B else if aC then C else
        { val := List.replicate N 0, wlen := 0, magic := NN_MAGIC }) := by
    cases aB <;> cases aC <;> simp [nn_init_zero]
  have hl : (if aB then B else if aC then C else
      ({ val := List.replicate N 0, wlen := 0, magic := NN_MAGIC } : nn)).val.length = N := by
    cases aB <;> cases aC <;> simp [hBl, hCl]
  have hmg : (if aB then B else if aC then C else
      ({ val := List.replicate N 0, wlen := 0, magic := NN_MAGIC } : nn)).magic = NN_MAGIC := by
    cases aB <;> cases aC <;> simp [hBm, hCm]
  have hwl : (if C.wlen < B.wlen then B.wlen else C.wlen) ≤ N := by split <;> omega
  have hloop : bitop_loop op aB aC B.val C.val (if C.wlen < B.wlen then B.wlen else C.wlen)
      (if aB then B else if aC then C else
        { val := List.replicate N 0, wlen := 0, magic := NN_MAGIC }).val =
      forUp (fun i a => a.set i (op (B.val.getD i 0) (C.val.getD i 0)))
        (if C.wlen < B.wlen then B.wlen else C.wlen) 0
        (if aB then B else if aC then C else
          { val := List.replicate N 0, wlen := 0, magic := NN_MAGIC }).val := by
    unfold bitop_loop
    rw [forUp_set_alias
      (fun i a => op ((if aB then a else B.val).getD i 0) ((if aC then a else C.val).getD i 0))
      (fun k o o1 h => by
        have hk := h k (le_refl k)
        cases aB <;> cases aC <;> simp only [↓reduceIte, Bool.false_eq_true, hk])
      _ 0 _ _ (fun _ _ => rfl)]
    congr 1
    funext i a
    congr 1
    cases aB
    · cases aC
      · rfl
      · simp
    · cases aC
      · simp
      · simp [hBC rfl rfl]
  refine ⟨{ (if aB then B else if aC then C else
      ({ val := List.replicate N 0, wlen := 0, magic := NN_MAGIC } : nn)) with
      wlen := (if C.wlen < B.wlen then B.wlen else C.wlen),
      val := forUp (fun i a => a.set i (op (B.val.getD i 0) (C.val.getD i 0)))
        (if C.wlen < B.wlen then B.wlen else C.wlen) 0
        (if aB then B else if aC then C else
          { val := List.replicate N 0, wlen := 0, magic := NN_MAGIC }).val }, ?_, hmg, ?_, rfl, ?_⟩
  · unfold nn_bitop
    simp only [hB.1, hC.1, Bool.true_eq_false, if_false, hA0, Option.some_bind, hloop]
  · simp only [length_forUp_set]; exact hl
  · intro i
    simp only
    rw [forUp_set_getD (fun i => op (B.val.getD i 0) (C.val.getD i 0)), hl]
    by_cases hi : i < (if C.wlen < B.wlen then B.wlen else C.wlen)
    · rw [if_pos ⟨by omega, by omega, by omega⟩, if_pos hi]
    · rw [if_neg (by omega), if_neg hi]

theorem nn_words_val_zero (v : List Nat) (n : Nat) (h : ∀ i, i < n → v.getD i 0 = 0) :
    nn_words_val v n = 0 :=
  nn_words_val_zero_ext v 0 n (Nat.zero_le _) (fun i _ hi => h i hi)

theorem nn_words_val_all_ones (v : List Nat) (n : Nat)
    (h : ∀ i, i < n → v.getD i 0 = 2 ^ WORD_BITS - 1) :
    nn_words_val v n = 2 ^ (WORD_BITS * n) - 1 := by
  induction n with
  | zero => simp [nn_words_val]
  | succ n ih =>
    simp only [nn_words_val]
    rw [ih (fun i hi => h i (by omega)), h n (by omega)]
    have h2 : 2 ^ (WORD_BITS * (n + 1)) = 2 ^ WORD_BITS * 2 ^ (WORD_BITS * n) := by
      rw [← pow_add]; congr 1; ring
    rw [h2]
    have h3 : 0 < 2 ^ (WORD_BITS * n) := by positivity
    have h4 : 0 < 2 ^ WORD_BITS := by positivity
    generalize 2 ^ (WORD_BITS * n) = P at h3 ⊢
    generalize 2 ^ WORD_BITS = Q at h4 ⊢
    obtain ⟨q, rfl⟩ : ∃ q, Q = q + 1 := ⟨Q - 1, by omega⟩
    simp only [Nat.add_sub_cancel]
    have : (q + 1) * P = q * P + P := by ring
    omega

/-- The state `nn_not` leaves in `A`. -/
theorem nn_not_correct (N : Nat) (aliased : Bool) (A B : nn) (hB : nn_initialized N B) :
    ∃ r, nn_not N aliased A B = some r ∧ nn_initialized N r ∧ r.wlen = B.wlen ∧
      ∀ i, i < B.wlen → r.val.getD i 0 = 2 ^ WORD_BITS - 1 - B.val.getD i 0 := by
  obtain ⟨hBm, hBw, hBl, hBlt, hBz⟩ := (nn_initialized_iff N B).1 hB
  have hA0 : (if aliased then some B else nn_init N 0) =
      some (if aliased then B else
        { val := List.replicate N 0, wlen := 0, magic := NN_MAGIC }) := by
    cases aliased <;> simp [nn_init_zero]
  have hl : (if aliased then B else
      ({ val := List.replicate N 0, wlen := 0, magic := NN_MAGIC } : nn)).val.length = N := by
    cases aliased <;> simp [hBl]
  have hmg : (if aliased then B else
      ({ val := List.replicate N 0, wlen := 0, magic := NN_MAGIC } : nn)).magic = NN_MAGIC := by
    cases aliased <;> simp [hBm]
  have hz0 : ∀ i, B.wlen ≤ i → (if aliased then B else
      ({ val := List.replicate N 0, wlen := 0, magic := NN_MAGIC } : nn)).val.getD i 0 = 0 := by
    intro i hi
    cases aliased
    · simp [getD_replicate_zero]
    · simpa using hBz i hi
  have hloop : forUp (fun i a =>
      a.set i (2 ^ WORD_BITS - 1 - (if aliased then a else B.val).getD i 0)) B.wlen 0
      (if aliased then B else
        { val := List.replicate N 0, wlen := 0, magic := NN_MAGIC }).val =
      forUp (fun i a => a.set i (2 ^ WORD_BITS - 1 - B.val.getD i 0)) B.wlen 0
        (if aliased then B else
          { val := List.replicate N 0, wlen := 0, magic := NN_MAGIC }).val := by
    rw [forUp_set_alias
      (fun i a => 2 ^ WORD_BITS - 1 - (if aliased then a else B.val).getD i 0)
      (fun k o o1 h => by
        have hk := h k (le_refl k)
        cases aliased <;> simp only [↓reduceIte, Bool.false_eq_true, hk])
      _ 0 _ _ (fun _ _ => rfl)]
    congr 1
    funext i a
    cases aliased <;> simp
  have hget : ∀ i, (forUp (fun i a => a.set i (2 ^ WORD_BITS - 1 - B.val.getD i 0)) B.wlen 0
      (if aliased then B else
        { val := List.replicate N 0, wlen := 0, magic := NN_MAGIC }).val).getD i 0 =
      if i < B.wlen then 2 ^ WORD_BITS - 1 - B.val.getD i 0 else 0 := by
    intro i
    rw [forUp_set_getD (fun i => 2 ^ WORD_BITS - 1 - B.val.getD i 0), hl]
    by_cases hi : i < B.wlen
    · rw [if_pos ⟨by omega, by omega, by omega⟩, if_pos hi]
    · rw [if_neg (by omega), if_neg hi]
      exact hz0 i (by omega)
  refine ⟨{ (if aliased then B else
      ({ val := List.replicate N 0, wlen := 0, magic := NN_MAGIC } : nn)) with
      wlen := B.wlen,
      val := forUp (fun i a => a.set i (2 ^ WORD_BITS - 1 - B.val.getD i 0)) B.wlen 0
        (if aliased then B else
          { val := List.replicate N 0, wlen := 0, magic := NN_MAGIC }).val }, ?_, ?_, rfl, ?_⟩
  · unfold nn_not
    simp only [hB.1, Bool.true_eq_false, if_false, hA0, Option.some_bind, hloop]
  · rw [nn_initialized_iff]
    refine ⟨hmg, hBw, ?_, ?_, ?_⟩
    · simp only [length_forUp_set]; exact hl
    · intro i
      simp only
      rw [hget]
      split
      · have := hBlt i
        have : 0 < 2 ^ WORD_BITS := by positivity
        omega
      · positivity
    · intro i hi
      simp only at hi ⊢
      rw [hget, if_neg (by omega)]
  · intro i hi
    simp only
    rw [hget, if_pos hi]

end Libecc

namespace Libecc

theorem word_and_not (w : Nat) (hw : w < 2 ^ WORD_BITS) : w &&& (2 ^ WORD_BITS - 1 - w) = 0 := by
  apply Nat.eq_of_testBit_eq
  intro i
  rw [Nat.testBit_and, Nat.sub_sub, Nat.add_comm 1 w, Nat.testBit_two_pow_sub_succ hw,
    Nat.zero_testBit]
  cases w.testBit i <;> simp

theorem word_or_not (w : Nat) (hw : w < 2 ^ WORD_BITS) :
    w ||| (2 ^ WORD_BITS - 1 - w) = 2 ^ WORD_BITS - 1 := by
  apply Nat.eq_of_testBit_eq
  intro i
  rw [Nat.testBit_lor, Nat.sub_sub, Nat.add_comm 1 w, Nat.testBit_two_pow_sub_succ hw,
    Nat.testBit_two_pow_sub_one]
  by_cases hi : i < WORD_BITS
  · cases w.testBit i <;> simp [hi]
  · simp [hi, testBit_word_ge w i hw (by omega)]

/-- C10: for an initialized `x`, `nn_xor(x, x)` has value 0, `nn_and(x, nn_not(x))`
has value 0, and `nn_or(x, nn_not(x))` has `wlen = x.wlen` with each of its
`x.wlen` active words equal to the all-ones word, i.e. the value
`2^(WORD_BITS * x.wlen) - 1`. The output of the binary operations may be a
fresh object or one of the operands. -/
theorem nn_bitwise_identities (N : Nat) (x A A1 : nn) (aB aC bB bC : Bool)
    (hx : nn_initialized N x) (hb : (bB && bC) = false) :
    (∃ r, nn_xor N aB aC A x x = some r ∧ nn_val r = 0) ∧
    (∃ nx r, nn_not N false A1 x = some nx ∧ nn_and N bB bC A x nx = some r ∧ nn_val r = 0) ∧
    (∃ nx r, nn_not N false A1 x = some nx ∧ nn_or N bB bC A x nx = some r ∧
      r.wlen = x.wlen ∧ (∀ i, i < x.wlen → r.val.getD i 0 = 2 ^ WORD_BITS - 1) ∧
      nn_val r = 2 ^ (WORD_BITS * x.wlen) - 1) := by
  obtain ⟨-, -, -, hxlt, -⟩ := (nn_initialized_iff N x).1 hx
  obtain ⟨nx, hnx, hnxi, hnxw, hnxv⟩ := nn_not_correct N false A1 x hx
  have hbb : bB = true → bC = true → x = nx := by
    intro h1 h2; rw [h1, h2] at hb; simp at hb
  refine ⟨?_, ?_, ?_⟩
  · obtain ⟨r, hr, -, -, hrw, hrv⟩ :=
      nn_bitop_correct (fun a b => a ^^^ b) N aB aC A x x hx hx (fun _ _ => rfl)
    refine ⟨r, hr, ?_⟩
    unfold nn_val
    apply nn_words_val_zero
    intro i hi
    rw [hrw] at hi
    rw [hrv i, if_pos hi]
    simp
  · obtain ⟨r, hr, -, -, hrw, hrv⟩ :=
      nn_bitop_correct (fun a b => a &&& b) N bB bC A x nx hx hnxi hbb
    refine ⟨nx, r, hnx, hr, ?_⟩
    unfold nn_val
    apply nn_words_val_zero
    intro i hi
    rw [hrw, hnxw] at hi
    simp only [lt_self_iff_false, if_false] at hi
    rw [hrv i, hnxw]
    simp only [lt_self_iff_false, if_false]
    rw [if_pos hi, hnxv i hi]
    exact word_and_not _ (hxlt i)
  · obtain ⟨r, hr, -, -, hrw, hrv⟩ :=
      nn_bitop_correct (fun a b => a ||| b) N bB bC A x nx hx hnxi hbb
    rw [hnxw] at hrw
    simp only [lt_self_iff_false, if_false] at hrw
    have hwords : ∀ i, i < x.wlen → r.val.getD i 0 = 2 ^ WORD_BITS - 1 := by
      intro i hi
      rw [hrv i, hnxw]
      simp only [lt_self_iff_false, if_false]
      rw [if_pos hi, hnxv i hi]
      exact word_or_not _ (hxlt i)
    refine ⟨nx, r, hnx, hr, hrw, hwords, ?_⟩
    unfold nn_val
    rw [hrw]
    exact nn_words_val_all_ones _ _ hwords

/-- C10 at a concrete input: a two-word value, the output being the first
operand. -/
theorem nn_bitwise_identities_witness :
    nn_initialized 4 (nn_of_nat 4 2 (2 ^ 70 + 5)) ∧
    (∃ r, nn_xor 4 true true nn_none (nn_of_nat 4 2 (2 ^ 70 + 5)) (nn_of_nat 4 2 (2 ^ 70 + 5)) =
      some r ∧ nn_val r = 0) ∧
    (∃ nx r, nn_not 4 false nn_none (nn_of_nat 4 2 (2 ^ 70 + 5)) = some nx ∧
      nn_and 4 true false nn_none (nn_of_nat 4 2 (2 ^ 70 + 5)) nx = some r ∧ nn_val r = 0) ∧
    (∃ nx r, nn_not 4 false nn_none (nn_of_nat 4 2 (2 ^ 70 + 5)) = some nx ∧
      nn_or 4 true false nn_none (nn_of_nat 4 2 (2 ^ 70 + 5)) nx = some r ∧
      r.wlen = (nn_of_nat 4 2 (2 ^ 70 + 5)).wlen ∧
      (∀ i, i < (nn_of_nat 4 2 (2 ^ 70 + 5)).wlen → r.val.getD i 0 = 2 ^ WORD_BITS - 1) ∧
      nn_val r = 2 ^ (WORD_BITS * (nn_of_nat 4 2 (2 ^ 70 + 5)).wlen) - 1) :=
  ⟨by decide, nn_bitwise_identities 4 (nn_of_nat 4 2 (2 ^ 70 + 5)) nn_none nn_none true true
    true false (by decide) (by decide)⟩

end Libecc

namespace Libecc

/-! ## Rotations -/

/-- A shorter window of a word array holds the value modulo the window. -/
theorem nn_words_val_mod (v : List Nat) (n m : Nat) (hmn : m ≤ n)
    (hv : ∀ i, i < n → v.getD i 0 < 2 ^ WORD_BITS) :
    nn_words_val v m = nn_words_val v n % 2 ^ (WORD_BITS * m) := by
  have hW := WORD_BITS_eq
  apply Nat.eq_of_testBit_eq
  intro k
  rw [Nat.testBit_mod_two_pow, nn_words_val_testBit v m (fun i hi => hv i (by omega)),
    nn_words_val_testBit v n hv]
  by_cases h1 : k / WORD_BITS < m
  · have h2 : k < WORD_BITS * m := by rw [hW] at h1 ⊢; omega
    have h3 : k / WORD_BITS < n := by omega
    simp [h1, h2, h3]
  · have h2 : ¬ k < WORD_BITS * m := by rw [hW] at h1 ⊢; omega
    simp [h1, h2]

theorem nn_words_val_window {N : Nat} {A : nn} (h : nn_initialized N A) (m : Nat) (hm : m ≤ N) :
    nn_words_val A.val m = nn_val A % 2 ^ (WORD_BITS * m) := by
  obtain ⟨-, hwl, -, hlt, -⟩ := (nn_initialized_iff N A).1 h
  rw [nn_words_val_mod A.val N m hm (fun i _ => hlt i), nn_val_eq_full h N hwl]

theorem getD_take_append_replicate (l : List Nat) (w k i : Nat) :
    (l.take w ++ List.replicate k 0).getD i 0 = if i < w then l.getD i 0 else 0 := by
  simp only [List.getD_eq_getElem?_getD]
  by_cases h : i < (l.take w).length
  · rw [List.getElem?_append_left h, List.getElem?_take]
    have : i < w := by rw [List.length_take] at h; omega
    simp [this]
  · rw [List.getElem?_append_right (Nat.le_of_not_lt h)]
    have e : ((List.replicate k 0)[i - (l.take w).length]?).getD 0 = 0 := by
      rw [List.getElem?_replicate]; split <;> rfl
    rw [e]
    by_cases hw : i < w
    · rw [if_pos hw]
      rw [List.length_take] at h
      rw [List.getElem?_eq_none (by omega)]
      rfl
    · rw [if_neg hw]

/-- Modelled `nn_set_wlen` on an initialized big number: the value is cut to the
new window. -/
theorem nn_set_wlen_correct (N : Nat) (A : nn) (w : Nat) (h : nn_initialized N A) (hw : w ≤ N) :
    ∃ r, nn_set_wlen N A w = some r ∧ nn_initialized N r ∧ r.wlen = w ∧
      nn_val r = nn_val A % 2 ^ (WORD_BITS * w) ∧
      (∀ i, r.val.getD i 0 = if i < w then A.val.getD i 0 else 0) := by
  obtain ⟨hm, hwl, hlen, hlt, hz⟩ := (nn_initialized_iff N A).1 h
  refine ⟨{ A with val := A.val.take w ++ List.replicate (A.val.length - w) 0, wlen := w },
    ?_, ?_, rfl, ?_, fun i => getD_take_append_replicate _ _ _ _⟩
  · simp [nn_set_wlen, h.1, hw]
  · rw [nn_initialized_iff]
    refine ⟨hm, hw, ?_, ?_, ?_⟩
    · simp only [List.length_append, List.length_take, List.length_replicate]; omega
    · intro i
      simp only
      rw [getD_take_append_replicate]
      split
      · exact hlt i
      · positivity
    · intro i hi
      simp only at hi ⊢
      rw [getD_take_append_replicate, if_neg (by omega)]
  · rw [← nn_words_val_window h w hw]
    unfold nn_val
    simp only
    apply nn_words_val_congr
    intro i hi
    rw [getD_take_append_replicate, if_pos hi]

theorem nn_words_val_xor (r b c : List Nat) (n : Nat)
    (hb : ∀ i, i < n → b.getD i 0 < 2 ^ WORD_BITS) (hc : ∀ i, i < n → c.getD i 0 < 2 ^ WORD_BITS)
    (hr : ∀ i, i < n → r.getD i 0 = b.getD i 0 ^^^ c.getD i 0) :
    nn_words_val r n = nn_words_val b n ^^^ nn_words_val c n := by
  apply Nat.eq_of_testBit_eq
  intro k
  rw [Nat.testBit_xor, nn_words_val_testBit b n hb, nn_words_val_testBit c n hc,
    nn_words_val_testBit r n (fun i hi => by rw [hr i hi]; exact Nat.xor_lt_two_pow (hb i hi) (hc i hi))]
  by_cases h1 : k / WORD_BITS < n
  · rw [hr _ h1, Nat.testBit_xor]
    simp [h1]
  · simp [h1]

/-- The final masking of the rotations cuts the value to `bitlen` bits. -/
theorem rot_mask_correct (N : Nat) (r : nn) (bitlen : Nat) (h : nn_initialized N r)
    (hwl : r.wlen = BIT_LEN_WORDS bitlen) :
    nn_initialized N (rot_mask r bitlen) ∧ (rot_mask r bitlen).wlen = r.wlen ∧
      nn_val (rot_mask r bitlen) = nn_val r % 2 ^ bitlen := by
  obtain ⟨hm, hw, hlen, hlt, hz⟩ := (nn_initialized_iff N r).1 h
  have hW := WORD_BITS_eq
  have hB : BIT_LEN_WORDS bitlen = (bitlen + 63) / 64 := by
    unfold BIT_LEN_WORDS; rw [hW]; omega
  unfold rot_mask
  by_cases hc : bitlen % WORD_BITS ≠ 0 ∧ r.wlen > 0
  · rw [if_pos hc]
    have hmask : (1 <<< (bitlen % WORD_BITS)) % 2 ^ WORD_BITS - 1 = 2 ^ (bitlen % WORD_BITS) - 1 := by
      rw [Nat.shiftLeft_eq, Nat.one_mul, Nat.mod_eq_of_lt]
      exact Nat.pow_lt_pow_right (by norm_num) (Nat.mod_lt _ (by rw [hW]; norm_num))
    simp only [hmask]
    have hget : ∀ i, (r.val.set (r.wlen - 1)
        (r.val.getD (r.wlen - 1) 0 &&& (2 ^ (bitlen % WORD_BITS) - 1))).getD i 0 =
        if i = r.wlen - 1 then r.val.getD i 0 &&& (2 ^ (bitlen % WORD_BITS) - 1)
        else r.val.getD i 0 := by
      intro i
      rw [getD_set]
      by_cases hi : r.wlen - 1 = i
      · subst hi
        rw [if_pos ⟨by rfl, by omega⟩, if_pos (by rfl)]
      · rw [if_neg (by omega), if_neg (by omega)]
    have hlt2 : ∀ i, (r.val.set (r.wlen - 1)
        (r.val.getD (r.wlen - 1) 0 &&& (2 ^ (bitlen % WORD_BITS) - 1))).getD i 0 <
        2 ^ WORD_BITS := by
      intro i
      rw [hget]
      split
      · exact lt_of_le_of_lt Nat.and_le_left (hlt i)
      · exact hlt i
    refine ⟨?_, trivial, ?_⟩
    · rw [nn_initialized_iff]
      refine ⟨hm, hw, by simp [hlen], hlt2, ?_⟩
      intro i hi
      simp only at hi ⊢
      rw [hget, if_neg (by omega)]
      exact hz i hi
    · unfold nn_val
      simp only
      apply Nat.eq_of_testBit_eq
      intro k
      rw [Nat.testBit_mod_two_pow, nn_words_val_testBit _ _ (fun i _ => hlt2 i),
        nn_words_val_testBit _ _ (fun i _ => hlt i), hget]
      by_cases h1 : k / WORD_BITS = r.wlen - 1
      · rw [if_pos h1, Nat.testBit_and, Nat.testBit_two_pow_sub_one]
        have e : decide (k % WORD_BITS < bitlen % WORD_BITS) = decide (k < bitlen) := by
          have : (k % WORD_BITS < bitlen % WORD_BITS) ↔ (k < bitlen) := by
            rw [hB] at hwl; rw [hW] at h1 hc ⊢; omega
          simp [this]
        rw [e]
        cases decide (k / WORD_BITS < r.wlen) <;> cases decide (k < bitlen) <;>
          cases (r.val.getD (k / WORD_BITS) 0).testBit (k % WORD_BITS) <;> rfl
      · rw [if_neg h1]
        by_cases h2 : k / WORD_BITS < r.wlen
        · have : k < bitlen := by rw [hB] at hwl; rw [hW] at h1 h2 hc; omega
          simp [this]
        · simp [h2]
  · rw [if_neg hc]
    refine ⟨h, rfl, ?_⟩
    symm
    apply Nat.mod_eq_of_lt
    have h1 : nn_val r < 2 ^ (WORD_BITS * r.wlen) := nn_words_val_lt _ _ (fun i _ => hlt i)
    have h2 : WORD_BITS * r.wlen ≤ bitlen := by
      rw [hB] at hwl; rw [hW] at hc ⊢; omega
    exact lt_of_lt_of_le h1 (Nat.pow_le_pow_right (by norm_num) h2)

end Libecc

namespace Libecc

theorem u8_BIT_LEN_WORDS (N : Nat) (hN : N ≤ 255) (bitlen : Nat) (hb : bitlen ≤ NN_MAX_BIT_LEN N) :
    u8 (BIT_LEN_WORDS bitlen) = BIT_LEN_WORDS bitlen ∧ BIT_LEN_WORDS bitlen ≤ N := by
  have h1 := BIT_LEN_WORDS_le bitlen N hb
  unfold u8
  omega

/-- The common body of both rotations: with `sl` the left and `sr` the right
shift count, the result holds `((x >> sr) ^ (x << sl)) mod 2^bitlen` on
`BIT_LEN_WORDS(bitlen)` words. -/
theorem rot_body_correct (N : Nat) (hN : N ≤ 255) (aliased : Bool) (out inp : nn)
    (sl sr bitlen : Nat) (h : nn_initialized N inp) (hb : bitlen ≤ NN_MAX_BIT_LEN N) :
    ∃ r, ((nn_init N 0).bind fun tmp =>
      (nn_lshift N false tmp inp sl).bind fun tmp =>
      (nn_set_wlen N tmp (u8 (BIT_LEN_WORDS bitlen))).bind fun tmp =>
      (nn_rshift N aliased out inp sr).bind fun out =>
      (nn_set_wlen N out (u8 (BIT_LEN_WORDS bitlen))).bind fun out =>
      (nn_xor N true false out out tmp).bind fun out =>
      some (rot_mask out bitlen)) = some r ∧
      nn_initialized N r ∧ r.wlen = BIT_LEN_WORDS bitlen ∧
      nn_val r = ((nn_val inp >>> sr) ^^^ (nn_val inp <<< sl)) % 2 ^ bitlen := by
  have hW := WORD_BITS_eq
  obtain ⟨hu, hoN⟩ := u8_BIT_LEN_WORDS N hN bitlen hb
  obtain ⟨t1, ht1, ht1i, ht1w, ht1v⟩ := nn_lshift_correct N hN false
    { val := List.replicate N 0, wlen := 0, magic := NN_MAGIC } inp sl h
  obtain ⟨t2, ht2, ht2i, ht2w, ht2v, -⟩ :=
    nn_set_wlen_correct N t1 (BIT_LEN_WORDS bitlen) ht1i hoN
  obtain ⟨o1, ho1, ho1i, -, ho1v⟩ := nn_rshift_correct N hN aliased out inp sr h
  obtain ⟨o2, ho2, ho2i, ho2w, ho2v, -⟩ :=
    nn_set_wlen_correct N o1 (BIT_LEN_WORDS bitlen) ho1i hoN
  obtain ⟨r3, hr3, hr3m, hr3l, hr3w, hr3v⟩ :=
    nn_bitop_correct (fun a b => a ^^^ b) N true false o2 o2 t2 ho2i ht2i (fun _ h => by cases h)
  rw [ht2w, ho2w] at hr3w hr3v
  simp only [lt_self_iff_false, if_false, if_true] at hr3w hr3v
  obtain ⟨-, -, -, ho2lt, ho2z⟩ := (nn_initialized_iff N o2).1 ho2i
  obtain ⟨-, -, -, ht2lt, -⟩ := (nn_initialized_iff N t2).1 ht2i
  have hr3i : nn_initialized N r3 := by
    rw [nn_initialized_iff]
    refine ⟨hr3m, by omega, hr3l, ?_, ?_⟩
    · intro i
      rw [hr3v]
      split
      · exact Nat.xor_lt_two_pow (ho2lt i) (ht2lt i)
      · exact ho2lt i
    · intro i hi
      rw [hr3v, if_neg (by omega)]
      exact ho2z i (by omega)
  have hr3val : nn_val r3 = nn_val o2 ^^^ nn_val t2 := by
    unfold nn_val
    rw [hr3w, ho2w, ht2w]
    exact nn_words_val_xor _ _ _ _ (fun i _ => ho2lt i) (fun i _ => ht2lt i)
      (fun i hi => by rw [hr3v, if_pos hi])
  obtain ⟨hfi, hfw, hfv⟩ := rot_mask_correct N r3 bitlen hr3i hr3w
  refine ⟨rot_mask r3 bitlen, ?_, hfi, by rw [hfw, hr3w], ?_⟩
  · simp only [nn_init_zero, Option.some_bind, ht1, hu, ht2, ho1, ho2]
    show (nn_bitop _ N true false o2 o2 t2).bind _ = _
    rw [hr3]
    rfl
  · have ht2v' : nn_val t2 = (nn_val inp <<< sl) % 2 ^ (WORD_BITS * BIT_LEN_WORDS bitlen) := by
      rw [ht2v, ht1v, ht1w, Nat.shiftLeft_eq]
      by_cases hc : BIT_LEN_WORDS (sl + nn_bitlen_loop inp.val inp.wlen) ≤ N
      · rw [nn_lshift_exact N inp sl h (by
          have := le_mul_BIT_LEN_WORDS (sl + nn_bitlen_loop inp.val inp.wlen)
          unfold NN_MAX_BIT_LEN
          calc sl + nn_bitlen_loop inp.val inp.wlen
              ≤ WORD_BITS * BIT_LEN_WORDS (sl + nn_bitlen_loop inp.val inp.wlen) := this
            _ ≤ WORD_BITS * N := Nat.mul_le_mul_left _ hc)]
      · rw [Nat.min_eq_right (by omega)]
        exact Nat.mod_mod_of_dvd _ (Nat.pow_dvd_pow 2 (Nat.mul_le_mul_left _ hoN))
    rw [hfv, hr3val, ho2v, ho1v, ht2v', ← Nat.shiftRight_eq_div_pow]
    have hbl : bitlen ≤ WORD_BITS * BIT_LEN_WORDS bitlen := le_mul_BIT_LEN_WORDS bitlen
    apply Nat.eq_of_testBit_eq
    intro k
    simp only [Nat.testBit_mod_two_pow, Nat.testBit_xor]
    by_cases hk : k < bitlen
    · have : k < WORD_BITS * BIT_LEN_WORDS bitlen := by omega
      simp [hk, this]
    · simp [hk]

end Libecc

namespace Libecc

/-- What `nn_lrot` computes. -/
theorem nn_lrot_correct (N : Nat) (hN : N ≤ 255) (aliased : Bool) (out inp : nn)
    (cnt bitlen : Nat) (h : nn_initialized N inp) (hb : bitlen ≤ NN_MAX_BIT_LEN N)
    (hc : cnt < bitlen) :
    ∃ r, nn_lrot N aliased out inp cnt bitlen = some r ∧ nn_initialized N r ∧
      r.wlen = BIT_LEN_WORDS bitlen ∧
      nn_val r = ((nn_val inp >>> (bitlen - cnt)) ^^^ (nn_val inp <<< cnt)) % 2 ^ bitlen := by
  obtain ⟨r, hr, hri, hrw, hrv⟩ :=
    rot_body_correct N hN aliased out inp cnt (bitlen - cnt) bitlen h hb
  refine ⟨r, ?_, hri, hrw, hrv⟩
  unfold nn_lrot
  simp only [hb, hc, h.1, not_true_eq_false, if_false, Bool.true_eq_false]
  exact hr

/-- What `nn_rrot` computes. -/
theorem nn_rrot_correct (N : Nat) (hN : N ≤ 255) (aliased : Bool) (out inp : nn)
    (cnt bitlen : Nat) (h : nn_initialized N inp) (hb : bitlen ≤ NN_MAX_BIT_LEN N)
    (hc : cnt < bitlen) :
    ∃ r, nn_rrot N aliased out inp cnt bitlen = some r ∧ nn_initialized N r ∧
      r.wlen = BIT_LEN_WORDS bitlen ∧
      nn_val r = ((nn_val inp >>> cnt) ^^^ (nn_val inp <<< (bitlen - cnt))) % 2 ^ bitlen := by
  obtain ⟨r, hr, hri, hrw, hrv⟩ :=
    rot_body_correct N hN aliased out inp (bitlen - cnt) cnt bitlen h hb
  refine ⟨r, ?_, hri, hrw, hrv⟩
  unfold nn_rrot
  simp only [hb, hc, h.1, not_true_eq_false, if_false, Bool.true_eq_false]
  exact hr

theorem testBit_ge_of_lt (V bitlen k : Nat) (hV : V < 2 ^ bitlen) (hk : bitlen ≤ k) :
    V.testBit k = false :=
  Nat.testBit_lt_two_pow (lt_of_lt_of_le hV (Nat.pow_le_pow_right (by norm_num) hk))

/-- Bits of `((V >> (bitlen - cnt)) ^ (V << cnt)) mod 2^bitlen` for `V` on
`bitlen` bits: the left rotation. -/
theorem rotl_testBit (V bitlen cnt i : Nat) (hV : V < 2 ^ bitlen) (hc : cnt < bitlen)
    (hi : i < bitlen) :
    (((V >>> (bitlen - cnt)) ^^^ (V <<< cnt)) % 2 ^ bitlen).testBit ((i + cnt) % bitlen) =
      V.testBit i := by
  rw [Nat.testBit_mod_two_pow, Nat.testBit_xor, Nat.testBit_shiftRight, Nat.testBit_shiftLeft]
  by_cases h : i + cnt < bitlen
  · rw [Nat.mod_eq_of_lt h]
    have e1 : V.testBit (bitlen - cnt + (i + cnt)) = false :=
      testBit_ge_of_lt V bitlen _ hV (by omega)
    have e2 : i + cnt - cnt = i := by omega
    rw [e1, e2]
    simp [h]
  · have e0 : (i + cnt) % bitlen = i + cnt - bitlen := by
      rw [Nat.mod_eq_sub_mod (by omega), Nat.mod_eq_of_lt (by omega)]
    rw [e0]
    have e1 : bitlen - cnt + (i + cnt - bitlen) = i := by omega
    have e2 : ¬ (i + cnt - bitlen ≥ cnt) := by omega
    have e3 : i + cnt - bitlen < bitlen := by omega
    rw [e1]
    simp [e2, e3]

/-- Bits of `((V >> cnt) ^ (V << (bitlen - cnt))) mod 2^bitlen` for `V` on
`bitlen` bits: the right rotation. -/
theorem rotr_testBit (V bitlen cnt i : Nat) (hV : V < 2 ^ bitlen) (hc : cnt < bitlen)
    (hi : i < bitlen) :
    (((V >>> cnt) ^^^ (V <<< (bitlen - cnt))) % 2 ^ bitlen).testBit i =
      V.testBit ((i + cnt) % bitlen) := by
  rw [Nat.testBit_mod_two_pow, Nat.testBit_xor, Nat.testBit_shiftRight, Nat.testBit_shiftLeft]
  by_cases h : i + cnt < bitlen
  · rw [Nat.mod_eq_of_lt h, Nat.add_comm cnt i]
    have e2 : ¬ (i ≥ bitlen - cnt) := by omega
    simp [hi, e2]
  · have e0 : (i + cnt) % bitlen = i + cnt - bitlen := by
      rw [Nat.mod_eq_sub_mod (by omega), Nat.mod_eq_of_lt (by omega)]
    rw [e0]
    have e1 : V.testBit (cnt + i) = false := testBit_ge_of_lt V bitlen _ hV (by omega)
    have e2 : i ≥ bitlen - cnt := by omega
    have e3 : i - (bitlen - cnt) = i + cnt - bitlen := by omega
    rw [e1, e3]
    simp [hi, e2]

theorem mod_two_pow_testBit_ge (X bitlen k : Nat) (hk : bitlen ≤ k) :
    (X % 2 ^ bitlen).testBit k = false := by
  rw [Nat.testBit_mod_two_pow]
  simp [Nat.not_lt.2 hk]

/-- C9: for `bitlen <= NN_MAX_BIT_LEN`, `cnt < bitlen` and an initialized `x` with
`val(x) < 2^bitlen`, `nn_lrot` yields the left rotation of `x` on `bitlen` bits:
bit `(i + cnt) mod bitlen` of `out` is bit `i` of `x` for every `i < bitlen`, the
bits of `out` at positions `>= bitlen` are zero and
`out.wlen = ceil(bitlen / WORD_BITS)`; `nn_rrot` yields the right rotation: bit
`i` of `out` is bit `(i + cnt) mod bitlen` of `x`. -/
theorem nn_rot_bits (N : Nat) (hN : N ≤ 255) (aliased : Bool) (out x : nn) (cnt bitlen : Nat)
    (hx : nn_initialized N x) (hb : bitlen ≤ NN_MAX_BIT_LEN N) (hc : cnt < bitlen)
    (hv : nn_val x < 2 ^ bitlen) :
    (∃ r, nn_lrot N aliased out x cnt bitlen = some r ∧
      r.wlen = (bitlen + WORD_BITS - 1) / WORD_BITS ∧
      (∀ i, i < bitlen → (nn_val r).testBit ((i + cnt) % bitlen) = (nn_val x).testBit i) ∧
      (∀ k, bitlen ≤ k → (nn_val r).testBit k = false) ∧
      (∀ i, r.wlen ≤ i → r.val.getD i 0 = 0)) ∧
    (∃ r, nn_rrot N aliased out x cnt bitlen = some r ∧
      r.wlen = (bitlen + WORD_BITS - 1) / WORD_BITS ∧
      (∀ i, i < bitlen → (nn_val r).testBit i = (nn_val x).testBit ((i + cnt) % bitlen)) ∧
      (∀ k, bitlen ≤ k → (nn_val r).testBit k = false) ∧
      (∀ i, r.wlen ≤ i → r.val.getD i 0 = 0)) := by
  constructor
  · obtain ⟨r, hr, hri, hrw, hrv⟩ := nn_lrot_correct N hN aliased out x cnt bitlen hx hb hc
    refine ⟨r, hr, hrw, ?_, ?_, ((nn_initialized_iff N r).1 hri).2.2.2.2⟩
    · intro i hi
      rw [hrv]
      exact rotl_testBit _ _ _ _ hv hc hi
    · intro k hk
      rw [hrv]
      exact mod_two_pow_testBit_ge _ _ _ hk
  · obtain ⟨r, hr, hri, hrw, hrv⟩ := nn_rrot_correct N hN aliased out x cnt bitlen hx hb hc
    refine ⟨r, hr, hrw, ?_, ?_, ((nn_initialized_iff N r).1 hri).2.2.2.2⟩
    · intro i hi
      rw [hrv]
      exact rotr_testBit _ _ _ _ hv hc hi
    · intro k hk
      rw [hrv]
      exact mod_two_pow_testBit_ge _ _ _ hk

/-- C9 at a concrete input: `0b1101` rotated by 1 on 4 bits. -/
theorem nn_rot_bits_witness :
    nn_initialized 4 (nn_of_nat 4 1 0b1101) ∧ 4 ≤ NN_MAX_BIT_LEN 4 ∧ 1 < 4 ∧
    nn_val (nn_of_nat 4 1 0b1101) < 2 ^ 4 ∧
    (nn_lrot 4 false nn_none (nn_of_nat 4 1 0b1101) 1 4).map nn_val = some 0b1011 ∧
    (nn_rrot 4 false nn_none (nn_of_nat 4 1 0b1101) 1 4).map nn_val = some 0b1110 ∧
    ((∃ r, nn_lrot 4 false nn_none (nn_of_nat 4 1 0b1101) 1 4 = some r ∧
      r.wlen = (4 + WORD_BITS - 1) / WORD_BITS ∧
      (∀ i, i < 4 → (nn_val r).testBit ((i + 1) % 4) =
        (nn_val (nn_of_nat 4 1 0b1101)).testBit i) ∧
      (∀ k, 4 ≤ k → (nn_val r).testBit k = false) ∧
      (∀ i, r.wlen ≤ i → r.val.getD i 0 = 0)) ∧
    (∃ r, nn_rrot 4 false nn_none (nn_of_nat 4 1 0b1101) 1 4 = some r ∧
      r.wlen = (4 + WORD_BITS - 1) / WORD_BITS ∧
      (∀ i, i < 4 → (nn_val r).testBit i =
        (nn_val (nn_of_nat 4 1 0b1101)).testBit ((i + 1) % 4)) ∧
      (∀ k, 4 ≤ k → (nn_val r).testBit k = false) ∧
      (∀ i, r.wlen ≤ i → r.val.getD i 0 = 0))) :=
  ⟨by decide, by decide, by decide, by decide, by decide, by decide,
    nn_rot_bits 4 (by decide) false nn_none (nn_of_nat 4 1 0b1101) 1 4 (by decide) (by decide)
      (by decide) (by decide)⟩

/-- C8 as stated fails: `x = 4` has a bit set at position `>= bitlen = 2`;
rotating left then right by 1 on 2 bits gives 1, while `x mod 2^2 = 0`. -/
theorem nn_rot_roundtrip_counterexample :
    nn_initialized 4 (nn_of_nat 4 1 4) ∧ 2 ≤ NN_MAX_BIT_LEN 4 ∧ 1 < 2 ∧
    ∃ y z, nn_lrot 4 false nn_none (nn_of_nat 4 1 4) 1 2 = some y ∧
      nn_rrot 4 false nn_none y 1 2 = some z ∧
      nn_val z = 1 ∧ nn_val (nn_of_nat 4 1 4) % 2 ^ 2 = 0 ∧
      nn_val z ≠ nn_val (nn_of_nat 4 1 4) % 2 ^ 2 :=
  ⟨by decide, by decide, by decide, nn_of_nat 4 1 2, nn_of_nat 4 1 1, by decide, by decide,
    by decide, by decide, by decide⟩

/-- C8, amended: for an initialized `x` with `val(x) < 2^bitlen`, every
`bitlen <= NN_MAX_BIT_LEN` and every `c < bitlen`, `nn_rrot` by `c` of the
result of `nn_lrot(x, c, bitlen)` succeeds and has the value `x mod 2^bitlen`,
which is the value of `x`. -/
theorem nn_rot_roundtrip (N : Nat) (hN : N ≤ 255) (a1 a2 : Bool) (o1 o2 x : nn) (c bitlen : Nat)
    (hx : nn_initialized N x) (hb : bitlen ≤ NN_MAX_BIT_LEN N) (hc : c < bitlen)
    (hv : nn_val x < 2 ^ bitlen) :
    ∃ y z, nn_lrot N a1 o1 x c bitlen = some y ∧ nn_rrot N a2 o2 y c bitlen = some z ∧
      nn_val z = nn_val x % 2 ^ bitlen ∧ nn_val z = nn_val x := by
  obtain ⟨y, hy, hyi, -, hyv⟩ := nn_lrot_correct N hN a1 o1 x c bitlen hx hb hc
  obtain ⟨z, hz, -, -, hzv⟩ := nn_rrot_correct N hN a2 o2 y c bitlen hyi hb hc
  have hylt : nn_val y < 2 ^ bitlen := by
    rw [hyv]; exact Nat.mod_lt _ (by positivity)
  have hzx : nn_val z = nn_val x := by
    apply Nat.eq_of_testBit_eq
    intro k
    by_cases hk : k < bitlen
    · rw [hzv, rotr_testBit _ _ _ _ hylt hc hk, hyv, rotl_testBit _ _ _ _ hv hc hk]
    · rw [hzv, mod_two_pow_testBit_ge _ _ _ (by omega), testBit_ge_of_lt _ _ _ hv (by omega)]
  exact ⟨y, z, hy, hz, by rw [hzx, Nat.mod_eq_of_lt hv], hzx⟩

/-- C8 amended, at a concrete input: 5 bits, rotation by 3. -/
theorem nn_rot_roundtrip_witness :
    nn_initialized 4 (nn_of_nat 4 1 0b10110) ∧ 5 ≤ NN_MAX_BIT_LEN 4 ∧ 3 < 5 ∧
    nn_val (nn_of_nat 4 1 0b10110) < 2 ^ 5 ∧
    ∃ y z, nn_lrot 4 false nn_none (nn_of_nat 4 1 0b10110) 3 5 = some y ∧
      nn_rrot 4 true nn_none y 3 5 = some z ∧
      nn_val z = nn_val (nn_of_nat 4 1 0b10110) % 2 ^ 5 ∧
      nn_val z = nn_val (nn_of_nat 4 1 0b10110) :=
  ⟨by decide, by decide, by decide, by decide,
    nn_rot_roundtrip 4 (by decide) false true nn_none nn_none (nn_of_nat 4 1 0b10110) 3 5
      (by decide) (by decide) (by decide) (by decide)⟩

end Libecc

namespace Libecc

/-! ## Montgomery multiplication: the words of one round -/

theorem nn_words_val_succ (v : List Nat) (n : Nat) :
    nn_words_val v (n + 1) = nn_words_val v n + v.getD n 0 * (2 ^ WORD_BITS) ^ n := by
  simp only [nn_words_val, pow_mul]

theorem nn_words_val_set_ge (v : List Nat) (n j w : Nat) (h : n ≤ j) :
    nn_words_val (v.set j w) n = nn_words_val v n := by
  apply nn_words_val_congr
  intro i hi
  rw [getD_set, if_neg (by omega)]

theorem nn_words_val_set_last (v : List Nat) (j w : Nat) (h : j < v.length) :
    nn_words_val (v.set j w) (j + 1) = nn_words_val v j + w * (2 ^ WORD_BITS) ^ j := by
  rw [nn_words_val_succ, nn_words_val_set_ge v j j w (le_refl j), getD_set,
    if_pos ⟨by rfl, h⟩]

theorem getD_set_lt (v : List Nat) (j w k : Nat) (hw : w < 2 ^ WORD_BITS)
    (hv : ∀ k, v.getD k 0 < 2 ^ WORD_BITS) : (v.set j w).getD k 0 < 2 ^ WORD_BITS := by
  rw [getD_set]
  split
  · exact hw
  · exact hv k

theorem mac_word (P c o : Nat) (hP : P ≤ (2 ^ 64 - 1) * (2 ^ 64 - 1)) (hc : c < 2 ^ 64)
    (ho : o < 2 ^ 64) :
    (o + (P % 2 ^ 64 + c) % 2 ^ 64) % 2 ^ 64 +
      2 ^ 64 * ((((P / 2 ^ 64 + (if (P % 2 ^ 64 + c) % 2 ^ 64 < c then 1 else 0)) % 2 ^ 64) +
        (if (o + (P % 2 ^ 64 + c) % 2 ^ 64) % 2 ^ 64 < (P % 2 ^ 64 + c) % 2 ^ 64 then 1 else 0)) %
          2 ^ 64) = P + c + o := by
  norm_num at hP hc ho ⊢
  split_ifs <;> omega

theorem carry_word (c o : Nat) (hc : c < 2 ^ 64) (ho : o < 2 ^ 64) :
    (o + c) % 2 ^ 64 + 2 ^ 64 * (if (o + c) % 2 ^ 64 < c then 1 else 0) = o + c := by
  norm_num at hc ho ⊢
  split_ifs <;> omega

theorem word_mul_le (a b : Nat) (ha : a < 2 ^ 64) (hb : b < 2 ^ 64) :
    a * b ≤ (2 ^ 64 - 1) * (2 ^ 64 - 1) :=
  Nat.mul_le_mul (by omega) (by omega)

theorem getD_set_self (o : List Nat) (j w : Nat) (hj : j < o.length) :
    (o.set j w).getD j 0 = w := by
  rw [getD_set]; exact if_pos ⟨rfl, hj⟩

/-- One step of the multiplication loop: `out[j]` and the carry absorb
`a[i] * b[j]`. -/
theorem redc1_mul_step_spec (ai : Nat) (b o : List Nat) (j c : Nat) (hj : j < o.length)
    (hai : ai < 2 ^ WORD_BITS) (hb : b.getD j 0 < 2 ^ WORD_BITS) (hc : c < 2 ^ WORD_BITS)
    (ho : o.getD j 0 < 2 ^ WORD_BITS) :
    ∃ w c1, redc1_mul_step ai b j (o, c) = (o.set j w, c1) ∧ w < 2 ^ WORD_BITS ∧
      c1 < 2 ^ WORD_BITS ∧ w + 2 ^ WORD_BITS * c1 = ai * b.getD j 0 + c + o.getD j 0 := by
  unfold redc1_mul_step
  simp only [getD_set_self _ _ _ hj]
  refine ⟨_, _, rfl, Nat.mod_lt _ (by positivity), Nat.mod_lt _ (by positivity), ?_⟩
  simp only [WORD_MUL, WORD_BITS] at *
  exact mac_word _ _ _ (word_mul_le _ _ hai hb) hc ho

/-- One step of the carry loop. -/
theorem redc1_carry_step_spec (o : List Nat) (j c : Nat) (hj : j < o.length)
    (hc : c < 2 ^ WORD_BITS) (ho : o.getD j 0 < 2 ^ WORD_BITS) :
    ∃ w c1, redc1_carry_step j (o, c) = (o.set j w, c1) ∧ w < 2 ^ WORD_BITS ∧
      c1 < 2 ^ WORD_BITS ∧ w + 2 ^ WORD_BITS * c1 = c + o.getD j 0 := by
  unfold redc1_carry_step
  simp only [getD_set_self _ _ _ hj]
  refine ⟨_, _, rfl, Nat.mod_lt _ (by positivity), ?_, ?_⟩
  · simp only [WORD_BITS]
    split <;> norm_num
  · simp only [WORD_BITS] at *
    rw [carry_word _ _ hc ho]
    omega

/-- One step of the reduction loop: `out[j - 1]` and the carry absorb
`out[j] + m * p[j]`. -/
theorem redc1_red_step_spec (m : Nat) (p o : List Nat) (j c : Nat) (hj1 : 1 ≤ j)
    (hj : j < o.length)
    (hm : m < 2 ^ WORD_BITS) (hp : p.getD j 0 < 2 ^ WORD_BITS) (hc : c < 2 ^ WORD_BITS)
    (ho : o.getD j 0 < 2 ^ WORD_BITS) :
    ∃ w c1, redc1_red_step m p j (o, c) = (o.set (j - 1) w, c1) ∧ w < 2 ^ WORD_BITS ∧
      c1 < 2 ^ WORD_BITS ∧ w + 2 ^ WORD_BITS * c1 = m * p.getD j 0 + c + o.getD j 0 := by
  unfold redc1_red_step
  simp only [getD_set_self _ _ _ (show j - 1 < o.length by omega)]
  refine ⟨_, _, rfl, Nat.mod_lt _ (by positivity), Nat.mod_lt _ (by positivity), ?_⟩
  simp only [WORD_MUL, WORD_BITS] at *
  have := mac_word _ _ _ (word_mul_le _ _ hm hp) hc ho
  rw [Nat.add_comm (o.getD j 0)] at this
  exact this

end Libecc

namespace Libecc

theorem acc_arith (B X V W w c c1 t oj : Nat) (h1 : w + B * c1 = t + c + oj)
    (h2 : V + c * X = W) : V + w * X + c1 * (B * X) = W + oj * X + t * X := by
  calc V + w * X + c1 * (B * X) = V + (w + B * c1) * X := by ring
    _ = V + (t + c + oj) * X := by rw [h1]
    _ = (V + c * X) + oj * X + t * X := by ring
    _ = W + oj * X + t * X := by rw [h2]

/-- The multiplication loop of a round adds `a[i] * b` to the low words of
`out`, leaving a carry. -/
theorem redc1_mul_loop (ai : Nat) (b o0 : List Nat) (n : Nat) (hai : ai < 2 ^ WORD_BITS)
    (hb : ∀ k, b.getD k 0 < 2 ^ WORD_BITS) (ho0 : ∀ k, o0.getD k 0 < 2 ^ WORD_BITS)
    (hn : n ≤ o0.length) :
    ∃ o c, forUp (redc1_mul_step ai b) n 0 (o0, 0) = (o, c) ∧ c < 2 ^ WORD_BITS ∧
      o.length = o0.length ∧ (∀ k, o.getD k 0 < 2 ^ WORD_BITS) ∧
      (∀ k, n ≤ k → o.getD k 0 = o0.getD k 0) ∧
      nn_words_val o n + c * (2 ^ WORD_BITS) ^ n = nn_words_val o0 n + ai * nn_words_val b n := by
  have key := forUp_inv (redc1_mul_step ai b)
    (fun j s => s.2 < 2 ^ WORD_BITS ∧ s.1.length = o0.length ∧
      (∀ k, s.1.getD k 0 < 2 ^ WORD_BITS) ∧ (∀ k, j ≤ k → s.1.getD k 0 = o0.getD k 0) ∧
      nn_words_val s.1 j + s.2 * (2 ^ WORD_BITS) ^ j = nn_words_val o0 j + ai * nn_words_val b j)
    n 0 (o0, 0)
    ⟨by positivity, rfl, ho0, fun _ _ => rfl, by simp [nn_words_val]⟩
    (by
      rintro j ⟨o, c⟩ - hj ⟨hc, hl, hbd, hsame, hval⟩
      simp only at hc hl hbd hsame hval
      obtain ⟨w, c1, heq, hw, hc1, hsum⟩ :=
        redc1_mul_step_spec ai b o j c (by omega) hai (hb j) hc (hbd j)
      rw [heq]
      refine ⟨hc1, by simp [hl], fun k => getD_set_lt o j w k hw hbd, ?_, ?_⟩
      · intro k hk
        simp only
        rw [getD_set, if_neg (by omega)]
        exact hsame k (by omega)
      · simp only
        rw [nn_words_val_set_last o j w (by omega), nn_words_val_succ o0, nn_words_val_succ b,
          pow_succ, Nat.mul_comm ((2 ^ WORD_BITS) ^ j) (2 ^ WORD_BITS)]
        rw [hsame j (le_refl j)] at hsum
        rw [acc_arith _ _ _ _ _ _ _ _ _ hsum hval]
        ring)
  rw [Nat.zero_add] at key
  exact ⟨_, _, rfl, key⟩

/-- The carry loop of a round propagates the carry through the next words. -/
theorem redc1_carry_loop (o0 : List Nat) (c0 i0 n : Nat) (hc0 : c0 < 2 ^ WORD_BITS)
    (ho0 : ∀ k, o0.getD k 0 < 2 ^ WORD_BITS) (hn : i0 + n ≤ o0.length) :
    ∃ o c, forUp redc1_carry_step n i0 (o0, c0) = (o, c) ∧ c < 2 ^ WORD_BITS ∧
      o.length = o0.length ∧ (∀ k, o.getD k 0 < 2 ^ WORD_BITS) ∧
      (∀ k, (k < i0 ∨ i0 + n ≤ k) → o.getD k 0 = o0.getD k 0) ∧
      nn_words_val o (i0 + n) + c * (2 ^ WORD_BITS) ^ (i0 + n) =
        nn_words_val o0 (i0 + n) + c0 * (2 ^ WORD_BITS) ^ i0 := by
  have key := forUp_inv redc1_carry_step
    (fun j s => s.2 < 2 ^ WORD_BITS ∧ s.1.length = o0.length ∧
      (∀ k, s.1.getD k 0 < 2 ^ WORD_BITS) ∧
      (∀ k, (k < i0 ∨ j ≤ k) → s.1.getD k 0 = o0.getD k 0) ∧
      nn_words_val s.1 j + s.2 * (2 ^ WORD_BITS) ^ j =
        nn_words_val o0 j + c0 * (2 ^ WORD_BITS) ^ i0)
    n i0 (o0, c0)
    ⟨hc0, rfl, ho0, fun _ _ => rfl, rfl⟩
    (by
      rintro j ⟨o, c⟩ hj0 hj ⟨hc, hl, hbd, hsame, hval⟩
      simp only at hc hl hbd hsame hval
      obtain ⟨w, c1, heq, hw, hc1, hsum⟩ :=
        redc1_carry_step_spec o j c (by omega) hc (hbd j)
      rw [heq]
      refine ⟨hc1, by simp [hl], fun k => getD_set_lt o j w k hw hbd, ?_, ?_⟩
      · intro k hk
        simp only
        rw [getD_set, if_neg (by omega)]
        exact hsame k (by omega)
      · simp only
        rw [nn_words_val_set_last o j w (by omega), nn_words_val_succ o0,
          pow_succ, Nat.mul_comm ((2 ^ WORD_BITS) ^ j) (2 ^ WORD_BITS)]
        rw [hsame j (Or.inr (le_refl j))] at hsum
        have hsum' : w + 2 ^ WORD_BITS * c1 = 0 + c + o0.getD j 0 := by rw [hsum]; ring
        rw [acc_arith _ _ _ _ _ _ _ _ _ hsum' hval]
        ring)
  exact ⟨_, _, rfl, key⟩

/-- The reduction loop of a round adds `m * p` and moves `out` one word down. -/
theorem redc1_red_loop (m : Nat) (p o1 : List Nat) (c0 n pl : Nat) (hm : m < 2 ^ WORD_BITS)
    (hp : ∀ k, p.getD k 0 < 2 ^ WORD_BITS) (ho1 : ∀ k, o1.getD k 0 < 2 ^ WORD_BITS)
    (hc0 : c0 < 2 ^ WORD_BITS) (hn : 1 + n ≤ o1.length)
    (hstart : pl + 2 ^ WORD_BITS * c0 = o1.getD 0 0 + m * p.getD 0 0) :
    ∃ o c, forUp (redc1_red_step m p) n 1 (o1, c0) = (o, c) ∧ c < 2 ^ WORD_BITS ∧
      o.length = o1.length ∧ (∀ k, o.getD k 0 < 2 ^ WORD_BITS) ∧
      (∀ k, 1 + n ≤ k → o.getD k 0 = o1.getD k 0) ∧
      2 ^ WORD_BITS * nn_words_val o n + pl + c * (2 ^ WORD_BITS) ^ (1 + n) =
        nn_words_val o1 (1 + n) + m * nn_words_val p (1 + n) := by
  have key := forUp_inv (redc1_red_step m p)
    (fun j s => s.2 < 2 ^ WORD_BITS ∧ s.1.length = o1.length ∧
      (∀ k, s.1.getD k 0 < 2 ^ WORD_BITS) ∧ (∀ k, j ≤ k → s.1.getD k 0 = o1.getD k 0) ∧
      2 ^ WORD_BITS * nn_words_val s.1 (j - 1) + pl + s.2 * (2 ^ WORD_BITS) ^ j =
        nn_words_val o1 j + m * nn_words_val p j)
    n 1 (o1, c0)
    ⟨hc0, rfl, ho1, fun _ _ => rfl, by
      simp only [nn_words_val, Nat.sub_self, Nat.mul_zero, pow_zero, Nat.mul_one, Nat.zero_add,
        pow_one]
      rw [Nat.mul_comm c0, hstart]⟩
    (by
      rintro j ⟨o, c⟩ hj0 hj ⟨hc, hl, hbd, hsame, hval⟩
      simp only at hc hl hbd hsame hval
      obtain ⟨i, rfl⟩ : ∃ i, j = i + 1 := ⟨j - 1, by omega⟩
      obtain ⟨w, c1, heq, hw, hc1, hsum⟩ :=
        redc1_red_step_spec m p o (i + 1) c (by omega) (by omega) hm (hp _) hc (hbd _)
      rw [heq]
      simp only [Nat.add_sub_cancel] at hval ⊢
      refine ⟨hc1, by simp [hl], fun k => getD_set_lt o i w k hw hbd, ?_, ?_⟩
      · intro k hk
        rw [getD_set, if_neg (by omega)]
        exact hsame k (by omega)
      · rw [nn_words_val_set_last o i w (by omega), nn_words_val_succ o1 (i + 1),
          nn_words_val_succ p (i + 1)]
        rw [hsame (i + 1) (le_refl _)] at hsum
        generalize nn_words_val o i = V at hval ⊢
        generalize nn_words_val o1 (i + 1) = W1 at hval ⊢
        generalize nn_words_val p (i + 1) = W2 at hval ⊢
        generalize o1.getD (i + 1) 0 = x at hsum ⊢
        generalize p.getD (i + 1) 0 = y at hsum ⊢
        generalize 2 ^ WORD_BITS = B at hval hsum ⊢
        have e1 : B * (V + w * B ^ i) + pl + c1 * B ^ (i + 1 + 1) =
            (B * V + pl) + (w + B * c1) * B ^ (i + 1) := by ring
        rw [e1, hsum]
        have e2 : (B * V + pl) + (m * y + c + x) * B ^ (i + 1) =
            (B * V + pl + c * B ^ (i + 1)) + (m * y + x) * B ^ (i + 1) := by ring
        rw [e2, hval]
        ring)
  simp only [Nat.add_sub_cancel_left] at key
  exact ⟨_, _, rfl, key⟩

end Libecc

namespace Libecc

/-- Two word arrays that agree from position `m` on differ in value by their
low `m` words only. -/
theorem nn_words_val_agree_above (v u : List Nat) (m n : Nat) (hmn : m ≤ n)
    (h : ∀ k, m ≤ k → v.getD k 0 = u.getD k 0) :
    nn_words_val v n + nn_words_val u m = nn_words_val u n + nn_words_val v m := by
  induction n with
  | zero =>
    have : m = 0 := by omega
    subst this; simp [nn_words_val]
  | succ n ih =>
    by_cases h1 : m = n + 1
    · subst h1; exact Nat.add_comm _ _
    · have := ih (by omega)
      rw [nn_words_val_succ v, nn_words_val_succ u, h n (by omega)]
      omega

theorem first_word (P x : Nat) (hP : P ≤ (2 ^ 64 - 1) * (2 ^ 64 - 1)) (hx : x < 2 ^ 64) :
    (P % 2 ^ 64 + x) % 2 ^ 64 +
      2 ^ 64 * ((P / 2 ^ 64 + (if (P % 2 ^ 64 + x) % 2 ^ 64 < x then 1 else 0)) % 2 ^ 64) =
      P + x := by
  norm_num at hP hx ⊢
  split_ifs <;> omega

/-- The choice `m = out[0] * mpinv` clears the low word of `out + m * p`. -/
theorem redc_low_word (B x mpinv p0 : Nat) (hinv : (mpinv * p0 + 1) % B = 0) :
    ((x * mpinv) % B * p0 + x) % B = 0 := by
  have h1 : ((x * mpinv) % B * p0 + x) % B = (x * mpinv * p0 + x) % B :=
    ((Nat.mod_modEq (x * mpinv) B).mul_right p0).add_right x
  rw [h1]
  have h2 : x * mpinv * p0 + x = x * (mpinv * p0 + 1) := by ring
  rw [h2, Nat.mul_mod, hinv, Nat.mul_zero, Nat.zero_mod]

theorem round_arith (B X1 VC w4 acc carry1 cC V3 m Pval w3 outl cB VA cA Xlm Voutlm Voutl VAlm
    ai bval : Nat)
    (E1 : VAlm + cA * Xlm = Voutlm + ai * bval)
    (E2 : VA + Voutlm = Voutl + VAlm)
    (E3 : V3 + cB * (B * X1) = VA + cA * Xlm)
    (E4 : w3 + B * acc = cB + outl)
    (E7 : B * VC + 0 + cC * (B * X1) = V3 + m * Pval)
    (E8 : w4 + B * carry1 = cC + w3) :
    B * (VC + w4 * X1 + (acc + carry1) * (B * X1)) =
      Voutl + outl * (B * X1) + ai * bval + m * Pval := by
  zify at *
  linear_combination E7 + (B : ℤ) * X1 * E8 + (B : ℤ) * X1 * E4 + E3 + E2 + E1

end Libecc

namespace Libecc

/-- One round of `_nn_mul_redc1`: with `V` the value of the `len + 1` low words
of `out`, the round replaces `V` by `(V + a[i] * b + m * p) / 2^WORD_BITS` for a
word `m`, the division being exact. -/
theorem redc1_round_spec (a b p out : List Nat) (len len_mul mpinv i : Nat)
    (hlen1 : 1 ≤ len) (hlm : len_mul ≤ len) (hL : len + 1 ≤ out.length)
    (ha : ∀ k, a.getD k 0 < 2 ^ WORD_BITS) (hb : ∀ k, b.getD k 0 < 2 ^ WORD_BITS)
    (hp : ∀ k, p.getD k 0 < 2 ^ WORD_BITS) (hout : ∀ k, out.getD k 0 < 2 ^ WORD_BITS)
    (hinv : (mpinv * p.getD 0 0 + 1) % 2 ^ WORD_BITS = 0) :
    (redc1_round a b p len len_mul mpinv i out).length = out.length ∧
    (∀ k, (redc1_round a b p len len_mul mpinv i out).getD k 0 < 2 ^ WORD_BITS) ∧
    (∀ k, len + 1 ≤ k → (redc1_round a b p len len_mul mpinv i out).getD k 0 = out.getD k 0) ∧
    ∃ m, m < 2 ^ WORD_BITS ∧
      2 ^ WORD_BITS * nn_words_val (redc1_round a b p len len_mul mpinv i out) (len + 1) =
        nn_words_val out (len + 1) + a.getD i 0 * nn_words_val b len_mul +
          m * nn_words_val p len := by
  obtain ⟨l, rfl⟩ : ∃ l, len = l + 1 := ⟨len - 1, by omega⟩
  -- the multiplication loop
  obtain ⟨oA, cA, hA, hcA, hlA, hbA, hsA, hvA⟩ :=
    redc1_mul_loop (a.getD i 0) b out len_mul (ha i) hb hout (by omega)
  -- the carry loop
  obtain ⟨oB, cB, hB, hcB, hlB, hbB, hsB, hvB⟩ :=
    redc1_carry_loop oA cA len_mul (l + 1 - len_mul) hcA hbA (by omega)
  have hidx : len_mul + (l + 1 - len_mul) = l + 1 := by omega
  rw [hidx] at hsB hvB
  -- the top word and `acc`
  have hB64 : (2 : Nat) ^ WORD_BITS = 2 ^ 64 := rfl
  have hoBl : oB.getD (l + 1) 0 = out.getD (l + 1) 0 := by
    rw [hsB _ (Or.inr (le_refl _)), hsA _ (by omega)]
  have hw3 := carry_word cB (oB.getD (l + 1) 0) (by rw [← hB64]; exact hcB)
    (by rw [← hB64]; exact hbB _)
  rw [← hB64] at hw3
  -- the first word of the reduction
  obtain ⟨x, hxdef⟩ : ∃ x,
      (oB.set (l + 1) ((oB.getD (l + 1) 0 + cB) % 2 ^ WORD_BITS)).getD 0 0 = x := ⟨_, rfl⟩
  have hx0 : x < 2 ^ WORD_BITS := by
    rw [← hxdef]; exact getD_set_lt _ _ _ _ (Nat.mod_lt _ (by positivity)) hbB
  have hm : (x * mpinv) % 2 ^ WORD_BITS < 2 ^ WORD_BITS := Nat.mod_lt _ (by positivity)
  have hfw := first_word _ _ (word_mul_le _ _ (by rw [← hB64]; exact hm)
    (by rw [← hB64]; exact hp 0)) (by rw [← hB64]; exact hx0)
  rw [← hB64] at hfw
  have hlow : (((x * mpinv) % 2 ^ WORD_BITS * p.getD 0 0) % 2 ^ WORD_BITS + x) %
      2 ^ WORD_BITS = 0 := by
    rw [Nat.mod_add_mod]
    exact redc_low_word _ _ _ _ hinv
  -- the reduction loop
  obtain ⟨oC, cC, hC, hcC, hlC, hbC, hsC, hvC⟩ :=
    redc1_red_loop ((x * mpinv) % 2 ^ WORD_BITS) p
      (oB.set (l + 1) ((oB.getD (l + 1) 0 + cB) % 2 ^ WORD_BITS))
      ((((x * mpinv) % 2 ^ WORD_BITS * p.getD 0 0) / 2 ^ WORD_BITS +
        (if (((x * mpinv) % 2 ^ WORD_BITS * p.getD 0 0) % 2 ^ WORD_BITS + x) % 2 ^ WORD_BITS < x
          then 1 else 0)) % 2 ^ WORD_BITS) l 0 hm hp
      (fun k => getD_set_lt _ _ _ _ (Nat.mod_lt _ (by positivity)) hbB)
      (Nat.mod_lt _ (by positivity)) (by simp only [List.length_set]; omega)
      (by rw [hxdef]; linarith [hfw, hlow])
  have h1l : 1 + l = l + 1 := by omega
  rw [h1l] at hsC hvC
  -- the two top words
  have hoCl : oC.getD (l + 1) 0 = (oB.getD (l + 1) 0 + cB) % 2 ^ WORD_BITS := by
    rw [hsC _ (le_refl _), getD_set_self _ _ _ (by omega)]
  have hw4 := carry_word (oC.getD (l + 1) 0) cC (by rw [← hB64]; exact hbC _)
    (by rw [← hB64]; exact hcC)
  rw [← hB64] at hw4
  -- unfold the round
  have hround : redc1_round a b p (l + 1) len_mul mpinv i out =
      (oC.set l ((cC + oC.getD (l + 1) 0) % 2 ^ WORD_BITS)).set (l + 1)
        (((if (oB.getD (l + 1) 0 + cB) % 2 ^ WORD_BITS < cB then 1 else 0) +
          (if (cC + oC.getD (l + 1) 0) % 2 ^ WORD_BITS < oC.getD (l + 1) 0 then 1 else 0)) %
            2 ^ WORD_BITS) := by
    unfold redc1_round
    simp only [hA, hB, hidx, WORD_MUL, hxdef, hC, h1l, Nat.add_sub_cancel,
      getD_set_self oB (l + 1) _ (show l + 1 < oB.length by omega),
      getD_set_self oC l _ (show l < oC.length by
        rw [hlC]; simp only [List.length_set]; omega)]
    have e : (oC.set l ((cC + oC.getD (l + 1) 0) % 2 ^ WORD_BITS)).getD (l + 1) 0 =
        oC.getD (l + 1) 0 := by
      rw [getD_set, if_neg (by omega)]
    rw [e]
  rw [hround]
  have hacc : (if (oB.getD (l + 1) 0 + cB) % 2 ^ WORD_BITS < cB then 1 else 0) ≤ 1 := by
    split <;> omega
  have hcar : (if (cC + oC.getD (l + 1) 0) % 2 ^ WORD_BITS < oC.getD (l + 1) 0 then 1 else 0) ≤ 1 := by
    split <;> omega
  have hB3 : 2 < 2 ^ WORD_BITS := by rw [hB64]; norm_num
  have htop : ((if (oB.getD (l + 1) 0 + cB) % 2 ^ WORD_BITS < cB then 1 else 0) +
      (if (cC + oC.getD (l + 1) 0) % 2 ^ WORD_BITS < oC.getD (l + 1) 0 then 1 else 0)) %
        2 ^ WORD_BITS =
      (if (oB.getD (l + 1) 0 + cB) % 2 ^ WORD_BITS < cB then 1 else 0) +
      (if (cC + oC.getD (l + 1) 0) % 2 ^ WORD_BITS < oC.getD (l + 1) 0 then 1 else 0) :=
    Nat.mod_eq_of_lt (by omega)
  rw [htop]
  have hlenC : oC.length = out.length := by
    rw [hlC]; simp only [List.length_set]; rw [hlB, hlA]
  refine ⟨by simp only [List.length_set]; exact hlenC, ?_, ?_, ?_⟩
  · intro k
    apply getD_set_lt _ _ _ _ (by omega)
    intro k
    exact getD_set_lt _ _ _ _ (Nat.mod_lt _ (by positivity)) hbC
  · intro k hk
    rw [getD_set, if_neg (by omega), getD_set, if_neg (by omega), hsC k (by omega),
      getD_set, if_neg (by omega), hsB k (Or.inr (by omega)), hsA k (by omega)]
  · refine ⟨_, hm, ?_⟩
    rw [nn_words_val_set_last _ _ _ (by simp only [List.length_set]; omega),
      nn_words_val_set_last oC l _ (by omega)]
    have E2 := nn_words_val_agree_above oA out len_mul (l + 1) hlm hsA
    have E5 : nn_words_val (oB.set (l + 1) ((oB.getD (l + 1) 0 + cB) % 2 ^ WORD_BITS)) (l + 1) =
        nn_words_val oB (l + 1) := nn_words_val_set_ge _ _ _ _ (le_refl _)
    rw [E5] at hvC
    rw [nn_words_val_succ out (l + 1), ← hoBl]
    rw [hoCl] at hw4 ⊢
    rw [pow_succ] at hvB hvC ⊢
    rw [Nat.mul_comm ((2 ^ WORD_BITS) ^ l) (2 ^ WORD_BITS)] at hvB hvC ⊢
    exact round_arith _ _ _ _ _ _ _ _ _ _ _ _ _ _ _ _ _ _ _ _ _ hvA E2 hvB (by rw [hw3]; ring) hvC hw4

end Libecc

namespace Libecc

theorem rounds_bound (B V V1 ai m bval Pval : Nat) (hB : 0 < B) (hai : ai < B) (hm : m < B)
    (hV : V < Pval + bval) (h : B * V1 = V + ai * bval + m * Pval) : V1 < Pval + bval := by
  have h1 : ai * bval ≤ (B - 1) * bval := Nat.mul_le_mul_right _ (by omega)
  have h2 : m * Pval ≤ (B - 1) * Pval := Nat.mul_le_mul_right _ (by omega)
  have h3 : (B - 1) * bval + bval = B * bval := by
    obtain ⟨q, rfl⟩ : ∃ q, B = q + 1 := ⟨B - 1, by omega⟩
    simp only [Nat.add_sub_cancel]; ring
  have h4 : (B - 1) * Pval + Pval = B * Pval := by
    obtain ⟨q, rfl⟩ : ∃ q, B = q + 1 := ⟨B - 1, by omega⟩
    simp only [Nat.add_sub_cancel]; ring
  have h5 : B * V1 < B * (Pval + bval) := by
    rw [Nat.mul_add]; omega
  exact Nat.lt_of_mul_lt_mul_left h5

theorem rounds_congr (B X V V1 ai m bval Pval A M : Nat)
    (h : B * V1 = V + ai * bval + m * Pval) (hV : V * X = A * bval + M * Pval) :
    V1 * (X * B) = (A + ai * X) * bval + (M + m * X) * Pval := by
  calc V1 * (X * B) = (B * V1) * X := by ring
    _ = (V + ai * bval + m * Pval) * X := by rw [h]
    _ = V * X + ai * X * bval + m * X * Pval := by ring
    _ = (A * bval + M * Pval) + ai * X * bval + m * X * Pval := by rw [hV]
    _ = _ := by ring

/-- The `len` rounds of `_nn_mul_redc1`: the accumulator ends below `p + b` and,
multiplied by `2^(WORD_BITS * len)`, is congruent to `a * b` modulo `p`. -/
theorem redc1_rounds_spec (a b p out0 : List Nat) (len len_mul mpinv : Nat)
    (hlen1 : 1 ≤ len) (hlm : len_mul ≤ len) (hL : len + 1 ≤ out0.length)
    (ha : ∀ k, a.getD k 0 < 2 ^ WORD_BITS) (hb : ∀ k, b.getD k 0 < 2 ^ WORD_BITS)
    (hp : ∀ k, p.getD k 0 < 2 ^ WORD_BITS) (hout : ∀ k, out0.getD k 0 = 0)
    (hinv : (mpinv * p.getD 0 0 + 1) % 2 ^ WORD_BITS = 0) (hPpos : 0 < nn_words_val p len) :
    (forUp (redc1_round a b p len len_mul mpinv) len 0 out0).length = out0.length ∧
    (∀ k, (forUp (redc1_round a b p len len_mul mpinv) len 0 out0).getD k 0 < 2 ^ WORD_BITS) ∧
    (∀ k, len + 1 ≤ k → (forUp (redc1_round a b p len len_mul mpinv) len 0 out0).getD k 0 = 0) ∧
    nn_words_val (forUp (redc1_round a b p len len_mul mpinv) len 0 out0) (len + 1) <
      nn_words_val p len + nn_words_val b len_mul ∧
    ∃ M, nn_words_val (forUp (redc1_round a b p len len_mul mpinv) len 0 out0) (len + 1) *
        (2 ^ WORD_BITS) ^ len = nn_words_val a len * nn_words_val b len_mul +
          M * nn_words_val p len := by
  have key := forUp_inv (redc1_round a b p len len_mul mpinv)
    (fun i o => o.length = out0.length ∧ (∀ k, o.getD k 0 < 2 ^ WORD_BITS) ∧
      (∀ k, len + 1 ≤ k → o.getD k 0 = 0) ∧
      nn_words_val o (len + 1) < nn_words_val p len + nn_words_val b len_mul ∧
      ∃ M, nn_words_val o (len + 1) * (2 ^ WORD_BITS) ^ i =
        nn_words_val a i * nn_words_val b len_mul + M * nn_words_val p len)
    len 0 out0
    ⟨rfl, fun k => by rw [hout k]; positivity, fun k _ => hout k, by
      rw [nn_words_val_zero out0 _ (fun i _ => hout i)]; omega,
      0, by rw [nn_words_val_zero out0 _ (fun i _ => hout i)]; simp [nn_words_val]⟩
    (by
      rintro i o - hi ⟨hl, hbd, hz, hV, M, hM⟩
      obtain ⟨hl1, hbd1, hs1, m, hm, hround⟩ :=
        redc1_round_spec a b p o len len_mul mpinv i hlen1 hlm (by omega) ha hb hp hbd hinv
      refine ⟨by rw [hl1, hl], hbd1, fun k hk => by rw [hs1 k hk, hz k hk], ?_, ?_⟩
      · exact rounds_bound _ _ _ _ _ _ _ (by positivity) (ha i) hm hV hround
      · refine ⟨M + m * (2 ^ WORD_BITS) ^ i, ?_⟩
        rw [nn_words_val_succ a i, pow_succ]
        exact rounds_congr _ _ _ _ _ _ _ _ _ _ hround hM)
  rw [Nat.zero_add] at key
  exact key

end Libecc

namespace Libecc

theorem getD_append_drop (ws l : List Nat) (n i : Nat) (hws : ws.length = n) :
    (ws ++ l.drop n).getD i 0 = if i < n then ws.getD i 0 else l.getD i 0 := by
  simp only [List.getD_eq_getElem?_getD]
  by_cases h : i < n
  · rw [List.getElem?_append_left (by omega), if_pos h]
  · rw [List.getElem?_append_right (by omega), if_neg h, List.getElem?_drop, hws]
    congr 2
    omega

theorem nn_val_lt_pow {N : Nat} {A : nn} (h : nn_initialized N A) :
    nn_val A < (2 ^ WORD_BITS) ^ A.wlen := by
  obtain ⟨-, -, -, hlt, -⟩ := (nn_initialized_iff N A).1 h
  have := nn_words_val_lt A.val A.wlen (fun i _ => hlt i)
  rwa [pow_mul] at this

/-- The end of `_nn_mul_redc1`: from an accumulator `V < 2 * p` on `len + 1`
words, the result is `V` or `V - p`, below `p`, on `len` words. -/
theorem redc1_final_sub_correct (N : Nat) (out p : nn) (len : Nat) (hp : nn_initialized N p)
    (hpw : p.wlen = len) (hom : out.magic = NN_MAGIC) (how : out.wlen = len + 1)
    (hN1 : len + 1 ≤ N) (hol : out.val.length = N)
    (hoz : ∀ k, len + 1 ≤ k → out.val.getD k 0 = 0)
    (hV : nn_words_val out.val (len + 1) < 2 * nn_val p) :
    ∃ r, redc1_final_sub N out p len = (r, true) ∧ nn_initialized N r ∧ r.wlen = len ∧
      nn_val r < nn_val p ∧
      (nn_val r = nn_words_val out.val (len + 1) ∨
        nn_val r + nn_val p = nn_words_val out.val (len + 1)) := by
  obtain ⟨hpm, hpwl, hpl, hpb, hpz⟩ := (nn_initialized_iff N p).1 hp
  have hPlt := nn_val_lt_pow hp
  rw [hpw] at hPlt
  have hPfull : nn_words_val p.val (len + 1) = nn_val p := nn_val_eq_full hp (len + 1) (by omega)
  have hco : nn_check_initialized N out = true := by
    rw [nn_check_initialized_iff]; exact ⟨hom, by omega⟩
  -- the value after the conditional subtraction
  have hb : (if decide ((if nn_words_val out.val (len + 1) < nn_val p then (-1 : Int)
      else if nn_words_val out.val (len + 1) = nn_val p then 0 else 1) ≥ 0) = true
      then nn_val p else 0) =
      (if nn_words_val out.val (len + 1) < nn_val p then 0 else nn_val p) := by
    by_cases h1 : nn_words_val out.val (len + 1) < nn_val p
    · simp [h1]
    · by_cases h2 : nn_words_val out.val (len + 1) = nn_val p
      · simp [h2]
      · simp [h1, h2]
  obtain ⟨V1, hV1, hV1lt, hV1or⟩ : ∃ V1,
      V1 = nn_words_val out.val (len + 1) -
        (if nn_words_val out.val (len + 1) < nn_val p then 0 else nn_val p) ∧ V1 < nn_val p ∧
      (V1 = nn_words_val out.val (len + 1) ∨ V1 + nn_val p = nn_words_val out.val (len + 1)) := by
    refine ⟨_, rfl, ?_⟩
    by_cases hc : nn_words_val out.val (len + 1) < nn_val p
    · rw [if_pos hc]
      omega
    · rw [if_neg hc]
      omega
  have hcmp1 : nn_cmp N out p = some (if nn_words_val out.val (len + 1) < nn_val p then (-1 : Int)
      else if nn_words_val out.val (len + 1) = nn_val p then 0 else 1) := by
    unfold nn_cmp
    have : (if out.wlen ≥ p.wlen then out.wlen else p.wlen) = len + 1 := by
      rw [how, hpw, if_pos (by omega)]
    simp only [hco, hp.1, Bool.and_self, if_true, this, hPfull]
  have hnotlt : ¬ nn_words_val out.val (len + 1) <
      (if nn_words_val out.val (len + 1) < nn_val p then 0 else nn_val p) := by
    by_cases hc : nn_words_val out.val (len + 1) < nn_val p
    · rw [if_pos hc]; omega
    · rw [if_neg hc]; omega
  have hsub : nn_cnd_sub N (decide ((if nn_words_val out.val (len + 1) < nn_val p then (-1 : Int)
      else if nn_words_val out.val (len + 1) = nn_val p then 0 else 1) ≥ 0)) out p =
      some (nn.mk (nn_words_of_nat V1 (len + 1) ++ out.val.drop (len + 1)) (len + 1) out.magic) := by
    unfold nn_cnd_sub
    have : (if out.wlen ≥ p.wlen then out.wlen else p.wlen) = len + 1 := by
      rw [how, hpw, if_pos (by omega)]
    simp only [hco, hp.1, Bool.and_self, if_true, this, hPfull, hb, if_neg hnotlt, ← hV1]
  -- the words of the result
  have hget : ∀ i, (nn_words_of_nat V1 (len + 1) ++ out.val.drop (len + 1)).getD i 0 =
      if i < len then (V1 / 2 ^ (WORD_BITS * i)) % 2 ^ WORD_BITS else 0 := by
    intro i
    rw [getD_append_drop _ _ _ _ (length_nn_words_of_nat _ _), getD_nn_words_of_nat]
    by_cases h1 : i < len
    · rw [if_pos (by omega), if_pos (by omega), if_pos h1]
    · rw [if_neg h1]
      by_cases h2 : i < len + 1
      · rw [if_pos h2, if_pos h2]
        have : i = len := by omega
        subst this
        rw [pow_mul, Nat.div_eq_of_lt (lt_trans hV1lt hPlt), Nat.zero_mod]
      · rw [if_neg h2]
        exact hoz i (by omega)
  have hlenS : (nn_words_of_nat V1 (len + 1) ++ out.val.drop (len + 1)).length = N := by
    rw [List.length_append, length_nn_words_of_nat, List.length_drop, hol]; omega
  have hvalS : ∀ n, len ≤ n →
      nn_words_val (nn_words_of_nat V1 (len + 1) ++ out.val.drop (len + 1)) n = V1 := by
    intro n hn
    rw [nn_words_val_zero_ext _ len n hn (fun i h1 _ => by rw [hget, if_neg (by omega)]),
      nn_words_val_of_nat _ V1 len (fun i hi => by rw [hget, if_pos hi]), pow_mul]
    exact Nat.mod_eq_of_lt (lt_trans hV1lt hPlt)
  have hcmp2 : nn_cmp N
      (nn.mk (nn_words_of_nat V1 (len + 1) ++ out.val.drop (len + 1)) (len + 1) out.magic) p =
      some (-1) := by
    unfold nn_cmp
    have hc2 : nn_check_initialized N
        (nn.mk (nn_words_of_nat V1 (len + 1) ++ out.val.drop (len + 1)) (len + 1) out.magic) =
        true := by
      rw [nn_check_initialized_iff]; exact ⟨hom, hN1⟩
    have : (if len + 1 ≥ p.wlen then len + 1 else p.wlen) = len + 1 := by
      rw [hpw, if_pos (by omega)]
    simp only [hc2, hp.1, Bool.and_self, if_true, this, hPfull, hvalS (len + 1) (by omega),
      if_pos hV1lt]
  refine ⟨nn.mk (nn_words_of_nat V1 (len + 1) ++ out.val.drop (len + 1)) len out.magic,
    ?_, ?_, rfl, ?_, ?_⟩
  · unfold redc1_final_sub
    rw [hcmp1]
    simp only
    rw [hsub]
    simp only
    rw [hcmp2]
    simp only [Int.reduceNeg, Left.neg_neg_iff, zero_lt_one, if_true]
  · rw [nn_initialized_iff]
    refine ⟨hom, (by show len ≤ N; omega), hlenS, ?_, ?_⟩
    · intro i
      simp only
      rw [hget]
      split
      · exact Nat.mod_lt _ (by positivity)
      · positivity
    · intro i hi
      simp only at hi ⊢
      rw [hget, if_neg (by omega)]
  · unfold nn_val
    simp only
    rw [hvalS len (le_refl _)]
    exact hV1lt
  · unfold nn_val
    simp only
    rw [hvalS len (le_refl _)]
    exact hV1or

end Libecc

namespace Libecc

/-! ## `nn_bitlen` and `nn_getbit` -/

/-- The scan of `nn_bitlen` returns 0 exactly when the words scanned are all
zero. -/
theorem nn_bitlen_loop_eq_zero (v : List Nat) (hv : ∀ i, v.getD i 0 < 2 ^ WORD_BITS) (n : Nat) :
    nn_bitlen_loop v n = 0 ↔ ∀ i, i < n → v.getD i 0 = 0 := by
  induction n with
  | zero => simp [nn_bitlen_loop]
  | succ n ih =>
    simp only [nn_bitlen_loop]
    by_cases h : v.getD n 0 = 0
    · simp only [h, ne_eq, not_true_eq_false, if_false]
      rw [ih]
      constructor
      · intro h1 i hi
        rcases Nat.lt_succ_iff_lt_or_eq.1 hi with h2 | h2
        · exact h1 i h2
        · rw [h2]; exact h
      · intro h1 i hi
        exact h1 i (by omega)
    · rw [if_pos h]
      have hw := hv n
      rw [WORD_BITS_eq] at hw
      obtain ⟨hc, -, -⟩ := wclz_bounds (v.getD n 0) (Nat.pos_of_ne_zero h) hw
      constructor
      · intro h1
        rw [WORD_BITS_eq] at h1
        omega
      · intro h1
        exact absurd (h1 n (by omega)) h

/-- A number has one bit length only. -/
theorem bitlen_unique (x n m : Nat) (hn : 2 ^ (n - 1) ≤ x ∧ x < 2 ^ n)
    (hm : 2 ^ (m - 1) ≤ x ∧ x < 2 ^ m) : m = n := by
  have h1 : 2 ^ (n - 1) < 2 ^ m := lt_of_le_of_lt hn.1 hm.2
  have h2 : 2 ^ (m - 1) < 2 ^ n := lt_of_le_of_lt hm.1 hn.2
  have h3 := (Nat.pow_lt_pow_iff_right (by norm_num : 1 < 2)).1 h1
  have h4 := (Nat.pow_lt_pow_iff_right (by norm_num : 1 < 2)).1 h2
  by_cases hn0 : n = 0
  · subst hn0
    simp at hn
    omega
  by_cases hm0 : m = 0
  · subst hm0
    simp at hm
    omega
  omega

/-- C11: for every initialized `inp`, `nn_bitlen` returns a bit count `n`; `n` is
0 exactly when all the `inp.wlen` active words are zero, and otherwise `n` is
the unique number with `2 ^ (n - 1) ≤ val(inp) < 2 ^ n`; in every case
`n ≤ WORD_BITS * inp.wlen`. -/
theorem nn_bitlen_value (N : Nat) (inp : nn) (h : nn_initialized N inp) :
    ∃ n, nn_bitlen N inp = some n ∧
      (n = 0 ↔ ∀ i, i < inp.wlen → inp.val.getD i 0 = 0) ∧
      n ≤ WORD_BITS * inp.wlen ∧
      (n ≠ 0 → 2 ^ (n - 1) ≤ nn_val inp ∧ nn_val inp < 2 ^ n ∧
        ∀ m, 2 ^ (m - 1) ≤ nn_val inp ∧ nn_val inp < 2 ^ m → m = n) := by
  obtain ⟨-, -, -, hw, -⟩ := (nn_initialized_iff N inp).1 h
  obtain ⟨h1, h2, h3⟩ := nn_bitlen_loop_spec inp.val hw inp.wlen
  refine ⟨_, nn_bitlen_eq h, nn_bitlen_loop_eq_zero inp.val hw inp.wlen, h1, fun hn => ?_⟩
  exact ⟨h3 hn, h2, fun m hm => bitlen_unique _ _ _ ⟨h3 hn, h2⟩ hm⟩

/-- C11 at a concrete input: the two-word number `2 ^ 64 + 5` has bit length 65,
and the number 0 on two active words has bit length 0. -/
theorem nn_bitlen_value_witness :
    nn_initialized 4 (nn_of_nat 4 2 (2 ^ 64 + 5)) ∧
      nn_bitlen 4 (nn_of_nat 4 2 (2 ^ 64 + 5)) = some 65 ∧
      nn_bitlen 4 (nn_of_nat 4 2 0) = some 0 ∧
      ∃ n, nn_bitlen 4 (nn_of_nat 4 2 (2 ^ 64 + 5)) = some n ∧
        (n = 0 ↔ ∀ i, i < (nn_of_nat 4 2 (2 ^ 64 + 5)).wlen →
          (nn_of_nat 4 2 (2 ^ 64 + 5)).val.getD i 0 = 0) ∧
        n ≤ WORD_BITS * (nn_of_nat 4 2 (2 ^ 64 + 5)).wlen ∧
        (n ≠ 0 → 2 ^ (n - 1) ≤ nn_val (nn_of_nat 4 2 (2 ^ 64 + 5)) ∧
          nn_val (nn_of_nat 4 2 (2 ^ 64 + 5)) < 2 ^ n ∧
          ∀ m, 2 ^ (m - 1) ≤ nn_val (nn_of_nat 4 2 (2 ^ 64 + 5)) ∧
            nn_val (nn_of_nat 4 2 (2 ^ 64 + 5)) < 2 ^ m → m = n) :=
  ⟨by decide, by decide, by decide, nn_bitlen_value 4 (nn_of_nat 4 2 (2 ^ 64 + 5)) (by decide)⟩

end Libecc

namespace Libecc

/-- The word expression of `nn_getbit` extracts the bit `b` of the word. -/
theorem getbit_word (w b : Nat) : ((w &&& 2 ^ b) >>> b) &&& 1 = w / 2 ^ b % 2 := by
  rw [Nat.and_one_is_mod, Nat.shiftRight_eq_div_pow, ← Nat.toNat_testBit, ← Nat.toNat_testBit,
    Nat.testBit_and, Nat.testBit_two_pow_self, Bool.and_true]

/-- What `nn_getbit` computes when the bit index is in range. -/
theorem nn_getbit_eq (N : Nat) (inp : nn) (h : nn_initialized N inp) (bit : Nat)
    (hb : bit < NN_MAX_BIT_LEN N) : nn_getbit N inp bit = some (nn_val inp / 2 ^ bit % 2) := by
  obtain ⟨-, -, -, hw, hz⟩ := (nn_initialized_iff N inp).1 h
  have hlt : bit % WORD_BITS < 64 := Nat.mod_lt _ (by decide)
  have hu : u8 (bit % WORD_BITS) = bit % WORD_BITS := by
    unfold u8; exact Nat.mod_eq_of_lt (by omega)
  have hp : (1 <<< (bit % WORD_BITS)) % 2 ^ WORD_BITS = 2 ^ (bit % WORD_BITS) := by
    rw [Nat.one_shiftLeft]
    exact Nat.mod_eq_of_lt (Nat.pow_lt_pow_right (by norm_num) (by rw [WORD_BITS_eq]; exact hlt))
  have hval : nn_val inp / 2 ^ bit % 2 =
      inp.val.getD (bit / WORD_BITS) 0 / 2 ^ (bit % WORD_BITS) % 2 := by
    rw [← Nat.toNat_testBit, ← Nat.toNat_testBit]
    unfold nn_val
    rw [nn_words_val_testBit inp.val inp.wlen (fun i _ => hw i) bit]
    by_cases hk : bit / WORD_BITS < inp.wlen
    · simp [hk]
    · rw [hz _ (by omega)]
      simp
  unfold nn_getbit
  simp only [nn_initialized_check h, not_true_eq_false, if_false, hb, hu, hp]
  rw [getbit_word, hval]
  congr 1
  unfold u8
  exact Nat.mod_eq_of_lt (by omega)

/-- C12: for every initialized `inp`, `nn_getbit` succeeds exactly when
`bit < NN_MAX_BIT_LEN`; when it succeeds the word index `bit / WORD_BITS` is
below `NN_MAX_WORD_LEN` (the length of the word array) and the result is
`floor(val(inp) / 2 ^ bit) mod 2`, hence 0 or 1, and 0 for every
`bit ≥ WORD_BITS * inp.wlen`; for `bit ≥ NN_MAX_BIT_LEN` it fails whatever the
words are, none of them being read. -/
theorem nn_getbit_spec (N : Nat) (inp : nn) (h : nn_initialized N inp) (bit : Nat) :
    ((nn_getbit N inp bit).isSome = true ↔ bit < NN_MAX_BIT_LEN N) ∧
      (bit < NN_MAX_BIT_LEN N →
        bit / WORD_BITS < N ∧ bit / WORD_BITS < inp.val.length ∧
        nn_getbit N inp bit = some (nn_val inp / 2 ^ bit % 2) ∧
        nn_val inp / 2 ^ bit % 2 < 2 ∧
        (WORD_BITS * inp.wlen ≤ bit → nn_getbit N inp bit = some 0)) ∧
      (NN_MAX_BIT_LEN N ≤ bit → ∀ v, nn_getbit N { inp with val := v } bit = none) := by
  have hfail : NN_MAX_BIT_LEN N ≤ bit → ∀ v, nn_getbit N { inp with val := v } bit = none := by
    intro hb v
    unfold nn_getbit
    simp [Nat.not_lt.2 hb]
  refine ⟨?_, fun hb => ?_, hfail⟩
  · constructor
    · intro hs
      by_contra hb
      have := hfail (Nat.not_lt.1 hb) inp.val
      rw [this] at hs
      simp at hs
    · intro hb
      rw [nn_getbit_eq N inp h bit hb]
      rfl
  · obtain ⟨-, -, hl, -, -⟩ := (nn_initialized_iff N inp).1 h
    have hidx : bit / WORD_BITS < N := by
      unfold NN_MAX_BIT_LEN at hb
      exact Nat.div_lt_of_lt_mul hb
    refine ⟨hidx, by rw [hl]; exact hidx, nn_getbit_eq N inp h bit hb,
      Nat.mod_lt _ (by norm_num), fun hge => ?_⟩
    rw [nn_getbit_eq N inp h bit hb]
    have hlt : nn_val inp < 2 ^ bit := by
      have h1 := nn_val_lt_pow h
      rw [← pow_mul] at h1
      exact lt_of_lt_of_le h1 (Nat.pow_le_pow_right (by norm_num) hge)
    rw [Nat.div_eq_of_lt hlt]

/-- C12 at a concrete input: of the number 5 held on one active word of a
capacity of 2 words, bit 2 is 1, bit 1 is 0, bit 100 (above the active word) is
0 and bit 128 is refused. -/
theorem nn_getbit_spec_witness :
    nn_getbit 2 (nn_of_nat 2 1 5) 2 = some 1 ∧ nn_getbit 2 (nn_of_nat 2 1 5) 1 = some 0 ∧
      nn_getbit 2 (nn_of_nat 2 1 5) 100 = some 0 ∧ nn_getbit 2 (nn_of_nat 2 1 5) 128 = none ∧
      ((nn_getbit 2 (nn_of_nat 2 1 5) 2).isSome = true ↔ 2 < NN_MAX_BIT_LEN 2) :=
  ⟨by decide, by decide, by decide, by decide,
    (nn_getbit_spec 2 (nn_of_nat 2 1 5) (by decide) 2).1⟩

end Libecc

namespace Libecc

/-! ## Raw key buffers -/

theorem length_be_bytes (v n : Nat) : (be_bytes v n).length = n := by
  induction n generalizing v with
  | zero => rfl
  | succ n ih => simp [be_bytes, ih]

theorem be_bytes_lt (v n : Nat) : ∀ b ∈ be_bytes v n, b < 256 := by
  induction n generalizing v with
  | zero => simp [be_bytes]
  | succ n ih =>
    intro b hb
    simp only [be_bytes, List.mem_append, List.mem_singleton] at hb
    rcases hb with hb | hb
    · exact ih _ b hb
    · rw [hb]; exact Nat.mod_lt _ (by norm_num)

/-- The big-endian value of `n` bytes depends on these bytes only. -/
theorem be_val_congr (a b : List Nat) (n : Nat) (h : ∀ i, i < n → a.getD i 0 = b.getD i 0) :
    be_val a n = be_val b n := by
  induction n with
  | zero => rfl
  | succ n ih =>
    simp only [be_val]
    rw [ih (fun i hi => h i (by omega)), h n (by omega)]

theorem be_val_lt (a : List Nat) (n : Nat) : be_val a n < 256 ^ n := by
  induction n with
  | zero => simp [be_val]
  | succ n ih =>
    simp only [be_val, pow_succ]
    have : a.getD n 0 % 256 < 256 := Nat.mod_lt _ (by norm_num)
    omega

/-- Reading back the bytes written for `v` gives the `n` low bytes of `v`. -/
theorem be_val_be_bytes (v n : Nat) (rest : List Nat) :
    be_val (be_bytes v n ++ rest) n = v % 256 ^ n := by
  induction n generalizing v rest with
  | zero => simp [be_val, Nat.mod_one]
  | succ n ih =>
    simp only [be_val, be_bytes, List.append_assoc]
    rw [ih (v / 256) ([v % 256] ++ rest)]
    have hg : (be_bytes (v / 256) n ++ ([v % 256] ++ rest)).getD n 0 = v % 256 := by
      rw [List.getD_append_right _ _ _ _ (by rw [length_be_bytes])]
      simp [length_be_bytes]
    rw [hg, Nat.mod_mod, pow_succ, Nat.mul_comm (256 ^ n) 256, Nat.mod_mul]
    ring

theorem getD_be_bytes_append_lt (v n : Nat) (rest : List Nat) (i : Nat) (hi : i < n) :
    (be_bytes v n ++ rest).getD i 0 < 256 := by
  rw [List.getD_append _ _ _ _ (by rw [length_be_bytes]; exact hi)]
  rw [List.getD_eq_getElem _ _ (by rw [length_be_bytes]; exact hi)]
  exact be_bytes_lt v n _ (List.getElem_mem _)

/-- What the raw private-key export does on a buffer that is there. -/
theorem ec_priv_key_export_ok (N : Nat) (k : ec_priv_key) (buf : List Nat) (len : Nat)
    (hk : priv_key_check_initialized k = 0) (hx : nn_initialized N k.x)
    (hlen : nn_bitlen_loop k.x.val k.x.wlen ≤ 8 * len) :
    ec_priv_key_export_to_buf N k (some buf) len =
      (0, some (be_bytes (nn_val k.x) len ++ buf.drop len)) := by
  unfold ec_priv_key_export_to_buf
  simp only [hk, ne_eq, not_true_eq_false, if_false, nn_bitlen_eq hx, ge_iff_le, hlen,
    nn_export_to_buf, nn_initialized_check hx]

/-- The value of a big number fits the bytes that hold its bit length. -/
theorem nn_val_lt_bytes {N : Nat} {A : nn} (h : nn_initialized N A) (len : Nat)
    (hlen : nn_bitlen_loop A.val A.wlen ≤ 8 * len) : nn_val A < 256 ^ len := by
  have h1 := nn_val_lt_bitlen h
  have h2 : (256 : Nat) ^ len = 2 ^ (8 * len) := by
    rw [pow_mul]; norm_num
  rw [h2]
  exact lt_of_lt_of_le h1 (Nat.pow_le_pow_right (by norm_num) hlen)

end Libecc

namespace Libecc

/-- C16: for every private key object and every buffer of `len` bytes,
`ec_priv_key_export_to_buf` returns an error if the key is not initialized or
if `8 * len < bitlen(key.x)`; for an initialized key (validity tag set, the
scalar an initialized big number) with `8 * len ≥ bitlen(key.x)` it succeeds and
the `len` output bytes, read as a big-endian integer, equal the scalar's value
(each output byte is a byte, and the buffer past `len` is untouched). -/
theorem ec_priv_key_export_spec (N : Nat) (k : ec_priv_key) (buf : List Nat) (len : Nat) :
    (priv_key_check_initialized k ≠ 0 → (ec_priv_key_export_to_buf N k (some buf) len).1 ≠ 0) ∧
      (∀ blen, nn_bitlen N k.x = some blen → 8 * len < blen →
        (ec_priv_key_export_to_buf N k (some buf) len).1 ≠ 0) ∧
      (priv_key_check_initialized k = 0 → nn_initialized N k.x →
        ∀ blen, nn_bitlen N k.x = some blen → blen ≤ 8 * len →
          ∃ out, ec_priv_key_export_to_buf N k (some buf) len = (0, some out) ∧
            be_val out len = nn_val k.x ∧ (∀ i, i < len → out.getD i 0 < 256) ∧
            out.drop len = buf.drop len) := by
  refine ⟨fun hk => ?_, fun blen hb hlt => ?_, fun hk hx blen hb hle => ?_⟩
  · unfold ec_priv_key_export_to_buf
    simp only [ne_eq, hk, not_false_eq_true, if_true]
  · unfold ec_priv_key_export_to_buf
    by_cases hk : priv_key_check_initialized k = 0
    · simp only [ne_eq, hk, not_true_eq_false, if_false, hb, ge_iff_le, Nat.not_le.2 hlt,
        not_false_eq_true, if_true]
      decide
    · simp only [ne_eq, hk, not_false_eq_true, if_true]
  · rw [nn_bitlen_eq hx] at hb
    have hb2 : nn_bitlen_loop k.x.val k.x.wlen = blen := Option.some.inj hb
    have hle2 : nn_bitlen_loop k.x.val k.x.wlen ≤ 8 * len := by rw [hb2]; exact hle
    refine ⟨_, ec_priv_key_export_ok N k buf len hk hx hle2, ?_, ?_, ?_⟩
    · rw [be_val_be_bytes, Nat.mod_eq_of_lt (nn_val_lt_bytes hx len hle2)]
    · exact fun i hi => getD_be_bytes_append_lt _ _ _ i hi
    · rw [List.drop_append_of_le_length (by rw [length_be_bytes]),
        List.drop_of_length_le (by rw [length_be_bytes])]
      simp

/-- C16 at a concrete input: the scalar `0x0102` (bit length 9) is exported to
two bytes as `01 02`, and refused on one byte. -/
theorem ec_priv_key_export_spec_witness :
    (∃ out, ec_priv_key_export_to_buf 1
        { x := nn_of_nat 1 1 0x0102, key_type := 1, params := none, magic := PRIV_KEY_MAGIC }
        (some [0, 0]) 2 = (0, some out) ∧
      be_val out 2 = nn_val (nn_of_nat 1 1 0x0102) ∧ (∀ i, i < 2 → out.getD i 0 < 256) ∧
      out.drop 2 = ([0, 0] : List Nat).drop 2) ∧
    ec_priv_key_export_to_buf 1
        { x := nn_of_nat 1 1 0x0102, key_type := 1, params := none, magic := PRIV_KEY_MAGIC }
        (some [0, 0]) 2 = (0, some [1, 2]) ∧
    ec_priv_key_export_to_buf 1
        { x := nn_of_nat 1 1 0x0102, key_type := 1, params := none, magic := PRIV_KEY_MAGIC }
        (some [0]) 1 = (-1, some [0]) :=
  ⟨(ec_priv_key_export_spec 1
      { x := nn_of_nat 1 1 0x0102, key_type := 1, params := none, magic := PRIV_KEY_MAGIC }
      [0, 0] 2).2.2 (by decide) (by decide) 9 (by decide) (by decide),
    by decide, by decide⟩

end Libecc

namespace Libecc

/-! ## Structured key buffers -/

/-- The big number built from a value that fits its active words is
initialized. -/
theorem nn_of_nat_initialized (N w v : Nat) (hw : w ≤ N) (hv : v < 2 ^ (WORD_BITS * w)) :
    nn_initialized N (nn_of_nat N w v) := by
  rw [nn_initialized_iff]
  refine ⟨rfl, hw, length_nn_words_of_nat v N, fun i => ?_, fun i hi => ?_⟩
  · show (nn_words_of_nat v N).getD i 0 < _
    rw [getD_nn_words_of_nat]
    split
    · exact Nat.mod_lt _ (by positivity)
    · positivity
  · show (nn_words_of_nat v N).getD i 0 = 0
    rw [getD_nn_words_of_nat]
    split
    · have h1 : v < 2 ^ (WORD_BITS * i) :=
        lt_of_lt_of_le hv (Nat.pow_le_pow_right (by norm_num) (Nat.mul_le_mul_left _ hi))
      rw [Nat.div_eq_of_lt h1, Nat.zero_mod]
    · rfl

/-- The value of the big number built from a value that fits its active words. -/
theorem nn_val_nn_of_nat (N w v : Nat) (hw : w ≤ N) (hv : v < 2 ^ (WORD_BITS * w)) :
    nn_val (nn_of_nat N w v) = v := by
  show nn_words_val (nn_words_of_nat v N) w = v
  rw [nn_words_val_of_nat (nn_words_of_nat v N) v w (fun i hi => by
    rw [getD_nn_words_of_nat, if_pos (by omega)]), Nat.mod_eq_of_lt hv]

/-- The bytes of a buffer fit the words sized for them. -/
theorem bytes_fit_words (n : Nat) : (256 : Nat) ^ n ≤ 2 ^ (WORD_BITS * BYTE_LEN_WORDS n) := by
  have h2 : (256 : Nat) ^ n = 2 ^ (8 * n) := by
    rw [pow_mul]; norm_num
  rw [h2]
  apply Nat.pow_le_pow_right (by norm_num)
  unfold BYTE_LEN_WORDS
  rw [WORD_BITS_eq]
  omega

/-- What the raw private-key import does on a buffer that is there and fits the
capacity. -/
theorem ec_priv_key_import_ok (N : Nat) (dst : ec_priv_key) (params : Option ec_params)
    (buf : List Nat) (len : Nat) (alg : ec_sig_alg_type) (hlen : len ≤ N * (WORD_BITS / 8))
    (h256 : len < 256) :
    ∃ k, ec_priv_key_import_from_buf N dst params (some buf) len alg = (0, k) ∧
      nn_initialized N k.x ∧ nn_val k.x = be_val buf len ∧ k.key_type = alg ∧
      k.params = params ∧ k.magic = PRIV_KEY_MAGIC := by
  have hw : BYTE_LEN_WORDS len ≤ N := by
    unfold BYTE_LEN_WORDS
    rw [WORD_BITS_eq] at hlen ⊢
    omega
  have hu : u8 (BYTE_LEN_WORDS len) = BYTE_LEN_WORDS len := by
    unfold u8 BYTE_LEN_WORDS
    rw [WORD_BITS_eq]
    omega
  have hv : be_val buf len < 2 ^ (WORD_BITS * BYTE_LEN_WORDS len) :=
    lt_of_lt_of_le (be_val_lt buf len) (bytes_fit_words len)
  refine ⟨ec_priv_key.mk (nn_of_nat N (u8 (BYTE_LEN_WORDS len)) (be_val buf len)) alg params
    PRIV_KEY_MAGIC, ?_, ?_, ?_, rfl, rfl, rfl⟩
  · unfold ec_priv_key_import_from_buf nn_init_from_buf
    simp only [hlen, not_true_eq_false, if_false, ne_eq]
  · show nn_initialized N (nn_of_nat N (u8 (BYTE_LEN_WORDS len)) (be_val buf len))
    rw [hu]
    exact nn_of_nat_initialized N _ _ hw hv
  · show nn_val (nn_of_nat N (u8 (BYTE_LEN_WORDS len)) (be_val buf len)) = _
    rw [hu]
    exact nn_val_nn_of_nat N _ _ hw hv

end Libecc

namespace Libecc

theorem u8_of_lt (x : Nat) (h : x < 256) : u8 x = x := Nat.mod_eq_of_lt h

/-- A structured export that succeeds passed every check, wrote the three
header bytes and ended on a successful raw export to the bytes after them. -/
theorem structured_export_success (E : ec_env) (tag : Nat) (chk : Int)
    (key_type : ec_sig_alg_type) (params : Option ec_params)
    (raw : Option (List Nat) → Nat → Int × Option (List Nat)) (buf : List Nat) (L : Nat)
    (htag : tag < 256) (hL : L < 256) (hbuf : buf.length = L)
    (hraw : ∀ b n, ∃ o, (raw (some b) n).2 = some o)
    (h : (structured_export E tag chk key_type params raw (some buf) L).1 = 0) :
    ∃ out par name t,
      (structured_export E tag chk key_type params raw (some buf) L).2 = some out ∧
      chk = 0 ∧ 3 < L ∧ params = some par ∧ par.curve_name = some name ∧
      local_strlen name + 1 < 256 ∧
      E.ec_get_curve_type_by_name name (u8 (local_strlen name + 1)) = some t ∧
      out.getD 0 0 = tag ∧ out.getD 1 0 = key_type.val ∧ out.getD 2 0 = t.val ∧
      raw (some (buf.drop 3)) (L - 3) = (0, some (out.drop 3)) := by
  unfold structured_export at h ⊢
  by_cases hc : chk = 0
  swap
  · simp only [ne_eq, hc, not_false_eq_true, if_true] at h
  by_cases h3 : 3 < L
  swap
  · simp [hc, h3] at h
  rcases params with _ | par
  · simp [hc, h3] at h
  rcases hn : par.curve_name with _ | name
  · simp [hc, h3, hn] at h
  by_cases hlen : local_strlen name + 1 < 256
  swap
  · simp [hc, h3, hn, hlen] at h
  rcases ht : E.ec_get_curve_type_by_name name (u8 (local_strlen name + 1)) with _ | t
  · simp [hc, h3, hn, hlen, ht] at h
  rcases buf with _ | ⟨a, _ | ⟨b, _ | ⟨c, rest⟩⟩⟩
  · simp at hbuf; omega
  · simp at hbuf; omega
  · simp at hbuf; omega
  have hu : u8 (L - 3) = L - 3 := u8_of_lt _ (by omega)
  obtain ⟨o, ho⟩ := hraw rest (L - 3)
  simp only [hc, ne_eq, not_true_eq_false, if_false, gt_iff_lt, h3, Option.some_bind, hn, hlen,
    ht, List.set_cons_zero, List.set_cons_succ, List.drop_succ_cons, List.drop_zero, hu, ho,
    Option.getD_some, List.take_succ_cons, List.take_zero] at h ⊢
  refine ⟨_, par, name, t, rfl, trivial, trivial, rfl, hn, hlen, ht, ?_, ?_, ?_, ?_⟩
  · simp [u8_of_lt tag htag]
  · simp [u8_of_lt _ key_type.isLt]
  · simp [u8_of_lt _ t.isLt]
  · simp only [List.cons_append, List.nil_append, List.drop_succ_cons, List.drop_zero]
    rw [← ho, ← h]

end Libecc

namespace Libecc

theorem priv_export_buf_some (N : Nat) (k : ec_priv_key) (b : List Nat) (n : Nat) :
    ∃ o, (ec_priv_key_export_to_buf N k (some b) n).2 = some o := by
  unfold ec_priv_key_export_to_buf nn_export_to_buf
  by_cases hk : priv_key_check_initialized k = 0
  · rcases nn_bitlen N k.x with _ | blen
    · exact ⟨b, by simp [hk]⟩
    · by_cases h1 : blen ≤ 8 * n
      · by_cases h2 : nn_check_initialized N k.x = true
        · exact ⟨be_bytes (nn_val k.x) n ++ List.drop n b, by simp [hk, h1, h2]⟩
        · exact ⟨b, by simp [hk, h1, h2]⟩
      · exact ⟨b, by simp [hk, h1]⟩
  · exact ⟨b, by simp [hk]⟩

theorem pub_export_buf_some (E : ec_env) (k : ec_pub_key) (b : List Nat) (n : Nat) :
    ∃ o, (ec_pub_key_export_to_buf E k (some b) n).2 = some o := by
  unfold ec_pub_key_export_to_buf
  by_cases hk : pub_key_check_initialized k = 0
  · exact ⟨(E.prj_pt_export_to_buf k.y b n).2, by simp [hk]⟩
  · exact ⟨b, by simp [hk]⟩

/-- C15: whenever `ec_structured_priv_key_export_to_buf` (resp.
`ec_structured_pub_key_export_to_buf`) succeeds on a buffer of length `L`,
byte 0 of the buffer is the key-class tag `EC_PRIVKEY` (resp. `EC_PUBKEY`), byte 1
is the key's `key_type`, byte 2 is the curve identifier that the curve name of
the key's `params` resolves to, and the bytes from index 3 on are what the raw
export of the same key to these `L - 3` bytes produces. -/
theorem structured_export_layout (N : Nat) (E : ec_env) (priv_key : ec_priv_key)
    (pub_key : ec_pub_key) (buf : List Nat) (L : Nat) (hL : L < 256) (hbuf : buf.length = L) :
    ((ec_structured_priv_key_export_to_buf N E priv_key (some buf) L).1 = 0 →
      ∃ out par name t,
        (ec_structured_priv_key_export_to_buf N E priv_key (some buf) L).2 = some out ∧
        priv_key.params = some par ∧ par.curve_name = some name ∧
        E.ec_get_curve_type_by_name name (u8 (local_strlen name + 1)) = some t ∧
        out.getD 0 0 = EC_PRIVKEY ∧ out.getD 1 0 = priv_key.key_type.val ∧
        out.getD 2 0 = t.val ∧
        ec_priv_key_export_to_buf N priv_key (some (buf.drop 3)) (L - 3) =
          (0, some (out.drop 3))) ∧
    ((ec_structured_pub_key_export_to_buf E pub_key (some buf) L).1 = 0 →
      ∃ out par name t,
        (ec_structured_pub_key_export_to_buf E pub_key (some buf) L).2 = some out ∧
        pub_key.params = some par ∧ par.curve_name = some name ∧
        E.ec_get_curve_type_by_name name (u8 (local_strlen name + 1)) = some t ∧
        out.getD 0 0 = EC_PUBKEY ∧ out.getD 1 0 = pub_key.key_type.val ∧
        out.getD 2 0 = t.val ∧
        ec_pub_key_export_to_buf E pub_key (some (buf.drop 3)) (L - 3) =
          (0, some (out.drop 3))) := by
  constructor
  · intro h
    obtain ⟨out, par, name, t, h1, -, -, h4, h5, -, h7, h8, h9, h10, h11⟩ :=
      structured_export_success E EC_PRIVKEY _ _ _ _ buf L (by decide) hL hbuf
        (priv_export_buf_some N priv_key) h
    exact ⟨out, par, name, t, h1, h4, h5, h7, h8, h9, h10, h11⟩
  · intro h
    obtain ⟨out, par, name, t, h1, -, -, h4, h5, -, h7, h8, h9, h10, h11⟩ :=
      structured_export_success E EC_PUBKEY _ _ _ _ buf L (by decide) hL hbuf
        (pub_export_buf_some E pub_key) h
    exact ⟨out, par, name, t, h1, h4, h5, h7, h8, h9, h10, h11⟩

end Libecc

namespace Libecc

/-- C15 at a concrete input: the private key of scalar `0x0102` and the public
key of point bytes `05 06` are exported to five bytes, header `tag 03 01`. -/
theorem structured_export_layout_witness :
    ec_structured_priv_key_export_to_buf 2 ec_env_sample ec_priv_key_sample
        (some [9, 9, 9, 9, 9]) 5 = (0, some [1, 3, 1, 1, 2]) ∧
    ec_structured_pub_key_export_to_buf ec_env_sample ec_pub_key_sample
        (some [9, 9, 9, 9, 9]) 5 = (0, some [0, 3, 1, 5, 6]) ∧
    (∃ out par name t,
      (ec_structured_priv_key_export_to_buf 2 ec_env_sample ec_priv_key_sample
        (some [9, 9, 9, 9, 9]) 5).2 = some out ∧
      ec_priv_key_sample.params = some par ∧ par.curve_name = some name ∧
      ec_env_sample.ec_get_curve_type_by_name name (u8 (local_strlen name + 1)) = some t ∧
      out.getD 0 0 = EC_PRIVKEY ∧ out.getD 1 0 = ec_priv_key_sample.key_type.val ∧
      out.getD 2 0 = t.val ∧
      ec_priv_key_export_to_buf 2 ec_priv_key_sample (some (([9, 9, 9, 9, 9] : List Nat).drop 3))
        (5 - 3) = (0, some (out.drop 3))) :=
  ⟨by decide, by decide,
    (structured_export_layout 2 ec_env_sample ec_priv_key_sample ec_pub_key_sample
      [9, 9, 9, 9, 9] 5 (by decide) (by decide)).1 (by decide)⟩

/-- A structured import whose header matches runs the raw import on the bytes
after the header. -/
theorem structured_import_ok {κ : Type} (E : ec_env) (tag : Nat)
    (raw : κ → Option ec_params → Option (List Nat) → Nat → ec_sig_alg_type → Int × κ)
    (dst : κ) (par : ec_params) (name : List Nat) (t : ec_curve_type) (alg : ec_sig_alg_type)
    (b0 b1 b2 : Nat) (tail : List Nat) (L : Nat) (h3 : 3 < L) (hL : L < 256)
    (hname : par.curve_name = some name) (hlen : local_strlen name + 1 < 256)
    (ht : E.ec_get_curve_type_by_name name (u8 (local_strlen name + 1)) = some t)
    (h0 : b0 = tag) (h1 : b1 = alg.val) (h2 : b2 = t.val) :
    structured_import E tag raw dst (some par) (some (b0 :: b1 :: b2 :: tail)) L alg =
      raw dst (some par) (some tail) (L - 3) alg := by
  have hu : u8 (L - 3) = L - 3 := u8_of_lt _ (by omega)
  have hty : ec_curve_type_of_byte t.val = t := by
    apply Fin.ext
    show t.val % 256 = t.val
    exact Nat.mod_eq_of_lt t.isLt
  unfold structured_import ec_check_curve_type_and_name
  simp only [gt_iff_lt, h3, not_true_eq_false, if_false, hname, h0, h1, h2, List.getD_cons_zero,
    List.getD_cons_succ, hlen, ht, hty, if_true, ne_eq, List.drop_succ_cons, List.drop_zero, hu]

end Libecc

namespace Libecc

/-- The buffer a structured private-key export produces. -/
theorem structured_priv_export_eq (N : Nat) (E : ec_env) (k : ec_priv_key) (par : ec_params)
    (name : List Nat) (t : ec_curve_type) (a b c : Nat) (rest : List Nat) (L : Nat)
    (hk : priv_key_check_initialized k = 0) (hx : nn_initialized N k.x)
    (hpar : k.params = some par) (hname : par.curve_name = some name)
    (hlen : local_strlen name + 1 < 256)
    (ht : E.ec_get_curve_type_by_name name (u8 (local_strlen name + 1)) = some t)
    (h3 : 3 < L) (hL : L < 256)
    (hfit : nn_bitlen_loop k.x.val k.x.wlen ≤ 8 * (L - 3)) :
    ec_structured_priv_key_export_to_buf N E k (some (a :: b :: c :: rest)) L =
      (0, some (EC_PRIVKEY :: k.key_type.val :: t.val ::
        (be_bytes (nn_val k.x) (L - 3) ++ rest.drop (L - 3)))) := by
  have hu : u8 (L - 3) = L - 3 := u8_of_lt _ (by omega)
  unfold ec_structured_priv_key_export_to_buf structured_export
  simp only [hk, ne_eq, not_true_eq_false, if_false, gt_iff_lt, h3, hpar, Option.some_bind, hname,
    hlen, ht, List.set_cons_zero, List.set_cons_succ, List.drop_succ_cons, List.drop_zero, hu,
    ec_priv_key_export_ok N k rest (L - 3) hk hx hfit, Option.getD_some, List.take_succ_cons,
    List.take_zero, u8_of_lt _ k.key_type.isLt, u8_of_lt _ t.isLt,
    u8_of_lt EC_PRIVKEY (by decide), List.cons_append, List.nil_append]

/-- C13: for every initialized private key `k` (validity tag set, the scalar an
initialized big number) whose `params` carry a curve name that resolves to a
curve identifier (a name short enough for its length to be passed as a byte,
known to the curve table), and every buffer length `L` (a `u8`) with `L > 3`,
`8 * (L - 3) ≥ bitlen(k.x)` and `L - 3` within the byte capacity of a big number:
`ec_structured_priv_key_export_to_buf` succeeds, and
`ec_structured_priv_key_import_from_buf` on the buffer it wrote, with the same
`params` and `alg = k.key_type`, succeeds and produces an initialized key whose
scalar has the value of `k.x`, whose `key_type` is `k.key_type` and whose
`params` reference is the same. -/
theorem structured_priv_key_roundtrip (N : Nat) (E : ec_env) (k dst : ec_priv_key)
    (par : ec_params) (name : List Nat) (t : ec_curve_type) (buf : List Nat) (L blen : Nat)
    (hk : priv_key_check_initialized k = 0) (hx : nn_initialized N k.x)
    (hpar : k.params = some par) (hname : par.curve_name = some name)
    (hlen : local_strlen name + 1 < 256)
    (ht : E.ec_get_curve_type_by_name name (u8 (local_strlen name + 1)) = some t)
    (h3 : 3 < L) (hL : L < 256) (hbuf : buf.length = L)
    (hbl : nn_bitlen N k.x = some blen) (hfit : blen ≤ 8 * (L - 3))
    (hcap : L - 3 ≤ N * (WORD_BITS / 8)) :
    ∃ out k2,
      ec_structured_priv_key_export_to_buf N E k (some buf) L = (0, some out) ∧
      ec_structured_priv_key_import_from_buf N E dst k.params (some out) L k.key_type =
        (0, k2) ∧
      nn_val k2.x = nn_val k.x ∧ k2.key_type = k.key_type ∧ k2.params = k.params ∧
      priv_key_check_initialized k2 = 0 := by
  rw [nn_bitlen_eq hx] at hbl
  have hfit2 : nn_bitlen_loop k.x.val k.x.wlen ≤ 8 * (L - 3) := by
    rw [Option.some.inj hbl]; exact hfit
  rcases buf with _ | ⟨a, _ | ⟨b, _ | ⟨c, rest⟩⟩⟩
  · simp at hbuf; omega
  · simp at hbuf; omega
  · simp at hbuf; omega
  obtain ⟨k2, hi, -, hv, hkt, hp, hm⟩ := ec_priv_key_import_ok N dst (some par)
    (be_bytes (nn_val k.x) (L - 3) ++ rest.drop (L - 3)) (L - 3) k.key_type hcap (by omega)
  refine ⟨_, k2, structured_priv_export_eq N E k par name t a b c rest L hk hx hpar hname hlen ht
    h3 hL hfit2, ?_, ?_, hkt, by rw [hp, hpar], ?_⟩
  · unfold ec_structured_priv_key_import_from_buf
    rw [hpar, structured_import_ok E EC_PRIVKEY (ec_priv_key_import_from_buf N) dst par name t
      k.key_type _ _ _ _ L h3 hL hname hlen ht rfl rfl rfl]
    exact hi
  · rw [hv, be_val_be_bytes, Nat.mod_eq_of_lt (nn_val_lt_bytes hx (L - 3) hfit2)]
  · unfold priv_key_check_initialized
    simp [hm]

/-- C13 at a concrete input: the private key of scalar `0x0102` goes through a
buffer of five bytes and comes back with the same scalar, algorithm and
parameters. -/
theorem structured_priv_key_roundtrip_witness :
    ∃ out k2,
      ec_structured_priv_key_export_to_buf 2 ec_env_sample ec_priv_key_sample
        (some [9, 9, 9, 9, 9]) 5 = (0, some out) ∧
      ec_structured_priv_key_import_from_buf 2 ec_env_sample ec_priv_key_none
        ec_priv_key_sample.params (some out) 5 ec_priv_key_sample.key_type = (0, k2) ∧
      nn_val k2.x = nn_val ec_priv_key_sample.x ∧ k2.key_type = ec_priv_key_sample.key_type ∧
      k2.params = ec_priv_key_sample.params ∧ priv_key_check_initialized k2 = 0 :=
  structured_priv_key_roundtrip 2 ec_env_sample ec_priv_key_sample ec_priv_key_none
    (ec_params_sample 1) [0x41] 1 [9, 9, 9, 9, 9] 5 9 (by decide) (by decide) (by decide)
    (by decide) (by decide) (by decide) (by decide) (by decide) (by decide) (by decide)
    (by decide) (by decide)

end Libecc

namespace Libecc

/-! ## Structured imports: the header checks -/

/-- A structured import whose header does not match returns the error and
hands the destination back as it was, whatever the raw import is. -/
theorem structured_import_reject {κ : Type} (E : ec_env) (tag : Nat)
    (raw : κ → Option ec_params → Option (List Nat) → Nat → ec_sig_alg_type → Int × κ)
    (dst : κ) (params : Option ec_params) (buf : List Nat) (len : Nat) (alg : ec_sig_alg_type)
    (h : len ≤ 3 ∨ buf.getD 0 0 ≠ tag ∨ buf.getD 1 0 ≠ alg.val ∨
      ¬ ∃ par name, params = some par ∧ par.curve_name = some name ∧
        local_strlen name + 1 < 256 ∧
        E.ec_get_curve_type_by_name name (u8 (local_strlen name + 1)) =
          some (ec_curve_type_of_byte (buf.getD 2 0))) :
    structured_import E tag raw dst params (some buf) len alg = (-1, dst) := by
  unfold structured_import ec_check_curve_type_and_name
  by_cases h3 : 3 < len
  swap
  · simp only [gt_iff_lt, h3, not_false_eq_true, if_true]
  rcases params with _ | par
  · simp only [gt_iff_lt, h3, not_true_eq_false, if_false]
  rcases hn : par.curve_name with _ | name
  · simp only [gt_iff_lt, h3, not_true_eq_false, if_false, hn]
  by_cases h0 : tag = buf.getD 0 0
  swap
  · simp only [gt_iff_lt, h3, not_true_eq_false, if_false, hn, h0, not_false_eq_true, if_true]
  by_cases h1 : alg.val = buf.getD 1 0
  swap
  · simp only [gt_iff_lt, h3, not_true_eq_false, if_false, hn, h0, h1, not_false_eq_true,
      if_true]
  by_cases hlen : local_strlen name + 1 < 256
  swap
  · simp only [gt_iff_lt, h3, not_true_eq_false, if_false, hn, h0, h1, hlen,
      not_false_eq_true, if_true]
  rcases ht : E.ec_get_curve_type_by_name name (u8 (local_strlen name + 1)) with _ | t
  · simp only [gt_iff_lt, h3, not_true_eq_false, if_false, hn, h0, h1, hlen, ht]
    rfl
  by_cases hty : t = ec_curve_type_of_byte (buf.getD 2 0)
  swap
  · simp only [gt_iff_lt, h3, not_true_eq_false, if_false, hn, h0, h1, hlen, ht, hty]
    rfl
  exfalso
  rcases h with h | h | h | h
  · omega
  · exact h h0.symm
  · exact h h1.symm
  · exact h ⟨par, name, rfl, hn, hlen, by rw [ht, hty]⟩

end Libecc

namespace Libecc

/-- A header whose byte 2 is not the identifier of the curve name is a fortiori
not the identifier of a curve name of a length that fits a byte. -/
theorem header_mismatch_weaken (E : ec_env) (tag : Nat) (params : Option ec_params)
    (buf : List Nat) (len : Nat) (alg : ec_sig_alg_type)
    (h : len ≤ 3 ∨ buf.getD 0 0 ≠ tag ∨ buf.getD 1 0 ≠ alg.val ∨
      ¬ ∃ par name, params = some par ∧ par.curve_name = some name ∧
        E.ec_get_curve_type_by_name name (u8 (local_strlen name + 1)) =
          some (ec_curve_type_of_byte (buf.getD 2 0))) :
    len ≤ 3 ∨ buf.getD 0 0 ≠ tag ∨ buf.getD 1 0 ≠ alg.val ∨
      ¬ ∃ par name, params = some par ∧ par.curve_name = some name ∧
        local_strlen name + 1 < 256 ∧
        E.ec_get_curve_type_by_name name (u8 (local_strlen name + 1)) =
          some (ec_curve_type_of_byte (buf.getD 2 0)) := by
  rcases h with h | h | h | h
  · exact Or.inl h
  · exact Or.inr (Or.inl h)
  · exact Or.inr (Or.inr (Or.inl h))
  · exact Or.inr (Or.inr (Or.inr fun ⟨par, name, h1, h2, _, h4⟩ => h ⟨par, name, h1, h2, h4⟩))

/-- C14: `ec_structured_priv_key_import_from_buf` and
`ec_structured_pub_key_import_from_buf` return an error and leave the
destination key object completely unchanged whenever the buffer length is
`≤ 3`, or byte 0 is not the expected key-class tag (`EC_PRIVKEY`, resp.
`EC_PUBKEY`), or byte 1 differs from the caller-supplied `alg`, or byte 2 is not
the identifier that the curve name of `params` resolves to. In none of these
cases is the raw import invoked: the outcome is the same whatever routine
stands in its place. -/
theorem structured_import_rejects (N : Nat) (E : ec_env) (priv_key : ec_priv_key)
    (pub_key : ec_pub_key) (params : Option ec_params) (buf : List Nat) (len : Nat)
    (alg : ec_sig_alg_type) :
    ((len ≤ 3 ∨ buf.getD 0 0 ≠ EC_PRIVKEY ∨ buf.getD 1 0 ≠ alg.val ∨
        ¬ ∃ par name, params = some par ∧ par.curve_name = some name ∧
          E.ec_get_curve_type_by_name name (u8 (local_strlen name + 1)) =
            some (ec_curve_type_of_byte (buf.getD 2 0))) →
      ec_structured_priv_key_import_from_buf N E priv_key params (some buf) len alg =
        (-1, priv_key) ∧
      ∀ raw, structured_import E EC_PRIVKEY raw priv_key params (some buf) len alg =
        (-1, priv_key)) ∧
    ((len ≤ 3 ∨ buf.getD 0 0 ≠ EC_PUBKEY ∨ buf.getD 1 0 ≠ alg.val ∨
        ¬ ∃ par name, params = some par ∧ par.curve_name = some name ∧
          E.ec_get_curve_type_by_name name (u8 (local_strlen name + 1)) =
            some (ec_curve_type_of_byte (buf.getD 2 0))) →
      ec_structured_pub_key_import_from_buf N E pub_key params (some buf) len alg =
        (-1, pub_key) ∧
      ∀ raw, structured_import E EC_PUBKEY raw pub_key params (some buf) len alg =
        (-1, pub_key)) :=
  ⟨fun h => ⟨structured_import_reject E EC_PRIVKEY _ priv_key params buf len alg
        (header_mismatch_weaken E EC_PRIVKEY params buf len alg h),
      fun raw => structured_import_reject E EC_PRIVKEY raw priv_key params buf len alg
        (header_mismatch_weaken E EC_PRIVKEY params buf len alg h)⟩,
    fun h => ⟨structured_import_reject E EC_PUBKEY _ pub_key params buf len alg
        (header_mismatch_weaken E EC_PUBKEY params buf len alg h),
      fun raw => structured_import_reject E EC_PUBKEY raw pub_key params buf len alg
        (header_mismatch_weaken E EC_PUBKEY params buf len alg h)⟩⟩

/-- C14 at concrete inputs: a private-key buffer whose byte 2 is the identifier 2
(the curve name resolves to 1) is refused and the initialized destination key
is handed back as it was; so is a public-key buffer whose byte 1 is not the
algorithm asked for. -/
theorem structured_import_rejects_witness :
    (ec_structured_priv_key_import_from_buf 2 ec_env_sample ec_priv_key_sample
        (some (ec_params_sample 1)) (some [1, 3, 2, 7, 7]) 5 3 = (-1, ec_priv_key_sample) ∧
      ∀ raw, structured_import ec_env_sample EC_PRIVKEY raw ec_priv_key_sample
        (some (ec_params_sample 1)) (some [1, 3, 2, 7, 7]) 5 3 = (-1, ec_priv_key_sample)) ∧
    (ec_structured_pub_key_import_from_buf 2 ec_env_sample ec_pub_key_sample
        (some (ec_params_sample 1)) (some [0, 4, 1, 7, 7]) 5 3 = (-1, ec_pub_key_sample) ∧
      ∀ raw, structured_import ec_env_sample EC_PUBKEY raw ec_pub_key_sample
        (some (ec_params_sample 1)) (some [0, 4, 1, 7, 7]) 5 3 = (-1, ec_pub_key_sample)) :=
  ⟨(structured_import_rejects 2 ec_env_sample ec_priv_key_sample ec_pub_key_sample
      (some (ec_params_sample 1)) [1, 3, 2, 7, 7] 5 3).1
      (Or.inr (Or.inr (Or.inr (by
        rintro ⟨par, name, hp, hn, ht⟩
        cases hp
        cases hn
        revert ht
        decide)))),
    (structured_import_rejects 2 ec_env_sample ec_priv_key_sample ec_pub_key_sample
      (some (ec_params_sample 1)) [0, 4, 1, 7, 7] 5 3).2
      (Or.inr (Or.inr (Or.inl (by decide))))⟩

end Libecc

namespace Libecc

/-! ## Raw public-key import: the order check -/

/-- The raw public-key import when the cofactor is not one (or cannot be
tested) and the decoded point fails the order check: an error, and the
validity tag, the algorithm and the parameters of the key are not set. -/
theorem pub_key_import_order_fail (N : Nat) (E : ec_env)
    (decode : prj_pt → Option (List Nat) → Nat → List Nat → Int × prj_pt)
    (pub_key : ec_pub_key) (par : ec_params) (buf : Option (List Nat)) (len : Nat)
    (alg : ec_sig_alg_type) (hone : nn_isone N par.ec_gen_cofactor ≠ some true)
    (hord : E.check_prj_pt_order (decode pub_key.y buf len par.ec_curve).2 par.ec_gen_order ≠ 0) :
    (pub_key_import N E decode pub_key (some par) buf len alg).1 ≠ 0 ∧
      (pub_key_import N E decode pub_key (some par) buf len alg).2.magic = pub_key.magic ∧
      (pub_key_import N E decode pub_key (some par) buf len alg).2.key_type = pub_key.key_type ∧
      (pub_key_import N E decode pub_key (some par) buf len alg).2.params = pub_key.params := by
  unfold pub_key_import
  by_cases hd : (decode pub_key.y buf len par.ec_curve).1 = 0
  swap
  · simp only [ne_eq, hd, not_false_eq_true, if_true, and_self]
  rcases hi : nn_isone N par.ec_gen_cofactor with _ | isone
  · simp only [ne_eq, hd, not_true_eq_false, if_false, hi, and_self, and_true]
    decide
  · have hf : isone = false := by
      cases isone
      · rfl
      · exact absurd hi hone
    subst hf
    simp only [ne_eq, hd, not_true_eq_false, if_false, Bool.false_eq_true, not_false_eq_true,
      hord, and_self, if_true, hi, and_true]
    decide

/-- The raw public-key import when the cofactor is one: the order check plays no
part, and the return value is that of the point decoding. -/
theorem pub_key_import_cofactor_one (N : Nat) (E : ec_env)
    (decode : prj_pt → Option (List Nat) → Nat → List Nat → Int × prj_pt)
    (pub_key : ec_pub_key) (par : ec_params) (buf : Option (List Nat)) (len : Nat)
    (alg : ec_sig_alg_type) (hone : nn_isone N par.ec_gen_cofactor = some true) :
    (pub_key_import N E decode pub_key (some par) buf len alg).1 =
        (decode pub_key.y buf len par.ec_curve).1 ∧
      ∀ chk, pub_key_import N { E with check_prj_pt_order := chk } decode pub_key (some par) buf
        len alg = pub_key_import N E decode pub_key (some par) buf len alg := by
  unfold pub_key_import
  by_cases hd : (decode pub_key.y buf len par.ec_curve).1 = 0
  · simp only [ne_eq, hd, not_true_eq_false, if_false, hone, false_and, implies_true, and_self]
  · simp only [ne_eq, hd, not_false_eq_true, if_true, implies_true, and_self]

end Libecc

namespace Libecc

/-- C17: for curve parameters whose cofactor is not one, `ec_pub_key_import_from_buf`
and `ec_pub_key_import_from_aff_buf` return an error for every buffer whose
decoded point fails the order check against the generator order
(`check_prj_pt_order`), and then they do not set the key's `magic`, `key_type`
or `params`; when the cofactor is one, as decided by `nn_isone`, the outcome
does not depend on the order check at all and the return value is that of the
point decoding. -/
theorem pub_key_import_order_check (N : Nat) (E : ec_env) (pub_key : ec_pub_key)
    (par : ec_params) (buf : Option (List Nat)) (len : Nat) (alg : ec_sig_alg_type) :
    (nn_isone N par.ec_gen_cofactor ≠ some true →
      (E.check_prj_pt_order (E.prj_pt_import_from_buf pub_key.y buf len par.ec_curve).2
          par.ec_gen_order ≠ 0 →
        (ec_pub_key_import_from_buf N E pub_key (some par) buf len alg).1 ≠ 0 ∧
        (ec_pub_key_import_from_buf N E pub_key (some par) buf len alg).2.magic =
          pub_key.magic ∧
        (ec_pub_key_import_from_buf N E pub_key (some par) buf len alg).2.key_type =
          pub_key.key_type ∧
        (ec_pub_key_import_from_buf N E pub_key (some par) buf len alg).2.params =
          pub_key.params) ∧
      (E.check_prj_pt_order (E.prj_pt_import_from_aff_buf pub_key.y buf len par.ec_curve).2
          par.ec_gen_order ≠ 0 →
        (ec_pub_key_import_from_aff_buf N E pub_key (some par) buf len alg).1 ≠ 0 ∧
        (ec_pub_key_import_from_aff_buf N E pub_key (some par) buf len alg).2.magic =
          pub_key.magic ∧
        (ec_pub_key_import_from_aff_buf N E pub_key (some par) buf len alg).2.key_type =
          pub_key.key_type ∧
        (ec_pub_key_import_from_aff_buf N E pub_key (some par) buf len alg).2.params =
          pub_key.params)) ∧
    (nn_isone N par.ec_gen_cofactor = some true →
      ((ec_pub_key_import_from_buf N E pub_key (some par) buf len alg).1 =
          (E.prj_pt_import_from_buf pub_key.y buf len par.ec_curve).1 ∧
        ∀ chk, ec_pub_key_import_from_buf N { E with check_prj_pt_order := chk } pub_key
          (some par) buf len alg = ec_pub_key_import_from_buf N E pub_key (some par) buf len alg) ∧
      ((ec_pub_key_import_from_aff_buf N E pub_key (some par) buf len alg).1 =
          (E.prj_pt_import_from_aff_buf pub_key.y buf len par.ec_curve).1 ∧
        ∀ chk, ec_pub_key_import_from_aff_buf N { E with check_prj_pt_order := chk } pub_key
          (some par) buf len alg =
            ec_pub_key_import_from_aff_buf N E pub_key (some par) buf len alg)) := by
  refine ⟨fun hone => ⟨fun hord => ?_, fun hord => ?_⟩, fun hone => ⟨?_, ?_⟩⟩
  · exact pub_key_import_order_fail N E E.prj_pt_import_from_buf pub_key par buf len alg hone hord
  · exact pub_key_import_order_fail N E E.prj_pt_import_from_aff_buf pub_key par buf len alg hone
      hord
  · exact pub_key_import_cofactor_one N E E.prj_pt_import_from_buf pub_key par buf len alg hone
  · exact pub_key_import_cofactor_one N E E.prj_pt_import_from_aff_buf pub_key par buf len alg
      hone

/-- C17 at concrete inputs: with the cofactor 2 the point of bytes `00 07`,
which the order check rejects, is refused and the tag of the fresh key stays
clear; with the cofactor 1 the same buffer is accepted. -/
theorem pub_key_import_order_check_witness :
    ((ec_pub_key_import_from_buf 2 ec_env_sample ec_pub_key_none (some (ec_params_sample 2))
          (some [0, 7]) 2 3).1 ≠ 0 ∧
      (ec_pub_key_import_from_buf 2 ec_env_sample ec_pub_key_none (some (ec_params_sample 2))
          (some [0, 7]) 2 3).2.magic = ec_pub_key_none.magic ∧
      (ec_pub_key_import_from_buf 2 ec_env_sample ec_pub_key_none (some (ec_params_sample 2))
          (some [0, 7]) 2 3).2.key_type = ec_pub_key_none.key_type ∧
      (ec_pub_key_import_from_buf 2 ec_env_sample ec_pub_key_none (some (ec_params_sample 2))
          (some [0, 7]) 2 3).2.params = ec_pub_key_none.params) ∧
    (ec_pub_key_import_from_buf 2 ec_env_sample ec_pub_key_none (some (ec_params_sample 1))
          (some [0, 7]) 2 3).1 = 0 :=
  ⟨((pub_key_import_order_check 2 ec_env_sample ec_pub_key_none (ec_params_sample 2)
      (some [0, 7]) 2 3).1 (by decide)).1 (by decide), by decide⟩

end Libecc

namespace Libecc

/-! ## Key pairs -/

theorem priv_key_check_ne_zero (A : ec_priv_key) :
    priv_key_check_initialized A ≠ 0 ↔ A.magic ≠ PRIV_KEY_MAGIC := by
  unfold priv_key_check_initialized
  by_cases h : A.magic = PRIV_KEY_MAGIC
  · simp [h]
  · simp [h]

theorem pub_key_check_ne_zero (A : ec_pub_key) :
    pub_key_check_initialized A ≠ 0 ↔ A.magic ≠ PUB_KEY_MAGIC := by
  unfold pub_key_check_initialized
  by_cases h : A.magic = PUB_KEY_MAGIC
  · simp [h]
  · simp [h]

/-- A pair whose private half is not initialized is not initialized. -/
theorem key_pair_check_ne_zero (A : ec_key_pair) (h : priv_key_check_initialized A.priv_key ≠ 0) :
    key_pair_check_initialized A ≠ 0 := by
  unfold key_pair_check_initialized
  simp only [ne_eq, h, not_false_eq_true, if_true]

/-- C18: for every prior state of the key-pair object `kp`, if
`ec_key_pair_gen(kp, params, alg)` returns an error (null `params`, failure of
the random source, of the private-key hook or of the public-key derivation),
then afterwards both `kp.priv_key.magic` and `kp.pub_key.magic` are cleared, so
`priv_key_check_initialized`, `pub_key_check_initialized` and
`key_pair_check_initialized` all fail on it. -/
theorem ec_key_pair_gen_error (E : ec_env) (kp : ec_key_pair) (params : Option ec_params)
    (alg : ec_sig_alg_type) (h : (ec_key_pair_gen E kp params alg).1 ≠ 0) :
    (ec_key_pair_gen E kp params alg).2.priv_key.magic = 0 ∧
      (ec_key_pair_gen E kp params alg).2.pub_key.magic = 0 ∧
      priv_key_check_initialized (ec_key_pair_gen E kp params alg).2.priv_key ≠ 0 ∧
      pub_key_check_initialized (ec_key_pair_gen E kp params alg).2.pub_key ≠ 0 ∧
      key_pair_check_initialized (ec_key_pair_gen E kp params alg).2 ≠ 0 := by
  have hb : (ec_key_pair_gen_body E kp params alg).1 ≠ 0 := by
    intro hc
    apply h
    unfold ec_key_pair_gen
    simp only [ne_eq, hc, not_true_eq_false, if_false]
  have e : (ec_key_pair_gen E kp params alg).2 =
      { priv_key := { (ec_key_pair_gen_body E kp params alg).2.priv_key with magic := 0 },
        pub_key := { (ec_key_pair_gen_body E kp params alg).2.pub_key with magic := 0 } } := by
    unfold ec_key_pair_gen
    simp only [ne_eq, hb, not_false_eq_true, if_true]
  rw [e]
  have hp : priv_key_check_initialized
      { (ec_key_pair_gen_body E kp params alg).2.priv_key with magic := 0 } ≠ 0 :=
    (priv_key_check_ne_zero _).2 (show (0 : Nat) ≠ PRIV_KEY_MAGIC by decide)
  exact ⟨rfl, rfl, hp, (pub_key_check_ne_zero _).2 (show (0 : Nat) ≠ PUB_KEY_MAGIC by decide),
    key_pair_check_ne_zero _ hp⟩

/-- C18 at concrete inputs: the generation fails on null parameters, and on the
failing random source of the sample collaborators, from a pair that was
initialized; both tags are cleared. -/
theorem ec_key_pair_gen_error_witness :
    ((ec_key_pair_gen ec_env_sample
          { priv_key := ec_priv_key_sample, pub_key := ec_pub_key_sample } none 3).2.priv_key.magic
        = 0 ∧
      (ec_key_pair_gen ec_env_sample
          { priv_key := ec_priv_key_sample, pub_key := ec_pub_key_sample } none 3).2.pub_key.magic
        = 0 ∧
      priv_key_check_initialized (ec_key_pair_gen ec_env_sample
          { priv_key := ec_priv_key_sample, pub_key := ec_pub_key_sample } none 3).2.priv_key ≠ 0 ∧
      pub_key_check_initialized (ec_key_pair_gen ec_env_sample
          { priv_key := ec_priv_key_sample, pub_key := ec_pub_key_sample } none 3).2.pub_key ≠ 0 ∧
      key_pair_check_initialized (ec_key_pair_gen ec_env_sample
          { priv_key := ec_priv_key_sample, pub_key := ec_pub_key_sample } none 3).2 ≠ 0) ∧
    (ec_key_pair_gen ec_env_sample
        { priv_key := ec_priv_key_sample, pub_key := ec_pub_key_sample }
        (some (ec_params_sample 1)) 3).1 ≠ 0 :=
  ⟨ec_key_pair_gen_error ec_env_sample
      { priv_key := ec_priv_key_sample, pub_key := ec_pub_key_sample } none 3 (by decide),
    by decide⟩

end Libecc

namespace Libecc

/-! ## Raw imports: what an error leaves behind -/

/-- A failing raw private-key import hands the key back as it was. -/
theorem ec_priv_key_import_error (N : Nat) (priv_key : ec_priv_key)
    (params : Option ec_params) (buf : Option (List Nat)) (len : Nat) (alg : ec_sig_alg_type)
    (h : (ec_priv_key_import_from_buf N priv_key params buf len alg).1 ≠ 0) :
    (ec_priv_key_import_from_buf N priv_key params buf len alg).2 = priv_key := by
  unfold ec_priv_key_import_from_buf nn_init_from_buf at h ⊢
  rcases buf with _ | b
  · simp
  · by_cases hl : len ≤ N * (WORD_BITS / 8)
    · simp [hl] at h
    · simp [hl]

/-- A failing raw public-key import leaves the validity tag as it was. -/
theorem pub_key_import_error (N : Nat) (E : ec_env)
    (decode : prj_pt → Option (List Nat) → Nat → List Nat → Int × prj_pt)
    (pub_key : ec_pub_key) (params : Option ec_params) (buf : Option (List Nat)) (len : Nat)
    (alg : ec_sig_alg_type) (h : (pub_key_import N E decode pub_key params buf len alg).1 ≠ 0) :
    (pub_key_import N E decode pub_key params buf len alg).2.magic = pub_key.magic := by
  unfold pub_key_import at h ⊢
  rcases params with _ | par
  · rfl
  by_cases hd : (decode pub_key.y buf len par.ec_curve).1 = 0
  swap
  · simp only [ne_eq, hd, not_false_eq_true, if_true]
  rcases hi : nn_isone N par.ec_gen_cofactor with _ | isone
  · simp only [ne_eq, hd, not_true_eq_false, if_false, hi]
  · by_cases hc : ¬ isone = true ∧
        E.check_prj_pt_order (decode pub_key.y buf len par.ec_curve).2 par.ec_gen_order ≠ 0
    · simp only [ne_eq, hd, not_true_eq_false, if_false, hi, hc, not_false_eq_true, and_self,
        if_true, Bool.false_eq_true, and_true]
    · simp only [ne_eq, hd, not_true_eq_false, if_false, hi, hc] at h

end Libecc

namespace Libecc

/-- C20 as stated fails: a key object that already holds a valid initialized key
is still initialized after a failing import. The raw private-key import of a
buffer of 17 bytes into a capacity of 16 bytes returns an error and leaves the
initialized key as it was; the raw public-key imports of a point that the
order check rejects (cofactor 2) return an error, and the key keeps its
validity tag while its point has been overwritten. -/
theorem import_error_invalidates_counterexample :
    ((ec_priv_key_import_from_buf 2 ec_priv_key_sample (some (ec_params_sample 1))
          (some (List.replicate 17 1)) 17 3).1 ≠ 0 ∧
      priv_key_check_initialized ec_priv_key_sample = 0 ∧
      priv_key_check_initialized (ec_priv_key_import_from_buf 2 ec_priv_key_sample
          (some (ec_params_sample 1)) (some (List.replicate 17 1)) 17 3).2 = 0) ∧
    ((ec_pub_key_import_from_buf 2 ec_env_sample ec_pub_key_sample (some (ec_params_sample 2))
          (some [0, 7]) 2 3).1 ≠ 0 ∧
      pub_key_check_initialized ec_pub_key_sample = 0 ∧
      pub_key_check_initialized (ec_pub_key_import_from_buf 2 ec_env_sample ec_pub_key_sample
          (some (ec_params_sample 2)) (some [0, 7]) 2 3).2 = 0 ∧
      (ec_pub_key_import_from_buf 2 ec_env_sample ec_pub_key_sample (some (ec_params_sample 2))
          (some [0, 7]) 2 3).2.y = { coords := [0, 7] }) ∧
    ((ec_pub_key_import_from_aff_buf 2 ec_env_sample ec_pub_key_sample none (some [0, 7]) 2 3).1
        ≠ 0 ∧
      pub_key_check_initialized (ec_pub_key_import_from_aff_buf 2 ec_env_sample
          ec_pub_key_sample none (some [0, 7]) 2 3).2 = 0) := by
  decide

/-- C20, amended: for every prior state of the destination key object in which
the key is not initialized, if `ec_priv_key_import_from_buf` (resp.
`ec_pub_key_import_from_buf`, `ec_pub_key_import_from_aff_buf`) returns an error,
then afterwards the key is not in the initialized state: an error leaves the
validity tag as it was. -/
theorem import_error_tag_unchanged (N : Nat) (E : ec_env) (priv_key : ec_priv_key)
    (pub_key : ec_pub_key) (params : Option ec_params) (buf : Option (List Nat)) (len : Nat)
    (alg : ec_sig_alg_type) :
    ((ec_priv_key_import_from_buf N priv_key params buf len alg).1 ≠ 0 →
      (ec_priv_key_import_from_buf N priv_key params buf len alg).2.magic = priv_key.magic ∧
      (priv_key_check_initialized priv_key ≠ 0 →
        priv_key_check_initialized
          (ec_priv_key_import_from_buf N priv_key params buf len alg).2 ≠ 0)) ∧
    ((ec_pub_key_import_from_buf N E pub_key params buf len alg).1 ≠ 0 →
      (ec_pub_key_import_from_buf N E pub_key params buf len alg).2.magic = pub_key.magic ∧
      (pub_key_check_initialized pub_key ≠ 0 →
        pub_key_check_initialized
          (ec_pub_key_import_from_buf N E pub_key params buf len alg).2 ≠ 0)) ∧
    ((ec_pub_key_import_from_aff_buf N E pub_key params buf len alg).1 ≠ 0 →
      (ec_pub_key_import_from_aff_buf N E pub_key params buf len alg).2.magic = pub_key.magic ∧
      (pub_key_check_initialized pub_key ≠ 0 →
        pub_key_check_initialized
          (ec_pub_key_import_from_aff_buf N E pub_key params buf len alg).2 ≠ 0)) := by
  refine ⟨fun h => ?_, fun h => ?_, fun h => ?_⟩
  · rw [ec_priv_key_import_error N priv_key params buf len alg h]
    exact ⟨rfl, fun hc => hc⟩
  · have e := pub_key_import_error N E E.prj_pt_import_from_buf pub_key params buf len alg h
    refine ⟨e, fun hc => ?_⟩
    rw [pub_key_check_ne_zero] at hc ⊢
    unfold ec_pub_key_import_from_buf
    rw [e]
    exact hc
  · have e := pub_key_import_error N E E.prj_pt_import_from_aff_buf pub_key params buf len alg h
    refine ⟨e, fun hc => ?_⟩
    rw [pub_key_check_ne_zero] at hc ⊢
    unfold ec_pub_key_import_from_aff_buf
    rw [e]
    exact hc

/-- C20, amended, at a concrete input: the raw private-key import of 17 bytes
into a capacity of 16 bytes fails on a fresh key object, whose tag stays
clear. -/
theorem import_error_tag_unchanged_witness :
    (ec_priv_key_import_from_buf 2 ec_priv_key_none (some (ec_params_sample 1))
        (some (List.replicate 17 1)) 17 3).2.magic = ec_priv_key_none.magic ∧
    (priv_key_check_initialized ec_priv_key_none ≠ 0 →
      priv_key_check_initialized (ec_priv_key_import_from_buf 2 ec_priv_key_none
        (some (ec_params_sample 1)) (some (List.replicate 17 1)) 17 3).2 ≠ 0) :=
  (import_error_tag_unchanged 2 ec_env_sample ec_priv_key_none ec_pub_key_none
    (some (ec_params_sample 1)) (some (List.replicate 17 1)) 17 3).1 (by decide)

end Libecc

namespace Libecc

/-! ## Key-pair imports: what an error leaves behind -/

/-- The header checks of a structured import do not look at the destination or
at the raw import: either they fail, and every structured import on this
header returns the error with its destination as it was, or they pass, and
every structured import on this header is its raw import on the bytes after
the header. -/
theorem structured_import_cases (E : ec_env) (tag : Nat) (params : Option ec_params)
    (buf : Option (List Nat)) (len : Nat) (alg : ec_sig_alg_type) :
    (∀ (κ : Type) (raw : κ → Option ec_params → Option (List Nat) → Nat → ec_sig_alg_type →
        Int × κ) (dst : κ), structured_import E tag raw dst params buf len alg = (-1, dst)) ∨
    (∃ b, ∀ (κ : Type) (raw : κ → Option ec_params → Option (List Nat) → Nat →
        ec_sig_alg_type → Int × κ) (dst : κ),
      structured_import E tag raw dst params buf len alg =
        raw dst params (some b) (u8 (len - 3)) alg) := by
  rcases buf with _ | b
  · exact Or.inl fun κ raw dst => rfl
  by_cases h : len ≤ 3 ∨ b.getD 0 0 ≠ tag ∨ b.getD 1 0 ≠ alg.val ∨
      ¬ ∃ par name, params = some par ∧ par.curve_name = some name ∧
        local_strlen name + 1 < 256 ∧
        E.ec_get_curve_type_by_name name (u8 (local_strlen name + 1)) =
          some (ec_curve_type_of_byte (b.getD 2 0))
  · exact Or.inl fun κ raw dst => structured_import_reject E tag raw dst params b len alg h
  · right
    simp only [not_or, not_le, ne_eq, not_not] at h
    obtain ⟨h3, h0, h1, par, name, hp, hn, hlen, ht⟩ := h
    refine ⟨b.drop 3, fun κ raw dst => ?_⟩
    unfold structured_import ec_check_curve_type_and_name
    subst hp
    simp only [gt_iff_lt, h3, not_true_eq_false, if_false, hn, h0, h1, hlen, ht, if_true, ne_eq]

end Libecc

namespace Libecc

/-- A key-pair import whose private-key import fails returns that error and
hands the pair back as it was. -/
theorem key_pair_import_priv_error (N : Nat) (E : ec_env) (kp : ec_key_pair)
    (params : Option ec_params) (buf : Option (List Nat)) (len : Nat) (alg : ec_sig_alg_type)
    (h : (ec_priv_key_import_from_buf N kp.priv_key params buf len alg).1 ≠ 0) :
    (ec_key_pair_import_from_priv_key_buf N E kp params buf len alg).1 ≠ 0 ∧
      (ec_key_pair_import_from_priv_key_buf N E kp params buf len alg).2 = kp := by
  unfold ec_key_pair_import_from_priv_key_buf
  simp only [ne_eq, h, not_false_eq_true, if_true,
    ec_priv_key_import_error N kp.priv_key params buf len alg h, and_self]

/-- C19 as stated fails. From a pair of which neither half is initialized,
`ec_key_pair_import_from_priv_key_buf` returns an error when the public-key
derivation fails (algorithm tag 0 of the sample collaborators) and leaves the
private half initialized; `ec_structured_key_pair_import_from_buf` returns an
error on a private-key buffer of the wrong class after a good public-key
buffer and leaves the public half initialized; and from a pair that was
initialized, `ec_structured_key_pair_import_from_priv_key_buf` returns an error
on a buffer of three bytes and leaves both halves initialized. -/
theorem key_pair_import_error_counterexample :
    ((ec_key_pair_import_from_priv_key_buf 2 ec_env_sample
          { priv_key := ec_priv_key_none, pub_key := ec_pub_key_none }
          (some (ec_params_sample 1)) (some [1, 2]) 2 0).1 ≠ 0 ∧
      priv_key_check_initialized (ec_key_pair_import_from_priv_key_buf 2 ec_env_sample
          { priv_key := ec_priv_key_none, pub_key := ec_pub_key_none }
          (some (ec_params_sample 1)) (some [1, 2]) 2 0).2.priv_key = 0) ∧
    ((ec_structured_key_pair_import_from_buf 2 ec_env_sample
          { priv_key := ec_priv_key_none, pub_key := ec_pub_key_none }
          (some (ec_params_sample 1)) (some [0, 3, 1, 1, 2]) 5 (some [0, 3, 1, 5, 6]) 5 3).1 ≠ 0 ∧
      pub_key_check_initialized (ec_structured_key_pair_import_from_buf 2 ec_env_sample
          { priv_key := ec_priv_key_none, pub_key := ec_pub_key_none }
          (some (ec_params_sample 1)) (some [0, 3, 1, 1, 2]) 5 (some [0, 3, 1, 5, 6]) 5
          3).2.pub_key = 0) ∧
    ((ec_structured_key_pair_import_from_priv_key_buf 2 ec_env_sample
          { priv_key := ec_priv_key_sample, pub_key := ec_pub_key_sample }
          (some (ec_params_sample 1)) (some [1, 3, 1]) 3 3).1 ≠ 0 ∧
      priv_key_check_initialized (ec_structured_key_pair_import_from_priv_key_buf 2
          ec_env_sample { priv_key := ec_priv_key_sample, pub_key := ec_pub_key_sample }
          (some (ec_params_sample 1)) (some [1, 3, 1]) 3 3).2.priv_key = 0 ∧
      pub_key_check_initialized (ec_structured_key_pair_import_from_priv_key_buf 2
          ec_env_sample { priv_key := ec_priv_key_sample, pub_key := ec_pub_key_sample }
          (some (ec_params_sample 1)) (some [1, 3, 1]) 3 3).2.pub_key = 0) := by
  decide

/-- C19, amended: for each of `ec_key_pair_import_from_priv_key_buf`,
`ec_structured_key_pair_import_from_priv_key_buf` and
`ec_structured_key_pair_import_from_buf`, and every prior state of `kp` in which
neither half is initialized: if the first construction step of the routine
fails (the private-key import for the first two, header checks included for
the structured one, and the structured public-key import for the third), then
the routine returns an error and afterwards neither half of the pair is
initialized. -/
theorem key_pair_import_first_step_error (N : Nat) (E : ec_env) (kp : ec_key_pair)
    (params : Option ec_params) (priv_buf : Option (List Nat)) (priv_len : Nat)
    (pub_buf : Option (List Nat)) (pub_len : Nat) (alg : ec_sig_alg_type)
    (hpriv : priv_key_check_initialized kp.priv_key ≠ 0)
    (hpub : pub_key_check_initialized kp.pub_key ≠ 0) :
    ((ec_priv_key_import_from_buf N kp.priv_key params priv_buf priv_len alg).1 ≠ 0 →
      (ec_key_pair_import_from_priv_key_buf N E kp params priv_buf priv_len alg).1 ≠ 0 ∧
      priv_key_check_initialized
        (ec_key_pair_import_from_priv_key_buf N E kp params priv_buf priv_len alg).2.priv_key
          ≠ 0 ∧
      pub_key_check_initialized
        (ec_key_pair_import_from_priv_key_buf N E kp params priv_buf priv_len alg).2.pub_key
          ≠ 0) ∧
    ((ec_structured_priv_key_import_from_buf N E kp.priv_key params priv_buf priv_len alg).1
        ≠ 0 →
      (ec_structured_key_pair_import_from_priv_key_buf N E kp params priv_buf priv_len alg).1
        ≠ 0 ∧
      priv_key_check_initialized (ec_structured_key_pair_import_from_priv_key_buf N E kp
        params priv_buf priv_len alg).2.priv_key ≠ 0 ∧
      pub_key_check_initialized (ec_structured_key_pair_import_from_priv_key_buf N E kp
        params priv_buf priv_len alg).2.pub_key ≠ 0) ∧
    ((ec_structured_pub_key_import_from_buf N E kp.pub_key params pub_buf pub_len alg).1 ≠ 0 →
      (ec_structured_key_pair_import_from_buf N E kp params priv_buf priv_len pub_buf pub_len
        alg).1 ≠ 0 ∧
      priv_key_check_initialized (ec_structured_key_pair_import_from_buf N E kp params
        priv_buf priv_len pub_buf pub_len alg).2.priv_key ≠ 0 ∧
      pub_key_check_initialized (ec_structured_key_pair_import_from_buf N E kp params
        priv_buf priv_len pub_buf pub_len alg).2.pub_key ≠ 0) := by
  refine ⟨fun h => ?_, fun h => ?_, fun h => ?_⟩
  · obtain ⟨h1, h2⟩ := key_pair_import_priv_error N E kp params priv_buf priv_len alg h
    rw [h2]
    exact ⟨h1, hpriv, hpub⟩
  · unfold ec_structured_priv_key_import_from_buf at h
    unfold ec_structured_key_pair_import_from_priv_key_buf
    rcases structured_import_cases E EC_PRIVKEY params priv_buf priv_len alg with hc | ⟨b, hc⟩
    · rw [hc]
      exact ⟨show (-1 : Int) ≠ 0 by decide, hpriv, hpub⟩
    · rw [hc] at h ⊢
      obtain ⟨h1, h2⟩ := key_pair_import_priv_error N E kp params (some b) (u8 (priv_len - 3))
        alg h
      rw [h2]
      exact ⟨h1, hpriv, hpub⟩
  · have hm : (ec_structured_pub_key_import_from_buf N E kp.pub_key params pub_buf pub_len
        alg).2.magic = kp.pub_key.magic := by
      unfold ec_structured_pub_key_import_from_buf at h ⊢
      rcases structured_import_cases E EC_PUBKEY params pub_buf pub_len alg with hc | ⟨b, hc⟩
      · rw [hc]
      · rw [hc] at h ⊢
        exact pub_key_import_error N E E.prj_pt_import_from_buf kp.pub_key params (some b) _ alg h
    unfold ec_structured_key_pair_import_from_buf
    simp only [ne_eq, h, not_false_eq_true, if_true, true_and]
    refine ⟨hpriv, ?_⟩
    have hq := (pub_key_check_ne_zero kp.pub_key).1 hpub
    rw [← hm] at hq
    exact (pub_key_check_ne_zero _).2 hq

/-- C19, amended, at a concrete input: on a fresh pair, a structured private-key
buffer of the wrong class makes `ec_structured_key_pair_import_from_priv_key_buf`
fail and neither half is initialized afterwards. -/
theorem key_pair_import_first_step_error_witness :
    (ec_structured_key_pair_import_from_priv_key_buf 2 ec_env_sample
        { priv_key := ec_priv_key_none, pub_key := ec_pub_key_none }
        (some (ec_params_sample 1)) (some [0, 3, 1, 1, 2]) 5 3).1 ≠ 0 ∧
    priv_key_check_initialized (ec_structured_key_pair_import_from_priv_key_buf 2 ec_env_sample
        { priv_key := ec_priv_key_none, pub_key := ec_pub_key_none }
        (some (ec_params_sample 1)) (some [0, 3, 1, 1, 2]) 5 3).2.priv_key ≠ 0 ∧
    pub_key_check_initialized (ec_structured_key_pair_import_from_priv_key_buf 2 ec_env_sample
        { priv_key := ec_priv_key_none, pub_key := ec_pub_key_none }
        (some (ec_params_sample 1)) (some [0, 3, 1, 1, 2]) 5 3).2.pub_key ≠ 0 :=
  (key_pair_import_first_step_error 2 ec_env_sample
    { priv_key := ec_priv_key_none, pub_key := ec_pub_key_none } (some (ec_params_sample 1))
    (some [0, 3, 1, 1, 2]) 5 none 0 3 (by decide) (by decide)).2.1 (by decide)

end Libecc

namespace Libecc

/-! ## `_nn_mul_redc1` and `nn_mul_redc1` -/

/-- The words of a big number below `2 ^ (WORD_BITS * m)` are read in full by a
window of `m` words. -/
theorem nn_words_val_of_lt {N : Nat} {A : nn} (h : nn_initialized N A) (m : Nat) (hm : m ≤ N)
    (hlt : nn_val A < 2 ^ (WORD_BITS * m)) : nn_words_val A.val m = nn_val A := by
  rw [nn_words_val_window h m hm, Nat.mod_eq_of_lt hlt]

/-- From the accumulator to the result: the congruence survives the final
subtraction. -/
theorem redc_congr (r V P B ab M : Nat) (hV : V * B = ab + M * P)
    (hr : r = V ∨ r + P = V) : (r * B) % P = ab % P := by
  rcases hr with hr | hr
  · rw [hr, hV, Nat.add_mul_mod_self_right]
  · have e : r * B + P * B = ab + M * P := by rw [← hV, ← hr]; ring
    have e2 : (r * B + P * B) % P = (r * B) % P := Nat.add_mul_mod_self_left _ _ _
    rw [← e2, e, Nat.add_mul_mod_self_right]

/-- The core of `_nn_mul_redc1`, `a` being the longer and `b` the shorter of the
two inputs. -/
theorem _nn_mul_redc1_core (N : Nat) (out a b p in1 in2 : nn) (mpinv : Nat)
    (ha : (if in1.wlen ≤ in2.wlen then in2 else in1) = a)
    (hb : (if in1.wlen ≤ in2.wlen then in1 else in2) = b)
    (hia : nn_initialized N a) (hib : nn_initialized N b) (hp : nn_initialized N p)
    (hinv : (mpinv * p.val.getD 0 0 + 1) % 2 ^ WORD_BITS = 0)
    (hp0 : 0 < nn_val p) (hlta : nn_val a ≤ nn_val p) (hltb : nn_val b ≤ nn_val p)
    (hcap : WORD_BITS * (p.wlen + 1) ≤ NN_MAX_BIT_LEN N) (hN : N ≤ 255)
    (hbw : b.wlen ≤ p.wlen) :
    ∃ r, _nn_mul_redc1 N out in1 in2 p mpinv = (r, true) ∧ nn_initialized N r ∧
      r.wlen = p.wlen ∧ nn_val r < nn_val p ∧
      (nn_val r * 2 ^ (WORD_BITS * p.wlen)) % nn_val p = (nn_val a * nn_val b) % nn_val p := by
  obtain ⟨-, hpw, -, hpb, -⟩ := (nn_initialized_iff N p).1 hp
  obtain ⟨-, -, -, hab, -⟩ := (nn_initialized_iff N a).1 hia
  obtain ⟨-, -, -, hbb, -⟩ := (nn_initialized_iff N b).1 hib
  have hN1 : p.wlen + 1 ≤ N := by
    unfold NN_MAX_BIT_LEN at hcap
    exact Nat.le_of_mul_le_mul_left hcap (by rw [WORD_BITS_eq]; norm_num)
  have hset : nn_set_wlen N { val := List.replicate N 0, wlen := 0, magic := NN_MAGIC } p.wlen =
      some (nn.mk ((List.replicate N 0).take p.wlen ++
          List.replicate ((List.replicate N 0).length - p.wlen) 0) p.wlen NN_MAGIC) := by
    simp [nn_set_wlen, nn_check_initialized, hpw]
  have hu : u8 (p.wlen + 1) = p.wlen + 1 := by
    unfold u8; omega
  -- the accumulator after the clearing loop
  have hZl : (forUp (fun (i : Nat) (o : List Nat) => o.set i 0) (p.wlen + 1) 0
      ((List.replicate N 0).take p.wlen ++
        List.replicate ((List.replicate N 0).length - p.wlen) 0)).length = N := by
    rw [length_forUp_set (fun _ _ => 0)]
    simp only [List.length_append, List.length_take, List.length_replicate]
    omega
  have hZ : ∀ k, (forUp (fun (i : Nat) (o : List Nat) => o.set i 0) (p.wlen + 1) 0
      ((List.replicate N 0).take p.wlen ++
        List.replicate ((List.replicate N 0).length - p.wlen) 0)).getD k 0 = 0 := by
    intro k
    rw [forUp_set_getD (fun _ => 0)]
    split
    · rfl
    · rw [getD_take_append_replicate, getD_replicate_zero]
      simp
  -- the rounds
  have hPlt := nn_val_lt_pow hp
  rw [← pow_mul] at hPlt
  have hPpos : 0 < nn_val p := by omega
  have hlen1 : 1 ≤ p.wlen := by
    by_contra hc
    have h0 : p.wlen = 0 := by omega
    rw [h0] at hPlt
    simp at hPlt
    omega
  have hAv : nn_words_val a.val p.wlen = nn_val a :=
    nn_words_val_of_lt hia p.wlen hpw (by omega)
  obtain ⟨hRl, hRb, hRz, hRlt, M, hRM⟩ := redc1_rounds_spec a.val b.val p.val _ p.wlen b.wlen mpinv
    hlen1 hbw (by rw [hZl]; exact hN1) hab hbb hpb hZ hinv hPpos
  rw [hZl] at hRl
  have hPv : nn_words_val p.val p.wlen = nn_val p := rfl
  have hBv : nn_words_val b.val b.wlen = nn_val b := rfl
  rw [hBv, hAv, hPv] at hRM
  have hRlt2 : nn_words_val (forUp (redc1_round a.val b.val p.val p.wlen b.wlen mpinv) p.wlen 0
      (forUp (fun (i : Nat) (o : List Nat) => o.set i 0) (p.wlen + 1) 0
        ((List.replicate N 0).take p.wlen ++
          List.replicate ((List.replicate N 0).length - p.wlen) 0))) (p.wlen + 1) <
      nn_val p + nn_val b := hRlt
  obtain ⟨r, hr, hri, hrw, hrlt, hrv⟩ := redc1_final_sub_correct N
    (nn.mk (forUp (redc1_round a.val b.val p.val p.wlen b.wlen mpinv) p.wlen 0
      (forUp (fun (i : Nat) (o : List Nat) => o.set i 0) (p.wlen + 1) 0
        ((List.replicate N 0).take p.wlen ++
          List.replicate ((List.replicate N 0).length - p.wlen) 0))) (p.wlen + 1) NN_MAGIC)
    p p.wlen hp rfl rfl rfl hN1 hRl hRz (lt_of_lt_of_le hRlt2 (by omega))
  refine ⟨r, ?_, hri, hrw, hrlt, ?_⟩
  · unfold _nn_mul_redc1
    rw [nn_init_zero]
    dsimp only
    rw [ha, hb, hset]
    dsimp only
    rw [if_neg (not_not.2 hcap), hu]
    exact hr
  · rw [pow_mul]
    exact redc_congr _ _ _ _ _ M hRM hrv

end Libecc

namespace Libecc

/-- Montgomery multiplication, private version: for initialized `in1`, `in2`
not above `p`, one of them not longer than `p`, the routine succeeds with an
initialized result below `p`, on the length of `p`, that is `in1 * in2 / R`
modulo `p`, `R = 2 ^ (WORD_BITS * p.wlen)`. -/
theorem _nn_mul_redc1_correct (N : Nat) (hN : N ≤ 255) (out in1 in2 p : nn) (mpinv : Nat)
    (h1 : nn_initialized N in1) (h2 : nn_initialized N in2) (hp : nn_initialized N p)
    (hinv : (mpinv * p.val.getD 0 0 + 1) % 2 ^ WORD_BITS = 0)
    (hp0 : 0 < nn_val p) (hlt1 : nn_val in1 ≤ nn_val p) (hlt2 : nn_val in2 ≤ nn_val p)
    (hcap : WORD_BITS * (p.wlen + 1) ≤ NN_MAX_BIT_LEN N)
    (hmin : in1.wlen ≤ p.wlen ∨ in2.wlen ≤ p.wlen) :
    ∃ r, _nn_mul_redc1 N out in1 in2 p mpinv = (r, true) ∧ nn_initialized N r ∧
      r.wlen = p.wlen ∧ nn_val r < nn_val p ∧
      (nn_val r * 2 ^ (WORD_BITS * p.wlen)) % nn_val p =
        (nn_val in1 * nn_val in2) % nn_val p := by
  by_cases hle : in1.wlen ≤ in2.wlen
  · have hbw : in1.wlen ≤ p.wlen := by omega
    obtain ⟨r, hr, hri, hrw, hrlt, hrv⟩ := _nn_mul_redc1_core N out in2 in1 p in1 in2 mpinv
      (if_pos hle) (if_pos hle) h2 h1 hp hinv hp0 hlt2 hlt1 hcap hN hbw
    exact ⟨r, hr, hri, hrw, hrlt, by rw [hrv, Nat.mul_comm]⟩
  · have hbw : in2.wlen ≤ p.wlen := by omega
    exact _nn_mul_redc1_core N out in1 in2 p in1 in2 mpinv (if_neg hle) (if_neg hle) h1 h2 hp
      hinv hp0 hlt1 hlt2 hcap hN hbw

/-- Montgomery multiplication, public version, with or without aliasing of the
output: same result as the private version. -/
theorem nn_mul_redc1_correct (N : Nat) (hN : N ≤ 255) (aliased : Bool) (out in1 in2 p : nn)
    (mpinv : Nat) (h1 : nn_initialized N in1) (h2 : nn_initialized N in2)
    (hp : nn_initialized N p) (hinv : (mpinv * p.val.getD 0 0 + 1) % 2 ^ WORD_BITS = 0)
    (hp0 : 0 < nn_val p) (hlt1 : nn_val in1 ≤ nn_val p) (hlt2 : nn_val in2 ≤ nn_val p)
    (hcap : WORD_BITS * (p.wlen + 1) ≤ NN_MAX_BIT_LEN N)
    (hmin : in1.wlen ≤ p.wlen ∨ in2.wlen ≤ p.wlen) :
    ∃ r, nn_mul_redc1 N aliased out in1 in2 p mpinv = (r, true) ∧ nn_initialized N r ∧
      r.wlen = p.wlen ∧ nn_val r < nn_val p ∧
      (nn_val r * 2 ^ (WORD_BITS * p.wlen)) % nn_val p =
        (nn_val in1 * nn_val in2) % nn_val p := by
  have hN1 : p.wlen + 1 ≤ N := by
    unfold NN_MAX_BIT_LEN at hcap
    exact Nat.le_of_mul_le_mul_left hcap (by rw [WORD_BITS_eq]; norm_num)
  unfold nn_mul_redc1
  rw [nn_initialized_check h1, nn_initialized_check h2, nn_initialized_check hp]
  cases aliased
  · simp only [Bool.true_eq_false, if_false, Bool.false_eq_true]
    exact _nn_mul_redc1_correct N hN out in1 in2 p mpinv h1 h2 hp hinv hp0 hlt1 hlt2 hcap
      hmin
  · simp only [Bool.true_eq_false, if_false, if_true]
    obtain ⟨r, hr, hri, hrw, hrlt, hrv⟩ := _nn_mul_redc1_correct N hN nn_none in1 in2 p mpinv
      h1 h2 hp hinv hp0 hlt1 hlt2 hcap hmin
    refine ⟨r, ?_, hri, hrw, hrlt, hrv⟩
    unfold _nn_mul_redc1_aliased
    simp only [hr]
    have hlen : r.wlen ≤ N * (WORD_BITS / 8) := by
      rw [hrw, WORD_BITS_eq]; omega
    simp only [nn_init, hlen, if_true, nn_copy, nn_initialized_check hri]

end Libecc

namespace Libecc

/-- C2 at the failing input: a capacity of 4 words, `p = 2 ^ 128 - 1` on 2 words,
`mpinv = 1`, and `in1 = in2 = 2 ^ 128 - 2` held on 3 active words (the third one
zero). All the hypotheses of the claim hold, `nn_mul_redc1` returns 0, but the
result has the value 0 where `out * 2 ^ 128` should be congruent to
`in1 * in2 = 1` modulo `p`, and a non-zero word has been written at index 3,
above the accumulator of `p.wlen + 1` words. -/
theorem nn_mul_redc1_long_inputs :
    nn_initialized 4 (nn_of_nat 4 3 (2 ^ 128 - 2)) ∧ nn_initialized 4 (nn_of_nat 4 2 (2 ^ 128 - 1)) ∧
    nn_val (nn_of_nat 4 2 (2 ^ 128 - 1)) % 2 = 1 ∧
    (1 * (nn_of_nat 4 2 (2 ^ 128 - 1)).val.getD 0 0 + 1) % 2 ^ WORD_BITS = 0 ∧
    nn_val (nn_of_nat 4 3 (2 ^ 128 - 2)) < nn_val (nn_of_nat 4 2 (2 ^ 128 - 1)) ∧
    WORD_BITS * ((nn_of_nat 4 2 (2 ^ 128 - 1)).wlen + 1) ≤ NN_MAX_BIT_LEN 4 ∧
    nn_mul_redc1 4 false nn_none (nn_of_nat 4 3 (2 ^ 128 - 2)) (nn_of_nat 4 3 (2 ^ 128 - 2))
      (nn_of_nat 4 2 (2 ^ 128 - 1)) 1 = ({ val := [0, 0, 0, 1], wlen := 2, magic := NN_MAGIC }, true) ∧
    (nn_val (nn_mul_redc1 4 false nn_none (nn_of_nat 4 3 (2 ^ 128 - 2))
      (nn_of_nat 4 3 (2 ^ 128 - 2)) (nn_of_nat 4 2 (2 ^ 128 - 1)) 1).1 *
        2 ^ (WORD_BITS * (nn_of_nat 4 2 (2 ^ 128 - 1)).wlen)) %
      nn_val (nn_of_nat 4 2 (2 ^ 128 - 1)) = 0 ∧
    (nn_val (nn_of_nat 4 3 (2 ^ 128 - 2)) * nn_val (nn_of_nat 4 3 (2 ^ 128 - 2))) %
      nn_val (nn_of_nat 4 2 (2 ^ 128 - 1)) = 1 := by
  decide

end Libecc

namespace Libecc

/-! ## `nn_compute_redc1_coefs` -/

/-- The inverse of an odd number modulo a power of two, as `modinv_2exp` builds
it. -/
theorem modinv_2exp_spec (x : Nat) (hx : x % 2 = 1) (k : Nat) :
    modinv_2exp x (k + 1) < 2 ^ (k + 1) ∧ (x * modinv_2exp x (k + 1)) % 2 ^ (k + 1) = 1 := by
  induction k with
  | zero =>
    have h0 : modinv_2exp x 0 = 0 := rfl
    have h1 : modinv_2exp x 1 = 1 := by
      simp [modinv_2exp]
    rw [h1]
    simp [hx]
  | succ k ih =>
    obtain ⟨hlt, hm⟩ := ih
    have hone : 1 % 2 ^ (k + 1 + 1) = 1 := Nat.mod_eq_of_lt (Nat.one_lt_two_pow (by omega))
    have hp : 2 ^ (k + 1 + 1) = 2 * 2 ^ (k + 1) := by rw [pow_succ]; ring
    have hpos : 0 < 2 ^ (k + 1) := by positivity
    show (if (x * modinv_2exp x (k + 1)) % 2 ^ (k + 1 + 1) = 1 % 2 ^ (k + 1 + 1) then
        modinv_2exp x (k + 1) else modinv_2exp x (k + 1) + 2 ^ (k + 1)) < _ ∧
      (x * (if (x * modinv_2exp x (k + 1)) % 2 ^ (k + 1 + 1) = 1 % 2 ^ (k + 1 + 1) then
        modinv_2exp x (k + 1) else modinv_2exp x (k + 1) + 2 ^ (k + 1))) % _ = 1
    rw [hone]
    by_cases hc : (x * modinv_2exp x (k + 1)) % 2 ^ (k + 1 + 1) = 1
    · rw [if_pos hc]
      exact ⟨by omega, hc⟩
    · rw [if_neg hc]
      refine ⟨by omega, ?_⟩
      have e1 : (x * modinv_2exp x (k + 1)) % 2 ^ (k + 1 + 1) = 1 + 2 ^ (k + 1) := by
        have h2 : (x * modinv_2exp x (k + 1)) % (2 ^ (k + 1) * 2) = _ := Nat.mod_mul
        rw [Nat.mul_comm (2 ^ (k + 1)) 2, ← hp, hm] at h2
        have h3 : (x * modinv_2exp x (k + 1)) / 2 ^ (k + 1) % 2 < 2 := Nat.mod_lt _ (by norm_num)
        rcases Nat.lt_succ_iff_lt_or_eq.1 h3 with h4 | h4
        · have h5 : (x * modinv_2exp x (k + 1)) / 2 ^ (k + 1) % 2 = 0 := by omega
          rw [h5] at h2
          exact absurd (by simpa using h2) hc
        · rw [h4] at h2
          rw [h2]; ring
      have e2 : (x * 2 ^ (k + 1)) % 2 ^ (k + 1 + 1) = 2 ^ (k + 1) := by
        have hx2 : x = 2 * (x / 2) + 1 := by omega
        have : x * 2 ^ (k + 1) = 2 ^ (k + 1) + x / 2 * 2 ^ (k + 1 + 1) := by
          rw [hp]
          nth_rewrite 1 [hx2]
          ring
        rw [this, Nat.add_mul_mod_self_right]
        exact Nat.mod_eq_of_lt (by omega)
      rw [Nat.mul_add, Nat.add_mod, e1, e2]
      have : 1 + 2 ^ (k + 1) + 2 ^ (k + 1) = 1 + 2 ^ (k + 1 + 1) := by rw [hp]; ring
      rw [this, Nat.add_mod_right]
      exact hone

/-- The word `2 ^ 64 - inv`, for `inv` the inverse of `x` modulo `2 ^ 64`, is
`-1 / x` modulo `2 ^ 64`; only the low word of `x` matters. -/
theorem mpinv_arith (x inv : Nat) (hlt : inv < 2 ^ 64) (hinv : (x * inv) % 2 ^ 64 = 1) :
    (((2 ^ 64 - inv) % 2 ^ 64) * (x % 2 ^ 64) + 1) % 2 ^ 64 = 0 := by
  have hpos : 0 < inv := by
    rcases Nat.eq_zero_or_pos inv with h | h
    · rw [h] at hinv; simp at hinv
    · exact h
  have h1 : (2 ^ 64 - inv) % 2 ^ 64 = 2 ^ 64 - inv := Nat.mod_eq_of_lt (by omega)
  rw [h1]
  have h2 : ((x % 2 ^ 64) * inv) % 2 ^ 64 = 1 := by
    rw [Nat.mod_mul_mod]; exact hinv
  have h3 : (2 ^ 64 - inv) * (x % 2 ^ 64) + (x % 2 ^ 64) * inv = 2 ^ 64 * (x % 2 ^ 64) := by
    rw [Nat.sub_mul]
    have : inv * (x % 2 ^ 64) ≤ 2 ^ 64 * (x % 2 ^ 64) := Nat.mul_le_mul_right _ (by omega)
    rw [Nat.mul_comm (x % 2 ^ 64) inv]
    omega
  generalize (2 ^ 64 - inv) * (x % 2 ^ 64) = A at h3 ⊢
  generalize (x % 2 ^ 64) * inv = B at h2 h3
  generalize x % 2 ^ 64 = C at h3
  omega

end Libecc

namespace Libecc

theorem runSteps_cons {σ : Type} (f : σ → Option σ) (fs : List (σ → Option σ)) (s : σ) :
    runSteps (f :: fs) s =
      match f s with
      | some s1 => runSteps fs s1
      | none => (s, false) := rfl

theorem runSteps_nil {σ : Type} (s : σ) : runSteps ([] : List (σ → Option σ)) s = (s, true) := rfl

/-- The modulus as the Montgomery routines pad it: at least two active words,
same value, same low word. -/
theorem pad_two_words (N : Nat) (p_in : nn) (hp : nn_initialized N p_in) (h2 : 2 ≤ N) :
    ∃ P, (if p_in.wlen < 2 then nn_set_wlen N p_in 2 else some p_in) = some P ∧
      nn_initialized N P ∧ P.wlen = max p_in.wlen 2 ∧ nn_val P = nn_val p_in ∧
      P.val.getD 0 0 = p_in.val.getD 0 0 := by
  by_cases h : p_in.wlen < 2
  · obtain ⟨P, h1, h3, h4, h5, h6⟩ := nn_set_wlen_correct N p_in 2 hp h2
    refine ⟨P, by rw [if_pos h, h1], h3, by rw [h4]; omega, ?_, by rw [h6 0]; simp⟩
    rw [h5]
    apply Nat.mod_eq_of_lt
    have := nn_val_lt_pow hp
    rw [← pow_mul] at this
    exact lt_of_lt_of_le this (Nat.pow_le_pow_right (by norm_num) (by
      rw [WORD_BITS_eq]; omega))
  · exact ⟨p_in, by rw [if_neg h], hp, by omega, rfl, rfl⟩

/-- The big number one, as `nn_one` leaves it. -/
theorem nn_one_eq (N : Nat) :
    nn_one N = some { val := (List.replicate N 0).set 0 1, wlen := 1, magic := NN_MAGIC } := by
  unfold nn_one
  rw [nn_init_zero]
  rfl

theorem nn_one_initialized (N : Nat) (h1 : 1 ≤ N) :
    nn_initialized N { val := (List.replicate N 0).set 0 1, wlen := 1, magic := NN_MAGIC } ∧
      nn_val { val := (List.replicate N 0).set 0 1, wlen := 1, magic := NN_MAGIC } = 1 := by
  have hg : ∀ i, ((List.replicate N 0).set 0 1).getD i 0 = if i = 0 then 1 else 0 := by
    intro i
    rw [getD_set, getD_replicate_zero]
    by_cases hi : i = 0
    · subst hi; simp; omega
    · simp [hi]
      intro h; exact absurd h.symm hi
  constructor
  · rw [nn_initialized_iff]
    refine ⟨rfl, h1, by simp, fun i => ?_, fun i hi => ?_⟩
    · show ((List.replicate N 0).set 0 1).getD i 0 < _
      rw [hg]
      split
      · exact Nat.one_lt_two_pow (by rw [WORD_BITS_eq]; norm_num)
      · positivity
    · show ((List.replicate N 0).set 0 1).getD i 0 = 0
      rw [hg, if_neg (by change 1 ≤ i at hi; omega)]
  · show nn_words_val ((List.replicate N 0).set 0 1) 1 = 1
    simp only [nn_words_val, hg]
    simp

end Libecc

namespace Libecc

/-- The two-word big number `2 ^ WORD_BITS` that `nn_compute_redc1_coefs` builds
by hand. -/
theorem two_pow_word (N : Nat) (h2 : 2 ≤ N) :
    nn_val (nn.mk (((List.replicate N 0).take 2 ++
        List.replicate ((List.replicate N 0).length - 2) 0).set 1 1) 2 NN_MAGIC) = 2 ^ WORD_BITS := by
  show nn_words_val _ 2 = _
  have hl : ((List.replicate N 0).take 2 ++
      List.replicate ((List.replicate N 0).length - 2) 0).length = N := by
    simp only [List.length_append, List.length_take, List.length_replicate]
    omega
  simp only [nn_words_val, getD_set, hl, getD_take_append_replicate, getD_replicate_zero]
  simp
  omega

theorem nn_of_nat_check (N w v : Nat) (hw : w ≤ N) :
    nn_check_initialized N (nn_of_nat N w v) = true := by
  rw [nn_check_initialized_iff]
  exact ⟨rfl, hw⟩

theorem nn_mod_eq (N : Nat) (a b : nn) (ha : nn_check_initialized N a = true)
    (hb : nn_check_initialized N b = true) (hb0 : nn_val b ≠ 0) :
    nn_mod N a b = some (nn_of_nat N b.wlen (nn_val a % nn_val b)) := by
  unfold nn_mod
  simp only [ha, hb, Bool.and_self, ne_eq, hb0, not_false_eq_true, decide_True, if_true]

theorem nn_sqr_eq (N : Nat) (inp : nn) (h : nn_check_initialized N inp = true)
    (hw : inp.wlen + inp.wlen ≤ N) :
    nn_sqr N inp = some (nn_of_nat N (inp.wlen + inp.wlen) (nn_val inp * nn_val inp)) := by
  unfold nn_sqr
  simp only [h, hw, decide_True, Bool.and_self, if_true]

/-- The Montgomery coefficients of an odd modulus `p_in` whose padded length
`n = max(p_in.wlen, 2)` fits the capacity twice: the routine succeeds,
`r = 2 ^ (WORD_BITS * n) mod p`, `r_square = 2 ^ (2 * WORD_BITS * n) mod p`, both
on `n` words, and `mpinv * p[0] = -1` modulo `2 ^ WORD_BITS`. -/
theorem nn_compute_redc1_coefs_correct (N : Nat) (hN : N ≤ 255) (r r_square p_in : nn) (mpinv : Nat)
    (hp : nn_initialized N p_in) (hodd : nn_val p_in % 2 = 1)
    (hcap : 2 * WORD_BITS * max p_in.wlen 2 ≤ NN_MAX_BIT_LEN N) :
    ∃ s, nn_compute_redc1_coefs N r r_square p_in mpinv = (s, true) ∧
      nn_initialized N s.r ∧ s.r.wlen = max p_in.wlen 2 ∧
      nn_val s.r = 2 ^ (WORD_BITS * max p_in.wlen 2) % nn_val p_in ∧
      nn_initialized N s.r_square ∧ s.r_square.wlen = max p_in.wlen 2 ∧
      nn_val s.r_square = 2 ^ (2 * WORD_BITS * max p_in.wlen 2) % nn_val p_in ∧
      (s.mpinv * p_in.val.getD 0 0 + 1) % 2 ^ WORD_BITS = 0 := by
  have hW := WORD_BITS_eq
  have h4N : 4 ≤ N := by
    unfold NN_MAX_BIT_LEN at hcap
    rw [hW] at hcap
    omega
  obtain ⟨P, hP, hPi, hPw, hPv, hP0⟩ := pad_two_words N p_in hp (by omega)
  unfold nn_compute_redc1_coefs
  dsimp only
  generalize hres : runSteps _ _ = res
  simp only [runSteps_cons, nn_initialized_check hp, if_true, nn_init_zero, Option.map_some',
    nn_copy] at hres
  have hP2 : (if p_in.wlen < 2 then
      Option.map (fun x => redc1_coefs_state.mk r r_square mpinv x nn_none nn_none 0 false 0)
        (nn_set_wlen N p_in 2)
      else some (redc1_coefs_state.mk r r_square mpinv p_in nn_none nn_none 0 false 0)) =
      some (redc1_coefs_state.mk r r_square mpinv P nn_none nn_none 0 false 0) := by
    by_cases h : p_in.wlen < 2
    · rw [if_pos h] at hP ⊢
      rw [hP]
      rfl
    · rw [if_neg h] at hP ⊢
      rw [Option.some.inj hP]
  rw [hP2] at hres
  have hset2 : nn_set_wlen N { val := List.replicate N 0, wlen := 0, magic := NN_MAGIC } 2 =
      some (nn.mk ((List.replicate N 0).take 2 ++
          List.replicate ((List.replicate N 0).length - 2) 0) 2 NN_MAGIC) := by
    simp [nn_set_wlen, nn_check_initialized]
    omega
  simp only [hset2, Option.map_some'] at hres
  have hchk2 : nn_check_initialized N (nn.mk (((List.replicate N 0).take 2 ++
      List.replicate ((List.replicate N 0).length - 2) 0).set 1 1) 2 NN_MAGIC) = true := by
    rw [nn_check_initialized_iff]
    exact ⟨rfl, by show 2 ≤ N; omega⟩
  have hB1 : BIT_LEN_WORDS WORD_BITS = 1 := by
    unfold BIT_LEN_WORDS; rw [hW]
  have hoddP : nn_val P % 2 = 1 := by rw [hPv]; exact hodd
  have hmi : nn_modinv_2exp N P WORD_BITS =
      some (nn_of_nat N 1 (modinv_2exp (nn_val P) WORD_BITS), true) := by
    unfold nn_modinv_2exp
    rw [nn_initialized_check hPi, hB1]
    simp only [Bool.true_and, decide_eq_true_eq, hoddP, if_true]
    rw [if_pos (by omega)]
  have h64 : WORD_BITS = 63 + 1 := rfl
  obtain ⟨hilt, him⟩ := modinv_2exp_spec (nn_val P) hoddP 63
  rw [← h64] at hilt him
  have hsub : nn_sub N (nn.mk (((List.replicate N 0).take 2 ++
      List.replicate ((List.replicate N 0).length - 2) 0).set 1 1) 2 NN_MAGIC) (nn_of_nat N 1 (modinv_2exp (nn_val P) WORD_BITS)) =
      some (nn_of_nat N 2 (2 ^ WORD_BITS - modinv_2exp (nn_val P) WORD_BITS)) := by
    have hv1 : nn_val (nn_of_nat N 1 (modinv_2exp (nn_val P) WORD_BITS)) =
        modinv_2exp (nn_val P) WORD_BITS :=
      nn_val_nn_of_nat N 1 _ (by omega) (by rw [Nat.mul_one]; exact hilt)
    have hc1 : nn_check_initialized N (nn_of_nat N 1 (modinv_2exp (nn_val P) WORD_BITS)) = true := by
      rw [nn_check_initialized_iff]
      exact ⟨rfl, by show 1 ≤ N; omega⟩
    unfold nn_sub
    rw [hchk2, hc1, two_pow_word N (by omega), hv1]
    have : ¬ (2 ^ WORD_BITS < modinv_2exp (nn_val P) WORD_BITS) := Nat.not_lt.2 (le_of_lt hilt)
    simp only [Bool.and_self, if_true, this, if_false]
    rfl
  simp only [hchk2, if_true, Option.map_some', hmi, hsub, nn_one_eq] at hres
  obtain ⟨hONEi, hONEv⟩ := nn_one_initialized N (by omega)
  have hPwN : 2 * P.wlen ≤ N ∧ 2 ≤ P.wlen := by
    unfold NN_MAX_BIT_LEN at hcap
    rw [hW, ← hPw] at hcap
    constructor
    · omega
    · rw [hPw]; omega
  have hu16 : u16 (WORD_BITS * P.wlen) = WORD_BITS * P.wlen := by
    unfold u16; rw [hW]; omega
  have hbl1 : nn_bitlen_loop ((List.replicate N 0).set 0 1) 1 = 1 := by
    have hg : ((List.replicate N 0).set 0 1).getD 0 0 = 1 := by
      rw [getD_set]; simp; omega
    simp only [nn_bitlen_loop, hg]
    decide
  obtain ⟨R1, hR1, hR1i, hR1w, hR1v⟩ := nn_lshift_correct N hN true
    { val := (List.replicate N 0).set 0 1, wlen := 1, magic := NN_MAGIC }
    { val := (List.replicate N 0).set 0 1, wlen := 1, magic := NN_MAGIC }
    (WORD_BITS * P.wlen) hONEi
  have hfit : WORD_BITS * P.wlen + 1 ≤ NN_MAX_BIT_LEN N := by
    unfold NN_MAX_BIT_LEN; rw [hW]; omega
  have hR1v2 : nn_val R1 = 2 ^ (WORD_BITS * P.wlen) := by
    rw [hR1v, hR1w, hONEv, Nat.one_mul]
    have := nn_lshift_exact N { val := (List.replicate N 0).set 0 1, wlen := 1, magic := NN_MAGIC }
      (WORD_BITS * P.wlen) hONEi (by rw [hbl1]; exact hfit)
    rw [hONEv, Nat.one_mul] at this
    exact this
  have hPpos : nn_val P ≠ 0 := by omega
  have hmod1 := nn_mod_eq N R1 P (nn_initialized_check hR1i) (nn_initialized_check hPi) hPpos
  simp only [hu16, hR1, Option.map_some', hmod1] at hres
  have hcapc : ¬ NN_MAX_BIT_LEN N < 2 * (WORD_BITS * P.wlen) := by
    unfold NN_MAX_BIT_LEN; rw [hW]; omega
  have hPlt := nn_val_lt_pow hPi
  rw [← pow_mul] at hPlt
  have hvlt : nn_val R1 % nn_val P < nn_val P := Nat.mod_lt _ (by omega)
  have hRRi : nn_initialized N (nn_of_nat N P.wlen (nn_val R1 % nn_val P)) :=
    nn_of_nat_initialized N _ _ (by omega) (by omega)
  have hRRv : nn_val (nn_of_nat N P.wlen (nn_val R1 % nn_val P)) = nn_val R1 % nn_val P :=
    nn_val_nn_of_nat N _ _ (by omega) (by omega)
  have hsq := nn_sqr_eq N (nn_of_nat N P.wlen (nn_val R1 % nn_val P))
    (nn_initialized_check hRRi) (by show P.wlen + P.wlen ≤ N; omega)
  rw [hRRv] at hsq
  have hsqlt : nn_val R1 % nn_val P * (nn_val R1 % nn_val P) <
      2 ^ (WORD_BITS * (P.wlen + P.wlen)) := by
    rw [Nat.mul_add, pow_add]
    exact Nat.mul_lt_mul'' (by omega) (by omega)
  have hSQv : nn_val (nn_of_nat N (P.wlen + P.wlen)
      (nn_val R1 % nn_val P * (nn_val R1 % nn_val P))) =
      nn_val R1 % nn_val P * (nn_val R1 % nn_val P) :=
    nn_val_nn_of_nat N _ _ (by omega) hsqlt
  have hmod2 := nn_mod_eq N (nn_of_nat N (P.wlen + P.wlen)
      (nn_val R1 % nn_val P * (nn_val R1 % nn_val P))) P
    (nn_of_nat_check N _ _ (by omega)) (nn_initialized_check hPi) hPpos
  rw [hSQv] at hmod2
  have hsq2 : nn_sqr N (nn_of_nat N P.wlen (nn_val R1 % nn_val P)) =
      some (nn_of_nat N (P.wlen + P.wlen) (nn_val R1 % nn_val P * (nn_val R1 % nn_val P))) := hsq
  simp only [hcapc, not_false_eq_true, if_true, hsq2, Option.map_some', hmod2, runSteps_nil]
    at hres
  rw [← hres]
  refine ⟨_, rfl, ?_, ?_, ?_, ?_, ?_, ?_, ?_⟩
  · exact hRRi
  · exact hPw
  · show nn_val (nn_of_nat N P.wlen (nn_val R1 % nn_val P)) = _
    rw [hRRv, hR1v2, hPw, hPv]
  · exact nn_of_nat_initialized N _ _ (by omega)
      (lt_of_lt_of_le (Nat.mod_lt _ (by omega)) (le_of_lt hPlt))
  · exact hPw
  · show nn_val (nn_of_nat N P.wlen (nn_val R1 % nn_val P * (nn_val R1 % nn_val P) %
      nn_val P)) = _
    rw [nn_val_nn_of_nat N _ _ (by omega)
      (lt_of_lt_of_le (Nat.mod_lt _ (by omega)) (le_of_lt hPlt)), ← Nat.mul_mod, hR1v2,
      ← pow_add, hPw, hPv]
    have e : WORD_BITS * max p_in.wlen 2 + WORD_BITS * max p_in.wlen 2 =
        2 * WORD_BITS * max p_in.wlen 2 := by ring
    rw [e]
  · show ((nn_words_of_nat (2 ^ WORD_BITS - modinv_2exp (nn_val P) WORD_BITS) N).getD 0 0 *
      p_in.val.getD 0 0 + 1) % 2 ^ WORD_BITS = 0
    have hw0 : P.val.getD 0 0 = nn_val P % 2 ^ WORD_BITS := by
      have := nn_words_val_window hPi 1 (by omega)
      simp only [nn_words_val, Nat.mul_zero, pow_zero, Nat.mul_one, Nat.zero_add] at this
      exact this
    rw [getD_nn_words_of_nat, if_pos (by omega), ← hP0, hw0]
    simp only [Nat.mul_zero, pow_zero, Nat.div_one]
    rw [hW] at hilt him ⊢
    exact mpinv_arith (nn_val P) _ hilt him
end Libecc

namespace Libecc

/-! ## Through the Montgomery domain and back -/

/-- A power of two can be cancelled modulo an odd number. -/
theorem redc_cancel (P k x y : Nat) (hodd : P % 2 = 1)
    (h : (x * 2 ^ k) % P = (y * 2 ^ k) % P) : x % P = y % P := by
  have hc : Nat.gcd P (2 ^ k) = 1 := by
    have h2 : Nat.Coprime 2 P := by
      rw [Nat.coprime_two_left]
      exact Nat.odd_iff.2 hodd
    exact (Nat.Coprime.pow_left k h2).symm
  exact Nat.ModEq.cancel_right_of_coprime hc h

/-- Redcifying: from `t * R = x * (R * R mod P)` modulo `P`, `t = x * R` modulo
`P`. -/
theorem redcify_val (P k x t : Nat) (hodd : P % 2 = 1)
    (h : (t * 2 ^ k) % P = (x * (2 ^ (2 * k) % P)) % P) : t % P = (x * 2 ^ k) % P := by
  apply redc_cancel P k _ _ hodd
  rw [h, Nat.mul_mod, Nat.mod_mod, ← Nat.mul_mod]
  congr 1
  rw [two_mul, pow_add]
  ring

/-- Un-redcifying: from `y * R = t * 1` and `t = x * R` modulo `P`, `y = x`
modulo `P`. -/
theorem unredcify_val (P k x t y : Nat) (hodd : P % 2 = 1)
    (h1 : (y * 2 ^ k) % P = (t * 1) % P) (h2 : t % P = (x * 2 ^ k) % P) : y % P = x % P := by
  apply redc_cancel P k _ _ hodd
  rw [h1, Nat.mul_one, h2]

end Libecc

namespace Libecc

set_option maxRecDepth 100000 in
/-- C3 as stated fails for a modulus passed on a single active word: `p = 7` on
one word (capacity 4 words), `x = 1`. `nn_compute_redc1_coefs` succeeds, with
the coefficients of the modulus padded to two words (`r = 2 ^ 128 mod 7 = 4`,
`r_square = 2`), both `nn_mul_redc1` calls succeed on the caller's one-word `p`,
and the round trip yields `y = 4`, not `x = 1`. -/
theorem redc_roundtrip_counterexample :
    nn_initialized 4 (nn_of_nat 4 1 7) ∧ nn_initialized 4 (nn_of_nat 4 1 1) ∧
    nn_val (nn_of_nat 4 1 7) % 2 = 1 ∧ nn_val (nn_of_nat 4 1 1) < nn_val (nn_of_nat 4 1 7) ∧
    (nn_compute_redc1_coefs 4 nn_none nn_none (nn_of_nat 4 1 7) 0).2 = true ∧
    nn_val (nn_compute_redc1_coefs 4 nn_none nn_none (nn_of_nat 4 1 7) 0).1.r = 4 ∧
    nn_val (nn_compute_redc1_coefs 4 nn_none nn_none (nn_of_nat 4 1 7) 0).1.r_square = 2 ∧
    (nn_mul_redc1 4 false nn_none (nn_of_nat 4 1 1)
      (nn_compute_redc1_coefs 4 nn_none nn_none (nn_of_nat 4 1 7) 0).1.r_square (nn_of_nat 4 1 7)
      (nn_compute_redc1_coefs 4 nn_none nn_none (nn_of_nat 4 1 7) 0).1.mpinv).2 = true ∧
    nn_one 4 = some (nn_of_nat 4 1 1) ∧
    (nn_mul_redc1 4 false nn_none
      (nn_mul_redc1 4 false nn_none (nn_of_nat 4 1 1)
        (nn_compute_redc1_coefs 4 nn_none nn_none (nn_of_nat 4 1 7) 0).1.r_square
        (nn_of_nat 4 1 7)
        (nn_compute_redc1_coefs 4 nn_none nn_none (nn_of_nat 4 1 7) 0).1.mpinv).1
      (nn_of_nat 4 1 1) (nn_of_nat 4 1 7)
      (nn_compute_redc1_coefs 4 nn_none nn_none (nn_of_nat 4 1 7) 0).1.mpinv).2 = true ∧
    nn_val (nn_mul_redc1 4 false nn_none
      (nn_mul_redc1 4 false nn_none (nn_of_nat 4 1 1)
        (nn_compute_redc1_coefs 4 nn_none nn_none (nn_of_nat 4 1 7) 0).1.r_square
        (nn_of_nat 4 1 7)
        (nn_compute_redc1_coefs 4 nn_none nn_none (nn_of_nat 4 1 7) 0).1.mpinv).1
      (nn_of_nat 4 1 1) (nn_of_nat 4 1 7)
      (nn_compute_redc1_coefs 4 nn_none nn_none (nn_of_nat 4 1 7) 0).1.mpinv).1 = 4 := by
  decide

end Libecc

namespace Libecc

/-- C3, amended: for every odd modulus `p` of active length `p.wlen ≥ 2` whose
doubled length fits the capacity (so that `nn_compute_redc1_coefs` succeeds)
and every initialized `x < p`: with `(r, r_square, mpinv)` produced by
`nn_compute_redc1_coefs(p)`, redcifying `x` by
`nn_mul_redc1(t, x, r_square, p, mpinv)` and un-redcifying by
`nn_mul_redc1(y, t, 1, p, mpinv)` both succeed and yield `y = x`, with or
without aliasing of the outputs. -/
theorem redc_roundtrip (N : Nat) (hN : N ≤ 255) (al1 al2 : Bool) (r0 rs0 t0 y0 p x : nn)
    (m0 : Nat) (hp : nn_initialized N p) (hx : nn_initialized N x) (hodd : nn_val p % 2 = 1)
    (hxp : nn_val x < nn_val p) (hw : 2 ≤ p.wlen)
    (hcap : 2 * WORD_BITS * p.wlen ≤ NN_MAX_BIT_LEN N) :
    ∃ c t one y, nn_compute_redc1_coefs N r0 rs0 p m0 = (c, true) ∧
      nn_mul_redc1 N al1 t0 x c.r_square p c.mpinv = (t, true) ∧
      nn_one N = some one ∧
      nn_mul_redc1 N al2 y0 t one p c.mpinv = (y, true) ∧
      nn_initialized N y ∧ nn_val y = nn_val x := by
  have hW := WORD_BITS_eq
  have hmax : max p.wlen 2 = p.wlen := by omega
  obtain ⟨c, hc, -, -, -, hrsi, hrsw, hrsv, hinv⟩ := nn_compute_redc1_coefs_correct N hN r0 rs0 p
    m0 hp hodd (by rw [hmax]; exact hcap)
  rw [hmax] at hrsw hrsv
  have hp0 : 0 < nn_val p := by omega
  have hcap1 : WORD_BITS * (p.wlen + 1) ≤ NN_MAX_BIT_LEN N := by
    unfold NN_MAX_BIT_LEN at hcap ⊢
    rw [hW] at hcap ⊢
    omega
  have hrslt : nn_val c.r_square ≤ nn_val p := by
    rw [hrsv]; exact le_of_lt (Nat.mod_lt _ hp0)
  obtain ⟨t, ht, hti, htw, htlt, htv⟩ := nn_mul_redc1_correct N hN al1 t0 x c.r_square p c.mpinv
    hx hrsi hp hinv hp0 (le_of_lt hxp) hrslt hcap1 (Or.inr (by omega))
  obtain ⟨hONEi, hONEv⟩ := nn_one_initialized N (by
    unfold NN_MAX_BIT_LEN at hcap
    rw [hW] at hcap
    omega)
  obtain ⟨y, hy, hyi, -, hylt, hyv⟩ := nn_mul_redc1_correct N hN al2 y0 t
    { val := (List.replicate N 0).set 0 1, wlen := 1, magic := NN_MAGIC } p c.mpinv
    hti hONEi hp hinv hp0 (le_of_lt htlt) (by rw [hONEv]; omega) hcap1 (Or.inl (by omega))
  refine ⟨c, t, _, y, hc, ht, nn_one_eq N, hy, hyi, ?_⟩
  rw [hrsv, Nat.mul_assoc 2 WORD_BITS p.wlen] at htv
  rw [hONEv] at hyv
  have h1 := redcify_val (nn_val p) (WORD_BITS * p.wlen) (nn_val x) (nn_val t) hodd htv
  have h2 := unredcify_val (nn_val p) (WORD_BITS * p.wlen) (nn_val x) (nn_val t) (nn_val y) hodd
    hyv h1
  rw [Nat.mod_eq_of_lt hylt, Nat.mod_eq_of_lt hxp] at h2
  exact h2

/-- C3, amended, at a concrete input: modulo `p = 2 ^ 64 + 13` on two words
(capacity 4 words), `x = 5` goes through the Montgomery domain and back. -/
theorem redc_roundtrip_witness :
    ∃ c t one y,
      nn_compute_redc1_coefs 4 nn_none nn_none (nn_of_nat 4 2 (2 ^ 64 + 13)) 0 = (c, true) ∧
      nn_mul_redc1 4 false nn_none (nn_of_nat 4 1 5) c.r_square (nn_of_nat 4 2 (2 ^ 64 + 13))
        c.mpinv = (t, true) ∧
      nn_one 4 = some one ∧
      nn_mul_redc1 4 false nn_none t one (nn_of_nat 4 2 (2 ^ 64 + 13)) c.mpinv = (y, true) ∧
      nn_initialized 4 y ∧ nn_val y = nn_val (nn_of_nat 4 1 5) :=
  redc_roundtrip 4 (by decide) false false nn_none nn_none nn_none nn_none
    (nn_of_nat 4 2 (2 ^ 64 + 13)) (nn_of_nat 4 1 5) 0 (by decide) (by decide) (by decide)
    (by decide) (by decide) (by decide)

end Libecc

namespace Libecc

/-- Modular multiplication through the Montgomery domain: success, and the
value of `out` is `(a * b) mod p`. -/
theorem nn_mul_mod_correct (N : Nat) (hN : N ≤ 255) (out a b p : nn)
    (hp : nn_initialized N p) (ha : nn_initialized N a) (hb : nn_initialized N b)
    (hodd : nn_val p % 2 = 1) (hap : nn_val a < nn_val p) (hbp : nn_val b < nn_val p)
    (hcap : 2 * WORD_BITS * max p.wlen 2 ≤ NN_MAX_BIT_LEN N) :
    ∃ s, nn_mul_mod N out a b p = (s, true) ∧ nn_initialized N s.out ∧
      nn_val s.out = (nn_val a * nn_val b) % nn_val p := by
  have hW := WORD_BITS_eq
  have h4N : 4 ≤ N := by
    unfold NN_MAX_BIT_LEN at hcap
    rw [hW] at hcap
    omega
  obtain ⟨P, hP, hPi, hPw, hPv, hP0⟩ := pad_two_words N p hp (by omega)
  have hmax : max P.wlen 2 = P.wlen := by rw [hPw]; omega
  have hoddP : nn_val P % 2 = 1 := by rw [hPv]; exact hodd
  obtain ⟨c, hc, -, -, -, hrsi, hrsw, hrsv, hinv⟩ := nn_compute_redc1_coefs_correct N hN
    nn_none nn_none P 0 hPi hoddP (by rw [hmax, hPw]; exact hcap)
  rw [hmax] at hrsw hrsv
  have hp0 : 0 < nn_val P := by omega
  have hcap1 : WORD_BITS * (P.wlen + 1) ≤ NN_MAX_BIT_LEN N := by
    unfold NN_MAX_BIT_LEN at hcap ⊢
    rw [hW, ← hPw] at hcap
    rw [hW]
    have : 2 ≤ P.wlen := by rw [hPw]; omega
    omega
  have hrslt : nn_val c.r_square ≤ nn_val P := by
    rw [hrsv]; exact le_of_lt (Nat.mod_lt _ hp0)
  obtain ⟨A1, hA, hAi, hAw, hAlt, hAv⟩ := nn_mul_redc1_correct N hN false nn_none a c.r_square P
    c.mpinv ha hrsi hPi hinv hp0 (by omega) hrslt hcap1 (Or.inr (by omega))
  obtain ⟨B1, hB, hBi, hBw, hBlt, hBv⟩ := nn_mul_redc1_correct N hN false nn_none b c.r_square P
    c.mpinv hb hrsi hPi hinv hp0 (by omega) hrslt hcap1 (Or.inr (by omega))
  obtain ⟨T, hT, hTi, hTw, hTlt, hTv⟩ := nn_mul_redc1_correct N hN false nn_none A1 B1 P
    c.mpinv hAi hBi hPi hinv hp0 (le_of_lt hAlt) (le_of_lt hBlt) hcap1 (Or.inl (by omega))
  obtain ⟨hONEi, hONEv⟩ := nn_one_initialized N (by omega)
  obtain ⟨O, hO, hOi, hOw, hOlt, hOv⟩ := nn_mul_redc1_correct N hN false out T
    { val := (List.replicate N 0).set 0 1, wlen := 1, magic := NN_MAGIC } P c.mpinv
    hTi hONEi hPi hinv hp0 (le_of_lt hTlt) (by rw [hONEv]; omega) hcap1 (Or.inl (by omega))
  unfold nn_mul_mod
  dsimp only
  generalize hres : runSteps _ _ = res
  simp only [runSteps_cons, nn_init_zero, Option.map_some', nn_copy, nn_initialized_check hp,
    if_true] at hres
  have hP2 : (if p.wlen < 2 then
      Option.map (fun x => mul_mod_state.mk out nn_none nn_none nn_none nn_none nn_none 0
        nn_none x) (nn_set_wlen N p 2)
      else some (mul_mod_state.mk out nn_none nn_none nn_none nn_none nn_none 0 nn_none p)) =
      some (mul_mod_state.mk out nn_none nn_none nn_none nn_none nn_none 0 nn_none P) := by
    by_cases h : p.wlen < 2
    · rw [if_pos h] at hP ⊢
      rw [hP]
      rfl
    · rw [if_neg h] at hP ⊢
      rw [Option.some.inj hP]
  rw [hP2] at hres
  simp only [hc, if_true, callStep, hA, hB, hT, nn_one_eq, Option.map_some', hO, runSteps_nil]
    at hres
  rw [← hres]
  refine ⟨_, rfl, hOi, ?_⟩
  show nn_val O = _
  rw [hrsv, Nat.mul_assoc 2 WORD_BITS P.wlen] at hAv hBv
  rw [hONEv] at hOv
  have h1 := redcify_val (nn_val P) (WORD_BITS * P.wlen) (nn_val a) (nn_val A1) hoddP hAv
  have h2 := redcify_val (nn_val P) (WORD_BITS * P.wlen) (nn_val b) (nn_val B1) hoddP hBv
  have h3 : nn_val T % nn_val P = (nn_val a * nn_val b * 2 ^ (WORD_BITS * P.wlen)) % nn_val P := by
    apply redc_cancel (nn_val P) (WORD_BITS * P.wlen) _ _ hoddP
    rw [hTv, Nat.mul_mod, h1, h2, ← Nat.mul_mod]
    congr 1
    ring
  have h4 := unredcify_val (nn_val P) (WORD_BITS * P.wlen) (nn_val a * nn_val b) (nn_val T)
    (nn_val O) hoddP hOv h3
  rw [Nat.mod_eq_of_lt hOlt] at h4
  rw [h4, hPv]
/-- C1: for every odd modulus `p` and all initialized `a`, `b` with `a < p` and
`b < p`, such that `2 * WORD_BITS * max(p.wlen, 2) ≤ NN_MAX_BIT_LEN`,
`nn_mul_mod(out, a, b, p)` succeeds and the value of `out` equals
`(a * b) mod p`; this includes moduli given with a single active word, which
are padded to two words internally. -/
theorem nn_mul_mod_value (N : Nat) (hN : N ≤ 255) (out a b p : nn)
    (hp : nn_initialized N p) (ha : nn_initialized N a) (hb : nn_initialized N b)
    (hodd : nn_val p % 2 = 1) (hap : nn_val a < nn_val p) (hbp : nn_val b < nn_val p)
    (hcap : 2 * WORD_BITS * max p.wlen 2 ≤ NN_MAX_BIT_LEN N) :
    ∃ s, nn_mul_mod N out a b p = (s, true) ∧ nn_initialized N s.out ∧
      nn_val s.out = (nn_val a * nn_val b) % nn_val p :=
  nn_mul_mod_correct N hN out a b p hp ha hb hodd hap hbp hcap

set_option exponentiation.threshold 600 in
set_option maxRecDepth 100000 in
/-- C1 at the concrete input of the spec: `p = 2 ^ 255 - 19` (four words, capacity
eight words), `a = 5`, `b = 7` give 35; and modulo the one-word `p = 7`,
`3 * 5` gives 1. -/
theorem nn_mul_mod_value_witness :
    (∃ s, nn_mul_mod 8 nn_none (nn_of_nat 8 1 5) (nn_of_nat 8 1 7)
        (nn_of_nat 8 4 (2 ^ 255 - 19)) = (s, true) ∧ nn_initialized 8 s.out ∧
      nn_val s.out = (nn_val (nn_of_nat 8 1 5) * nn_val (nn_of_nat 8 1 7)) %
        nn_val (nn_of_nat 8 4 (2 ^ 255 - 19))) ∧
    nn_val (nn_mul_mod 8 nn_none (nn_of_nat 8 1 5) (nn_of_nat 8 1 7)
      (nn_of_nat 8 4 (2 ^ 255 - 19))).1.out = 35 ∧
    nn_val (nn_mul_mod 8 nn_none (nn_of_nat 8 1 3) (nn_of_nat 8 1 5) (nn_of_nat 8 1 7)).1.out = 1 :=
  ⟨nn_mul_mod_value 8 (by decide) nn_none (nn_of_nat 8 1 5) (nn_of_nat 8 1 7)
      (nn_of_nat 8 4 (2 ^ 255 - 19)) (by decide) (by decide) (by decide) (by decide) (by decide)
      (by decide) (by decide),
    by decide, by decide⟩

end Libecc

namespace Libecc

/-! ## Invariants along a run of statements -/

/-- An invariant indexed by the number of statements done holds of the state a
run ends in, at the number of statements that succeeded; the run succeeds
exactly when that number is the length of the list. -/
theorem runSteps_inv {σ : Type} (fs : List (σ → Option σ)) (I : Nat → σ → Prop)
    (hstep : ∀ i f, fs[i]? = some f → ∀ s t, I i s → f s = some t → I (i + 1) t)
    (s0 : σ) (h0 : I 0 s0) :
    ∃ k, k ≤ fs.length ∧ I k (runSteps fs s0).1 ∧ ((runSteps fs s0).2 = true ↔ k = fs.length) := by
  induction fs generalizing I s0 with
  | nil => exact ⟨0, le_refl _, h0, by simp [runSteps]⟩
  | cons f fs ih =>
    rw [runSteps_cons]
    rcases hf : f s0 with _ | s1
    · exact ⟨0, Nat.zero_le _, h0, by simp⟩
    · obtain ⟨k, hk, hI, hiff⟩ := ih (fun i s => I (i + 1) s)
        (fun i g hg s t hs hgt => hstep (i + 1) g (by simpa using hg) s t hs hgt) s1
        (hstep 0 f (by simp) s0 s1 h0 hf)
      refine ⟨k + 1, by simp only [List.length_cons]; omega, hI, ?_⟩
      simp only [List.length_cons, Nat.add_right_cancel_iff]
      exact hiff

end Libecc

namespace Libecc

/-- The form of `runSteps_inv` that applies to a property of the result of a
run. -/
theorem runSteps_inv_post {σ : Type} (fs : List (σ → Option σ)) (I : Nat → σ → Prop)
    (G : σ × Bool → Prop)
    (hstep : ∀ i f, fs[i]? = some f → ∀ s t, I i s → f s = some t → I (i + 1) t)
    (s0 : σ) (h0 : I 0 s0)
    (hG : ∀ k res, k ≤ fs.length → I k res.1 → (res.2 = true ↔ k = fs.length) → G res) :
    G (runSteps fs s0) := by
  obtain ⟨k, hk, hI, hiff⟩ := runSteps_inv fs I hstep s0 h0
  exact hG k _ hk hI hiff

theorem nn_copy_eq_some (N : Nat) (a x : nn) (h : nn_copy N a = some x) :
    x = a ∧ nn_check_initialized N a = true := by
  unfold nn_copy at h
  split at h
  · rename_i hc
    exact ⟨by simpa using h.symm, hc⟩
  · simp at h

theorem nn_set_wlen_eq_some (N : Nat) (a x : nn) (w : Nat) (h : nn_set_wlen N a w = some x) :
    x.wlen = w ∧ x.magic = a.magic := by
  unfold nn_set_wlen at h
  split at h
  · simp only [Option.some.injEq] at h
    subst h
    exact ⟨rfl, rfl⟩
  · simp at h

theorem nn_mod_magic (N : Nat) (a b x : nn) (h : nn_mod N a b = some x) : x.magic = NN_MAGIC := by
  unfold nn_mod at h
  split at h
  · simp only [Option.some.injEq] at h
    subst h
    rfl
  · simp at h

theorem nn_sqr_magic (N : Nat) (a x : nn) (h : nn_sqr N a = some x) : x.magic = NN_MAGIC := by
  unfold nn_sqr at h
  split at h
  · simp only [Option.some.injEq] at h
    subst h
    rfl
  · simp at h

theorem nn_init_magic (N : Nat) (len : Nat) (x : nn) (h : nn_init N len = some x) :
    x.magic = NN_MAGIC := by
  unfold nn_init at h
  split at h
  · simp only [Option.some.injEq] at h
    subst h
    rfl
  · simp at h

theorem nn_sub_word (N : Nat) (B C x : nn) (h : nn_sub N B C = some x) :
    x.val.getD 0 0 < 2 ^ WORD_BITS := by
  unfold nn_sub at h
  split at h
  · split at h
    · exact Option.noConfusion h
    · simp only [Option.some.injEq] at h
      subst h
      show (nn_words_of_nat _ N).getD 0 0 < _
      rw [getD_nn_words_of_nat]
      split
      · exact Nat.mod_lt _ (by positivity)
      · positivity
  · exact Option.noConfusion h

/-- What a run of `nn_compute_redc1_coefs` that stops after `k` of its 22
statements leaves behind: `*mpinv` is written by the last statement only, the
capacity check is statement 19. -/
theorem nn_compute_redc1_coefs_run (N : Nat) (r r_square p_in : nn) (mpinv : Nat) :
    ∃ k, k ≤ 22 ∧
      (k ≤ 21 → (nn_compute_redc1_coefs N r r_square p_in mpinv).1.mpinv = mpinv) ∧
      (1 ≤ k → nn_check_initialized N p_in = true) ∧
      (6 ≤ k → (nn_compute_redc1_coefs N r r_square p_in mpinv).1.r_square.magic = NN_MAGIC) ∧
      (19 ≤ k → ¬ NN_MAX_BIT_LEN N < 2 * u16 (WORD_BITS * max p_in.wlen 2)) ∧
      (k = 22 → (nn_compute_redc1_coefs N r r_square p_in mpinv).1.mpinv < 2 ^ WORD_BITS) ∧
      ((nn_compute_redc1_coefs N r r_square p_in mpinv).2 = true ↔ k = 22) := by
  unfold nn_compute_redc1_coefs
  dsimp only
  refine runSteps_inv_post _
    (fun i (s : redc1_coefs_state) => (i ≤ 21 → s.mpinv = mpinv) ∧ (1 ≤ i → nn_check_initialized N p_in = true) ∧
      (6 ≤ i → s.r_square.magic = NN_MAGIC) ∧ (i = 3 → s.p = p_in) ∧
      (4 ≤ i → s.p.wlen = max p_in.wlen 2) ∧
      (9 ≤ i → s.p_rounded_bitlen = u16 (WORD_BITS * max p_in.wlen 2)) ∧
      (19 ≤ i → ¬ NN_MAX_BIT_LEN N < 2 * u16 (WORD_BITS * max p_in.wlen 2)) ∧
      (i = 14 → s.tmp_nn1.val.getD 0 0 < 2 ^ WORD_BITS) ∧ (15 ≤ i → s._mpinv < 2 ^ WORD_BITS) ∧
      (i = 22 → s.mpinv < 2 ^ WORD_BITS))
    (fun (res : redc1_coefs_state × Bool) => ∃ k, k ≤ 22 ∧ (k ≤ 21 → res.1.mpinv = mpinv) ∧
      (1 ≤ k → nn_check_initialized N p_in = true) ∧
      (6 ≤ k → res.1.r_square.magic = NN_MAGIC) ∧
      (19 ≤ k → ¬ NN_MAX_BIT_LEN N < 2 * u16 (WORD_BITS * max p_in.wlen 2)) ∧
      (k = 22 → res.1.mpinv < 2 ^ WORD_BITS) ∧ (res.2 = true ↔ k = 22)) ?_ _ ?_ ?_
  · intro i f hf s t hI hft
    have hi : i < 22 := by
      by_contra h
      rw [List.getElem?_eq_none (by simpa using h)] at hf
      exact Option.noConfusion hf
    beta_reduce at hI ⊢
    obtain ⟨h1, h2, h3, h4, h5, h6, h7, h8, h9, h10⟩ := hI
    interval_cases i <;>
      simp only [List.getElem?_cons_succ, List.getElem?_cons_zero, Option.some.injEq] at hf <;>
      subst hf <;> beta_reduce at hft
    all_goals try (rw [Option.map_eq_some'] at hft; obtain ⟨x, hx, rfl⟩ := hft)
    all_goals try (simp only [Option.some.injEq] at hft; subst hft)
    all_goals norm_num at h1 h2 h3 h4 h5 h6 h7 h8 h9 h10 ⊢
    all_goals try simp only [h1, h2, h3, h5, h6, h7, h8, h9, true_and, and_true, and_self]
    · split at hft
      · rename_i hc
        simp only [Option.some.injEq] at hft
        subst hft
        exact ⟨h1, hc⟩
      · exact Option.noConfusion hft
    · exact (nn_copy_eq_some N p_in x hx).1
    · split at hft
      · rename_i hc
        rw [Option.map_eq_some'] at hft
        obtain ⟨x, hx, rfl⟩ := hft
        refine ⟨h1, ?_⟩
        rw [(nn_set_wlen_eq_some N s.p x 2 hx).1]
        rw [h4] at hc
        omega
      · rename_i hc
        simp only [Option.some.injEq] at hft
        subst hft
        refine ⟨h1, ?_⟩
        rw [h4] at hc ⊢
        omega
    · exact nn_init_magic N 0 x hx
    · simpa using nn_sub_word N _ _ x hx
    · split at hft
      · rename_i hc
        simp only [Option.some.injEq] at hft
        subst hft
        rw [h6] at hc
        exact ⟨h1, h3, h5, h6, by omega⟩
      · exact Option.noConfusion hft
    · exact nn_sqr_magic N s.r x hx
    · exact nn_mod_magic N s.r_square s.p x hx

  · simp
  · intro k res hk hI hiff
    exact ⟨k, hk, hI.1, hI.2.1, hI.2.2.1, hI.2.2.2.2.2.2.1, hI.2.2.2.2.2.2.2.2.2, hiff⟩

end Libecc

namespace Libecc

/-! ## `nn_compute_redc1_coefs`: what success and failure imply -/

/-- A successful run of `nn_compute_redc1_coefs` has passed the capacity check
on the padded modulus, and has written a machine word to `*mpinv`. -/
theorem nn_compute_redc1_coefs_success (N : Nat) (hN : N ≤ 255) (r r_square p_in : nn)
    (mpinv : Nat) (hsucc : (nn_compute_redc1_coefs N r r_square p_in mpinv).2 = true) :
    2 * WORD_BITS * max p_in.wlen 2 ≤ NN_MAX_BIT_LEN N ∧
      (nn_compute_redc1_coefs N r r_square p_in mpinv).1.mpinv < 2 ^ WORD_BITS := by
  obtain ⟨k, -, -, h2, -, h4, h5, hiff⟩ := nn_compute_redc1_coefs_run N r r_square p_in mpinv
  have hk := hiff.1 hsucc
  have hc := (nn_check_initialized_iff N p_in).1 (h2 (by omega))
  have h := h4 (by omega)
  refine ⟨?_, h5 hk⟩
  unfold u16 at h
  unfold NN_MAX_BIT_LEN at h ⊢
  rw [WORD_BITS_eq] at h ⊢
  omega

/-- A failed run of `nn_compute_redc1_coefs` has not written `*mpinv`. -/
theorem nn_compute_redc1_coefs_error (N : Nat) (r r_square p_in : nn) (mpinv : Nat)
    (herr : (nn_compute_redc1_coefs N r r_square p_in mpinv).2 = false) :
    (nn_compute_redc1_coefs N r r_square p_in mpinv).1.mpinv = mpinv := by
  obtain ⟨k, hk, h1, -, -, -, -, hiff⟩ := nn_compute_redc1_coefs_run N r r_square p_in mpinv
  apply h1
  by_contra hc
  have hk22 : k = 22 := by omega
  rw [hiff.2 hk22] at herr
  exact Bool.noConfusion herr

/-- The negated inverse of the low word: from `m * p0 = -1` the word
`2 ^ 64 - m` is the inverse of `p0`. -/
theorem neg_inv_arith (m p0 : Nat) (hm : m < 2 ^ 64) (h : (m * p0 + 1) % 2 ^ 64 = 0) :
    0 < m ∧ ((2 ^ 64 - m) * p0) % 2 ^ 64 = 1 := by
  have hpos : 0 < m := by
    rcases Nat.eq_zero_or_pos m with h0 | h0
    · rw [h0] at h; simp at h
    · exact h0
  refine ⟨hpos, ?_⟩
  have h3 : (2 ^ 64 - m) * p0 + m * p0 = 2 ^ 64 * p0 := by
    rw [Nat.sub_mul]
    have : m * p0 ≤ 2 ^ 64 * p0 := Nat.mul_le_mul_right _ (by omega)
    omega
  generalize (2 ^ 64 - m) * p0 = A at h3 ⊢
  generalize m * p0 = B at h h3
  omega

/-- The low word of an initialized big number is its value modulo the word. -/
theorem low_word_eq {N : Nat} {A : nn} (h : nn_initialized N A) (hN : 1 ≤ N) :
    A.val.getD 0 0 = nn_val A % 2 ^ WORD_BITS := by
  have h1 := nn_words_val_window h 1 hN
  simp only [nn_words_val, Nat.mul_zero, pow_zero, Nat.mul_one, Nat.zero_add] at h1
  exact h1

/-- C21: for every odd `p` on which `nn_compute_redc1_coefs` succeeds, the word
written to `*mpinv` satisfies `(mpinv * p.val[0] + 1) mod 2^WORD_BITS = 0`; it
is `2^WORD_BITS - inv` where `inv` is the inverse of `p` modulo `2^WORD_BITS`,
that is `-p^-1 mod 2^WORD_BITS`. -/
theorem nn_compute_redc1_coefs_mpinv (N : Nat) (hN : N ≤ 255) (r r_square p : nn) (mpinv : Nat)
    (hp : nn_initialized N p) (hodd : nn_val p % 2 = 1)
    (hsucc : (nn_compute_redc1_coefs N r r_square p mpinv).2 = true) :
    ((nn_compute_redc1_coefs N r r_square p mpinv).1.mpinv * p.val.getD 0 0 + 1) %
        2 ^ WORD_BITS = 0 ∧
      ∃ inv, inv < 2 ^ WORD_BITS ∧ (inv * nn_val p) % 2 ^ WORD_BITS = 1 ∧
        (nn_compute_redc1_coefs N r r_square p mpinv).1.mpinv = 2 ^ WORD_BITS - inv ∧
        (nn_compute_redc1_coefs N r r_square p mpinv).1.mpinv =
          (2 ^ WORD_BITS - inv) % 2 ^ WORD_BITS := by
  obtain ⟨hcap, hlt⟩ := nn_compute_redc1_coefs_success N hN r r_square p mpinv hsucc
  obtain ⟨s, hs, -, -, -, -, -, -, hm⟩ :=
    nn_compute_redc1_coefs_correct N hN r r_square p mpinv hp hodd hcap
  rw [hs] at hlt ⊢
  simp only at hlt ⊢
  have hN1 : 1 ≤ N := by
    unfold NN_MAX_BIT_LEN at hcap
    rw [WORD_BITS_eq] at hcap
    omega
  rw [WORD_BITS_eq] at hlt hm ⊢
  obtain ⟨hpos, hinv⟩ := neg_inv_arith s.mpinv (p.val.getD 0 0) hlt hm
  refine ⟨hm, 2 ^ 64 - s.mpinv, by omega, ?_, by omega, ?_⟩
  · have h0 := low_word_eq hp hN1
    rw [WORD_BITS_eq] at h0
    rw [h0, Nat.mul_mod_mod] at hinv
    exact hinv
  · rw [Nat.mod_eq_of_lt (by omega)]
    omega

set_option maxRecDepth 100000 in
/-- C21 at concrete inputs: for `p = 7` on a capacity of four words the routine
succeeds and `mpinv * 7 + 1` is a multiple of `2^64`; for `p = 2^64 + 3` on two
words `mpinv * 3 + 1` is. -/
theorem nn_compute_redc1_coefs_mpinv_witness :
    (((nn_compute_redc1_coefs 4 nn_none nn_none (nn_of_nat 4 1 7) 0).1.mpinv *
        (nn_of_nat 4 1 7).val.getD 0 0 + 1) % 2 ^ WORD_BITS = 0 ∧
      ∃ inv, inv < 2 ^ WORD_BITS ∧ (inv * nn_val (nn_of_nat 4 1 7)) % 2 ^ WORD_BITS = 1 ∧
        (nn_compute_redc1_coefs 4 nn_none nn_none (nn_of_nat 4 1 7) 0).1.mpinv =
          2 ^ WORD_BITS - inv ∧
        (nn_compute_redc1_coefs 4 nn_none nn_none (nn_of_nat 4 1 7) 0).1.mpinv =
          (2 ^ WORD_BITS - inv) % 2 ^ WORD_BITS) ∧
    (nn_compute_redc1_coefs 4 nn_none nn_none (nn_of_nat 4 1 7) 0).1.mpinv =
      0x9249249249249249 ∧
    (nn_compute_redc1_coefs 4 nn_none nn_none (nn_of_nat 4 2 (2 ^ 64 + 3)) 0).1.mpinv =
      0x5555555555555555 :=
  ⟨nn_compute_redc1_coefs_mpinv 4 (by decide) nn_none nn_none (nn_of_nat 4 1 7) 0 (by decide)
    (by decide) (by decide), by decide, by decide⟩

end Libecc

namespace Libecc

/-- C22: for every odd `p` on which `nn_compute_redc1_coefs` succeeds, with
`n = max(p.wlen, 2)`: the returned `r` is `2^(WORD_BITS*n) mod p`, the returned
`r_square` is `2^(2*WORD_BITS*n) mod p`, which is `r^2 mod p`, and both are
strictly less than `p`. -/
theorem nn_compute_redc1_coefs_r (N : Nat) (hN : N ≤ 255) (r r_square p : nn) (mpinv : Nat)
    (hp : nn_initialized N p) (hodd : nn_val p % 2 = 1)
    (hsucc : (nn_compute_redc1_coefs N r r_square p mpinv).2 = true) :
    nn_val (nn_compute_redc1_coefs N r r_square p mpinv).1.r =
        2 ^ (WORD_BITS * max p.wlen 2) % nn_val p ∧
      nn_val (nn_compute_redc1_coefs N r r_square p mpinv).1.r_square =
        2 ^ (2 * WORD_BITS * max p.wlen 2) % nn_val p ∧
      nn_val (nn_compute_redc1_coefs N r r_square p mpinv).1.r_square =
        nn_val (nn_compute_redc1_coefs N r r_square p mpinv).1.r ^ 2 % nn_val p ∧
      nn_val (nn_compute_redc1_coefs N r r_square p mpinv).1.r < nn_val p ∧
      nn_val (nn_compute_redc1_coefs N r r_square p mpinv).1.r_square < nn_val p := by
  obtain ⟨hcap, -⟩ := nn_compute_redc1_coefs_success N hN r r_square p mpinv hsucc
  obtain ⟨s, hs, -, -, hr, -, -, hr2, -⟩ :=
    nn_compute_redc1_coefs_correct N hN r r_square p mpinv hp hodd hcap
  rw [hs]
  simp only
  have hp0 : 0 < nn_val p := by omega
  refine ⟨hr, hr2, ?_, ?_, ?_⟩
  · rw [hr2, hr, ← Nat.pow_mod, ← pow_mul]
    have e : 2 * WORD_BITS * max p.wlen 2 = WORD_BITS * max p.wlen 2 * 2 := by ring
    rw [e]
  · rw [hr]; exact Nat.mod_lt _ hp0
  · rw [hr2]; exact Nat.mod_lt _ hp0

set_option exponentiation.threshold 600 in
set_option maxRecDepth 100000 in
/-- C22 at a concrete input: for `p = 7` on a capacity of four words, `n = 2`,
`r = 2^128 mod 7 = 4` and `r_square = 2^256 mod 7 = 2`. -/
theorem nn_compute_redc1_coefs_r_witness :
    (nn_val (nn_compute_redc1_coefs 4 nn_none nn_none (nn_of_nat 4 1 7) 0).1.r =
        2 ^ (WORD_BITS * max (nn_of_nat 4 1 7).wlen 2) % nn_val (nn_of_nat 4 1 7) ∧
      nn_val (nn_compute_redc1_coefs 4 nn_none nn_none (nn_of_nat 4 1 7) 0).1.r_square =
        2 ^ (2 * WORD_BITS * max (nn_of_nat 4 1 7).wlen 2) % nn_val (nn_of_nat 4 1 7) ∧
      nn_val (nn_compute_redc1_coefs 4 nn_none nn_none (nn_of_nat 4 1 7) 0).1.r_square =
        nn_val (nn_compute_redc1_coefs 4 nn_none nn_none (nn_of_nat 4 1 7) 0).1.r ^ 2 %
          nn_val (nn_of_nat 4 1 7) ∧
      nn_val (nn_compute_redc1_coefs 4 nn_none nn_none (nn_of_nat 4 1 7) 0).1.r <
        nn_val (nn_of_nat 4 1 7) ∧
      nn_val (nn_compute_redc1_coefs 4 nn_none nn_none (nn_of_nat 4 1 7) 0).1.r_square <
        nn_val (nn_of_nat 4 1 7)) ∧
    nn_val (nn_compute_redc1_coefs 4 nn_none nn_none (nn_of_nat 4 1 7) 0).1.r = 4 ∧
    nn_val (nn_compute_redc1_coefs 4 nn_none nn_none (nn_of_nat 4 1 7) 0).1.r_square = 2 :=
  ⟨nn_compute_redc1_coefs_r 4 (by decide) nn_none nn_none (nn_of_nat 4 1 7) 0 (by decide)
    (by decide) (by decide), by decide, by decide⟩

/-- C23: for every `p` (initialized or not) with
`2*WORD_BITS*max(p.wlen, 2) > NN_MAX_BIT_LEN`, `nn_compute_redc1_coefs` returns
an error, and `*mpinv` holds what it held before the call. -/
theorem nn_compute_redc1_coefs_capacity (N : Nat) (hN : N ≤ 255) (r r_square p : nn)
    (mpinv : Nat) (hcap : NN_MAX_BIT_LEN N < 2 * WORD_BITS * max p.wlen 2) :
    (nn_compute_redc1_coefs N r r_square p mpinv).2 = false ∧
      (nn_compute_redc1_coefs N r r_square p mpinv).1.mpinv = mpinv := by
  have herr : (nn_compute_redc1_coefs N r r_square p mpinv).2 = false := by
    rcases hb : (nn_compute_redc1_coefs N r r_square p mpinv).2 with _ | _
    · rfl
    · have := (nn_compute_redc1_coefs_success N hN r r_square p mpinv hb).1
      omega
  exact ⟨herr, nn_compute_redc1_coefs_error N r r_square p mpinv herr⟩

set_option maxRecDepth 100000 in
/-- C23 at a concrete input: on a capacity of three words the two-word modulus
`2^64 + 3` needs `2 * 64 * 2 = 256 > 192` bits; the routine fails and `*mpinv`
still holds 7. -/
theorem nn_compute_redc1_coefs_capacity_witness :
    nn_initialized 3 (nn_of_nat 3 2 (2 ^ 64 + 3)) ∧
    NN_MAX_BIT_LEN 3 < 2 * WORD_BITS * max (nn_of_nat 3 2 (2 ^ 64 + 3)).wlen 2 ∧
    (nn_compute_redc1_coefs 3 nn_none nn_none (nn_of_nat 3 2 (2 ^ 64 + 3)) 7).2 = false ∧
      (nn_compute_redc1_coefs 3 nn_none nn_none (nn_of_nat 3 2 (2 ^ 64 + 3)) 7).1.mpinv = 7 :=
  ⟨by decide, by decide,
    nn_compute_redc1_coefs_capacity 3 (by decide) nn_none nn_none (nn_of_nat 3 2 (2 ^ 64 + 3)) 7
      (by decide)⟩

set_option maxRecDepth 100000 in
/-- C24 fails for `r` and `r_square`: on a capacity of three words, with the
caller's `r` holding 42 and `r_square` holding 9, the call for the two-word
modulus 5 fails on the capacity check; `r` then holds `2^128 mod 5 = 1` on two
words and `r_square` is the zero it was initialized to. -/
theorem nn_compute_redc1_coefs_error_counterexample :
    nn_initialized 3 (nn_of_nat 3 1 42) ∧ nn_initialized 3 (nn_of_nat 3 1 9) ∧
    nn_initialized 3 (nn_of_nat 3 2 5) ∧
    (nn_compute_redc1_coefs 3 (nn_of_nat 3 1 42) (nn_of_nat 3 1 9) (nn_of_nat 3 2 5) 7).2 = false ∧
    (nn_compute_redc1_coefs 3 (nn_of_nat 3 1 42) (nn_of_nat 3 1 9) (nn_of_nat 3 2 5) 7).1.r =
      { val := [1, 0, 0], wlen := 2, magic := NN_MAGIC } ∧
    (nn_compute_redc1_coefs 3 (nn_of_nat 3 1 42) (nn_of_nat 3 1 9) (nn_of_nat 3 2 5) 7).1.r ≠
      nn_of_nat 3 1 42 ∧
    (nn_compute_redc1_coefs 3 (nn_of_nat 3 1 42) (nn_of_nat 3 1 9) (nn_of_nat 3 2 5)
      7).1.r_square = { val := [0, 0, 0], wlen := 0, magic := NN_MAGIC } ∧
    (nn_compute_redc1_coefs 3 (nn_of_nat 3 1 42) (nn_of_nat 3 1 9) (nn_of_nat 3 2 5)
      7).1.r_square ≠ nn_of_nat 3 1 9 := by
  decide

/-- C24, amended: whenever `nn_compute_redc1_coefs` returns an error, `*mpinv`
holds exactly what it held before the call (it is written by the last
statement, after every check). -/
theorem nn_compute_redc1_coefs_error_mpinv (N : Nat) (r r_square p : nn) (mpinv : Nat)
    (herr : (nn_compute_redc1_coefs N r r_square p mpinv).2 = false) :
    (nn_compute_redc1_coefs N r r_square p mpinv).1.mpinv = mpinv :=
  nn_compute_redc1_coefs_error N r r_square p mpinv herr

set_option maxRecDepth 100000 in
/-- C24, amended, at concrete inputs: a failure on the capacity check and a
failure on an uninitialized modulus both leave 7 in `*mpinv`. -/
theorem nn_compute_redc1_coefs_error_mpinv_witness :
    (nn_compute_redc1_coefs 3 (nn_of_nat 3 1 42) (nn_of_nat 3 1 9) (nn_of_nat 3 2 5) 7).2 = false ∧
    (nn_compute_redc1_coefs 3 (nn_of_nat 3 1 42) (nn_of_nat 3 1 9) (nn_of_nat 3 2 5) 7).1.mpinv = 7 ∧
    (nn_compute_redc1_coefs 3 (nn_of_nat 3 1 42) (nn_of_nat 3 1 9) nn_none 7).1.mpinv = 7 :=
  ⟨by decide,
    nn_compute_redc1_coefs_error_mpinv 3 (nn_of_nat 3 1 42) (nn_of_nat 3 1 9) (nn_of_nat 3 2 5) 7
      (by decide), by decide⟩

end Libecc

namespace Libecc

/-! ## `nn_mul_mod`: the scratch values on exit -/

/-- A successful run of `nn_compute_redc1_coefs` leaves `r_square` initialized. -/
theorem nn_compute_redc1_coefs_r_square_magic (N : Nat) (r r_square p_in : nn) (mpinv : Nat)
    (hsucc : (nn_compute_redc1_coefs N r r_square p_in mpinv).2 = true) :
    (nn_compute_redc1_coefs N r r_square p_in mpinv).1.r_square.magic = NN_MAGIC := by
  obtain ⟨k, -, -, -, h3, -, -, hiff⟩ := nn_compute_redc1_coefs_run N r r_square p_in mpinv
  have hk := hiff.1 hsucc
  exact h3 (by omega)

theorem callStep_eq_some {σ : Type} (res : nn × Bool) (put : nn → σ) (t : σ)
    (h : callStep res put = some t) : res.2 = true ∧ t = put res.1 := by
  unfold callStep at h
  split at h
  · rename_i hc
    exact ⟨hc, by simpa using h.symm⟩
  · exact Option.noConfusion h

/-- What a run of `nn_mul_mod` that stops after `k` of its 13 statements leaves
behind: once the coefficients are computed (statement 4), `r_square` stays
initialized to the end, no statement wipes it. -/
theorem nn_mul_mod_run (N : Nat) (out in1 in2 p_in : nn) :
    ∃ k, k ≤ 13 ∧
      (4 ≤ k → (nn_mul_mod N out in1 in2 p_in).1.r_square.magic = NN_MAGIC) ∧
      ((nn_mul_mod N out in1 in2 p_in).2 = true ↔ k = 13) := by
  unfold nn_mul_mod
  dsimp only
  refine runSteps_inv_post _
    (fun i (s : mul_mod_state) => 4 ≤ i → s.r_square.magic = NN_MAGIC)
    (fun (res : mul_mod_state × Bool) => ∃ k, k ≤ 13 ∧
      (4 ≤ k → res.1.r_square.magic = NN_MAGIC) ∧ (res.2 = true ↔ k = 13)) ?_ _ ?_ ?_
  · intro i f hf s t hI hft
    have hi : i < 13 := by
      by_contra h
      rw [List.getElem?_eq_none (by simpa using h)] at hf
      exact Option.noConfusion hf
    beta_reduce at hI ⊢
    interval_cases i <;>
      simp only [List.getElem?_cons_succ, List.getElem?_cons_zero, Option.some.injEq] at hf <;>
      subst hf <;> beta_reduce at hft
    all_goals try (rw [Option.map_eq_some'] at hft; obtain ⟨x, hx, rfl⟩ := hft)
    all_goals try (simp only [Option.some.injEq] at hft; subst hft)
    all_goals try (obtain ⟨-, rfl⟩ := callStep_eq_some _ _ _ hft)
    all_goals norm_num at hI ⊢
    all_goals try exact hI
    split at hft
    · rename_i hc
      simp only [Option.some.injEq] at hft
      subst hft
      exact nn_compute_redc1_coefs_r_square_magic N _ _ _ _ hc
    · exact Option.noConfusion hft
  · simp
  · intro k res hk hI hiff
    exact ⟨k, hk, hI, hiff⟩

/-- C25 fails on every successful call: when `nn_mul_mod` returns 0, its scratch
`r_square` is still initialized (tag set) on return; no statement of the
routine wipes it. -/
theorem nn_mul_mod_leaves_r_square (N : Nat) (out in1 in2 p : nn)
    (hsucc : (nn_mul_mod N out in1 in2 p).2 = true) :
    (nn_mul_mod N out in1 in2 p).1.r_square.magic = NN_MAGIC := by
  obtain ⟨k, -, h, hiff⟩ := nn_mul_mod_run N out in1 in2 p
  have hk := hiff.1 hsucc
  exact h (by omega)

set_option exponentiation.threshold 600 in
set_option maxRecDepth 100000 in
/-- C25 at concrete inputs, on a capacity of five words. The successful call
`3 * 5 mod 7` returns with `r_square` initialized and holding
`2^256 mod 7 = 2`, while `r`, `in1_tmp`, `in2_tmp`, `tmp`, `one` and `p` are
wiped. The call with an uninitialized second operand fails after the first
operand has been brought to the Montgomery domain: it returns with `in1_tmp`
initialized and holding `3 * 2^128 mod 7 = 5`, and with `r_square`
initialized. -/
theorem nn_mul_mod_leaves_r_square_witness :
    (nn_mul_mod 5 nn_none (nn_of_nat 5 1 3) (nn_of_nat 5 1 5) (nn_of_nat 5 1 7)).2 = true ∧
    (nn_mul_mod 5 nn_none (nn_of_nat 5 1 3) (nn_of_nat 5 1 5) (nn_of_nat 5 1 7)).1.r_square.magic =
      NN_MAGIC ∧
    nn_val (nn_mul_mod 5 nn_none (nn_of_nat 5 1 3) (nn_of_nat 5 1 5)
      (nn_of_nat 5 1 7)).1.r_square = 2 ∧
    (nn_mul_mod 5 nn_none (nn_of_nat 5 1 3) (nn_of_nat 5 1 5) (nn_of_nat 5 1 7)).1.r.magic = 0 ∧
    (nn_mul_mod 5 nn_none (nn_of_nat 5 1 3) (nn_of_nat 5 1 5) (nn_of_nat 5 1 7)).1.in1_tmp.magic =
      0 ∧
    (nn_mul_mod 5 nn_none (nn_of_nat 5 1 3) (nn_of_nat 5 1 5) (nn_of_nat 5 1 7)).1.in2_tmp.magic =
      0 ∧
    (nn_mul_mod 5 nn_none (nn_of_nat 5 1 3) (nn_of_nat 5 1 5) (nn_of_nat 5 1 7)).1.tmp.magic = 0 ∧
    (nn_mul_mod 5 nn_none (nn_of_nat 5 1 3) (nn_of_nat 5 1 5) (nn_of_nat 5 1 7)).1.one.magic = 0 ∧
    (nn_mul_mod 5 nn_none (nn_of_nat 5 1 3) (nn_of_nat 5 1 5) (nn_of_nat 5 1 7)).1.p.magic = 0 ∧
    (nn_mul_mod 5 nn_none (nn_of_nat 5 1 3) nn_none (nn_of_nat 5 1 7)).2 = false ∧
    (nn_mul_mod 5 nn_none (nn_of_nat 5 1 3) nn_none (nn_of_nat 5 1 7)).1.in1_tmp.magic =
      NN_MAGIC ∧
    nn_val (nn_mul_mod 5 nn_none (nn_of_nat 5 1 3) nn_none (nn_of_nat 5 1 7)).1.in1_tmp = 5 ∧
    (nn_mul_mod 5 nn_none (nn_of_nat 5 1 3) nn_none (nn_of_nat 5 1 7)).1.r_square.magic =
      NN_MAGIC :=
  ⟨by decide,
    nn_mul_mod_leaves_r_square 5 nn_none (nn_of_nat 5 1 3) (nn_of_nat 5 1 5) (nn_of_nat 5 1 7)
      (by decide),
    by decide, by decide, by decide, by decide, by decide, by decide, by decide, by decide,
    by decide, by decide, by decide⟩

end Libecc

namespace Libecc

/-! ## `wclz` -/

/-- C29: with 64-bit words, for every word `A`, `wclz(A)` is the number of
leading zero bits of `A`: `wclz(0) = 64`, and for `A != 0`,
`wclz(A) = 63 - floor(log2(A))`; `wclz(A) <= 64`, the bits of `A` of index
`64 - wclz(A)` and above are clear, the bit of index `63 - wclz(A)` is set when
`A != 0`, and then `A * 2^wclz(A)` has its top bit set and fits the word. -/
theorem wclz_spec (A : Nat) (hA : A < 2 ^ 64) :
    wclz 0 = 64 ∧ (A ≠ 0 → wclz A = 63 - Nat.log 2 A) ∧ wclz A ≤ 64 ∧
      (A ≠ 0 → 2 ^ 63 ≤ A * 2 ^ wclz A ∧ A * 2 ^ wclz A < 2 ^ 64) ∧
      (∀ i, 64 - wclz A ≤ i → i < 64 → A.testBit i = false) ∧
      (A ≠ 0 → A.testBit (63 - wclz A) = true) := by
  have h0 : wclz 0 = 64 := by simp [wclz]
  by_cases hA0 : A = 0
  · subst hA0
    refine ⟨h0, fun h => absurd rfl h, by rw [h0], fun h => absurd rfl h, fun i _ _ => ?_,
      fun h => absurd rfl h⟩
    exact Nat.zero_testBit i
  · obtain ⟨hc, hlo, hhi⟩ := wclz_bounds A (Nat.pos_of_ne_zero hA0) hA
    have hlog : Nat.log 2 A = 63 - wclz A := by
      rw [Nat.log_eq_iff (Or.inr ⟨by norm_num, hA0⟩)]
      refine ⟨hlo, ?_⟩
      have e : 63 - wclz A + 1 = 64 - wclz A := by omega
      rw [e]; exact hhi
    refine ⟨h0, fun _ => by rw [hlog]; omega, by omega,
      fun _ => wclz_normalizes A (Nat.pos_of_ne_zero hA0) hA, fun i hi _ => ?_, fun _ => ?_⟩
    · exact Nat.testBit_lt_two_pow
        (lt_of_lt_of_le hhi (Nat.pow_le_pow_right (by norm_num) hi))
    · rw [Nat.testBit_to_div_mod]
      have h1 : A / 2 ^ (63 - wclz A) = 1 := by
        apply Nat.div_eq_of_lt_le
        · rw [Nat.one_mul]; exact hlo
        · have e : 64 - wclz A = 63 - wclz A + 1 := by omega
          rw [e, pow_succ] at hhi
          omega
      rw [h1]
      rfl

/-- C29 at concrete words: `wclz(1) = 63`, `wclz(0x1234) = 51`,
`wclz(2^63) = 0`, `wclz(2^64 - 1) = 0`. -/
theorem wclz_spec_witness :
    (wclz 0 = 64 ∧ ((0x1234 : Nat) ≠ 0 → wclz 0x1234 = 63 - Nat.log 2 0x1234) ∧
      wclz 0x1234 ≤ 64 ∧
      ((0x1234 : Nat) ≠ 0 → 2 ^ 63 ≤ 0x1234 * 2 ^ wclz 0x1234 ∧
        0x1234 * 2 ^ wclz 0x1234 < 2 ^ 64) ∧
      (∀ i, 64 - wclz 0x1234 ≤ i → i < 64 → (0x1234 : Nat).testBit i = false) ∧
      ((0x1234 : Nat) ≠ 0 → (0x1234 : Nat).testBit (63 - wclz 0x1234) = true)) ∧
    wclz 1 = 63 ∧ wclz 0x1234 = 51 ∧ wclz (2 ^ 63) = 0 ∧ wclz (2 ^ 64 - 1) = 0 :=
  ⟨wclz_spec 0x1234 (by norm_num), by decide, by decide, by decide, by decide⟩

end Libecc

namespace Libecc

/-! ## `wclz` with the words of `words_32.h` -/

theorem wclz_32_step (c A k M : Nat) (hA : A < 2 ^ 32) (hM : 2 ^ 32 - 1 ≤ M) :
    (if A ≤ M then (c + k, (A <<< k) % 2 ^ WORD_BITS_32) else (c, A)) =
      (c + k, (A <<< k) % 2 ^ WORD_BITS_32) := by
  rw [if_pos (by omega)]

/-- A non-zero 32-bit word is below every threshold of `wclz`, whatever the
shifts leave in it: the six tests all pass and the count is 63. -/
theorem wclz_32_nonzero (A : Nat) (hA0 : A ≠ 0) (hA : A < 2 ^ 32) : wclz_32 A = 63 := by
  have h : ∀ x : Nat, x % 2 ^ WORD_BITS_32 < 2 ^ 32 := fun x =>
    Nat.mod_lt x (by norm_num [WORD_BITS_32])
  unfold wclz_32
  rw [if_neg hA0]
  dsimp only
  rw [wclz_32_step 0 A 32 _ hA (by norm_num)]
  dsimp only
  rw [wclz_32_step _ _ 16 _ (h _) (by norm_num)]
  dsimp only
  rw [wclz_32_step _ _ 8 _ (h _) (by norm_num)]
  dsimp only
  rw [wclz_32_step _ _ 4 _ (h _) (by norm_num)]
  dsimp only
  rw [wclz_32_step _ _ 2 _ (h _) (by norm_num)]
  dsimp only
  rw [if_pos]
  exact le_trans (Nat.le_of_lt (h _)) (by norm_num)

/-- C30 fails: with the 32-bit words of `words_32.h`, `wclz` returns 64 for the
word 0 and 63 for every other word, where the number of leading zero bits of a
32-bit word is 32 for 0 and `31 - floor(log2(A))`, at most 31, otherwise. -/
theorem wclz_32_value (A : Nat) (hA : A < 2 ^ WORD_BITS_32) :
    wclz_32 A = (if A = 0 then 64 else 63) ∧ wclz_32 0 ≠ 32 ∧
      (A ≠ 0 → wclz_32 A ≠ 31 - Nat.log 2 A) := by
  have h0 : wclz_32 0 = 64 := by simp [wclz_32]
  refine ⟨?_, by rw [h0]; decide, fun hA0 => ?_⟩
  · by_cases hA0 : A = 0
    · rw [if_pos hA0, hA0, h0]
    · rw [if_neg hA0]; exact wclz_32_nonzero A hA0 hA
  · rw [wclz_32_nonzero A hA0 hA]
    omega

/-- C30 at concrete words: the word 1 has 31 leading zero bits and the word
`2^31` has none, `wclz` returns 63 for both; for the one-word number 1,
`nn_bitlen` returns `(32 - 63) mod 2^16 = 65505` where the bit length is 1,
and `nn_clz` returns 63 where the count is 31. -/
theorem wclz_32_value_witness :
    (wclz_32 1 = (if (1 : Nat) = 0 then 64 else 63) ∧ wclz_32 0 ≠ 32 ∧
      ((1 : Nat) ≠ 0 → wclz_32 1 ≠ 31 - Nat.log 2 1)) ∧
    wclz_32 0 = 64 ∧ wclz_32 1 = 63 ∧ wclz_32 (2 ^ 31) = 63 ∧
    nn_bitlen_32 4 { val := [1, 0, 0, 0], wlen := 1, magic := NN_MAGIC } = some 65505 ∧
    nn_clz_32 4 { val := [1, 0, 0, 0], wlen := 1, magic := NN_MAGIC } = some 63 :=
  ⟨wclz_32_value 1 (by decide), by decide, by decide, by decide, by decide, by decide⟩

end Libecc

namespace Libecc

/-! ## The length the length-adapting shifts leave in `out` -/

/-- The scan of `nn_bitlen` is decided by the value of the words scanned. -/
theorem nn_bitlen_loop_of_val (v : List Nat) (hv : ∀ i, v.getD i 0 < 2 ^ WORD_BITS) (n : Nat) :
    (nn_words_val v n = 0 → nn_bitlen_loop v n = 0) ∧
      ∀ b, b ≠ 0 → 2 ^ (b - 1) ≤ nn_words_val v n → nn_words_val v n < 2 ^ b →
        nn_bitlen_loop v n = b := by
  obtain ⟨-, h2, h3⟩ := nn_bitlen_loop_spec v hv n
  constructor
  · intro h0
    by_contra hne
    have := h3 hne
    rw [h0] at this
    have hpos : 0 < 2 ^ (nn_bitlen_loop v n - 1) := by positivity
    omega
  · intro b hb hlo hhi
    have hne : nn_bitlen_loop v n ≠ 0 := by
      intro h0
      rw [h0] at h2
      have hpos : 0 < 2 ^ (b - 1) := by positivity
      omega
    exact bitlen_unique _ b _ ⟨hlo, hhi⟩ ⟨h3 hne, h2⟩

/-- The bit length of a quotient by a power of two. -/
theorem bitlen_div_pow (x bl cnt : Nat) (hlt : x < 2 ^ bl) (hlo : bl ≠ 0 → 2 ^ (bl - 1) ≤ x) :
    (x / 2 ^ cnt = 0 ∧ bl ≤ cnt) ∨
      (cnt < bl ∧ 2 ^ (bl - cnt - 1) ≤ x / 2 ^ cnt ∧ x / 2 ^ cnt < 2 ^ (bl - cnt)) := by
  by_cases hc : bl ≤ cnt
  · left
    refine ⟨Nat.div_eq_of_lt (lt_of_lt_of_le hlt (Nat.pow_le_pow_right (by norm_num) hc)), hc⟩
  · right
    refine ⟨by omega, ?_, ?_⟩
    · rw [Nat.le_div_iff_mul_le (by positivity), ← pow_add]
      have e : bl - cnt - 1 + cnt = bl - 1 := by omega
      rw [e]
      exact hlo (by omega)
    · rw [Nat.div_lt_iff_lt_mul (by positivity), ← pow_add]
      have e : bl - cnt + cnt = bl := by omega
      rw [e]
      exact hlt

/-- C26 fails for `nn_lshift`: shifting the value zero left by 70 leaves
`out.wlen = 2` where the result, zero, has bit length 0 and needs no word; and
on a capacity of one word, shifting `2^63` left by 1 leaves `out.wlen = 1`
where the stored result is zero. -/
theorem nn_lshift_wlen_counterexample :
    nn_initialized 4 (nn_of_nat 4 0 0) ∧
    (nn_lshift 4 false nn_none (nn_of_nat 4 0 0) 70).map (fun r => (r.wlen, nn_val r)) =
      some (2, 0) ∧
    (nn_lshift 4 false nn_none (nn_of_nat 4 0 0) 70).bind (nn_bitlen 4) = some 0 ∧
    (nn_lshift 4 true nn_none (nn_of_nat 4 0 0) 70).map (fun r => (r.wlen, nn_val r)) =
      some (2, 0) ∧
    BIT_LEN_WORDS 0 = 0 ∧
    nn_initialized 1 (nn_of_nat 1 1 (2 ^ 63)) ∧
    (nn_lshift 1 false nn_none (nn_of_nat 1 1 (2 ^ 63)) 1).map (fun r => (r.wlen, nn_val r)) =
      some (1, 0) ∧
    (nn_lshift 1 false nn_none (nn_of_nat 1 1 (2 ^ 63)) 1).bind (nn_bitlen 1) = some 0 := by
  decide

/-- C26, amended: after `nn_rshift`, for every initialized input and every
count, `out.wlen = ceil(bitlen(out) / WORD_BITS)`; after `nn_lshift`, for every
initialized input and every count,
`out.wlen = min(ceil((cnt + bitlen(in)) / WORD_BITS), NN_MAX_WORD_LEN)`, which
is `ceil(bitlen(out) / WORD_BITS)` when the input is not zero and
`cnt + bitlen(in) <= NN_MAX_BIT_LEN`. -/
theorem nn_shift_wlen (N : Nat) (hN : N ≤ 255) (aliased : Bool) (out inp : nn) (cnt : Nat)
    (h : nn_initialized N inp) :
    (∃ r b, nn_rshift N aliased out inp cnt = some r ∧ nn_bitlen N r = some b ∧
      r.wlen = BIT_LEN_WORDS b) ∧
    (∃ r bl, nn_lshift N aliased out inp cnt = some r ∧ nn_bitlen N inp = some bl ∧
      r.wlen = min (BIT_LEN_WORDS (cnt + bl)) (BIT_LEN_WORDS (NN_MAX_BIT_LEN N)) ∧
      (nn_val inp ≠ 0 → cnt + bl ≤ NN_MAX_BIT_LEN N →
        ∃ b, nn_bitlen N r = some b ∧ b = cnt + bl ∧ r.wlen = BIT_LEN_WORDS b)) := by
  obtain ⟨-, -, -, hw, -⟩ := (nn_initialized_iff N inp).1 h
  obtain ⟨-, hlt, hlo⟩ := nn_bitlen_loop_spec inp.val hw inp.wlen
  constructor
  · obtain ⟨r, hr, hinit, hwl, hval⟩ := nn_rshift_correct N hN aliased out inp cnt h
    obtain ⟨-, -, -, hrw, -⟩ := (nn_initialized_iff N r).1 hinit
    obtain ⟨hz, hnz⟩ := nn_bitlen_loop_of_val r.val hrw r.wlen
    refine ⟨r, _, hr, nn_bitlen_eq hinit, ?_⟩
    have hval2 : nn_words_val r.val r.wlen = nn_words_val inp.val inp.wlen / 2 ^ cnt := hval
    rcases bitlen_div_pow _ _ cnt hlt hlo with ⟨h0, hc⟩ | ⟨hc, h1, h2⟩
    · rw [hz (by rw [hval2, h0]), hwl]
      have e : BIT_LEN_WORDS 0 = 0 := by decide
      rw [e]
      split
      · rfl
      · have e2 : nn_bitlen_loop inp.val inp.wlen - cnt = 0 := by omega
        rw [e2, e]
    · rw [hnz (nn_bitlen_loop inp.val inp.wlen - cnt) (by omega) (by rw [hval2]; exact h1)
        (by rw [hval2]; exact h2), hwl, if_neg (by omega)]
  · obtain ⟨r, hr, hinit, hwl, hval⟩ := nn_lshift_correct N hN aliased out inp cnt h
    obtain ⟨-, -, -, hrw, -⟩ := (nn_initialized_iff N r).1 hinit
    obtain ⟨-, hnz⟩ := nn_bitlen_loop_of_val r.val hrw r.wlen
    refine ⟨r, _, hr, nn_bitlen_eq h, by rw [hwl, BIT_LEN_WORDS_max], fun hne hfit => ?_⟩
    have hbl : nn_bitlen_loop inp.val inp.wlen ≠ 0 := by
      intro h0
      rw [h0] at hlt
      exact hne (by unfold nn_val; omega)
    have hex := nn_lshift_exact N inp cnt h hfit
    rw [← hwl] at hex
    rw [hex] at hval
    have hval2 : nn_words_val r.val r.wlen = nn_words_val inp.val inp.wlen * 2 ^ cnt := hval
    have hb : nn_bitlen_loop r.val r.wlen = cnt + nn_bitlen_loop inp.val inp.wlen := by
      apply hnz _ (by omega)
      · rw [hval2]
        have e : cnt + nn_bitlen_loop inp.val inp.wlen - 1 =
            nn_bitlen_loop inp.val inp.wlen - 1 + cnt := by omega
        rw [e, pow_add]
        exact Nat.mul_le_mul_right _ (hlo hbl)
      · rw [hval2, Nat.add_comm cnt, pow_add]
        exact Nat.mul_lt_mul_of_pos_right hlt (by positivity)
    refine ⟨_, nn_bitlen_eq hinit, hb, ?_⟩
    rw [hb, hwl]
    exact Nat.min_eq_left (BIT_LEN_WORDS_le _ _ hfit)

/-- C26, amended, at concrete inputs: `2^70 + 5` shifted right by 65 and `0b1011`
shifted left by 62 (a result of 66 bits on two words). -/
theorem nn_shift_wlen_witness :
    nn_initialized 4 (nn_of_nat 4 2 (2 ^ 70 + 5)) ∧
    (nn_rshift 4 true nn_none (nn_of_nat 4 2 (2 ^ 70 + 5)) 65).map (fun r => r.wlen) = some 1 ∧
    (nn_lshift 4 false nn_none (nn_of_nat 4 1 0b1011) 62).map (fun r => r.wlen) = some 2 ∧
    ((∃ r b, nn_rshift 4 true nn_none (nn_of_nat 4 2 (2 ^ 70 + 5)) 65 = some r ∧
        nn_bitlen 4 r = some b ∧ r.wlen = BIT_LEN_WORDS b) ∧
      (∃ r bl, nn_lshift 4 true nn_none (nn_of_nat 4 2 (2 ^ 70 + 5)) 65 = some r ∧
        nn_bitlen 4 (nn_of_nat 4 2 (2 ^ 70 + 5)) = some bl ∧
        r.wlen = min (BIT_LEN_WORDS (65 + bl)) (BIT_LEN_WORDS (NN_MAX_BIT_LEN 4)) ∧
        (nn_val (nn_of_nat 4 2 (2 ^ 70 + 5)) ≠ 0 → 65 + bl ≤ NN_MAX_BIT_LEN 4 →
          ∃ b, nn_bitlen 4 r = some b ∧ b = 65 + bl ∧ r.wlen = BIT_LEN_WORDS b))) :=
  ⟨by decide, by decide, by decide,
    nn_shift_wlen 4 (by decide) true nn_none (nn_of_nat 4 2 (2 ^ 70 + 5)) 65 (by decide)⟩

end Libecc

namespace Libecc

/-! ## The shifts run in place -/

/-- The state `nn_lshift_fixedlen` leaves in `out`, in closed form: every word
is computed from the words of the input as they were on entry. -/
theorem nn_lshift_fixedlen_eq (N : Nat) (aliased : Bool) (out inp : nn) (cnt : Nat)
    (hin : nn_check_initialized N inp = true)
    (hout : nn_check_initialized N (if aliased then inp else out) = true) :
    nn_lshift_fixedlen N aliased out inp cnt = some
      { (if aliased then inp else out) with
        val := lshift_loop false inp.val inp.wlen ((cnt : Int) / 64) (cnt % WORD_BITS)
          (WORD_BITS - cnt % WORD_BITS) (if aliased then inp else out).wlen
          (if aliased then inp else out).val } := by
  have hdec : (0 : Int) ≤ (cnt : Int) / (WORD_BITS : Nat) := by rw [WORD_BITS_eq]; omega
  unfold nn_lshift_fixedlen
  simp only [hin, hout, Bool.true_eq_false, if_false]
  cases aliased
  · rfl
  · simp only [if_true]
    rw [lshift_loop_alias _ _ _ hdec]
    rfl

/-- The state `nn_rshift_fixedlen` leaves in `out`, in closed form. -/
theorem nn_rshift_fixedlen_eq (N : Nat) (aliased : Bool) (out inp : nn) (cnt : Nat)
    (hin : nn_check_initialized N inp = true)
    (hout : nn_check_initialized N (if aliased then inp else out) = true) :
    nn_rshift_fixedlen N aliased out inp cnt = some
      { (if aliased then inp else out) with
        val := rshift_loop false inp.val inp.wlen ((cnt : Int) / 64) (cnt % WORD_BITS)
          (WORD_BITS - cnt % WORD_BITS) (if aliased then inp else out).wlen
          (if aliased then inp else out).val } := by
  have hdec : (0 : Int) ≤ (cnt : Int) / (WORD_BITS : Nat) := by rw [WORD_BITS_eq]; omega
  unfold nn_rshift_fixedlen
  simp only [hin, hout, Bool.true_eq_false, if_false]
  cases aliased
  · rfl
  · simp only [if_true]
    rw [rshift_loop_alias _ _ _ hdec]
    rfl

/-- C27: for each of `nn_lshift_fixedlen`, `nn_rshift_fixedlen`, `nn_lshift` and
`nn_rshift`, every initialized `x` and every count: the routine run in place
(`out` and `in` the same object `x`) and the routine run on `x` with a distinct
`out` (for the fixed-length forms an initialized object preset to `x.wlen`, for
the length-adapting forms any object) both succeed, and leave the same `wlen`
and the same active words. -/
theorem nn_shift_in_place (N : Nat) (hN : N ≤ 255) (x out : nn) (cnt : Nat)
    (hx : nn_initialized N x) (hout : nn_initialized N out) (hw : out.wlen = x.wlen) :
    (∃ r1 r2, nn_lshift_fixedlen N true x x cnt = some r1 ∧
      nn_lshift_fixedlen N false out x cnt = some r2 ∧ r1.wlen = r2.wlen ∧
      ∀ i, i < r1.wlen → r1.val.getD i 0 = r2.val.getD i 0) ∧
    (∃ r1 r2, nn_rshift_fixedlen N true x x cnt = some r1 ∧
      nn_rshift_fixedlen N false out x cnt = some r2 ∧ r1.wlen = r2.wlen ∧
      ∀ i, i < r1.wlen → r1.val.getD i 0 = r2.val.getD i 0) ∧
    (∀ o : nn, ∃ r1 r2, nn_lshift N true x x cnt = some r1 ∧
      nn_lshift N false o x cnt = some r2 ∧ r1.wlen = r2.wlen ∧
      ∀ i, i < r1.wlen → r1.val.getD i 0 = r2.val.getD i 0) ∧
    (∀ o : nn, ∃ r1 r2, nn_rshift N true x x cnt = some r1 ∧
      nn_rshift N false o x cnt = some r2 ∧ r1.wlen = r2.wlen ∧
      ∀ i, i < r1.wlen → r1.val.getD i 0 = r2.val.getD i 0) := by
  obtain ⟨-, hxl, hxlen, -, -⟩ := (nn_initialized_iff N x).1 hx
  obtain ⟨-, -, holen, -, -⟩ := (nn_initialized_iff N out).1 hout
  refine ⟨?_, ?_, fun o => ?_, fun o => ?_⟩
  · refine ⟨_, _, nn_lshift_fixedlen_eq N true x x cnt hx.1 hx.1,
      nn_lshift_fixedlen_eq N false out x cnt hx.1 hout.1, hw.symm, fun i hi => ?_⟩
    simp only [if_true, Bool.false_eq_true, if_false] at hi ⊢
    rw [lshift_loop_getD, lshift_loop_getD, if_pos ⟨hi, by omega⟩, if_pos ⟨by omega, by omega⟩]
  · refine ⟨_, _, nn_rshift_fixedlen_eq N true x x cnt hx.1 hx.1,
      nn_rshift_fixedlen_eq N false out x cnt hx.1 hout.1, hw.symm, fun i hi => ?_⟩
    simp only [if_true, Bool.false_eq_true, if_false] at hi ⊢
    rw [rshift_loop_getD, rshift_loop_getD, if_pos ⟨hi, by omega⟩, if_pos ⟨by omega, by omega⟩]
  · refine ⟨_, _, nn_lshift_eq N hN true x x cnt hx, nn_lshift_eq N hN false o x cnt hx, rfl,
      fun i hi => ?_⟩
    simp only [if_true, Bool.false_eq_true, if_false] at hi ⊢
    have hiN : i < N := lt_of_lt_of_le hi (Nat.min_le_right _ _)
    rw [lshift_loop_getD, lshift_loop_getD, if_pos ⟨hi, by omega⟩,
      if_pos ⟨hi, by rw [List.length_replicate]; exact hiN⟩]
  · have ho : (if cnt > nn_bitlen_loop x.val x.wlen then 0
        else BIT_LEN_WORDS (nn_bitlen_loop x.val x.wlen - cnt)) ≤ N := by
      obtain ⟨-, -, -, hxw, -⟩ := (nn_initialized_iff N x).1 hx
      have hb := (nn_bitlen_loop_spec x.val hxw x.wlen).1
      split
      · omega
      · have := BIT_LEN_WORDS_le (nn_bitlen_loop x.val x.wlen - cnt) x.wlen (by omega)
        omega
    refine ⟨_, _, nn_rshift_eq N hN true x x cnt hx, nn_rshift_eq N hN false o x cnt hx, rfl,
      fun i hi => ?_⟩
    simp only [if_true, Bool.false_eq_true, if_false] at hi ⊢
    rw [rshift_result_getD N _ _ hxlen _ _ _ _ _ ho,
      rshift_result_getD N _ _ (List.length_replicate _ _) _ _ _ _ _ ho]

/-- C27 at a concrete input: the three-word number `2^130 + 9` shifted by 67,
in place and into a distinct object holding 77 on three words. -/
theorem nn_shift_in_place_witness :
    nn_initialized 4 (nn_of_nat 4 3 (2 ^ 130 + 9)) ∧ nn_initialized 4 (nn_of_nat 4 3 77) ∧
    (nn_lshift_fixedlen 4 true (nn_of_nat 4 3 (2 ^ 130 + 9)) (nn_of_nat 4 3 (2 ^ 130 + 9))
      67).map (fun r => r.val.take r.wlen) =
      (nn_lshift_fixedlen 4 false (nn_of_nat 4 3 77) (nn_of_nat 4 3 (2 ^ 130 + 9))
        67).map (fun r => r.val.take r.wlen) ∧
    ((∃ r1 r2, nn_lshift_fixedlen 4 true (nn_of_nat 4 3 (2 ^ 130 + 9))
        (nn_of_nat 4 3 (2 ^ 130 + 9)) 67 = some r1 ∧
      nn_lshift_fixedlen 4 false (nn_of_nat 4 3 77) (nn_of_nat 4 3 (2 ^ 130 + 9)) 67 = some r2 ∧
      r1.wlen = r2.wlen ∧ ∀ i, i < r1.wlen → r1.val.getD i 0 = r2.val.getD i 0) ∧
    (∃ r1 r2, nn_rshift_fixedlen 4 true (nn_of_nat 4 3 (2 ^ 130 + 9))
        (nn_of_nat 4 3 (2 ^ 130 + 9)) 67 = some r1 ∧
      nn_rshift_fixedlen 4 false (nn_of_nat 4 3 77) (nn_of_nat 4 3 (2 ^ 130 + 9)) 67 = some r2 ∧
      r1.wlen = r2.wlen ∧ ∀ i, i < r1.wlen → r1.val.getD i 0 = r2.val.getD i 0) ∧
    (∀ o : nn, ∃ r1 r2, nn_lshift 4 true (nn_of_nat 4 3 (2 ^ 130 + 9))
        (nn_of_nat 4 3 (2 ^ 130 + 9)) 67 = some r1 ∧
      nn_lshift 4 false o (nn_of_nat 4 3 (2 ^ 130 + 9)) 67 = some r2 ∧ r1.wlen = r2.wlen ∧
      ∀ i, i < r1.wlen → r1.val.getD i 0 = r2.val.getD i 0) ∧
    (∀ o : nn, ∃ r1 r2, nn_rshift 4 true (nn_of_nat 4 3 (2 ^ 130 + 9))
        (nn_of_nat 4 3 (2 ^ 130 + 9)) 67 = some r1 ∧
      nn_rshift 4 false o (nn_of_nat 4 3 (2 ^ 130 + 9)) 67 = some r2 ∧ r1.wlen = r2.wlen ∧
      ∀ i, i < r1.wlen → r1.val.getD i 0 = r2.val.getD i 0)) :=
  ⟨by decide, by decide, by decide,
    nn_shift_in_place 4 (by decide) (nn_of_nat 4 3 (2 ^ 130 + 9)) (nn_of_nat 4 3 77) 67
      (by decide) (by decide) rfl⟩

end Libecc

namespace Libecc

/-! ## The loop bound of the length-adapting shifts -/

/-- C28 fails for the length-adapting forms: the one-word numbers 1 and `2^63`
have the same `wlen`; shifted in place by the same count 1, `nn_lshift` runs
its loop `out.wlen = 1` time for the first and `out.wlen = 2` times for the
second, and `nn_rshift` runs its loop 0 times for the first and 1 time for the
second. The loop bound is computed from `nn_bitlen(in)`, which depends on the
words of `in`. -/
theorem nn_shift_loop_bound_depends_on_value :
    nn_initialized 4 (nn_of_nat 4 1 1) ∧ nn_initialized 4 (nn_of_nat 4 1 (2 ^ 63)) ∧
    (nn_of_nat 4 1 1).wlen = (nn_of_nat 4 1 (2 ^ 63)).wlen ∧
    nn_bitlen 4 (nn_of_nat 4 1 1) = some 1 ∧ nn_bitlen 4 (nn_of_nat 4 1 (2 ^ 63)) = some 64 ∧
    (nn_lshift 4 true (nn_of_nat 4 1 1) (nn_of_nat 4 1 1) 1).map (fun r => r.wlen) = some 1 ∧
    (nn_lshift 4 true (nn_of_nat 4 1 (2 ^ 63)) (nn_of_nat 4 1 (2 ^ 63)) 1).map
      (fun r => r.wlen) = some 2 ∧
    (nn_rshift 4 true (nn_of_nat 4 1 1) (nn_of_nat 4 1 1) 1).map (fun r => r.wlen) = some 0 ∧
    (nn_rshift 4 true (nn_of_nat 4 1 (2 ^ 63)) (nn_of_nat 4 1 (2 ^ 63)) 1).map
      (fun r => r.wlen) = some 1 := by
  decide

end Libecc

namespace Libecc

/-! ## `_nn_mul_redc1`: the accumulator stays below `2 * p` -/

/-- A window of a word array splits into a lower window and the words above
it. -/
theorem nn_words_val_split (v : List Nat) (m n : Nat) (hmn : m ≤ n)
    (hv : ∀ i, v.getD i 0 < 2 ^ WORD_BITS) :
    ∃ S, nn_words_val v n = nn_words_val v m + S * (2 ^ WORD_BITS) ^ m ∧
      S < (2 ^ WORD_BITS) ^ (n - m) := by
  have h1 := nn_words_val_mod v n m hmn (fun i _ => hv i)
  have h2 := nn_words_val_lt v n (fun i _ => hv i)
  rw [pow_mul] at h1 h2
  refine ⟨nn_words_val v n / (2 ^ WORD_BITS) ^ m, ?_, ?_⟩
  · rw [h1, Nat.mul_comm]
    exact (Nat.mod_add_div _ _).symm
  · rw [Nat.div_lt_iff_lt_mul (by positivity), ← pow_add]
    have e : n - m + m = n := by omega
    rw [e]
    exact h2

/-- The carry that leaves the accumulator is not counted twice: with `S`, `S1`
the words above the accumulator before and after the multiplication loop. -/
theorem upper_arith (T R S S1 V V1 acc X : Nat) (hV1 : V1 < T) (hS : S < R) (hacc : acc ≤ 1)
    (h : V1 + S1 * T + acc * (T * R) = V + S * T + X) : V1 + acc * T ≤ V + X := by
  rcases Nat.le_one_iff_eq_zero_or_eq_one.1 hacc with h0 | h1
  · subst h0
    simp only [Nat.zero_mul, Nat.add_zero] at h ⊢
    by_contra hc
    have hSS : S1 + 1 ≤ S := by
      by_contra hc2
      have : S * T ≤ S1 * T := Nat.mul_le_mul_right _ (by omega)
      omega
    have h3 : (S1 + 1) * T ≤ S * T := Nat.mul_le_mul_right _ hSS
    rw [Nat.add_mul, Nat.one_mul] at h3
    omega
  · subst h1
    simp only [Nat.one_mul] at h ⊢
    have h3 : (S + 1) * T ≤ R * T := Nat.mul_le_mul_right _ hS
    rw [Nat.add_mul, Nat.one_mul, Nat.mul_comm R T] at h3
    omega

theorem long_round_arith (B X1 VC w4 acc carry1 cC V3 m Pval w3 : Nat)
    (E7 : B * VC + 0 + cC * (B * X1) = V3 + m * Pval)
    (E8 : w4 + B * carry1 = cC + w3) :
    B * (VC + w4 * X1 + (acc + carry1) * (B * X1)) =
      V3 + w3 * (B * X1) + m * Pval + acc * (B * (B * X1)) := by
  zify at *
  linear_combination E7 + (B : ℤ) * X1 * E8

theorem rounds_bound_le (B V V1 ai m bval Pval : Nat) (hB : 0 < B) (hai : ai < B) (hm : m < B)
    (hV : V < Pval + bval) (h : B * V1 ≤ V + ai * bval + m * Pval) : V1 < Pval + bval := by
  have h1 : ai * bval ≤ (B - 1) * bval := Nat.mul_le_mul_right _ (by omega)
  have h2 : m * Pval ≤ (B - 1) * Pval := Nat.mul_le_mul_right _ (by omega)
  have h3 : (B - 1) * bval + bval = B * bval := by
    obtain ⟨q, rfl⟩ : ∃ q, B = q + 1 := ⟨B - 1, by omega⟩
    simp only [Nat.add_sub_cancel]; ring
  have h4 : (B - 1) * Pval + Pval = B * Pval := by
    obtain ⟨q, rfl⟩ : ∃ q, B = q + 1 := ⟨B - 1, by omega⟩
    simp only [Nat.add_sub_cancel]; ring
  have h5 : B * V1 < B * (Pval + bval) := by
    rw [Nat.mul_add]; omega
  exact Nat.lt_of_mul_lt_mul_left h5

end Libecc

namespace Libecc

/-- One round of `_nn_mul_redc1` when the shorter input `b` is longer than `p`
(`len < len_mul`) and below `2^(WORD_BITS * len)`: the carry of the
multiplication loop is added above the accumulator, and the `len + 1` low words
`V` of `out` are replaced by at most `(V + a[i] * b + m * p) / 2^WORD_BITS`. -/
theorem redc1_round_long (a b p out : List Nat) (len len_mul mpinv i : Nat)
    (hlen1 : 1 ≤ len) (hlm : len < len_mul) (hL : len_mul ≤ out.length)
    (ha : ∀ k, a.getD k 0 < 2 ^ WORD_BITS) (hb : ∀ k, b.getD k 0 < 2 ^ WORD_BITS)
    (hp : ∀ k, p.getD k 0 < 2 ^ WORD_BITS) (hout : ∀ k, out.getD k 0 < 2 ^ WORD_BITS)
    (hinv : (mpinv * p.getD 0 0 + 1) % 2 ^ WORD_BITS = 0)
    (hbz : nn_words_val b len_mul < (2 ^ WORD_BITS) ^ len) :
    (redc1_round a b p len len_mul mpinv i out).length = out.length ∧
    (∀ k, (redc1_round a b p len len_mul mpinv i out).getD k 0 < 2 ^ WORD_BITS) ∧
    ∃ m, m < 2 ^ WORD_BITS ∧
      2 ^ WORD_BITS * nn_words_val (redc1_round a b p len len_mul mpinv i out) (len + 1) ≤
        nn_words_val out (len + 1) + a.getD i 0 * nn_words_val b len_mul +
          m * nn_words_val p len := by
  obtain ⟨l, rfl⟩ : ∃ l, len = l + 1 := ⟨len - 1, by omega⟩
  have hB64 : (2 : Nat) ^ WORD_BITS = 2 ^ 64 := rfl
  have hBpos : 0 < 2 ^ WORD_BITS := by positivity
  -- the multiplication loop
  obtain ⟨oA, cA, hA, hcA, hlA, hbA, hsA, hvA⟩ :=
    redc1_mul_loop (a.getD i 0) b out len_mul (ha i) hb hout hL
  have hsub0 : l + 1 - len_mul = 0 := by omega
  have hfz : ∀ s : List Nat × Nat, forUp redc1_carry_step 0 len_mul s = s := fun _ => rfl
  -- the carry of the loop is one bit
  have hcA1 : cA ≤ 1 := by
    have h1 := nn_words_val_lt out len_mul (fun i _ => hout i)
    have h2 := nn_words_val_lt oA len_mul (fun i _ => hbA i)
    rw [pow_mul] at h1 h2
    have h3 : a.getD i 0 * nn_words_val b len_mul < 2 ^ WORD_BITS * (2 ^ WORD_BITS) ^ (l + 1) :=
      Nat.mul_lt_mul'' (ha i) hbz
    have h4 : 2 ^ WORD_BITS * (2 ^ WORD_BITS) ^ (l + 1) ≤ (2 ^ WORD_BITS) ^ len_mul := by
      rw [← pow_succ']
      exact Nat.pow_le_pow_right hBpos (by omega)
    by_contra hc
    have h5 : 2 * (2 ^ WORD_BITS) ^ len_mul ≤ cA * (2 ^ WORD_BITS) ^ len_mul :=
      Nat.mul_le_mul_right _ (by omega)
    omega
  -- the word above and `acc`
  obtain ⟨o1, ho1⟩ : ∃ o1, oA.set len_mul ((oA.getD len_mul 0 + cA) % 2 ^ WORD_BITS) = o1 :=
    ⟨_, rfl⟩
  obtain ⟨acc, hacc⟩ : ∃ acc, (if o1.getD len_mul 0 < cA then 1 else 0) = acc := ⟨_, rfl⟩
  have hacc1 : acc ≤ 1 := by
    rw [← hacc]; split <;> omega
  have hl1 : o1.length = out.length := by
    rw [← ho1, List.length_set, hlA]
  have hb1 : ∀ k, o1.getD k 0 < 2 ^ WORD_BITS := by
    intro k
    rw [← ho1]
    exact getD_set_lt _ _ _ _ (Nat.mod_lt _ hBpos) hbA
  have hE : ∃ E, l + 2 ≤ E ∧
      nn_words_val o1 E + acc * (2 ^ WORD_BITS) ^ E =
        nn_words_val out E + a.getD i 0 * nn_words_val b len_mul := by
    by_cases hin : len_mul < out.length
    · refine ⟨len_mul + 1, by omega, ?_⟩
      have hw := carry_word cA (oA.getD len_mul 0) (by rw [← hB64]; exact hcA)
        (by rw [← hB64]; exact hbA _)
      rw [← hB64] at hw
      have hg : o1.getD len_mul 0 = (oA.getD len_mul 0 + cA) % 2 ^ WORD_BITS := by
        rw [← ho1, getD_set_self _ _ _ (by omega)]
      rw [hg] at hacc
      rw [hacc] at hw
      rw [← ho1, nn_words_val_set_last _ _ _ (by omega), nn_words_val_succ out len_mul,
        ← hsA len_mul (le_refl _), pow_succ]
      generalize (oA.getD len_mul 0 + cA) % 2 ^ WORD_BITS = w at hw ⊢
      zify at hvA hw ⊢
      linear_combination hvA + ((2 : ℤ) ^ WORD_BITS) ^ len_mul * hw
    · refine ⟨len_mul, by omega, ?_⟩
      have hlen : out.length = len_mul := by omega
      have hs : o1 = oA := by
        rw [← ho1]
        exact List.set_eq_of_length_le (by omega)
      have hg : o1.getD len_mul 0 = 0 := getD_eq_zero_of_length_le _ _ (by omega)
      rw [hg] at hacc
      have hac : acc = cA := by
        rw [← hacc]
        split <;> omega
      rw [hs, hac]
      exact hvA
  obtain ⟨E, hE2, hEv⟩ := hE
  -- the first word of the reduction
  obtain ⟨x, hxdef⟩ : ∃ x, o1.getD 0 0 = x := ⟨_, rfl⟩
  have hx0 : x < 2 ^ WORD_BITS := by rw [← hxdef]; exact hb1 0
  have hm : (x * mpinv) % 2 ^ WORD_BITS < 2 ^ WORD_BITS := Nat.mod_lt _ hBpos
  have hfw := first_word _ _ (word_mul_le _ _ (by rw [← hB64]; exact hm)
    (by rw [← hB64]; exact hp 0)) (by rw [← hB64]; exact hx0)
  rw [← hB64] at hfw
  have hlow : (((x * mpinv) % 2 ^ WORD_BITS * p.getD 0 0) % 2 ^ WORD_BITS + x) %
      2 ^ WORD_BITS = 0 := by
    rw [Nat.mod_add_mod]
    exact redc_low_word _ _ _ _ hinv
  -- the reduction loop
  obtain ⟨oC, cC, hC, hcC, hlC, hbC, hsC, hvC⟩ :=
    redc1_red_loop ((x * mpinv) % 2 ^ WORD_BITS) p o1
      ((((x * mpinv) % 2 ^ WORD_BITS * p.getD 0 0) / 2 ^ WORD_BITS +
        (if (((x * mpinv) % 2 ^ WORD_BITS * p.getD 0 0) % 2 ^ WORD_BITS + x) % 2 ^ WORD_BITS < x
          then 1 else 0)) % 2 ^ WORD_BITS) l 0 hm hp hb1
      (Nat.mod_lt _ hBpos) (by rw [hl1]; omega)
      (by rw [hxdef]; linarith [hfw, hlow])
  have h1l : 1 + l = l + 1 := by omega
  rw [h1l] at hsC hvC
  have hw4 := carry_word (oC.getD (l + 1) 0) cC (by rw [← hB64]; exact hbC _)
    (by rw [← hB64]; exact hcC)
  rw [← hB64] at hw4
  -- unfold the round
  have hround : redc1_round a b p (l + 1) len_mul mpinv i out =
      (oC.set l ((cC + oC.getD (l + 1) 0) % 2 ^ WORD_BITS)).set (l + 1)
        ((acc +
          (if (cC + oC.getD (l + 1) 0) % 2 ^ WORD_BITS < oC.getD (l + 1) 0 then 1 else 0)) %
            2 ^ WORD_BITS) := by
    unfold redc1_round
    simp only [hA, hsub0, hfz, Nat.add_zero, ho1, hacc, WORD_MUL, hxdef, hC, h1l,
      Nat.add_sub_cancel,
      getD_set_self oC l _ (show l < oC.length by rw [hlC, hl1]; omega)]
    have e : (oC.set l ((cC + oC.getD (l + 1) 0) % 2 ^ WORD_BITS)).getD (l + 1) 0 =
        oC.getD (l + 1) 0 := by
      rw [getD_set, if_neg (by omega)]
    rw [e]
  rw [hround]
  have hcar : (if (cC + oC.getD (l + 1) 0) % 2 ^ WORD_BITS < oC.getD (l + 1) 0 then 1 else 0) ≤
      1 := by
    split <;> omega
  have hB3 : 2 < 2 ^ WORD_BITS := by rw [hB64]; norm_num
  have htop : (acc +
      (if (cC + oC.getD (l + 1) 0) % 2 ^ WORD_BITS < oC.getD (l + 1) 0 then 1 else 0)) %
        2 ^ WORD_BITS =
      acc + (if (cC + oC.getD (l + 1) 0) % 2 ^ WORD_BITS < oC.getD (l + 1) 0 then 1 else 0) :=
    Nat.mod_eq_of_lt (by omega)
  rw [htop]
  have hlenC : oC.length = out.length := by rw [hlC, hl1]
  refine ⟨by simp only [List.length_set]; exact hlenC, ?_, _, hm, ?_⟩
  · intro k
    apply getD_set_lt _ _ _ _ (by omega)
    intro k
    exact getD_set_lt _ _ _ _ (Nat.mod_lt _ hBpos) hbC
  · rw [nn_words_val_set_last _ _ _ (by simp only [List.length_set]; omega),
      nn_words_val_set_last oC l _ (by omega)]
    have hoCl : oC.getD (l + 1) 0 = o1.getD (l + 1) 0 := hsC _ (le_refl _)
    rw [hoCl] at hw4 ⊢
    rw [pow_succ, Nat.mul_comm ((2 ^ WORD_BITS) ^ l) (2 ^ WORD_BITS)] at hvC ⊢
    have hexact := long_round_arith (2 ^ WORD_BITS) ((2 ^ WORD_BITS) ^ l) _ _ acc _ _ _ _ _ _ hvC
      hw4
    rw [hexact]
    -- the words above the accumulator
    obtain ⟨S1, hS1, -⟩ := nn_words_val_split o1 (l + 2) E hE2 hb1
    obtain ⟨S, hS, hSlt⟩ := nn_words_val_split out (l + 2) E hE2 hout
    have hV1 := nn_words_val_lt o1 (l + 2) (fun i _ => hb1 i)
    rw [pow_mul] at hV1
    have hsplitE : (2 ^ WORD_BITS) ^ E = (2 ^ WORD_BITS) ^ (l + 2) * (2 ^ WORD_BITS) ^ (E - (l + 2)) := by
      rw [← pow_add]
      congr 1
      omega
    rw [hS1, hS, hsplitE] at hEv
    have hup := upper_arith _ _ _ _ _ _ _ _ hV1 hSlt hacc1 hEv
    have e2 : nn_words_val o1 (l + 2) =
        nn_words_val o1 (l + 1) + o1.getD (l + 1) 0 * (2 ^ WORD_BITS * (2 ^ WORD_BITS) ^ l) := by
      rw [nn_words_val_succ o1 (l + 1), pow_succ,
        Nat.mul_comm ((2 ^ WORD_BITS) ^ l) (2 ^ WORD_BITS)]
    have e3 : (2 ^ WORD_BITS) ^ (l + 2) = 2 ^ WORD_BITS * (2 ^ WORD_BITS * (2 ^ WORD_BITS) ^ l) := by
      rw [pow_succ, pow_succ]; ring
    rw [e2, e3] at hup
    have e4 : nn_words_val out (l + 1 + 1) = nn_words_val out (l + 2) := rfl
    rw [e4]
    linarith

end Libecc

namespace Libecc

/-- Any number of rounds of `_nn_mul_redc1` from the cleared accumulator, for a
shorter input `b` below `2^(WORD_BITS * len)` of any length: the `len + 1` low
words of `out` hold a value below `p + b`. -/
theorem redc1_rounds_bound (a b p out0 : List Nat) (len len_mul mpinv n : Nat)
    (hlen1 : 1 ≤ len) (hLm : len_mul ≤ out0.length) (hL : len + 1 ≤ out0.length)
    (ha : ∀ k, a.getD k 0 < 2 ^ WORD_BITS) (hb : ∀ k, b.getD k 0 < 2 ^ WORD_BITS)
    (hp : ∀ k, p.getD k 0 < 2 ^ WORD_BITS) (hout : ∀ k, out0.getD k 0 = 0)
    (hinv : (mpinv * p.getD 0 0 + 1) % 2 ^ WORD_BITS = 0) (hPpos : 0 < nn_words_val p len)
    (hbz : nn_words_val b len_mul < (2 ^ WORD_BITS) ^ len) :
    (forUp (redc1_round a b p len len_mul mpinv) n 0 out0).length = out0.length ∧
    (∀ k, (forUp (redc1_round a b p len len_mul mpinv) n 0 out0).getD k 0 < 2 ^ WORD_BITS) ∧
    nn_words_val (forUp (redc1_round a b p len len_mul mpinv) n 0 out0) (len + 1) <
      nn_words_val p len + nn_words_val b len_mul := by
  have key := forUp_inv (redc1_round a b p len len_mul mpinv)
    (fun _ o => o.length = out0.length ∧ (∀ k, o.getD k 0 < 2 ^ WORD_BITS) ∧
      nn_words_val o (len + 1) < nn_words_val p len + nn_words_val b len_mul)
    n 0 out0
    ⟨rfl, fun k => by rw [hout k]; positivity, by
      rw [nn_words_val_zero out0 _ (fun i _ => hout i)]; omega⟩
    (by
      rintro i o - - ⟨hl, hbd, hV⟩
      by_cases hlm : len_mul ≤ len
      · obtain ⟨hl1, hbd1, -, m, hm, hround⟩ :=
          redc1_round_spec a b p o len len_mul mpinv i hlen1 hlm (by omega) ha hb hp hbd hinv
        exact ⟨by rw [hl1, hl], hbd1,
          rounds_bound_le _ _ _ _ _ _ _ (by positivity) (ha i) hm hV (le_of_eq hround)⟩
      · obtain ⟨hl1, hbd1, m, hm, hround⟩ :=
          redc1_round_long a b p o len len_mul mpinv i hlen1 (by omega) (by omega) ha hb hp hbd
            hinv hbz
        exact ⟨by rw [hl1, hl], hbd1,
          rounds_bound_le _ _ _ _ _ _ _ (by positivity) (ha i) hm hV hround⟩)
  exact key

/-- A word array of `N` zero words is `List.replicate N 0`. -/
theorem eq_replicate_zero (l : List Nat) (N : Nat) (hl : l.length = N)
    (h : ∀ k, l.getD k 0 = 0) : l = List.replicate N 0 := by
  rw [List.eq_replicate_iff]
  exact ⟨hl, (forall_mem_iff_getD l (fun w => w = 0) rfl).2 h⟩

/-- The end of `_nn_mul_redc1` from an accumulator `V < 2 * p` on `len + 1`
words, whatever the words above the accumulator hold: the comparisons and the
subtraction succeed, and the result is `V` or `V - p`, below `p`. -/
theorem redc1_final_sub_lt (N : Nat) (out p : nn) (len : Nat) (hp : nn_initialized N p)
    (hpw : p.wlen = len) (hom : out.magic = NN_MAGIC) (how : out.wlen = len + 1)
    (hN1 : len + 1 ≤ N) (hol : out.val.length = N)
    (hV : nn_words_val out.val (len + 1) < 2 * nn_val p) :
    ∃ r, redc1_final_sub N out p len = (r, true) ∧ r.wlen = len ∧ nn_val r < nn_val p ∧
      (nn_val r = nn_words_val out.val (len + 1) ∨
        nn_val r + nn_val p = nn_words_val out.val (len + 1)) := by
  obtain ⟨hpm, hpwl, hpl, hpb, hpz⟩ := (nn_initialized_iff N p).1 hp
  have hPlt := nn_val_lt_pow hp
  rw [hpw] at hPlt
  have hPfull : nn_words_val p.val (len + 1) = nn_val p := nn_val_eq_full hp (len + 1) (by omega)
  have hco : nn_check_initialized N out = true := by
    rw [nn_check_initialized_iff]; exact ⟨hom, by omega⟩
  have hb : (if decide ((if nn_words_val out.val (len + 1) < nn_val p then (-1 : Int)
      else if nn_words_val out.val (len + 1) = nn_val p then 0 else 1) ≥ 0) = true
      then nn_val p else 0) =
      (if nn_words_val out.val (len + 1) < nn_val p then 0 else nn_val p) := by
    by_cases h1 : nn_words_val out.val (len + 1) < nn_val p
    · simp [h1]
    · by_cases h2 : nn_words_val out.val (len + 1) = nn_val p
      · simp [h2]
      · simp [h1, h2]
  obtain ⟨V1, hV1, hV1lt, hV1or⟩ : ∃ V1,
      V1 = nn_words_val out.val (len + 1) -
        (if nn_words_val out.val (len + 1) < nn_val p then 0 else nn_val p) ∧ V1 < nn_val p ∧
      (V1 = nn_words_val out.val (len + 1) ∨ V1 + nn_val p = nn_words_val out.val (len + 1)) := by
    refine ⟨_, rfl, ?_⟩
    by_cases hc : nn_words_val out.val (len + 1) < nn_val p
    · rw [if_pos hc]
      omega
    · rw [if_neg hc]
      omega
  have hcmp1 : nn_cmp N out p = some (if nn_words_val out.val (len + 1) < nn_val p then (-1 : Int)
      else if nn_words_val out.val (len + 1) = nn_val p then 0 else 1) := by
    unfold nn_cmp
    have : (if out.wlen ≥ p.wlen then out.wlen else p.wlen) = len + 1 := by
      rw [how, hpw, if_pos (by omega)]
    simp only [hco, hp.1, Bool.and_self, if_true, this, hPfull]
  have hnotlt : ¬ nn_words_val out.val (len + 1) <
      (if nn_words_val out.val (len + 1) < nn_val p then 0 else nn_val p) := by
    by_cases hc : nn_words_val out.val (len + 1) < nn_val p
    · rw [if_pos hc]; omega
    · rw [if_neg hc]; omega
  have hsub : nn_cnd_sub N (decide ((if nn_words_val out.val (len + 1) < nn_val p then (-1 : Int)
      else if nn_words_val out.val (len + 1) = nn_val p then 0 else 1) ≥ 0)) out p =
      some (nn.mk (nn_words_of_nat V1 (len + 1) ++ out.val.drop (len + 1)) (len + 1) out.magic) := by
    unfold nn_cnd_sub
    have : (if out.wlen ≥ p.wlen then out.wlen else p.wlen) = len + 1 := by
      rw [how, hpw, if_pos (by omega)]
    simp only [hco, hp.1, Bool.and_self, if_true, this, hPfull, hb, if_neg hnotlt, ← hV1]
  have hget : ∀ i, i < len + 1 →
      (nn_words_of_nat V1 (len + 1) ++ out.val.drop (len + 1)).getD i 0 =
      if i < len then (V1 / 2 ^ (WORD_BITS * i)) % 2 ^ WORD_BITS else 0 := by
    intro i hi
    rw [getD_append_drop _ _ _ _ (length_nn_words_of_nat _ _), getD_nn_words_of_nat]
    by_cases h1 : i < len
    · rw [if_pos (by omega), if_pos (by omega), if_pos h1]
    · rw [if_neg h1, if_pos hi, if_pos hi]
      have : i = len := by omega
      subst this
      rw [pow_mul, Nat.div_eq_of_lt (lt_trans hV1lt hPlt), Nat.zero_mod]
  have hvalS : ∀ n, len ≤ n → n ≤ len + 1 →
      nn_words_val (nn_words_of_nat V1 (len + 1) ++ out.val.drop (len + 1)) n = V1 := by
    intro n hn hn1
    rw [nn_words_val_zero_ext _ len n hn (fun i h1 h2 => by
        rw [hget i (by omega), if_neg (by omega)]),
      nn_words_val_of_nat _ V1 len (fun i hi => by rw [hget i (by omega), if_pos hi]), pow_mul]
    exact Nat.mod_eq_of_lt (lt_trans hV1lt hPlt)
  have hcmp2 : nn_cmp N
      (nn.mk (nn_words_of_nat V1 (len + 1) ++ out.val.drop (len + 1)) (len + 1) out.magic) p =
      some (-1) := by
    unfold nn_cmp
    have hc2 : nn_check_initialized N
        (nn.mk (nn_words_of_nat V1 (len + 1) ++ out.val.drop (len + 1)) (len + 1) out.magic) =
        true := by
      rw [nn_check_initialized_iff]; exact ⟨hom, hN1⟩
    have : (if len + 1 ≥ p.wlen then len + 1 else p.wlen) = len + 1 := by
      rw [hpw, if_pos (by omega)]
    simp only [hc2, hp.1, Bool.and_self, if_true, this, hPfull,
      hvalS (len + 1) (by omega) (le_refl _), if_pos hV1lt]
  refine ⟨nn.mk (nn_words_of_nat V1 (len + 1) ++ out.val.drop (len + 1)) len out.magic,
    ?_, rfl, ?_, ?_⟩
  · unfold redc1_final_sub
    rw [hcmp1]
    simp only
    rw [hsub]
    simp only
    rw [hcmp2]
    simp only [Int.reduceNeg, Left.neg_neg_iff, zero_lt_one, if_true]
  · unfold nn_val
    simp only
    rw [hvalS len (le_refl _) (by omega)]
    exact hV1lt
  · unfold nn_val
    simp only
    rw [hvalS len (le_refl _) (by omega)]
    exact hV1or

end Libecc

namespace Libecc

/-- The routine `_nn_mul_redc1` once the capacity check has passed: the rounds
run on the cleared accumulator, then the final subtraction. -/
theorem _nn_mul_redc1_eq (N : Nat) (hN : N ≤ 255) (out in1 in2 p : nn) (mpinv : Nat)
    (hpc : nn_check_initialized N p = true)
    (hcap : WORD_BITS * (p.wlen + 1) ≤ NN_MAX_BIT_LEN N) :
    _nn_mul_redc1 N out in1 in2 p mpinv =
      redc1_final_sub N
        (nn.mk (forUp (redc1_round (if in1.wlen ≤ in2.wlen then in2 else in1).val
          (if in1.wlen ≤ in2.wlen then in1 else in2).val p.val p.wlen
          (if in1.wlen ≤ in2.wlen then in1 else in2).wlen mpinv) p.wlen 0 (List.replicate N 0))
          (p.wlen + 1) NN_MAGIC) p p.wlen := by
  have hpw : p.wlen ≤ N := ((nn_check_initialized_iff N p).1 hpc).2
  have hN1 : p.wlen + 1 ≤ N := by
    unfold NN_MAX_BIT_LEN at hcap
    exact Nat.le_of_mul_le_mul_left hcap (by rw [WORD_BITS_eq]; norm_num)
  have hset : nn_set_wlen N { val := List.replicate N 0, wlen := 0, magic := NN_MAGIC } p.wlen =
      some (nn.mk ((List.replicate N 0).take p.wlen ++
          List.replicate ((List.replicate N 0).length - p.wlen) 0) p.wlen NN_MAGIC) := by
    simp [nn_set_wlen, nn_check_initialized, hpw]
  have hu : u8 (p.wlen + 1) = p.wlen + 1 := by
    unfold u8; omega
  have hZ : forUp (fun (i : Nat) (o : List Nat) => o.set i 0) (p.wlen + 1) 0
      ((List.replicate N 0).take p.wlen ++
        List.replicate ((List.replicate N 0).length - p.wlen) 0) = List.replicate N 0 := by
    apply eq_replicate_zero
    · rw [length_forUp_set (fun _ _ => 0)]
      simp only [List.length_append, List.length_take, List.length_replicate]
      omega
    · intro k
      rw [forUp_set_getD (fun _ => 0)]
      split
      · rfl
      · rw [getD_take_append_replicate, getD_replicate_zero]
        simp
  unfold _nn_mul_redc1
  rw [nn_init_zero]
  dsimp only
  rw [hset]
  dsimp only
  rw [if_neg (not_not.2 hcap), hu, hZ]

/-- The accumulator of `_nn_mul_redc1`, `a` being the longer and `b` the shorter
of the two inputs, `b` below `p`: after any number of rounds its `p.wlen + 1`
low words hold a value below `p + b`. -/
theorem redc1_accumulator_core (N : Nat) (a b p : nn) (mpinv k : Nat)
    (hia : nn_initialized N a) (hib : nn_initialized N b) (hp : nn_initialized N p)
    (hinv : (mpinv * p.val.getD 0 0 + 1) % 2 ^ WORD_BITS = 0)
    (hltb : nn_val b < nn_val p) (hN1 : p.wlen + 1 ≤ N) :
    (forUp (redc1_round a.val b.val p.val p.wlen b.wlen mpinv) k 0
      (List.replicate N 0)).length = N ∧
    nn_words_val (forUp (redc1_round a.val b.val p.val p.wlen b.wlen mpinv) k 0
      (List.replicate N 0)) (p.wlen + 1) < 2 * nn_val p ∧
    ((forUp (redc1_round a.val b.val p.val p.wlen b.wlen mpinv) k 0
      (List.replicate N 0)).getD p.wlen 0 ≤ 1) := by
  obtain ⟨-, hpw, -, hpb, -⟩ := (nn_initialized_iff N p).1 hp
  obtain ⟨-, -, -, hab, -⟩ := (nn_initialized_iff N a).1 hia
  obtain ⟨-, hbw, -, hbb, -⟩ := (nn_initialized_iff N b).1 hib
  have hPlt := nn_val_lt_pow hp
  have hPpos : 0 < nn_val p := by omega
  have hlen1 : 1 ≤ p.wlen := by
    by_contra hc
    have h0 : p.wlen = 0 := by omega
    rw [h0] at hPlt
    simp at hPlt
    omega
  have hPv : nn_words_val p.val p.wlen = nn_val p := rfl
  have hBv : nn_words_val b.val b.wlen = nn_val b := rfl
  obtain ⟨hRl, hRb, hRlt⟩ := redc1_rounds_bound a.val b.val p.val (List.replicate N 0) p.wlen
    b.wlen mpinv k hlen1 (by rw [List.length_replicate]; exact hbw)
    (by rw [List.length_replicate]; exact hN1) hab hbb hpb
    (fun k => getD_replicate_zero N k) hinv (by rw [hPv]; exact hPpos)
    (by rw [hBv]; exact lt_trans hltb hPlt)
  rw [List.length_replicate] at hRl
  rw [hPv, hBv] at hRlt
  have hlt2 : nn_words_val (forUp (redc1_round a.val b.val p.val p.wlen b.wlen mpinv) k 0
      (List.replicate N 0)) (p.wlen + 1) < 2 * nn_val p := by omega
  refine ⟨hRl, hlt2, ?_⟩
  rw [nn_words_val_succ] at hlt2
  by_contra hc
  have h2 : 2 * (2 ^ WORD_BITS) ^ p.wlen ≤
      (forUp (redc1_round a.val b.val p.val p.wlen b.wlen mpinv) k 0
        (List.replicate N 0)).getD p.wlen 0 * (2 ^ WORD_BITS) ^ p.wlen :=
    Nat.mul_le_mul_right _ (by omega)
  omega

end Libecc

namespace Libecc

/-- The accumulator of `_nn_mul_redc1` where every index of a round is inside
`out->val`, that is when the shorter input is held on fewer than
`NN_MAX_WORD_LEN` words. For initialized `in1`, `in2` below `p`, with
`mpinv * p.val[0] = -1` modulo `2^WORD_BITS` (so `p` is odd) and the capacity
check passed: the routine is the `p.wlen` rounds of the outer loop run on the
cleared accumulator, followed by the final subtraction; after every number `k`
of rounds the `p.wlen + 1` low words of `out` hold a value below `2 * p` and the
word of index `p.wlen` is 0 or 1; the routine returns 0 (the comparisons, the
single conditional subtraction and the check `out < p` all pass) with a result
below `p` that is the accumulator or the accumulator minus `p`. -/
theorem nn_mul_redc1_accumulator (N : Nat) (hN : N ≤ 255) (out in1 in2 p : nn) (mpinv : Nat)
    (h1 : nn_initialized N in1) (h2 : nn_initialized N in2) (hp : nn_initialized N p)
    (hinv : (mpinv * p.val.getD 0 0 + 1) % 2 ^ WORD_BITS = 0)
    (hlt1 : nn_val in1 < nn_val p) (hlt2 : nn_val in2 < nn_val p)
    (hcap : WORD_BITS * (p.wlen + 1) ≤ NN_MAX_BIT_LEN N)
    (hidx : min in1.wlen in2.wlen < N) :
    _nn_mul_redc1 N out in1 in2 p mpinv =
      redc1_final_sub N
        (nn.mk (forUp (redc1_round (if in1.wlen ≤ in2.wlen then in2 else in1).val
          (if in1.wlen ≤ in2.wlen then in1 else in2).val p.val p.wlen
          (if in1.wlen ≤ in2.wlen then in1 else in2).wlen mpinv) p.wlen 0 (List.replicate N 0))
          (p.wlen + 1) NN_MAGIC) p p.wlen ∧
    (∀ k, k ≤ p.wlen →
      nn_words_val (forUp (redc1_round (if in1.wlen ≤ in2.wlen then in2 else in1).val
        (if in1.wlen ≤ in2.wlen then in1 else in2).val p.val p.wlen
        (if in1.wlen ≤ in2.wlen then in1 else in2).wlen mpinv) k 0 (List.replicate N 0))
        (p.wlen + 1) < 2 * nn_val p ∧
      (forUp (redc1_round (if in1.wlen ≤ in2.wlen then in2 else in1).val
        (if in1.wlen ≤ in2.wlen then in1 else in2).val p.val p.wlen
        (if in1.wlen ≤ in2.wlen then in1 else in2).wlen mpinv) k 0
        (List.replicate N 0)).getD p.wlen 0 ≤ 1) ∧
    ∃ r, _nn_mul_redc1 N out in1 in2 p mpinv = (r, true) ∧ nn_val r < nn_val p ∧
      (nn_val r = nn_words_val (forUp (redc1_round (if in1.wlen ≤ in2.wlen then in2 else in1).val
          (if in1.wlen ≤ in2.wlen then in1 else in2).val p.val p.wlen
          (if in1.wlen ≤ in2.wlen then in1 else in2).wlen mpinv) p.wlen 0 (List.replicate N 0))
          (p.wlen + 1) ∨
        nn_val r + nn_val p =
          nn_words_val (forUp (redc1_round (if in1.wlen ≤ in2.wlen then in2 else in1).val
            (if in1.wlen ≤ in2.wlen then in1 else in2).val p.val p.wlen
            (if in1.wlen ≤ in2.wlen then in1 else in2).wlen mpinv) p.wlen 0
            (List.replicate N 0)) (p.wlen + 1)) := by
  have _hidx := hidx
  have hN1 : p.wlen + 1 ≤ N := by
    unfold NN_MAX_BIT_LEN at hcap
    exact Nat.le_of_mul_le_mul_left hcap (by rw [WORD_BITS_eq]; norm_num)
  have heq := _nn_mul_redc1_eq N hN out in1 in2 p mpinv hp.1 hcap
  obtain ⟨a, ha⟩ : ∃ a, (if in1.wlen ≤ in2.wlen then in2 else in1) = a := ⟨_, rfl⟩
  obtain ⟨b, hb⟩ : ∃ b, (if in1.wlen ≤ in2.wlen then in1 else in2) = b := ⟨_, rfl⟩
  have hia : nn_initialized N a := by
    rw [← ha]; split
    · exact h2
    · exact h1
  have hib : nn_initialized N b := by
    rw [← hb]; split
    · exact h1
    · exact h2
  have hltb : nn_val b < nn_val p := by
    rw [← hb]; split
    · exact hlt1
    · exact hlt2
  rw [ha, hb] at heq ⊢
  have hcore := fun k => redc1_accumulator_core N a b p mpinv k hia hib hp hinv hltb hN1
  refine ⟨heq, fun k _ => (hcore k).2, ?_⟩
  obtain ⟨r, hr, -, hrlt, hror⟩ := redc1_final_sub_lt N
    (nn.mk (forUp (redc1_round a.val b.val p.val p.wlen b.wlen mpinv) p.wlen 0
      (List.replicate N 0)) (p.wlen + 1) NN_MAGIC) p p.wlen hp rfl rfl rfl hN1
    (hcore p.wlen).1 (hcore p.wlen).2.1
  exact ⟨r, by rw [heq]; exact hr, hrlt, hror⟩

set_option maxRecDepth 100000 in
/-- The accumulator lemma at concrete inputs, on a capacity of 4 words with
`p = 2^128 - 1` on two words and `mpinv = 1`: for `in1 = in2 = 2^128 - 2` held
on three active words (both longer than `p`, every index inside the array) the
routine returns 0 with a result below `p`, and for `in1 = 2^128 - 2`,
`in2 = 2^127 + 5` on two words as well. -/
theorem nn_mul_redc1_accumulator_witness :
    nn_initialized 4 (nn_of_nat 4 3 (2 ^ 128 - 2)) ∧ nn_initialized 4 (nn_of_nat 4 2 (2 ^ 128 - 1)) ∧
    (1 * (nn_of_nat 4 2 (2 ^ 128 - 1)).val.getD 0 0 + 1) % 2 ^ WORD_BITS = 0 ∧
    nn_val (nn_of_nat 4 3 (2 ^ 128 - 2)) < nn_val (nn_of_nat 4 2 (2 ^ 128 - 1)) ∧
    (_nn_mul_redc1 4 nn_none (nn_of_nat 4 3 (2 ^ 128 - 2)) (nn_of_nat 4 3 (2 ^ 128 - 2))
      (nn_of_nat 4 2 (2 ^ 128 - 1)) 1).2 = true ∧
    (_nn_mul_redc1 4 nn_none (nn_of_nat 4 2 (2 ^ 128 - 2)) (nn_of_nat 4 2 (2 ^ 127 + 5))
      (nn_of_nat 4 2 (2 ^ 128 - 1)) 1).2 = true ∧
    ∃ r, _nn_mul_redc1 4 nn_none (nn_of_nat 4 3 (2 ^ 128 - 2)) (nn_of_nat 4 3 (2 ^ 128 - 2))
        (nn_of_nat 4 2 (2 ^ 128 - 1)) 1 = (r, true) ∧
      nn_val r < nn_val (nn_of_nat 4 2 (2 ^ 128 - 1)) :=
  ⟨by decide, by decide, by decide, by decide, by decide, by decide,
    (nn_mul_redc1_accumulator 4 (by decide) nn_none (nn_of_nat 4 3 (2 ^ 128 - 2))
      (nn_of_nat 4 3 (2 ^ 128 - 2)) (nn_of_nat 4 2 (2 ^ 128 - 1)) 1 (by decide) (by decide)
      (by decide) (by decide) (by decide) (by decide) (by decide) (by decide)).2.2.imp
      (fun _ h => ⟨h.1, h.2.1⟩)⟩

set_option maxRecDepth 100000 in
/-- C31 at the failing input, on a capacity of 3 words: `p = 2^128 - 1` on two
words, `mpinv = 1` and `in1 = in2 = 2^128 - 2` held on three active words. The
premises of the claim hold: the inputs are initialized and below `p`,
`mpinv * p.val[0] = -1` modulo `2^WORD_BITS`, and the capacity check of the
routine passes. With `len = p.wlen = 2` and `len_mul = 3`, in the round `i = 1`
the multiplication loop and the carry loop leave the three words of `out->val`
at zero and the carry at 1; the statement `out->val[j] += carry` that follows
has `j = 3`, which is not an index of `out->val` (three words): the carry of the
accumulator is added to the word that follows the array. -/
theorem nn_mul_redc1_carry_outside_array :
    nn_initialized 3 (nn_of_nat 3 3 (2 ^ 128 - 2)) ∧ nn_initialized 3 (nn_of_nat 3 2 (2 ^ 128 - 1)) ∧
    (1 * (nn_of_nat 3 2 (2 ^ 128 - 1)).val.getD 0 0 + 1) % 2 ^ WORD_BITS = 0 ∧
    nn_val (nn_of_nat 3 3 (2 ^ 128 - 2)) < nn_val (nn_of_nat 3 2 (2 ^ 128 - 1)) ∧
    WORD_BITS * ((nn_of_nat 3 2 (2 ^ 128 - 1)).wlen + 1) ≤ NN_MAX_BIT_LEN 3 ∧
    forUp redc1_carry_step
      ((nn_of_nat 3 2 (2 ^ 128 - 1)).wlen - (nn_of_nat 3 3 (2 ^ 128 - 2)).wlen)
      (nn_of_nat 3 3 (2 ^ 128 - 2)).wlen
      (forUp (redc1_mul_step ((nn_of_nat 3 3 (2 ^ 128 - 2)).val.getD 1 0)
          (nn_of_nat 3 3 (2 ^ 128 - 2)).val) (nn_of_nat 3 3 (2 ^ 128 - 2)).wlen 0
        (forUp (redc1_round (nn_of_nat 3 3 (2 ^ 128 - 2)).val (nn_of_nat 3 3 (2 ^ 128 - 2)).val
          (nn_of_nat 3 2 (2 ^ 128 - 1)).val (nn_of_nat 3 2 (2 ^ 128 - 1)).wlen
          (nn_of_nat 3 3 (2 ^ 128 - 2)).wlen 1) 1 0 (List.replicate 3 0), 0)) = ([0, 0, 0], 1) ∧
    (nn_of_nat 3 3 (2 ^ 128 - 2)).wlen +
      ((nn_of_nat 3 2 (2 ^ 128 - 1)).wlen - (nn_of_nat 3 3 (2 ^ 128 - 2)).wlen) = 3 ∧
    ¬ ((nn_of_nat 3 3 (2 ^ 128 - 2)).wlen +
      ((nn_of_nat 3 2 (2 ^ 128 - 1)).wlen - (nn_of_nat 3 3 (2 ^ 128 - 2)).wlen) <
        ([0, 0, 0] : List Nat).length) := by
  decide

end Libecc

namespace Libecc

/-! ## The logical layer keeps the words above `wlen` zero -/

theorem nn_initialized_upper {N : Nat} {r : nn} (h : nn_initialized N r) :
    r.wlen ≤ N ∧ ∀ i, r.wlen ≤ i → r.val.getD i 0 = 0 := by
  obtain ⟨-, hw, -, -, hz⟩ := (nn_initialized_iff N r).1 h
  exact ⟨hw, hz⟩

/-- The word operations `nn_xor`, `nn_or`, `nn_and` leave zero words above the
longer of the two input lengths. -/
theorem nn_bitop_upper (op : Nat → Nat → Nat) (N : Nat) (aB aC : Bool) (A B C : nn)
    (hB : nn_initialized N B) (hC : nn_initialized N C)
    (hBC : aB = true → aC = true → B = C) :
    ∃ r, nn_bitop op N aB aC A B C = some r ∧ r.wlen ≤ N ∧
      ∀ i, r.wlen ≤ i → r.val.getD i 0 = 0 := by
  obtain ⟨r, hr, -, -, hrw, hrv⟩ := nn_bitop_correct op N aB aC A B C hB hC hBC
  obtain ⟨-, hBw, -, -, hBz⟩ := (nn_initialized_iff N B).1 hB
  obtain ⟨-, hCw, -, -, hCz⟩ := (nn_initialized_iff N C).1 hC
  refine ⟨r, hr, ?_, fun i hi => ?_⟩
  · rw [hrw]; split <;> omega
  · rw [hrw] at hi
    rw [hrv i, if_neg (by omega)]
    have hiB : B.wlen ≤ i := by split at hi <;> omega
    have hiC : C.wlen ≤ i := by split at hi <;> omega
    cases aB
    · cases aC
      · simp only [Bool.false_eq_true, if_false]
        exact getD_replicate_zero N i
      · simp only [Bool.false_eq_true, if_false, if_true]
        exact hCz i hiC
    · simp only [if_true]
      exact hBz i hiB

/-- The fixed-length shifts leave `out.wlen` and the words above it as they
are. -/
theorem nn_shift_fixedlen_upper (N : Nat) (aliased : Bool) (out inp : nn) (cnt : Nat)
    (hin : nn_initialized N inp) (hout : nn_initialized N out) :
    (∃ r, nn_lshift_fixedlen N aliased out inp cnt = some r ∧ r.wlen ≤ N ∧
      ∀ i, r.wlen ≤ i → r.val.getD i 0 = 0) ∧
    (∃ r, nn_rshift_fixedlen N aliased out inp cnt = some r ∧ r.wlen ≤ N ∧
      ∀ i, r.wlen ≤ i → r.val.getD i 0 = 0) := by
  have ho : nn_initialized N (if aliased then inp else out) := by
    cases aliased
    · exact hout
    · exact hin
  obtain ⟨how, hoz⟩ := nn_initialized_upper ho
  constructor
  · refine ⟨_, nn_lshift_fixedlen_eq N aliased out inp cnt hin.1 ho.1, how, fun i hi => ?_⟩
    simp only at hi ⊢
    rw [lshift_loop_getD, if_neg (by omega)]
    exact hoz i hi
  · refine ⟨_, nn_rshift_fixedlen_eq N aliased out inp cnt hin.1 ho.1, how, fun i hi => ?_⟩
    simp only at hi ⊢
    rw [rshift_loop_getD, if_neg (by omega)]
    exact hoz i hi

/-- C33: the predicate "`wlen <= NN_MAX_WORD_LEN` and every word at an index
`>= wlen` is zero" is preserved by the logical layer. For initialized operands
satisfying it, in the aliased and in the non-aliased use, each of `nn_lshift`,
`nn_rshift`, `nn_lrot`, `nn_rrot` (called with `bitlen <= NN_MAX_BIT_LEN` and
`cnt < bitlen`), `nn_xor`, `nn_or`, `nn_and` and `nn_not` returns, whatever the
object passed as `out`, with the predicate holding for `out`; so do
`nn_lshift_fixedlen` and `nn_rshift_fixedlen` when the `out` they trust
satisfies it. -/
theorem nn_logical_invariant (N : Nat) (hN : N ≤ 255) (aliased aB aC : Bool)
    (out inp B C : nn) (cnt rcnt bitlen : Nat)
    (hin : nn_initialized N inp) (hout : nn_initialized N out)
    (hB : nn_initialized N B) (hC : nn_initialized N C) (hBC : aB = true → aC = true → B = C)
    (hbl : bitlen ≤ NN_MAX_BIT_LEN N) (hrc : rcnt < bitlen) :
    (∀ o : nn, ∃ r, nn_lshift N aliased o inp cnt = some r ∧ r.wlen ≤ N ∧
      ∀ i, r.wlen ≤ i → r.val.getD i 0 = 0) ∧
    (∀ o : nn, ∃ r, nn_rshift N aliased o inp cnt = some r ∧ r.wlen ≤ N ∧
      ∀ i, r.wlen ≤ i → r.val.getD i 0 = 0) ∧
    (∃ r, nn_lshift_fixedlen N aliased out inp cnt = some r ∧ r.wlen ≤ N ∧
      ∀ i, r.wlen ≤ i → r.val.getD i 0 = 0) ∧
    (∃ r, nn_rshift_fixedlen N aliased out inp cnt = some r ∧ r.wlen ≤ N ∧
      ∀ i, r.wlen ≤ i → r.val.getD i 0 = 0) ∧
    (∀ o : nn, ∃ r, nn_lrot N aliased o inp rcnt bitlen = some r ∧ r.wlen ≤ N ∧
      ∀ i, r.wlen ≤ i → r.val.getD i 0 = 0) ∧
    (∀ o : nn, ∃ r, nn_rrot N aliased o inp rcnt bitlen = some r ∧ r.wlen ≤ N ∧
      ∀ i, r.wlen ≤ i → r.val.getD i 0 = 0) ∧
    (∀ o : nn, ∃ r, nn_xor N aB aC o B C = some r ∧ r.wlen ≤ N ∧
      ∀ i, r.wlen ≤ i → r.val.getD i 0 = 0) ∧
    (∀ o : nn, ∃ r, nn_or N aB aC o B C = some r ∧ r.wlen ≤ N ∧
      ∀ i, r.wlen ≤ i → r.val.getD i 0 = 0) ∧
    (∀ o : nn, ∃ r, nn_and N aB aC o B C = some r ∧ r.wlen ≤ N ∧
      ∀ i, r.wlen ≤ i → r.val.getD i 0 = 0) ∧
    (∀ o : nn, ∃ r, nn_not N aliased o inp = some r ∧ r.wlen ≤ N ∧
      ∀ i, r.wlen ≤ i → r.val.getD i 0 = 0) := by
  obtain ⟨hfl, hfr⟩ := nn_shift_fixedlen_upper N aliased out inp cnt hin hout
  refine ⟨fun o => ?_, fun o => ?_, hfl, hfr, fun o => ?_, fun o => ?_,
    fun o => nn_bitop_upper _ N aB aC o B C hB hC hBC,
    fun o => nn_bitop_upper _ N aB aC o B C hB hC hBC,
    fun o => nn_bitop_upper _ N aB aC o B C hB hC hBC, fun o => ?_⟩
  · obtain ⟨r, hr, hi, -, -⟩ := nn_lshift_correct N hN aliased o inp cnt hin
    exact ⟨r, hr, nn_initialized_upper hi⟩
  · obtain ⟨r, hr, hi, -, -⟩ := nn_rshift_correct N hN aliased o inp cnt hin
    exact ⟨r, hr, nn_initialized_upper hi⟩
  · obtain ⟨r, hr, hi, -, -⟩ := nn_lrot_correct N hN aliased o inp rcnt bitlen hin hbl hrc
    exact ⟨r, hr, nn_initialized_upper hi⟩
  · obtain ⟨r, hr, hi, -, -⟩ := nn_rrot_correct N hN aliased o inp rcnt bitlen hin hbl hrc
    exact ⟨r, hr, nn_initialized_upper hi⟩
  · obtain ⟨r, hr, hi, -, -⟩ := nn_not_correct N aliased o inp hin
    exact ⟨r, hr, nn_initialized_upper hi⟩

end Libecc

namespace Libecc

set_option maxRecDepth 100000 in
/-- C33 at concrete inputs, on a capacity of 4 words: a three-word number
shifted and rotated in place, combined in place with a one-word number, and
shifted into a trusted two-word object. -/
theorem nn_logical_invariant_witness :
    nn_initialized 4 (nn_of_nat 4 3 (2 ^ 130 + 9)) ∧ nn_initialized 4 (nn_of_nat 4 2 77) ∧
    nn_initialized 4 (nn_of_nat 4 1 5) ∧
    (nn_lshift_fixedlen 4 false (nn_of_nat 4 2 77) (nn_of_nat 4 3 (2 ^ 130 + 9)) 67).map
      (fun r => r.val.drop r.wlen) = some [0, 0] ∧
    (nn_lrot 4 true (nn_of_nat 4 3 (2 ^ 130 + 9)) (nn_of_nat 4 3 (2 ^ 130 + 9)) 5 150).map
      (fun r => r.val.drop r.wlen) = some [0] ∧
    ((∀ o : nn, ∃ r, nn_lshift 4 true o (nn_of_nat 4 3 (2 ^ 130 + 9)) 67 = some r ∧ r.wlen ≤ 4 ∧
        ∀ i, r.wlen ≤ i → r.val.getD i 0 = 0) ∧
      (∀ o : nn, ∃ r, nn_rshift 4 true o (nn_of_nat 4 3 (2 ^ 130 + 9)) 67 = some r ∧ r.wlen ≤ 4 ∧
        ∀ i, r.wlen ≤ i → r.val.getD i 0 = 0) ∧
      (∃ r, nn_lshift_fixedlen 4 true (nn_of_nat 4 2 77) (nn_of_nat 4 3 (2 ^ 130 + 9)) 67 =
          some r ∧ r.wlen ≤ 4 ∧ ∀ i, r.wlen ≤ i → r.val.getD i 0 = 0) ∧
      (∃ r, nn_rshift_fixedlen 4 true (nn_of_nat 4 2 77) (nn_of_nat 4 3 (2 ^ 130 + 9)) 67 =
          some r ∧ r.wlen ≤ 4 ∧ ∀ i, r.wlen ≤ i → r.val.getD i 0 = 0) ∧
      (∀ o : nn, ∃ r, nn_lrot 4 true o (nn_of_nat 4 3 (2 ^ 130 + 9)) 5 150 = some r ∧
        r.wlen ≤ 4 ∧ ∀ i, r.wlen ≤ i → r.val.getD i 0 = 0) ∧
      (∀ o : nn, ∃ r, nn_rrot 4 true o (nn_of_nat 4 3 (2 ^ 130 + 9)) 5 150 = some r ∧
        r.wlen ≤ 4 ∧ ∀ i, r.wlen ≤ i → r.val.getD i 0 = 0) ∧
      (∀ o : nn, ∃ r, nn_xor 4 true false o (nn_of_nat 4 3 (2 ^ 130 + 9)) (nn_of_nat 4 1 5) =
        some r ∧ r.wlen ≤ 4 ∧ ∀ i, r.wlen ≤ i → r.val.getD i 0 = 0) ∧
      (∀ o : nn, ∃ r, nn_or 4 true false o (nn_of_nat 4 3 (2 ^ 130 + 9)) (nn_of_nat 4 1 5) =
        some r ∧ r.wlen ≤ 4 ∧ ∀ i, r.wlen ≤ i → r.val.getD i 0 = 0) ∧
      (∀ o : nn, ∃ r, nn_and 4 true false o (nn_of_nat 4 3 (2 ^ 130 + 9)) (nn_of_nat 4 1 5) =
        some r ∧ r.wlen ≤ 4 ∧ ∀ i, r.wlen ≤ i → r.val.getD i 0 = 0) ∧
      (∀ o : nn, ∃ r, nn_not 4 true o (nn_of_nat 4 3 (2 ^ 130 + 9)) = some r ∧ r.wlen ≤ 4 ∧
        ∀ i, r.wlen ≤ i → r.val.getD i 0 = 0)) :=
  ⟨by decide, by decide, by decide, by decide, by decide,
    nn_logical_invariant 4 (by decide) true true false (nn_of_nat 4 2 77)
      (nn_of_nat 4 3 (2 ^ 130 + 9)) (nn_of_nat 4 3 (2 ^ 130 + 9)) (nn_of_nat 4 1 5) 67 5 150
      (by decide) (by decide) (by decide) (by decide) (fun _ h => absurd h (by decide))
      (by decide) (by decide)⟩

/-! ## `_nn_mul_redc1`: the indices of the accumulator -/

/-- When the shorter input is not longer than `p`, a round of `_nn_mul_redc1`
stays inside the accumulator of `len + 1` words. -/
theorem redc1_round_out_indices_le (len len_mul : Nat) (hlen : 1 ≤ len) (hlm : len_mul ≤ len) :
    ∀ j ∈ redc1_round_out_indices len len_mul, j ≤ len := by
  intro j hj
  unfold redc1_round_out_indices at hj
  simp only [List.mem_append, List.mem_range', List.mem_map, List.mem_cons, List.mem_singleton,
    List.not_mem_nil, or_false] at hj
  rcases hj with (((⟨i, hi, rfl⟩ | ⟨i, hi, rfl⟩) | rfl) | ⟨a, ⟨i, hi, rfl⟩, rfl⟩) | rfl | rfl <;>
    omega

/-- When both inputs are longer than `p`, a round of `_nn_mul_redc1` uses the
index `len_mul`, above the accumulator of `len + 1` words. -/
theorem redc1_round_out_indices_long (len len_mul : Nat) (hlm : len < len_mul) :
    len_mul ∈ redc1_round_out_indices len len_mul := by
  unfold redc1_round_out_indices
  simp only [List.mem_append, List.mem_singleton, List.mem_cons]
  left; left; right
  omega

set_option maxRecDepth 100000 in
/-- C32 at the failing inputs, `p = 2^128 - 1` on two words and
`in1 = in2 = 2^128 - 2` held on three active words. On a capacity of 3 words the
capacity check passes and each round uses the indices `0, 1, 2, 3, 0, 1, 2` of
`out->val`: the index 3 is `NN_MAX_WORD_LEN`. On a capacity of 4 words the
index 3 is inside the array but above the accumulator of `p.wlen + 1 = 3`
words, and the routine returns with the word 1 written there. -/
theorem nn_mul_redc1_index_above_accumulator :
    nn_initialized 3 (nn_of_nat 3 3 (2 ^ 128 - 2)) ∧ nn_initialized 3 (nn_of_nat 3 2 (2 ^ 128 - 1)) ∧
    WORD_BITS * ((nn_of_nat 3 2 (2 ^ 128 - 1)).wlen + 1) ≤ NN_MAX_BIT_LEN 3 ∧
    redc1_round_out_indices (nn_of_nat 3 2 (2 ^ 128 - 1)).wlen
      (if (nn_of_nat 3 3 (2 ^ 128 - 2)).wlen ≤ (nn_of_nat 3 3 (2 ^ 128 - 2)).wlen
        then nn_of_nat 3 3 (2 ^ 128 - 2) else nn_of_nat 3 3 (2 ^ 128 - 2)).wlen =
      [0, 1, 2, 3, 0, 1, 2] ∧
    ¬ (∀ j ∈ redc1_round_out_indices 2 3, j < 3) ∧
    nn_initialized 4 (nn_of_nat 4 3 (2 ^ 128 - 2)) ∧ nn_initialized 4 (nn_of_nat 4 2 (2 ^ 128 - 1)) ∧
    WORD_BITS * ((nn_of_nat 4 2 (2 ^ 128 - 1)).wlen + 1) ≤ NN_MAX_BIT_LEN 4 ∧
    (_nn_mul_redc1 4 nn_none (nn_of_nat 4 3 (2 ^ 128 - 2)) (nn_of_nat 4 3 (2 ^ 128 - 2))
      (nn_of_nat 4 2 (2 ^ 128 - 1)) 1).2 = true ∧
    (_nn_mul_redc1 4 nn_none (nn_of_nat 4 3 (2 ^ 128 - 2)) (nn_of_nat 4 3 (2 ^ 128 - 2))
      (nn_of_nat 4 2 (2 ^ 128 - 1)) 1).1.val.getD 3 0 = 1 ∧
    ¬ (3 ≤ (nn_of_nat 4 2 (2 ^ 128 - 1)).wlen) := by
  decide

end Libecc

namespace Libecc

/-! ## `copy.c` -/

theorem length_local_memcpy (dst : List Nat) (off : Nat) (src : List Nat) (n : Nat) :
    (local_memcpy dst off src n).length = dst.length := by
  induction n with
  | zero => rfl
  | succ n ih => simp only [local_memcpy, List.length_set, ih]

/-- The bytes `local_memcpy` leaves in the destination. -/
theorem getD_local_memcpy (dst : List Nat) (off : Nat) (src : List Nat) (n j : Nat) :
    (local_memcpy dst off src n).getD j 0 =
      if off ≤ j ∧ j < off + n ∧ j < dst.length then src.getD (j - off) 0 else dst.getD j 0 := by
  induction n with
  | zero =>
    simp only [local_memcpy]
    rw [if_neg (by omega)]
  | succ n ih =>
    simp only [local_memcpy]
    rw [getD_set, length_local_memcpy, ih]
    by_cases h1 : off + n = j ∧ off + n < dst.length
    · rw [if_pos h1, if_pos (by omega)]
      congr 1
      omega
    · rw [if_neg h1]
      by_cases h2 : off ≤ j ∧ j < off + n ∧ j < dst.length
      · rw [if_pos h2, if_pos (by omega)]
      · rw [if_neg h2, if_neg (by omega)]

theorem list_eq_of_getD (l1 l2 : List Nat) (hl : l1.length = l2.length)
    (h : ∀ j, j < l1.length → l1.getD j 0 = l2.getD j 0) : l1 = l2 := by
  apply List.ext_getElem hl
  intro j h1 h2
  have := h j h1
  simp only [List.getD_eq_getElem?_getD, List.getElem?_eq_getElem h1,
    List.getElem?_eq_getElem h2, Option.getD_some] at this
  exact this

/-- The number of bytes `copy256_update` copies when the count is within the
buffer: what is left of the buffer, or `ilen` when it is less. -/
theorem copy256_bytes_to_copy_eq (ctx : copy256_context) (ilen : Nat)
    (hc : ctx.copied_bytes ≤ COPY256_SIZE) :
    copy256_bytes_to_copy ctx ilen = min ilen (COPY256_SIZE - ctx.copied_bytes) := by
  unfold copy256_bytes_to_copy
  have hand : ctx.copied_bytes &&& 0x3F = ctx.copied_bytes := by
    have h := Nat.and_pow_two_sub_one_eq_mod ctx.copied_bytes 6
    have e : (2 : Nat) ^ 6 - 1 = 0x3F := by norm_num
    rw [e] at h
    rw [h]
    unfold COPY256_SIZE at hc
    omega
  simp only [hand]
  unfold COPY256_SIZE u16 at *
  split <;> omega

end Libecc

namespace Libecc

/-- One call of `copy256_update` on a context that holds the first bytes of
what was fed so far: it succeeds, and the context holds the first bytes of what
was fed with the new input appended. -/
theorem copy256_update_step (ctx : copy256_context) (fed inp : List Nat)
    (hc : ctx.copied_bytes = min COPY256_SIZE fed.length)
    (hl : ctx.buffer.length = COPY256_SIZE)
    (hw : ∀ j, j < ctx.copied_bytes → ctx.buffer.getD j 0 = fed.getD j 0) :
    ∃ ctx1, copy256_update ctx (some inp) inp.length = some ctx1 ∧
      ctx1.copied_bytes = min COPY256_SIZE (fed ++ inp).length ∧
      ctx1.buffer.length = COPY256_SIZE ∧
      ∀ j, j < ctx1.copied_bytes → ctx1.buffer.getD j 0 = (fed ++ inp).getD j 0 := by
  by_cases h0 : inp.length = 0
  · have hnil : inp = [] := List.length_eq_zero.1 h0
    subst hnil
    refine ⟨ctx, by simp [copy256_update], by simpa using hc, hl, ?_⟩
    simpa using hw
  · have hle : ctx.copied_bytes ≤ COPY256_SIZE := by rw [hc]; exact Nat.min_le_left _ _
    have hbt := copy256_bytes_to_copy_eq ctx inp.length hle
    have h32 : COPY256_SIZE = 32 := rfl
    refine ⟨{ copied_bytes := (ctx.copied_bytes + copy256_bytes_to_copy ctx inp.length) % 2 ^ 64,
              buffer := local_memcpy ctx.buffer ctx.copied_bytes inp
                (copy256_bytes_to_copy ctx inp.length) },
      by simp only [copy256_update, h0, if_false], ?_, ?_, ?_⟩
    · simp only [hbt, List.length_append]
      rw [h32] at hc hle ⊢
      rw [Nat.mod_eq_of_lt (by omega)]
      omega
    · simp only [length_local_memcpy]
      exact hl
    · intro j hj
      simp only [hbt] at hj ⊢
      rw [h32] at hc hle hl hj ⊢
      rw [Nat.mod_eq_of_lt (by omega)] at hj
      rw [getD_local_memcpy]
      by_cases h1 : j < ctx.copied_bytes
      · rw [if_neg (by omega), hw j h1, List.getD_append _ _ _ _ (by omega)]
      · rw [if_pos (by omega), List.getD_append_right _ _ _ _ (by omega)]
        congr 1
        omega

/-- Any sequence of calls of `copy256_update`, from a context that holds the
first bytes of what was fed so far. -/
theorem copy256_update_fold (ins : List (List Nat)) :
    ∀ (ctx : copy256_context) (fed : List Nat),
      ctx.copied_bytes = min COPY256_SIZE fed.length → ctx.buffer.length = COPY256_SIZE →
      (∀ j, j < ctx.copied_bytes → ctx.buffer.getD j 0 = fed.getD j 0) →
      ∃ ctx1, ins.foldlM (fun c inp => copy256_update c (some inp) inp.length) ctx = some ctx1 ∧
        ctx1.copied_bytes = min COPY256_SIZE (fed ++ ins.flatten).length ∧
        ctx1.buffer.length = COPY256_SIZE ∧
        ∀ j, j < ctx1.copied_bytes → ctx1.buffer.getD j 0 = (fed ++ ins.flatten).getD j 0 := by
  induction ins with
  | nil =>
    intro ctx fed hc hl hw
    exact ⟨ctx, rfl, by simpa using hc, hl, by simpa using hw⟩
  | cons inp ins ih =>
    intro ctx fed hc hl hw
    obtain ⟨c1, h1, hc1, hl1, hw1⟩ := copy256_update_step ctx fed inp hc hl hw
    obtain ⟨c2, h2, hc2, hl2, hw2⟩ := ih c1 (fed ++ inp) hc1 hl1 hw1
    refine ⟨c2, ?_, ?_, hl2, ?_⟩
    · rw [List.foldlM_cons, h1]
      exact h2
    · rw [List.flatten_cons, ← List.append_assoc]
      exact hc2
    · rw [List.flatten_cons, ← List.append_assoc]
      exact hw2

end Libecc

namespace Libecc

/-- C34: for the copy256 context, from `copy256_init` (on a context whose buffer
has `COPY256_SIZE` bytes, whatever they hold) and after any sequence of
`copy256_update` calls with inputs of arbitrary lengths: every call succeeds,
`copied_bytes` is `min(32, total input length)`, at most 32; the copy of the
next call, whatever its length, ends inside `buffer[0..32)`; the buffer holds
the first `min(32, total)` bytes of the concatenated inputs in order; and when
at least 32 bytes were fed, `copy256_final` outputs exactly the first 32 bytes
of the concatenation. -/
theorem copy256_spec (ctx0 : copy256_context) (hb : ctx0.buffer.length = COPY256_SIZE)
    (ins : List (List Nat)) :
    ∃ ctx, ins.foldlM (fun c inp => copy256_update c (some inp) inp.length)
        (copy256_init ctx0) = some ctx ∧
      ctx.copied_bytes = min COPY256_SIZE ins.flatten.length ∧
      ctx.copied_bytes ≤ COPY256_SIZE ∧ ctx.buffer.length = COPY256_SIZE ∧
      (∀ ilen, ctx.copied_bytes + copy256_bytes_to_copy ctx ilen ≤ COPY256_SIZE) ∧
      ctx.buffer.take ctx.copied_bytes = ins.flatten.take COPY256_SIZE ∧
      (COPY256_SIZE ≤ ins.flatten.length → ∀ out : List Nat, out.length = COPY256_SIZE →
        copy256_final ctx (some out) = some (ins.flatten.take COPY256_SIZE)) := by
  obtain ⟨ctx, hf, hc, hl, hw⟩ := copy256_update_fold ins (copy256_init ctx0) []
    (by simp [copy256_init]) hb (fun j hj => by simp [copy256_init] at hj)
  rw [List.nil_append] at hc hw
  have hle : ctx.copied_bytes ≤ COPY256_SIZE := by rw [hc]; exact Nat.min_le_left _ _
  have htake : ctx.buffer.take ctx.copied_bytes = ins.flatten.take COPY256_SIZE := by
    apply list_eq_of_getD
    · rw [List.length_take, List.length_take, hl, hc]
      omega
    · intro j hj
      rw [List.length_take, hl] at hj
      have hj1 : j < ctx.copied_bytes := by omega
      have hj2 : j < COPY256_SIZE := by omega
      rw [List.getD_eq_getElem?_getD, List.getD_eq_getElem?_getD, List.getElem?_take_of_lt hj1,
        List.getElem?_take_of_lt hj2, ← List.getD_eq_getElem?_getD, ← List.getD_eq_getElem?_getD]
      exact hw j hj1
  refine ⟨ctx, hf, hc, hle, hl, fun ilen => ?_, htake, fun htot out hout => ?_⟩
  · rw [copy256_bytes_to_copy_eq ctx ilen hle]
    omega
  · have hc32 : ctx.copied_bytes = COPY256_SIZE := by rw [hc]; omega
    rw [← htake, hc32]
    unfold copy256_final
    simp only [Option.some.injEq]
    apply list_eq_of_getD
    · rw [length_local_memcpy, hout, List.length_take, hl]
      omega
    · intro j hj
      rw [length_local_memcpy, hout] at hj
      rw [getD_local_memcpy, if_pos (by omega), Nat.sub_zero,
        List.getD_eq_getElem?_getD (List.take _ _), List.getElem?_take_of_lt hj,
        ← List.getD_eq_getElem?_getD]

/-- C34 at concrete inputs: a context left with a stale count and a buffer of
sevens is initialized and fed 3 bytes, no byte, then 40 bytes; the output is
the first 32 bytes fed. -/
theorem copy256_spec_witness :
    (({ copied_bytes := 99, buffer := List.replicate 32 7 } : copy256_context).buffer.length =
      COPY256_SIZE) ∧
    ([[1, 2, 3], [], (List.range 40).map (fun i => i + 10)].foldlM
      (fun c inp => copy256_update c (some inp) inp.length)
      (copy256_init { copied_bytes := 99, buffer := List.replicate 32 7 })).bind
        (fun c => copy256_final c (some (List.replicate 32 0))) =
      some ([1, 2, 3] ++ (List.range 29).map (fun i => i + 10)) ∧
    ∃ ctx, [[1, 2, 3], [], (List.range 40).map (fun i => i + 10)].foldlM
        (fun c inp => copy256_update c (some inp) inp.length)
        (copy256_init { copied_bytes := 99, buffer := List.replicate 32 7 }) = some ctx ∧
      ctx.copied_bytes =
        min COPY256_SIZE [[1, 2, 3], [], (List.range 40).map (fun i => i + 10)].flatten.length ∧
      ctx.copied_bytes ≤ COPY256_SIZE ∧ ctx.buffer.length = COPY256_SIZE ∧
      (∀ ilen, ctx.copied_bytes + copy256_bytes_to_copy ctx ilen ≤ COPY256_SIZE) ∧
      ctx.buffer.take ctx.copied_bytes =
        [[1, 2, 3], [], (List.range 40).map (fun i => i + 10)].flatten.take COPY256_SIZE ∧
      (COPY256_SIZE ≤ [[1, 2, 3], [], (List.range 40).map (fun i => i + 10)].flatten.length →
        ∀ out : List Nat, out.length = COPY256_SIZE →
          copy256_final ctx (some out) =
            some ([[1, 2, 3], [], (List.range 40).map (fun i => i + 10)].flatten.take
              COPY256_SIZE)) :=
  ⟨by decide, by decide,
    copy256_spec { copied_bytes := 99, buffer := List.replicate 32 7 } (by decide)
      [[1, 2, 3], [], (List.range 40).map (fun i => i + 10)]⟩

end Libecc
